import Mathlib

/-!
# Verification development for the 1654 vault tool

Shallow embedding of the C++ sources (PetoronHash sponge, KDF / MAC / keystream,
object encryption, index codec, vault reader, writer and updater) together with
theorems about them.

Conventions of the embedding:

* a byte string is a list of naturals (each element stands for one byte);
* machine integers are naturals, reduced modulo the word size where the source
  narrows or may wrap;
* a C++ exception is the error branch of Except, carrying the what() text;
* streams and the file system are explicit values; I/O failures, and the reservation
  of storage that decode_index asks of the host, are driven by an explicit fault
  description;
* std::random_device is an explicit stream of numbers with a cursor.
-/

set_option autoImplicit false

namespace Ph1654

/-- Byte strings: std::vector<std::uint8_t>, std::string and raw buffers. -/
abbrev Bytes := List Nat

/-- Equality of results that may carry a thrown exception is decidable. -/
instance instDecidableEqExcept {ε α : Type} [DecidableEq ε] [DecidableEq α] :
    DecidableEq (Except ε α)
  | .ok a, .ok b => if h : a = b then isTrue (by rw [h]) else isFalse (fun h2 => h (by cases h2; rfl))
  | .error a, .error b =>
    if h : a = b then isTrue (by rw [h]) else isFalse (fun h2 => h (by cases h2; rfl))
  | .ok _, .error _ => isFalse (fun h => by cases h)
  | .error _, .ok _ => isFalse (fun h => by cases h)

/-- The bytes of an ASCII string literal. -/
def ascii (s : String) : Bytes := s.toList.map Char.toNat

def U8 : Nat := 2 ^ 8
def U32 : Nat := 2 ^ 32
def U64 : Nat := 2 ^ 64

/-! ## core/errors.hpp -/

inductive ExitCode where
  | Ok
  | Usage
  | IoError
  | CryptoError
  | IntegrityError
  | NotImplemented
  | InternalError
  deriving DecidableEq, Repr

def ExitCode.toInt : ExitCode → Int
  | .Ok => 0
  | .Usage => 2
  | .IoError => 10
  | .CryptoError => 20
  | .IntegrityError => 30
  | .NotImplemented => 90
  | .InternalError => 99

structure Status where
  code : ExitCode
  message : String
  deriving DecidableEq, Repr

def Status.ok : Status := ⟨ExitCode.Ok, ""⟩

def Status.err (c : ExitCode) (m : String) : Status := ⟨c, m⟩

def Status.is_ok (s : Status) : Bool := s.code == ExitCode.Ok

/-! ## core/params.hpp, core/defs.hpp -/

def VERSION : Nat := 1
def SALT_SIZE : Nat := 32
def NONCE_SIZE : Nat := 24
def TAG_SIZE : Nat := 16

def DEFAULT_KEY_BITS : Nat := 1024
def DEFAULT_KDF_COST : Nat := 50000

def bits_to_bytes (bits : Nat) : Nat := (bits + 7) / 8

/-- The function read_u32_le of defs.hpp; absent bytes read as 0. -/
def read_u32_le (p : Bytes) : Nat :=
  p.getD 0 0 ||| (p.getD 1 0 <<< 8) ||| (p.getD 2 0 <<< 16) ||| (p.getD 3 0 <<< 24)

/-- The function write_u32_le of defs.hpp: the four bytes it stores. -/
def write_u32_le (v : Nat) : Bytes :=
  [v &&& 0xFF, (v >>> 8) &&& 0xFF, (v >>> 16) &&& 0xFF, (v >>> 24) &&& 0xFF]

/-! ## core/endian.hpp -/

namespace endian

def load_u32_le (p : Bytes) : Nat :=
  p.getD 0 0 ||| (p.getD 1 0 <<< 8) ||| (p.getD 2 0 <<< 16) ||| (p.getD 3 0 <<< 24)

def load_u64_le (p : Bytes) : Nat :=
  p.getD 0 0 ||| (p.getD 1 0 <<< 8) ||| (p.getD 2 0 <<< 16) ||| (p.getD 3 0 <<< 24)
    ||| (p.getD 4 0 <<< 32) ||| (p.getD 5 0 <<< 40) ||| (p.getD 6 0 <<< 48)
    ||| (p.getD 7 0 <<< 56)

/-- The four bytes store_u32_le writes; the cast to uint8_t keeps the low 8 bits. -/
def store_u32_le (v : Nat) : Bytes :=
  [v % U8, (v >>> 8) % U8, (v >>> 16) % U8, (v >>> 24) % U8]

/-- The eight bytes store_u64_le writes. -/
def store_u64_le (v : Nat) : Bytes :=
  [v % U8, (v >>> 8) % U8, (v >>> 16) % U8, (v >>> 24) % U8,
   (v >>> 32) % U8, (v >>> 40) % U8, (v >>> 48) % U8, (v >>> 56) % U8]

end endian

/-! ## PetoronHash/src/phash.cpp: the permutation -/

namespace petoron

/-- The 24 round constants, in the order of the array RC. -/
def RC : List Nat :=
  [0x0000000000000001, 0x0000000000008082, 0x800000000000808a, 0x8000000080008000] ++
  [0x000000000000808b, 0x0000000080000001, 0x8000000080008081, 0x8000000000008009] ++
  [0x000000000000008a, 0x0000000000000088, 0x0000000080008009, 0x000000008000000a] ++
  [0x000000008000808b, 0x800000000000008b, 0x8000000000008089, 0x8000000000008003] ++
  [0x8000000000008002, 0x8000000000000080, 0x000000000000800a, 0x800000008000000a] ++
  [0x8000000080008081, 0x8000000000008080, 0x0000000080000001, 0x8000000080008008]

/-- The function rol64: (x << n) | (x >> (64 - n)) on a 64-bit word. For n = 0 the
right shift by 64 contributes nothing and the result is x. -/
def rol64 (x n : Nat) : Nat := ((x <<< n) ||| (x >>> (64 - n))) % U64

/-- Bitwise complement of a 64-bit word. -/
def not64 (x : Nat) : Nat := (U64 - 1) ^^^ x

/-- A lane of the state; the state array has 25 lanes. -/
def lane (a : List Nat) (i : Nat) : Nat := a.getD i 0

/-! ### The round, written as the source writes it (loops over x and y)

These definitions follow the four loop nests of PhashXof::permute statement by
statement. The definitions used by the rest of the development are the unrolled
ones below; keccakRound_eq_keccakRoundLoop relates the two. -/

def theta (a : List Nat) : List Nat :=
  match a with
  | [a0, a1, a2, a3, a4, a5, a6, a7, a8, a9, a10, a11, a12, a13, a14, a15, a16, a17, a18, a19,
     a20, a21, a22, a23, a24] =>
    let c0 := a0 ^^^ a5 ^^^ a10 ^^^ a15 ^^^ a20
    let c1 := a1 ^^^ a6 ^^^ a11 ^^^ a16 ^^^ a21
    let c2 := a2 ^^^ a7 ^^^ a12 ^^^ a17 ^^^ a22
    let c3 := a3 ^^^ a8 ^^^ a13 ^^^ a18 ^^^ a23
    let c4 := a4 ^^^ a9 ^^^ a14 ^^^ a19 ^^^ a24
    let d0 := c4 ^^^ rol64 c1 1
    let d1 := c0 ^^^ rol64 c2 1
    let d2 := c1 ^^^ rol64 c3 1
    let d3 := c2 ^^^ rol64 c4 1
    let d4 := c3 ^^^ rol64 c0 1
    [a0 ^^^ d0, a1 ^^^ d1, a2 ^^^ d2, a3 ^^^ d3, a4 ^^^ d4, a5 ^^^ d0, a6 ^^^ d1, a7 ^^^ d2,
     a8 ^^^ d3, a9 ^^^ d4, a10 ^^^ d0, a11 ^^^ d1, a12 ^^^ d2, a13 ^^^ d3, a14 ^^^ d4, a15 ^^^ d0,
     a16 ^^^ d1, a17 ^^^ d2, a18 ^^^ d3, a19 ^^^ d4, a20 ^^^ d0, a21 ^^^ d1, a22 ^^^ d2,
     a23 ^^^ d3, a24 ^^^ d4]
  | _ => a

def rhoPi (a : List Nat) : List Nat :=
  match a with
  | [a0, a1, a2, a3, a4, a5, a6, a7, a8, a9, a10, a11, a12, a13, a14, a15, a16, a17, a18, a19,
     a20, a21, a22, a23, a24] =>
    [rol64 a0 0, rol64 a6 44, rol64 a12 43, rol64 a18 21, rol64 a24 14, rol64 a3 28, rol64 a9 20,
     rol64 a10 3, rol64 a16 45, rol64 a22 61, rol64 a1 1, rol64 a7 6, rol64 a13 25, rol64 a19 8,
     rol64 a20 18, rol64 a4 27, rol64 a5 36, rol64 a11 10, rol64 a17 15, rol64 a23 56,
     rol64 a2 62, rol64 a8 55, rol64 a14 39, rol64 a15 41, rol64 a21 2]
  | _ => a

def chi (b : List Nat) : List Nat :=
  match b with
  | [b0, b1, b2, b3, b4, b5, b6, b7, b8, b9, b10, b11, b12, b13, b14, b15, b16, b17, b18, b19,
     b20, b21, b22, b23, b24] =>
    [b0 ^^^ (not64 b1 &&& b2), b1 ^^^ (not64 b2 &&& b3), b2 ^^^ (not64 b3 &&& b4),
     b3 ^^^ (not64 b4 &&& b0), b4 ^^^ (not64 b0 &&& b1), b5 ^^^ (not64 b6 &&& b7),
     b6 ^^^ (not64 b7 &&& b8), b7 ^^^ (not64 b8 &&& b9), b8 ^^^ (not64 b9 &&& b5),
     b9 ^^^ (not64 b5 &&& b6), b10 ^^^ (not64 b11 &&& b12), b11 ^^^ (not64 b12 &&& b13),
     b12 ^^^ (not64 b13 &&& b14), b13 ^^^ (not64 b14 &&& b10), b14 ^^^ (not64 b10 &&& b11),
     b15 ^^^ (not64 b16 &&& b17), b16 ^^^ (not64 b17 &&& b18), b17 ^^^ (not64 b18 &&& b19),
     b18 ^^^ (not64 b19 &&& b15), b19 ^^^ (not64 b15 &&& b16), b20 ^^^ (not64 b21 &&& b22),
     b21 ^^^ (not64 b22 &&& b23), b22 ^^^ (not64 b23 &&& b24), b23 ^^^ (not64 b24 &&& b20),
     b24 ^^^ (not64 b20 &&& b21)]
  | _ => b

def iota (a : List Nat) (round : Nat) : List Nat :=
  match a with
  | a0 :: rest => (a0 ^^^ lane RC round) :: rest
  | [] => []

def keccakRound (a : List Nat) (round : Nat) : List Nat := iota (chi (rhoPi (theta a))) round

def ROUNDS : Nat := 24

/-- The method PhashXof::permute on the 25 lanes. -/
def permute (a : List Nat) : List Nat := (List.range ROUNDS).foldl keccakRound a

/-! ## PetoronHash/src/phash.cpp: the sponge object -/

/-- The function load_le64: the loop v |= p[i] << (8 * i) for i < 8. -/
def load_le64 (p : Bytes) : Nat :=
  (List.range 8).foldl (fun v i => v ||| (p.getD i 0 <<< (8 * i))) 0

/-- The function store_le64: the eight bytes p[i] = (v >> (8 * i)) & 0xFF. -/
def store_le64 (v : Nat) : Bytes :=
  (List.range 8).map fun i => (v >>> (8 * i)) &&& 0xFF

/-- The class PhashXof: lanes a_, rate r_, queue fill queued_, queue q_ (200 bytes). -/
structure PhashXof where
  a_ : List Nat
  r_ : Nat
  queued_ : Nat
  q_ : Bytes
  deriving DecidableEq, Repr

/-- The constructor PhashXof(rate_bytes), which calls reset(). -/
def PhashXof.init (rate_bytes : Nat) : PhashXof :=
  { a_ := List.replicate 25 0, r_ := rate_bytes, queued_ := 0, q_ := List.replicate 200 0 }

def PhashXof.reset (x : PhashXof) : PhashXof :=
  { x with a_ := List.replicate 25 0, queued_ := 0, q_ := List.replicate 200 0 }

/-- The loop of absorb_block: for off = 0, 8, 16, ... below r_, lane li takes the XOR
with the 8 bytes at block + off. The first argument counts the iterations left. -/
def xorBlockIntoLanes : Nat → List Nat → Bytes → List Nat
  | 0, a, _ => a
  | _ + 1, [], _ => []
  | n + 1, l :: a, block => (l ^^^ load_le64 block) :: xorBlockIntoLanes n a (block.drop 8)

/-- The method absorb_block; the block is the byte string starting at the pointer. -/
def PhashXof.absorb_block (x : PhashXof) (block : Bytes) : PhashXof :=
  { x with a_ := permute (xorBlockIntoLanes ((x.r_ + 7) / 8) x.a_ block) }

/-- The method extract_block: the first r_ bytes of the state, lane by lane. -/
def PhashXof.extract_block (x : PhashXof) : Bytes :=
  (x.a_.take ((x.r_ + 7) / 8)).flatMap store_le64

/-- The effect of memcpy(q_ + at, src, n) on the queue. -/
def queueCopy (q : Bytes) (pos : Nat) (src : Bytes) (n : Nat) : Bytes :=
  q.take pos ++ src.take n ++ q.drop (pos + n)

/-- The effect of memset(q_, 0, n) on the queue. -/
def queueClear (q : Bytes) (n : Nat) : Bytes :=
  List.replicate n 0 ++ q.drop n

/-- The loop while (off + r_ <= data.size()) absorb_block(data + off), off += r_ of
absorb. The first argument bounds the number of iterations; data.length suffices when
the rate is positive. -/
def absorbWhole : Nat → PhashXof → Bytes → Nat → PhashXof × Nat
  | 0, x, _, off => (x, off)
  | fuel + 1, x, data, off =>
    if off + x.r_ ≤ data.length then
      absorbWhole fuel (x.absorb_block (data.drop off)) data (off + x.r_)
    else (x, off)

/-- The first block of absorb: if (queued_ && !data.empty()) the queue is topped up and,
once full, absorbed. The second component is the offset reached in data. -/
def PhashXof.absorbQueued (x : PhashXof) (data : Bytes) : PhashXof × Nat :=
  if x.queued_ ≠ 0 ∧ data ≠ [] then
    let take := min (x.r_ - x.queued_) data.length
    let x1 := { x with q_ := queueCopy x.q_ x.queued_ data take, queued_ := x.queued_ + take }
    if x1.queued_ = x1.r_ then
      let x2 := x1.absorb_block x1.q_
      ({ x2 with q_ := queueClear x2.q_ x2.r_, queued_ := 0 }, take)
    else (x1, take)
  else (x, 0)

/-- The last block of absorb: if (off < data.size()) the remainder is queued. -/
def PhashXof.absorbRest (x : PhashXof) (data : Bytes) (off : Nat) : PhashXof :=
  if off < data.length then
    let rem := data.length - off
    { x with q_ := queueCopy x.q_ 0 (data.drop off) rem, queued_ := rem }
  else x

/-- The method absorb. -/
def PhashXof.absorb (x : PhashXof) (data : Bytes) : PhashXof :=
  let s1 := x.absorbQueued data
  let s2 := absorbWhole data.length s1.1 data s1.2
  s2.1.absorbRest data s2.2

/-- The method absorb_domain_pad. -/
def PhashXof.absorb_domain_pad (x : PhashXof) (domain : Nat) : PhashXof :=
  let q1 := x.q_.set x.queued_ (x.q_.getD x.queued_ 0 ^^^ domain)
  let q2 := q1.set (x.r_ - 1) (q1.getD (x.r_ - 1) 0 ^^^ 0x80)
  let x1 := { x with q_ := q2 }.absorb_block q2
  { x1 with q_ := queueClear x1.q_ x1.r_, queued_ := 0 }

/-- The loop of squeeze: the first argument bounds the iterations, want is
out.size() - produced, acc the bytes produced so far. -/
def squeezeLoop : Nat → PhashXof → Nat → Bytes → PhashXof × Bytes
  | 0, x, _, acc => (x, acc)
  | fuel + 1, x, want, acc =>
    if 0 < want then
      let block := x.extract_block
      let take := min x.r_ want
      let acc1 := acc ++ block.take take
      if 0 < want - take then
        squeezeLoop fuel { x with a_ := permute x.a_ } (want - take) acc1
      else (x, acc1)
    else (x, acc)

/-- The method squeeze for an output span of n bytes. -/
def PhashXof.squeeze (x : PhashXof) (n : Nat) : PhashXof × Bytes :=
  squeezeLoop n x n []

/-- The function phash_xof. -/
def phash_xof (inp : Bytes) (out_bytes : Nat) : Bytes :=
  (((PhashXof.init 136).absorb inp).absorb_domain_pad 0x1F).squeeze out_bytes |>.2

/-- The function absorb_len_le: the eight bytes (L >> (8 * i)) & 0xFF are absorbed. -/
def absorb_len_le (x : PhashXof) (L : Nat) : PhashXof :=
  x.absorb ((List.range 8).map fun i => (L >>> (8 * i)) &&& 0xFF)

/-- The function absorb_tagged. -/
def absorb_tagged (x : PhashXof) (tag : Bytes) (data : Bytes) : PhashXof :=
  let x1 := x.absorb tag
  let x2 := absorb_len_le x1 (data.length % U64)
  if data ≠ [] then x2.absorb data else x2

/-! ## PetoronHash/src/hash.cpp -/

def INIT_DOM : Bytes := ascii "PETORON:INIT:v1"
def CTX_DOM : Bytes := ascii "PETORON:CTX:v1"
def MSG_DOM : Bytes := ascii "PETORON:MSG:v1"
def SALT_DOM : Bytes := ascii "PETORON:SALT:v1"
def FINAL_DOM : Bytes := ascii "PETORON:FINAL:v1"

/-- The struct HashParams; the only mode is SHAKE256. -/
structure HashParams where
  out_bits : Nat := 1024
  deriving DecidableEq, Repr

/-- The function validate_params: require throws std::invalid_argument. -/
def validate_params (p : HashParams) (need_salt : Bool) (salt : Bytes) : Except String Unit :=
  if ¬ (p.out_bits ≥ 256) then .error "out_bits must be >= 256"
  else if need_salt ∧ salt = [] then .error "salt is required in strong mode"
  else .ok ()

/-- The function phash_core. The parameter out_bits is a size_t, so the sum
out_bits + 7 is taken in 64 bits. -/
def phash_core (context msg salt : Bytes) (out_bits : Nat) : Bytes :=
  let out_len := (out_bits + 7) % U64 / 8
  let x := (PhashXof.init 136).absorb INIT_DOM
  let x := absorb_tagged x CTX_DOM context
  let x := absorb_tagged x MSG_DOM msg
  let x := if salt ≠ [] then absorb_tagged x SALT_DOM salt else x
  let x := x.absorb FINAL_DOM
  let x := x.absorb_domain_pad 0x1F
  (x.squeeze out_len).2

def petoron_hash (msg : Bytes) (context : Bytes) (params : HashParams) : Except String Bytes :=
  match validate_params params false [] with
  | .error e => .error e
  | .ok _ => .ok (phash_core context msg [] params.out_bits)

def petoron_hash_strong (msg salt : Bytes) (context : Bytes) (params : HashParams) :
    Except String Bytes :=
  match validate_params params true salt with
  | .error e => .error e
  | .ok _ => .ok (phash_core context msg salt params.out_bits)

end petoron

/-! ## core/kdf.hpp -/

namespace kdf

structure Keys where
  enc : Bytes
  mac : Bytes
  deriving DecidableEq, Repr

/-- The loop for (i = 1; i < cost; ++i) of derive: the first argument counts the
iterations left, i is the loop variable (a 32-bit counter). -/
def deriveLoop : Nat → Nat → Bytes → Bytes → petoron.HashParams → Except String Bytes
  | 0, _, state, _, _ => .ok state
  | n + 1, i, state, salt, p =>
    let msg := state ++ [i &&& 0xFF, (i >>> 8) &&& 0xFF, (i >>> 16) &&& 0xFF, (i >>> 24) &&& 0xFF]
    match petoron.petoron_hash_strong msg salt (ascii "1654|KDF|R") p with
    | .error e => .error e
    | .ok state1 => deriveLoop n (i + 1) state1 salt p

/-- The function kdf::derive. The cost is a 32-bit value; key_bytes is a size_t, so the
products (key_bytes * 2) * 8 and key_bytes * 2 are taken in 64 bits. -/
def derive (password : Bytes) (salt : Bytes) (key_bytes : Nat) (cost : Nat) : Except String Keys :=
  if key_bytes = 0 then .error "kdf: key_bytes=0"
  else
    let cost := if cost = 0 then 1 else cost
    let p : petoron.HashParams := { out_bits := ((key_bytes * 2) * 8) % U64 }
    match petoron.petoron_hash_strong password salt (ascii "1654|KDF|0") p with
    | .error e => .error e
    | .ok state0 =>
      match deriveLoop (cost - 1) 1 state0 salt p with
      | .error e => .error e
      | .ok state =>
        if state.length < (key_bytes * 2) % U64 then .error "kdf: too few bytes"
        else .ok { enc := state.take key_bytes, mac := (state.drop key_bytes).take key_bytes }

end kdf

/-! ## core/mac.hpp -/

namespace mac

/-- The function mac::compute over the bytes data[0 .. len). -/
def compute (key : Bytes) (data : Bytes) : Except String Bytes :=
  let p : petoron.HashParams := { out_bits := max 256 (TAG_SIZE * 8) }
  match petoron.petoron_hash_strong data key (ascii "1654|MAC") p with
  | .error e => .error e
  | .ok full =>
    if full.length < TAG_SIZE then .error "mac: PetoronHash returned too few bytes"
    else .ok (full.take TAG_SIZE)

/-- The function mac::verify: recompute and compare the two vectors. -/
def verify (key : Bytes) (data : Bytes) (tag : Bytes) : Except String Bool :=
  match compute key data with
  | .error e => .error e
  | .ok t => .ok (decide (t = tag))

end mac

/-! ## core/xof.hpp -/

namespace xof

/-- The function xof::generate: the out_len keystream bytes written to out. -/
def generate (key : Bytes) (nonce : Bytes) (counter : Nat) (out_len : Nat) : Except String Bytes :=
  let msg := nonce ++ (List.range 8).map fun i => (counter >>> (8 * i)) &&& 0xFF
  let p : petoron.HashParams := { out_bits := max 256 (out_len * 8) }
  match petoron.petoron_hash_strong msg key (ascii "1654|XOF") p with
  | .error e => .error e
  | .ok ks =>
    if ks.length < out_len then .error "xof: PetoronHash returned too few bytes"
    else .ok (ks.take out_len)

end xof

/-! ## Streams -/

/-- Which write calls on an output stream fail: the k-th write (counting from 0) fails
when the function is true at k. -/
abbrev WriteFaults := Nat → Bool

/-- An output file stream: the bytes written so far, the good bit, and the number of
write calls made. A stream that is not good ignores further writes. -/
structure OStream where
  data : Bytes
  good : Bool
  nwrites : Nat

/-- A freshly opened, truncated output stream. -/
def OStream.fresh : OStream := { data := [], good := true, nwrites := 0 }

/-- The call out.write(bytes). -/
def OStream.write (wf : WriteFaults) (s : OStream) (bs : Bytes) : OStream :=
  if s.good then
    if wf s.nwrites then { s with good := false, nwrites := s.nwrites + 1 }
    else { s with data := s.data ++ bs, nwrites := s.nwrites + 1 }
  else s

/-- The value (std::uint64_t)ofs.tellp(): the position, or the cast of -1 on a failed
stream. -/
def OStream.tellp (s : OStream) : Nat :=
  if s.good then s.data.length % U64 else U64 - 1

/-! ## core/object_crypto.cpp -/

namespace obj

def CHUNK : Nat := 64 * 1024

/-- The element-wise loop buf[i] ^= ks[i]. -/
def xorBytes (buf ks : Bytes) : Bytes := List.zipWith (fun b k => b ^^^ k) buf ks

/-- The state of the loop of encrypt_stream. -/
structure EncState where
  out : OStream
  mac_buf : Bytes
  counter : Nat
  written : Nat

/-- The loop while (in) of encrypt_stream. The input stream is the list of bytes not
yet read; in.read takes up to CHUNK of them; the loop ends when nothing was read. The
first argument bounds the number of iterations. The boolean of the result is false when
the loop was left through the write-failed return. -/
def encryptLoop (wf : WriteFaults) (key_enc nonce : Bytes) :
    Nat → Bytes → EncState → Except String (Bool × EncState)
  | 0, _, st => .ok (true, st)
  | fuel + 1, inp, st =>
    let buf := inp.take CHUNK
    let got := buf.length
    if got = 0 then .ok (true, st)
    else
      match xof.generate key_enc nonce st.counter got with
      | .error e => .error e
      | .ok ks =>
        let buf1 := xorBytes buf ks
        let out1 := st.out.write wf buf1
        if ¬ out1.good then .ok (false, { st with out := out1, counter := (st.counter + 1) % U64 })
        else
          encryptLoop wf key_enc nonce fuel (inp.drop CHUNK)
            { out := out1, mac_buf := st.mac_buf ++ buf1,
              counter := (st.counter + 1) % U64, written := (st.written + got) % U64 }

/-- The results of encrypt_stream: the status, the output stream, out_bytes_written and
out_tag. -/
structure EncResult where
  status : Status
  out : OStream
  bytes_written : Nat
  tag : Bytes

/-- The function obj::encrypt_stream. On the write-failed return out_tag is left as the
caller passed it (empty at every call site). -/
def encrypt_stream (wf : WriteFaults) (inp : Bytes) (out : OStream)
    (key_enc key_mac nonce : Bytes) : Except String EncResult :=
  match encryptLoop wf key_enc nonce (inp.length + 1) inp
      { out := out, mac_buf := [], counter := 0, written := 0 } with
  | .error e => .error e
  | .ok (false, st) =>
    .ok { status := Status.err ExitCode.IoError "encrypt: write failed",
          out := st.out, bytes_written := st.written, tag := [] }
  | .ok (true, st) =>
    match mac.compute key_mac st.mac_buf with
    | .error e => .error e
    | .ok tag => .ok { status := Status.ok, out := st.out, bytes_written := st.written, tag := tag }

/-- The state of the loop of decrypt_stream. -/
structure DecState where
  out : OStream
  mac_buf : Bytes
  counter : Nat

/-- The loop while (remaining > 0) of decrypt_stream. The first component of the result
is the status of an early return, if one was taken. -/
def decryptLoop (wf : WriteFaults) (key_enc nonce : Bytes) :
    Nat → Bytes → Nat → DecState → Except String (Option Status × DecState)
  | 0, _, _, st => .ok (none, st)
  | fuel + 1, inp, remaining, st =>
    if remaining = 0 then .ok (none, st)
    else
      let want := if remaining > CHUNK then CHUNK else remaining
      let buf := inp.take want
      if buf.length ≠ want then
        .ok (some (Status.err ExitCode.IoError "decrypt: read failed"), st)
      else
        match xof.generate key_enc nonce st.counter want with
        | .error e => .error e
        | .ok ks =>
          let buf1 := xorBytes buf ks
          let out1 := st.out.write wf buf1
          if ¬ out1.good then
            .ok (some (Status.err ExitCode.IoError "decrypt: write failed"),
                 { st with out := out1, mac_buf := st.mac_buf ++ buf })
          else
            decryptLoop wf key_enc nonce fuel (inp.drop want) (remaining - want)
              { out := out1, mac_buf := st.mac_buf ++ buf, counter := (st.counter + 1) % U64 }

/-- The function obj::decrypt_stream: the status and the output stream. -/
def decrypt_stream (wf : WriteFaults) (inp : Bytes) (out : OStream)
    (key_enc key_mac nonce : Bytes) (data_size : Nat) (expected_tag : Bytes) :
    Except String (Status × OStream) :=
  match decryptLoop wf key_enc nonce (data_size + 1) inp data_size
      { out := out, mac_buf := [], counter := 0 } with
  | .error e => .error e
  | .ok (some s, st) => .ok (s, st.out)
  | .ok (none, st) =>
    match mac.verify key_mac st.mac_buf expected_tag with
    | .error e => .error e
    | .ok ok =>
      if ¬ ok then .ok (Status.err ExitCode.IntegrityError "integrity check failed", st.out)
      else .ok (Status.ok, st.out)

end obj

/-! ## core/vault_format.hpp -/

namespace fmt

/-- The bytes of the characters 1, 6, 5, 4. -/
def VAULT_MAGIC : Bytes := [49, 54, 53, 52]

/-- The bytes of the characters I, D, X, 1. -/
def INDEX_MAGIC : Bytes := [73, 68, 88, 49]

inductive ObjType where
  | File
  | Dir
  deriving DecidableEq, Repr

/-- The underlying uint8_t of an ObjType. -/
def ObjType.toU8 : ObjType → Nat
  | .File => 1
  | .Dir => 2

def F_VISIBLE : Nat := 1 <<< 0
def F_HIDDEN : Nat := 1 <<< 1
def F_DELETED : Nat := 1 <<< 2

/-- The struct GlobalHeader. The arrays magic, salt, nonce and reserved have 4, SALT_SIZE,
NONCE_SIZE and 32 elements. -/
structure GlobalHeader where
  magic : Bytes
  version : Nat
  header_size : Nat
  salt : Bytes
  nonce : Bytes
  reserved : Bytes
  deriving DecidableEq, Repr

/-- A value-initialised GlobalHeader. -/
def GlobalHeader.init : GlobalHeader :=
  { magic := VAULT_MAGIC, version := VERSION, header_size := 0,
    salt := List.replicate SALT_SIZE 0, nonce := List.replicate NONCE_SIZE 0,
    reserved := List.replicate 32 0 }

def GLOBAL_HEADER_SIZE : Nat := 4 + 4 + 4 + SALT_SIZE + NONCE_SIZE + 32

/-- The struct IndexTrailer. The arrays magic and index_tag have 4 and TAG_SIZE elements. -/
structure IndexTrailer where
  magic : Bytes
  trailer_size : Nat
  index_offset : Nat
  index_size : Nat
  index_tag : Bytes
  deriving DecidableEq, Repr

/-- A value-initialised IndexTrailer. -/
def IndexTrailer.init : IndexTrailer :=
  { magic := INDEX_MAGIC, trailer_size := 0, index_offset := 0, index_size := 0,
    index_tag := List.replicate TAG_SIZE 0 }

def INDEX_TRAILER_SIZE : Nat := 4 + 4 + 8 + 8 + TAG_SIZE

end fmt

/-! ## The memory of the host -/

/-- Which reservations of storage the host refuses: the call reserve(n) on an empty vector
throws std::bad_alloc when the function is true at n. -/
abbrev AllocFaults := Nat → Bool

/-- The host that grants every reservation. -/
def noAllocFaults : AllocFaults := fun _ => false

/-! ## core/index.hpp, core/index.cpp -/

namespace index

/-- The struct Entry; path is the std::string of the in-vault path, as bytes. -/
structure Entry where
  path : Bytes
  type : fmt.ObjType
  flags : Nat
  size : Nat
  data_offset : Nat
  data_size : Nat
  nonce : Bytes
  tag : Bytes
  deriving DecidableEq, Repr

/-- A default-constructed Entry. -/
def Entry.init : Entry :=
  { path := [], type := fmt.ObjType.File, flags := fmt.F_VISIBLE, size := 0,
    data_offset := 0, data_size := 0, nonce := [], tag := [] }

structure Index where
  entries : List Entry
  deriving DecidableEq, Repr

def is_deleted (e : Entry) : Bool := (e.flags &&& fmt.F_DELETED) ≠ 0

def is_hidden (e : Entry) : Bool := (e.flags &&& fmt.F_HIDDEN) ≠ 0

def IDX_VER : Nat := 1
def IDX_MAGIC : Nat := 0x31584449

/-- The helper read_u32: none stands for the result false; otherwise the value read and
the advanced offset. The length len is the length of data. -/
def read_u32 (data : Bytes) (off : Nat) : Option (Nat × Nat) :=
  if off + 4 > data.length then none
  else some (endian.load_u32_le (data.drop off), off + 4)

def read_u64 (data : Bytes) (off : Nat) : Option (Nat × Nat) :=
  if off + 8 > data.length then none
  else some (endian.load_u64_le (data.drop off), off + 8)

def read_bytes (data : Bytes) (off : Nat) (n : Nat) : Option (Bytes × Nat) :=
  if off + n > data.length then none
  else some ((data.drop off).take n, off + n)

def read_string (data : Bytes) (off : Nat) : Option (Bytes × Nat) :=
  match read_u32 data off with
  | none => none
  | some (n, off1) =>
    if off1 + n > data.length then none
    else some ((data.drop off1).take n, off1 + n)

def truncated (what : String) : Status :=
  Status.err ExitCode.IntegrityError ("index: truncated (" ++ what ++ ")")

/-- The body of the loop of decode_index: one entry is read at off. The left result is
the status of an early return. -/
def decodeEntry (data : Bytes) (off : Nat) : Status ⊕ (Entry × Nat) :=
  match read_string data off with
  | none => .inl (truncated "path")
  | some (path, off) =>
    match read_bytes data off 1 with
    | none => .inl (truncated "type")
    | some (type_u8, off) =>
      match read_u32 data off with
      | none => .inl (truncated "flags")
      | some (flags, off) =>
        match read_u64 data off with
        | none => .inl (truncated "size")
        | some (size, off) =>
          match read_u64 data off with
          | none => .inl (truncated "data_offset")
          | some (data_offset, off) =>
            match read_u64 data off with
            | none => .inl (truncated "data_size")
            | some (data_size, off) =>
              match read_bytes data off NONCE_SIZE with
              | none => .inl (truncated "nonce")
              | some (nonce, off) =>
                match read_bytes data off TAG_SIZE with
                | none => .inl (truncated "tag")
                | some (tag, off) =>
                  .inr ({ path := path,
                          type := if type_u8.getD 0 0 = fmt.ObjType.Dir.toU8 then fmt.ObjType.Dir
                                  else fmt.ObjType.File,
                          flags := flags, size := size, data_offset := data_offset,
                          data_size := data_size, nonce := nonce, tag := tag }, off)

/-- The loop for (i = 0; i < count; ++i) of decode_index: the first argument counts the
iterations left, acc is out.entries. The left result is the status of an early return
with the entries pushed so far. -/
def decodeEntries (data : Bytes) :
    Nat → Nat → List Entry → (Status × List Entry) ⊕ (List Entry × Nat)
  | 0, off, acc => .inr (acc, off)
  | n + 1, off, acc =>
    match decodeEntry data off with
    | .inl st => .inl (st, acc)
    | .inr (e, off1) => decodeEntries data n off1 (acc ++ [e])

/-- The function decode_index over the bytes data[0 .. len): the status and the value
left in out, or the exception that escapes. The vector out.entries is empty and without
capacity, as every caller passes it, so that out.entries.reserve(count) asks the host for
the storage of count entries unless count is 0; the exception is std::bad_alloc. -/
def decode_index (af : AllocFaults) (data : Bytes) : Except String (Status × Index) :=
  match read_u32 data 0 with
  | none => .ok (truncated "magic", ⟨[]⟩)
  | some (magic, off) =>
    match read_u32 data off with
    | none => .ok (truncated "ver", ⟨[]⟩)
    | some (ver, off) =>
      match read_u32 data off with
      | none => .ok (truncated "count", ⟨[]⟩)
      | some (count, off) =>
        if magic ≠ IDX_MAGIC then
          .ok (Status.err ExitCode.IntegrityError "index: bad magic", ⟨[]⟩)
        else if ver ≠ IDX_VER then
          .ok (Status.err ExitCode.IntegrityError "index: unsupported version", ⟨[]⟩)
        else if count ≠ 0 ∧ af count then .error "std::bad_alloc"
        else
          match decodeEntries data count off [] with
          | .inl (st, entries) => .ok (st, ⟨entries⟩)
          | .inr (entries, off) =>
            if off ≠ data.length then
              .ok (Status.err ExitCode.IntegrityError "index: trailing bytes", ⟨entries⟩)
            else .ok (Status.ok, ⟨entries⟩)

def push_u32 (out : Bytes) (v : Nat) : Bytes := out ++ endian.store_u32_le v

def push_u64 (out : Bytes) (v : Nat) : Bytes := out ++ endian.store_u64_le v

/-- The helper push_bytes for the n bytes at p. -/
def push_bytes (out : Bytes) (p : Bytes) (n : Nat) : Bytes := out ++ p.take n

def push_string (out : Bytes) (s : Bytes) : Bytes := push_u32 out (s.length % U32) ++ s

/-- The call v.resize(n, 0) on a vector of bytes. -/
def resize (v : Bytes) (n : Nat) : Bytes := (v ++ List.replicate n 0).take n

/-- The body of the loop of encode_index. -/
def encodeEntry (out : Bytes) (e : Entry) : Bytes :=
  let out := push_string out e.path
  let out := push_bytes out [e.type.toU8] 1
  let out := push_u32 out e.flags
  let out := push_u64 out e.size
  let out := push_u64 out e.data_offset
  let out := push_u64 out e.data_size
  let nonce := resize e.nonce NONCE_SIZE
  let tag := resize e.tag TAG_SIZE
  let out := push_bytes out nonce nonce.length
  push_bytes out tag tag.length

def encode_index (idx : Index) : Bytes :=
  let out := push_u32 [] IDX_MAGIC
  let out := push_u32 out IDX_VER
  let out := push_u32 out (idx.entries.length % U32)
  idx.entries.foldl encodeEntry out

end index

/-! ## The file system and the host environment -/

/-- The regular files of the file system: the content stored under each path. -/
abbrev FileSys := String → Option Bytes

/-- The file system after path has been given the content c (none: no such file). -/
def FileSys.set (fs : FileSys) (path : String) (c : Option Bytes) : FileSys :=
  fun p => if p = path then c else fs p

/-- The call read_exact(ifs, dst, n) at stream position pos of a file with the given
content: the n bytes read, or none when fewer are available. -/
def read_exact (content : Bytes) (pos n : Nat) : Option Bytes :=
  let got := (content.drop pos).take n
  if got.length = n then some got else none

/-! ## core/vault_reader.hpp, core/vault_reader.cpp -/

namespace vault

structure VaultOpen where
  header : fmt.GlobalHeader
  trailer : fmt.IndexTrailer
  idx : index.Index
  keys : kdf.Keys
  deriving DecidableEq, Repr

/-- A default-constructed VaultOpen, as every caller passes it. -/
def VaultOpen.init : VaultOpen :=
  { header := fmt.GlobalHeader.init, trailer := fmt.IndexTrailer.init, idx := ⟨[]⟩,
    keys := ⟨[], []⟩ }

def io_err (m : String) : Status := Status.err ExitCode.IoError m

def integrity_err (m : String) : Status := Status.err ExitCode.IntegrityError m

def MAX_INDEX_SIZE : Nat := 64 * 1024 * 1024

/-- The header fields as open_for_view reads them from the first GLOBAL_HEADER_SIZE
bytes. -/
def parse_header (hdr : Bytes) : fmt.GlobalHeader :=
  { magic := (hdr.drop 0).take 4,
    version := endian.load_u32_le (hdr.drop 4),
    header_size := endian.load_u32_le (hdr.drop 8),
    salt := (hdr.drop 12).take SALT_SIZE,
    nonce := (hdr.drop (12 + SALT_SIZE)).take NONCE_SIZE,
    reserved := (hdr.drop (12 + SALT_SIZE + NONCE_SIZE)).take 32 }

/-- The trailer fields as open_for_view reads them from the last INDEX_TRAILER_SIZE
bytes. -/
def parse_trailer (trb : Bytes) : fmt.IndexTrailer :=
  { magic := (trb.drop 0).take 4,
    trailer_size := endian.load_u32_le (trb.drop 4),
    index_offset := endian.load_u64_le (trb.drop 8),
    index_size := endian.load_u64_le (trb.drop 16),
    index_tag := (trb.drop 24).take TAG_SIZE }

/-- The last part of open_for_view, from the derivation of the keys on. -/
def open_tail (af : AllocFaults) (password idx_bytes : Bytes) (out : VaultOpen) :
    Except String (Status × VaultOpen) :=
  let bits_u32 := read_u32_le (out.header.reserved.drop 0)
  let cost_u32 := read_u32_le (out.header.reserved.drop 4)
  let key_bits := if bits_u32 ≠ 0 then bits_u32 else 512
  let kdf_cost := if cost_u32 ≠ 0 then cost_u32 else 1
  let key_bytes := bits_to_bytes key_bits
  let salt := out.header.salt
  match kdf.derive password salt key_bytes kdf_cost with
  | .error e => .error e
  | .ok keys =>
    let out := { out with keys := keys }
    match mac.verify out.keys.mac idx_bytes out.trailer.index_tag with
    | .error e => .error e
    | .ok ok =>
      if ¬ ok then
        .ok (Status.err ExitCode.IntegrityError "wrong password or corrupted vault", out)
      else
        match index.decode_index af idx_bytes with
        | .error e => .error e
        | .ok r => .ok (r.1, { out with idx := r.2 })

/-- The function open_for_view: the status and the value left in out, or the exception
that escapes from the key derivation or from decode_index. Opening the stream fails when
no file is stored under the path. -/
def open_for_view (af : AllocFaults) (fs : FileSys) (path : String) (password : Bytes) :
    Except String (Status × VaultOpen) :=
  let out := VaultOpen.init
  match fs path with
  | none => .ok (io_err "open vault failed", out)
  | some content =>
    let fsz := content.length % U64
    if fsz < fmt.GLOBAL_HEADER_SIZE then
      .ok (integrity_err "truncated vault (too small header)", out)
    else if fsz < fmt.INDEX_TRAILER_SIZE then
      .ok (integrity_err "truncated vault (too small trailer)", out)
    else
      match read_exact content 0 fmt.GLOBAL_HEADER_SIZE with
      | none => .ok (io_err "read header failed", out)
      | some hdr =>
        let out := { out with header := parse_header hdr }
        if out.header.magic ≠ fmt.VAULT_MAGIC then .ok (integrity_err "bad magic", out)
        else if out.header.header_size < fmt.GLOBAL_HEADER_SIZE % U32 then
          .ok (integrity_err "bad header_size", out)
        else if out.header.header_size > fsz then .ok (integrity_err "bad header_size", out)
        else
          let trailer_pos := fsz - fmt.INDEX_TRAILER_SIZE
          match read_exact content trailer_pos fmt.INDEX_TRAILER_SIZE with
          | none => .ok (io_err "read trailer failed", out)
          | some trb =>
            let out := { out with trailer := parse_trailer trb }
            if out.trailer.magic ≠ fmt.INDEX_MAGIC then
              .ok (integrity_err "bad trailer magic", out)
            else if out.trailer.trailer_size ≠ fmt.INDEX_TRAILER_SIZE % U32 then
              .ok (integrity_err "bad trailer_size", out)
            else
              let idx_off := out.trailer.index_offset
              let idx_sz := out.trailer.index_size
              if idx_sz = 0 ∨ idx_sz > MAX_INDEX_SIZE then
                .ok (integrity_err "bad index_size", out)
              else if idx_off < out.header.header_size then
                .ok (integrity_err "bad index_offset", out)
              else if idx_off > trailer_pos then
                .ok (integrity_err "index_offset beyond trailer", out)
              else if (idx_off + idx_sz) % U64 > trailer_pos then
                .ok (integrity_err "truncated vault (index beyond EOF)", out)
              else
                match read_exact content idx_off idx_sz with
                | none => .ok (io_err "read index failed", out)
                | some idx_bytes => open_tail af password idx_bytes out

end vault

/-! ## core/rand.hpp -/

/-- The random device: the sequence of numbers it will return and how many have been
drawn. -/
structure Rng where
  draws : Nat → Nat
  pos : Nat

/-- The function rnd::bytes: n draws, each narrowed to a byte. -/
def Rng.bytes (g : Rng) (n : Nat) : Bytes × Rng :=
  ((List.range n).map fun i => g.draws (g.pos + i) % U8, { g with pos := g.pos + n })

/-! ## Failures of the file system -/

/-- Which operations of the host fail during one operation of the tool. -/
structure IoFaults where
  /-- Opening the output (or temp) file for writing fails. -/
  createFails : Bool
  /-- The write calls on the output stream that fail. -/
  writes : WriteFaults
  /-- Reopening the vault for reading in copy_prefix_bytes fails. -/
  reopenFails : Bool
  /-- The call ofs.flush() leaves the stream failed. -/
  flushFails : Bool
  /-- The first rename of the temp file onto the vault fails. -/
  renameFails : Bool
  /-- Removing the vault after a failed rename fails. -/
  removeVaultFails : Bool
  /-- The second rename fails. -/
  renameAgainFails : Bool
  /-- Removing the temp file after the second failed rename fails. -/
  removeTmpFails : Bool
  /-- The reservations that decode_index is refused when the vault is opened. -/
  reserveFails : AllocFaults

/-- No operation fails. -/
def IoFaults.none : IoFaults :=
  { createFails := false, writes := fun _ => false, reopenFails := false, flushFails := false,
    renameFails := false, removeVaultFails := false, renameAgainFails := false,
    removeTmpFails := false, reserveFails := noAllocFaults }

/-! ## What a host path resolves to -/

/-- One element produced by the recursive directory iterator: the generic string of its
path relative to the root, and what it is. For a regular file the content is the byte
stream an ifstream delivers, or none when the file cannot be opened. -/
inductive DirItem where
  | dir (rel : Bytes)
  | file (rel : Bytes) (content : Option Bytes)
  | other (rel : Bytes)

/-- What std::filesystem reports for an input path: nothing, a regular file with the
given filename() and content, a directory with the given filename() and recursive
listing, or something else. -/
inductive HostPath where
  | missing
  | file (filename : Bytes) (content : Option Bytes)
  | dir (filename : Bytes) (items : List DirItem)
  | other

namespace vault

/-! ## core/vault_writer.cpp -/

/-- The bytes write_global_header puts into its buffer (after setting header_size). -/
def header_bytes (h : fmt.GlobalHeader) : Bytes :=
  h.magic.take 4 ++ endian.store_u32_le h.version ++ endian.store_u32_le h.header_size ++
    h.salt.take SALT_SIZE ++ h.nonce.take NONCE_SIZE ++ h.reserved.take 32

/-- The function write_global_header: the stream and the header after the call. -/
def write_global_header (wf : WriteFaults) (ofs : OStream) (h : fmt.GlobalHeader) :
    OStream × fmt.GlobalHeader :=
  let h := { h with header_size := fmt.GLOBAL_HEADER_SIZE % U32 }
  (ofs.write wf (header_bytes h), h)

/-- The bytes write_index_trailer puts into its buffer. -/
def trailer_bytes (tr : fmt.IndexTrailer) : Bytes :=
  tr.magic.take 4 ++ endian.store_u32_le tr.trailer_size ++ endian.store_u64_le tr.index_offset ++
    endian.store_u64_le tr.index_size ++ tr.index_tag.take TAG_SIZE

def write_index_trailer (wf : WriteFaults) (ofs : OStream) (tr : fmt.IndexTrailer) : OStream :=
  ofs.write wf (trailer_bytes tr)

def has_dir_entry (idx : index.Index) (path : Bytes) : Bool :=
  idx.entries.any fun e =>
    e.type = fmt.ObjType.Dir ∧ e.path = path ∧ (e.flags &&& fmt.F_DELETED) = 0

/-- The directory entry built in several places of the writer and the updater. -/
def dir_entry (path : Bytes) : index.Entry :=
  { path := path, type := fmt.ObjType.Dir, flags := fmt.F_VISIBLE, size := 0,
    data_offset := 0, data_size := 0,
    nonce := List.replicate NONCE_SIZE 0, tag := List.replicate TAG_SIZE 0 }

/-- The call full_path.find(47, pos) for the slash character: the least index at or after
pos holding a slash, if any. -/
def find_slash (full_path : Bytes) (pos : Nat) : Option Nat :=
  match (full_path.drop pos).indexOf? 47 with
  | none => none
  | some k => some (pos + k)

/-- The loop of ensure_parent_dirs; the first argument bounds the iterations. -/
def ensureLoop : Nat → index.Index → Bytes → Nat → index.Index
  | 0, idx, _, _ => idx
  | fuel + 1, idx, full_path, pos =>
    match find_slash full_path pos with
    | none => idx
    | some pos1 =>
      let dir := full_path.take pos1
      let idx1 :=
        if dir ≠ [] ∧ ¬ has_dir_entry idx dir then ⟨idx.entries ++ [dir_entry dir]⟩ else idx
      ensureLoop fuel idx1 full_path (pos1 + 1)

def ensure_parent_dirs (idx : index.Index) (full_path : Bytes) : index.Index :=
  ensureLoop (full_path.length + 1) idx full_path 0

/-- The state threaded through the writer: the output stream, the index and the random
device. -/
structure WriteState where
  ofs : OStream
  idx : index.Index
  rng : Rng

/-- The function write_one_file for a file with the given content (none: the input
stream cannot be opened). -/
def write_one_file (wf : WriteFaults) (s : WriteState) (content : Option Bytes)
    (in_vault_path : Bytes) (keys : kdf.Keys) : Except String (Status × WriteState) :=
  match content with
  | none => .ok (io_err "encrypt: cannot open input file", s)
  | some bytes =>
    let e : index.Entry :=
      { index.Entry.init with
        path := in_vault_path, type := fmt.ObjType.File, flags := fmt.F_VISIBLE,
        size := bytes.length % U64 }
    let idx := ensure_parent_dirs s.idx e.path
    let r := s.rng.bytes NONCE_SIZE
    let e := { e with nonce := r.1, data_offset := s.ofs.tellp }
    match obj.encrypt_stream wf bytes s.ofs keys.enc keys.mac e.nonce with
    | .error x => .error x
    | .ok res =>
      if ¬ res.status.is_ok then .ok (res.status, { ofs := res.out, idx := idx, rng := r.2 })
      else
        let e := { e with data_size := res.bytes_written, tag := res.tag }
        .ok (Status.ok, { ofs := res.out, idx := ⟨idx.entries ++ [e]⟩, rng := r.2 })

/-- The loop over the recursive directory iterator in create_vault_from_path. -/
def writeItems (wf : WriteFaults) (keys : kdf.Keys) (root : Bytes) :
    List DirItem → WriteState → Except String (Status × WriteState)
  | [], s => .ok (Status.ok, s)
  | .dir rel :: rest, s =>
    let in_vault := root ++ [47] ++ rel
    let idx :=
      if ¬ has_dir_entry s.idx in_vault then ⟨s.idx.entries ++ [dir_entry in_vault]⟩ else s.idx
    writeItems wf keys root rest { s with idx := idx }
  | .file rel content :: rest, s =>
    let in_vault := root ++ [47] ++ rel
    match write_one_file wf s content in_vault keys with
    | .error x => .error x
    | .ok (st, s1) =>
      if ¬ st.is_ok then .ok (st, s1) else writeItems wf keys root rest s1
  | .other _ :: rest, s => writeItems wf keys root rest s

/-- The part of create_vault_from_path that writes the index and the trailer. -/
def write_index_and_trailer (wf : WriteFaults) (ofs : OStream) (keys : kdf.Keys)
    (idx : index.Index) (msgIndex msgTrailer : String) : Except String (Status × OStream) :=
  let index_offset := ofs.tellp
  let idx_bytes := index.encode_index idx
  let ofs := ofs.write wf idx_bytes
  if ¬ ofs.good then .ok (io_err msgIndex, ofs)
  else
    match mac.compute keys.mac idx_bytes with
    | .error x => .error x
    | .ok idx_tag =>
      let tr : fmt.IndexTrailer :=
        { magic := fmt.INDEX_MAGIC, trailer_size := fmt.INDEX_TRAILER_SIZE % U32,
          index_offset := index_offset, index_size := idx_bytes.length % U64,
          index_tag := idx_tag.take TAG_SIZE }
      let ofs := write_index_trailer wf ofs tr
      if ¬ ofs.good then .ok (io_err msgTrailer, ofs)
      else .ok (Status.ok, ofs)

/-- The body of create_vault_from_path once the output stream is open. -/
def create_body (wf : WriteFaults) (input : HostPath) (keys : kdf.Keys) (gh : fmt.GlobalHeader)
    (rng : Rng) : Except String (Status × OStream) :=
  let ofs := (write_global_header wf OStream.fresh gh).1
  if ¬ ofs.good then .ok (io_err "encrypt: write header failed", ofs)
  else
    let s0 : WriteState := { ofs := ofs, idx := ⟨[]⟩, rng := rng }
    let written : Except String (Status × WriteState) :=
      match input with
      | .file filename content =>
        let name := if filename = [] then ascii "file" else filename
        write_one_file wf s0 content name keys
      | .dir filename items =>
        let root := if filename = [] then ascii "folder" else filename
        let idx :=
          if ¬ has_dir_entry s0.idx root then ⟨s0.idx.entries ++ [dir_entry root]⟩ else s0.idx
        writeItems wf keys root items { s0 with idx := idx }
      | _ => .ok (Status.err ExitCode.IoError "encrypt: unsupported input type", s0)
    match written with
    | .error x => .error x
    | .ok (st, s1) =>
      if ¬ st.is_ok then .ok (st, s1.ofs)
      else
        write_index_and_trailer wf s1.ofs keys s1.idx
          "encrypt: write index failed" "encrypt: write trailer failed"

/-- The function create_vault_from_path. The input path is given by what it resolves to,
out is the output path after the extension rule has been applied. The result is the
status and the file system after the call. -/
def create_vault_from_path (io : IoFaults) (rng : Rng) (fs : FileSys) (input : HostPath)
    (out : String) (password : Bytes) (key_bits : Nat) (kdf_cost : Nat) :
    Except String (Status × FileSys) :=
  match input with
  | .missing => .ok (Status.err ExitCode.IoError "encrypt: input path not found", fs)
  | _ =>
    let r1 := rng.bytes SALT_SIZE
    let r2 := r1.2.bytes NONCE_SIZE
    let gh : fmt.GlobalHeader :=
      { fmt.GlobalHeader.init with
        magic := fmt.VAULT_MAGIC, version := VERSION, salt := r1.1, nonce := r2.1,
        reserved := write_u32_le (key_bits % U32) ++ write_u32_le kdf_cost ++
          List.replicate 24 0 }
    let key_bytes := bits_to_bytes key_bits
    match kdf.derive password gh.salt key_bytes kdf_cost with
    | .error x => .error x
    | .ok keys =>
      if io.createFails then .ok (io_err "encrypt: cannot create vault output file", fs)
      else
        match create_body io.writes input keys gh r2.2 with
        | .error x => .error x
        | .ok (st, ofs) => .ok (st, fs.set out (some ofs.data))

end vault

namespace vault

/-! ## core/vault_update.cpp -/

/-- The function is_prefix_path; 47 is the slash character. -/
def is_prefix_path (pre : Bytes) (p : Bytes) : Bool :=
  if pre = p then true
  else if p.length > pre.length ∧ p.take pre.length = pre ∧ p.getD pre.length 0 = 47 then true
  else false

def entry_exists_not_deleted (idx : index.Index) (path : Bytes) : Bool :=
  idx.entries.any fun e => e.path = path ∧ (e.flags &&& fmt.F_DELETED) = 0

def add_dir_entry (idx : index.Index) (path : Bytes) : index.Index :=
  if path = [] then idx
  else if has_dir_entry idx path then idx
  else ⟨idx.entries ++ [dir_entry path]⟩

def COPY_CHUNK : Nat := 1 <<< 20

/-- The loop of copy_prefix_bytes: src is what is left of the source stream, remain the
number of bytes still to copy; the first argument bounds the iterations. The boolean is
the result of the function. -/
def copyLoop (wf : WriteFaults) : Nat → Bytes → OStream → Nat → Bool × OStream
  | 0, _, dst, _ => (true, dst)
  | fuel + 1, src, dst, remain =>
    if remain = 0 then (true, dst)
    else
      let take := if remain > COPY_CHUNK then COPY_CHUNK else remain
      let buf := src.take take
      if buf.length ≠ take then (false, dst)
      else
        let dst1 := dst.write wf buf
        if ¬ dst1.good then (false, dst1)
        else copyLoop wf fuel (src.drop take) dst1 (remain - take)

/-- The function copy_prefix_bytes; src is the content of the file at src_path, none when
it cannot be opened. -/
def copy_prefix_bytes (wf : WriteFaults) (src : Option Bytes) (dst : OStream) (nbytes : Nat) :
    Bool × OStream :=
  match src with
  | none => (false, dst)
  | some content => copyLoop wf (nbytes + 1) content dst nbytes

/-- The function make_temp_path for the given process id and epoch milliseconds. -/
def make_temp_path (vault_path : String) (pid now : Nat) : String :=
  vault_path ++ ".tmp." ++ toString pid ++ "." ++ toString now

def write_index_and_trailer_to_stream (wf : WriteFaults) (ofs : OStream) (keys : kdf.Keys)
    (idx : index.Index) : Except String (Status × OStream) :=
  write_index_and_trailer wf ofs keys idx "update: write index failed"
    "update: write trailer failed"

def open_for_mutation (af : AllocFaults) (fs : FileSys) (vault_path : String)
    (password : Bytes) : Except String (Status × VaultOpen) :=
  open_for_view af fs vault_path password

/-- The function append_file_object for a source with the given content (none: it cannot
be opened): the status, the stream, the entry and the random device after the call. -/
def append_file_object (wf : WriteFaults) (ofs : OStream) (content : Option Bytes)
    (keys : kdf.Keys) (out_entry : index.Entry) (rng : Rng) :
    Except String (Status × OStream × index.Entry × Rng) :=
  match content with
  | none => .ok (io_err "add: cannot open input file", ofs, out_entry, rng)
  | some bytes =>
    let r := rng.bytes NONCE_SIZE
    let out_entry := { out_entry with nonce := r.1, data_offset := ofs.tellp }
    match obj.encrypt_stream wf bytes ofs keys.enc keys.mac r.1 with
    | .error x => .error x
    | .ok res =>
      if ¬ res.status.is_ok then .ok (res.status, res.out, out_entry, r.2)
      else
        .ok (Status.ok, res.out,
          { out_entry with data_size := res.bytes_written, tag := res.tag }, r.2)

/-- The extra writer passed to atomic_rewrite_vault: it may write to the stream and
change the new index, which it holds by reference. -/
abbrev ExtraWriter := WriteState → Except String (Status × WriteState)

/-- The host environment of an update: the failures, the process id and the clock. -/
structure Env where
  io : IoFaults
  pid : Nat
  now : Nat

/-- The block of atomic_rewrite_vault in which the temp stream is open: the status on an
early return (none when the block is left normally) and the content of the temp file
when the stream is closed. -/
def rewrite_body (io : IoFaults) (fs : FileSys) (vault_path : String) (vo : VaultOpen)
    (new_idx : index.Index) (rng : Rng) (extra_writer : ExtraWriter) :
    Except String (Option Status × Bytes) :=
  let prefix_len := vo.trailer.index_offset
  let c := copy_prefix_bytes io.writes (if io.reopenFails then none else fs vault_path)
    OStream.fresh prefix_len
  if ¬ c.1 then .ok (some (io_err "update: copy prefix failed"), c.2.data)
  else
    match extra_writer { ofs := c.2, idx := new_idx, rng := rng } with
    | .error x => .error x
    | .ok (stx, s1) =>
      if ¬ stx.is_ok then .ok (some stx, s1.ofs.data)
      else
        match write_index_and_trailer_to_stream io.writes s1.ofs vo.keys s1.idx with
        | .error x => .error x
        | .ok (st2, ofs2) =>
          if ¬ st2.is_ok then .ok (some st2, ofs2.data)
          else if io.flushFails then .ok (some (io_err "update: flush temp failed"), ofs2.data)
          else .ok (none, ofs2.data)

/-- The renaming step of atomic_rewrite_vault. -/
def rename_step (io : IoFaults) (fs : FileSys) (tmp vp : String) : Status × FileSys :=
  if io.renameFails then
    let fs1 := if io.removeVaultFails then fs else fs.set vp none
    if io.renameAgainFails then
      let fs2 := if io.removeTmpFails then fs1 else fs1.set tmp none
      (io_err "update: rename temp->vault failed", fs2)
    else (Status.ok, (fs1.set vp (fs1 tmp)).set tmp none)
  else (Status.ok, (fs.set vp (fs tmp)).set tmp none)

/-- The function atomic_rewrite_vault. -/
def atomic_rewrite_vault (env : Env) (fs : FileSys) (vault_path : String) (vo : VaultOpen)
    (new_idx : index.Index) (rng : Rng) (extra_writer : ExtraWriter) :
    Except String (Status × FileSys) :=
  let prefix_len := vo.trailer.index_offset
  if prefix_len < fmt.GLOBAL_HEADER_SIZE then
    .ok (integrity_err "update: bad old index_offset", fs)
  else
    let tmp := make_temp_path vault_path env.pid env.now
    if env.io.createFails then .ok (io_err "update: cannot create temp vault", fs)
    else
      match rewrite_body env.io fs vault_path vo new_idx rng extra_writer with
      | .error x => .error x
      | .ok (some st, data) => .ok (st, fs.set tmp (some data))
      | .ok (none, data) => .ok (rename_step env.io (fs.set tmp (some data)) tmp vault_path)

/-- A file entry as the updater starts it: path, type File, flags VISIBLE and the size
reported for the source. -/
def file_entry (path : Bytes) (content : Option Bytes) : index.Entry :=
  { index.Entry.init with
    path := path, type := fmt.ObjType.File, flags := fmt.F_VISIBLE,
    size := match content with
      | some bytes => bytes.length % U64
      | none => 0 }

/-- The loop over the recursive directory iterator in the extra writer of
add_paths_to_vault. -/
def addItems (wf : WriteFaults) (keys : kdf.Keys) (root : Bytes) :
    List DirItem → WriteState → Except String (Status × WriteState)
  | [], s => .ok (Status.ok, s)
  | .dir rel :: rest, s =>
    let in_vault := root ++ [47] ++ rel
    addItems wf keys root rest { s with idx := add_dir_entry s.idx in_vault }
  | .file rel content :: rest, s =>
    let in_vault := root ++ [47] ++ rel
    if entry_exists_not_deleted s.idx in_vault then
      .ok (Status.err ExitCode.IoError "add: file collision in vault", s)
    else
      let idx := ensure_parent_dirs s.idx in_vault
      match append_file_object wf s.ofs content keys (file_entry in_vault content) s.rng with
      | .error x => .error x
      | .ok (st2, ofs, e, rng) =>
        if ¬ st2.is_ok then .ok (st2, { ofs := ofs, idx := idx, rng := rng })
        else addItems wf keys root rest { ofs := ofs, idx := ⟨idx.entries ++ [e]⟩, rng := rng }
  | .other _ :: rest, s => addItems wf keys root rest s

/-- The extra writer of add_paths_to_vault: the loop over the paths. -/
def addPaths (wf : WriteFaults) (keys : kdf.Keys) :
    List HostPath → WriteState → Except String (Status × WriteState)
  | [], s => .ok (Status.ok, s)
  | .missing :: _, s => .ok (Status.err ExitCode.IoError "add: input path not found", s)
  | .dir filename items :: rest, s =>
    let root := if filename = [] then ascii "folder" else filename
    if entry_exists_not_deleted s.idx root ∨ has_dir_entry s.idx root then
      .ok (Status.err ExitCode.IoError "add: path collision in vault", s)
    else
      match addItems wf keys root items { s with idx := add_dir_entry s.idx root } with
      | .error x => .error x
      | .ok (st, s1) => if ¬ st.is_ok then .ok (st, s1) else addPaths wf keys rest s1
  | .file filename content :: rest, s =>
    let name := if filename = [] then ascii "file" else filename
    if entry_exists_not_deleted s.idx name then
      .ok (Status.err ExitCode.IoError "add: file collision in vault", s)
    else
      match append_file_object wf s.ofs content keys (file_entry name content) s.rng with
      | .error x => .error x
      | .ok (st2, ofs, e, rng) =>
        if ¬ st2.is_ok then .ok (st2, { ofs := ofs, idx := s.idx, rng := rng })
        else addPaths wf keys rest { ofs := ofs, idx := ⟨s.idx.entries ++ [e]⟩, rng := rng }
  | .other :: _, s => .ok (Status.err ExitCode.IoError "add: unsupported path type", s)

/-- The function add_paths_to_vault; each path is given by what it resolves to. -/
def add_paths_to_vault (env : Env) (rng : Rng) (fs : FileSys) (vault_path : String)
    (password : Bytes) (paths : List HostPath) : Except String (Status × FileSys) :=
  match open_for_mutation env.io.reserveFails fs vault_path password with
  | .error x => .error x
  | .ok (st, vo) =>
    if ¬ st.is_ok then .ok (st, fs)
    else
      let new_idx := vo.idx
      atomic_rewrite_vault env fs vault_path vo new_idx rng (addPaths env.io.writes vo.keys paths)

/-- The inner loop of delete_paths_in_vault over the paths, for one entry: the entry and
the flag any after it. -/
def deleteEntry (paths : List Bytes) (e : index.Entry) (any : Bool) : index.Entry × Bool :=
  paths.foldl
    (fun (acc : index.Entry × Bool) p =>
      if is_prefix_path p acc.1.path then
        if (acc.1.flags &&& fmt.F_DELETED) = 0 then
          ({ acc.1 with flags := acc.1.flags ||| fmt.F_DELETED }, true)
        else acc
      else acc)
    (e, any)

/-- The outer loop of delete_paths_in_vault over the entries. -/
def deleteEntries (paths : List Bytes) :
    List index.Entry → Bool → List index.Entry × Bool
  | [], any => ([], any)
  | e :: rest, any =>
    let r := deleteEntry paths e any
    let rs := deleteEntries paths rest r.2
    (r.1 :: rs.1, rs.2)

/-- The extra writer that writes nothing. -/
def noExtra : ExtraWriter := fun s => .ok (Status.ok, s)

def delete_paths_in_vault (env : Env) (rng : Rng) (fs : FileSys) (vault_path : String)
    (password : Bytes) (paths : List Bytes) : Except String (Status × FileSys) :=
  match open_for_mutation env.io.reserveFails fs vault_path password with
  | .error x => .error x
  | .ok (st, vo) =>
    if ¬ st.is_ok then .ok (st, fs)
    else
      let r := deleteEntries paths vo.idx.entries false
      if ¬ r.2 then .ok (Status.err ExitCode.IoError "delete: no matching paths", fs)
      else atomic_rewrite_vault env fs vault_path vo ⟨r.1⟩ rng noExtra

/-- The inner loop of set_hidden_paths_in_vault over the paths, for one entry. The
complement of F_HIDDEN is taken in 32 bits. -/
def hideEntry (paths : List Bytes) (hidden : Bool) (e : index.Entry) (any : Bool) :
    index.Entry × Bool :=
  paths.foldl
    (fun (acc : index.Entry × Bool) p =>
      if is_prefix_path p acc.1.path then
        if (acc.1.flags &&& fmt.F_DELETED) ≠ 0 then acc
        else if hidden then
          if (acc.1.flags &&& fmt.F_HIDDEN) = 0 then
            ({ acc.1 with flags := acc.1.flags ||| fmt.F_HIDDEN }, true)
          else acc
        else
          if (acc.1.flags &&& fmt.F_HIDDEN) ≠ 0 then
            ({ acc.1 with flags := acc.1.flags &&& ((U32 - 1) ^^^ fmt.F_HIDDEN) }, true)
          else acc
      else acc)
    (e, any)

def hideEntries (paths : List Bytes) (hidden : Bool) :
    List index.Entry → Bool → List index.Entry × Bool
  | [], any => ([], any)
  | e :: rest, any =>
    let r := hideEntry paths hidden e any
    let rs := hideEntries paths hidden rest r.2
    (r.1 :: rs.1, rs.2)

def set_hidden_paths_in_vault (env : Env) (rng : Rng) (fs : FileSys) (vault_path : String)
    (password : Bytes) (paths : List Bytes) (hidden : Bool) : Except String (Status × FileSys) :=
  match open_for_mutation env.io.reserveFails fs vault_path password with
  | .error x => .error x
  | .ok (st, vo) =>
    if ¬ st.is_ok then .ok (st, fs)
    else
      let r := hideEntries paths hidden vo.idx.entries false
      if ¬ r.2 then .ok (Status.err ExitCode.IoError "stealth: no matching paths", fs)
      else atomic_rewrite_vault env fs vault_path vo ⟨r.1⟩ rng noExtra

/-- The loop of replace_file_in_vault that marks the target deleted. -/
def markReplaced (target : Bytes) : List index.Entry → Bool → List index.Entry × Bool
  | [], found => ([], found)
  | e :: rest, found =>
    if e.path = target ∧ e.type = fmt.ObjType.File ∧ (e.flags &&& fmt.F_DELETED) = 0 then
      let rs := markReplaced target rest true
      ({ e with flags := e.flags ||| fmt.F_DELETED } :: rs.1, rs.2)
    else
      let rs := markReplaced target rest found
      (e :: rs.1, rs.2)

/-- The extra writer of replace_file_in_vault. -/
def replaceExtra (wf : WriteFaults) (keys : kdf.Keys) (target : Bytes) (content : Option Bytes) :
    ExtraWriter := fun s =>
  match append_file_object wf s.ofs content keys (file_entry target content) s.rng with
  | .error x => .error x
  | .ok (st2, ofs, e, rng) =>
    if ¬ st2.is_ok then .ok (st2, { ofs := ofs, idx := s.idx, rng := rng })
    else .ok (Status.ok, { ofs := ofs, idx := ⟨s.idx.entries ++ [e]⟩, rng := rng })

/-- The function replace_file_in_vault; the new source path is given by what it resolves
to. -/
def replace_file_in_vault (env : Env) (rng : Rng) (fs : FileSys) (vault_path : String)
    (password : Bytes) (target_path_in_vault : Bytes) (new_os_path : HostPath) :
    Except String (Status × FileSys) :=
  match open_for_mutation env.io.reserveFails fs vault_path password with
  | .error x => .error x
  | .ok (st, vo) =>
    if ¬ st.is_ok then .ok (st, fs)
    else
      match new_os_path with
      | .file _ content =>
        let r := markReplaced target_path_in_vault vo.idx.entries false
        if ¬ r.2 then .ok (Status.err ExitCode.IoError "edit: target path not found", fs)
        else
          let new_idx := ensure_parent_dirs ⟨r.1⟩ target_path_in_vault
          atomic_rewrite_vault env fs vault_path vo new_idx rng
            (replaceExtra env.io.writes vo.keys target_path_in_vault content)
      | _ => .ok (Status.err ExitCode.IoError "edit: --from must be a regular file", fs)

end vault

/-! ## Concrete inputs

A small vault, as create_vault_from_path writes it for a directory r holding one file a
with the two bytes 104, 105, the password pw, 256 key bits, cost 1 and the random
device returning 7 * i + 3 at its i-th draw. It is used where a statement is applied to a
concrete input. -/

def demoPw : Bytes := [112, 119]

def demoHeader : fmt.GlobalHeader :=
  { magic := [49, 54, 53, 52], version := 1, header_size := 100,
    salt := [3, 10, 17, 24, 31, 38, 45, 52, 59, 66, 73, 80, 87, 94, 101, 108, 115, 122, 129,
      136, 143, 150, 157, 164, 171, 178, 185, 192, 199, 206, 213, 220],
    nonce := [227, 234, 241, 248, 255, 6, 13, 20, 27, 34, 41, 48, 55, 62, 69, 76, 83, 90, 97,
      104, 111, 118, 125, 132],
    reserved := [0, 1, 0, 0] ++ [1, 0, 0, 0] ++ List.replicate 24 0 }

def demoTrailer : fmt.IndexTrailer :=
  { magic := [73, 68, 88, 49], trailer_size := 40, index_offset := 102, index_size := 162,
    index_tag := [247, 224, 188, 146, 37, 162, 106, 234, 29, 125, 71, 82, 53, 106, 101, 91] }

def demoIndex : index.Index :=
  ⟨[{ path := [114], type := fmt.ObjType.Dir, flags := 1, size := 0, data_offset := 0,
      data_size := 0, nonce := List.replicate 24 0, tag := List.replicate 16 0 },
    { path := [114, 47, 97], type := fmt.ObjType.File, flags := 1, size := 2,
      data_offset := 100, data_size := 2,
      nonce := [139, 146, 153, 160, 167, 174, 181, 188, 195, 202, 209, 216, 223, 230, 237,
        244, 251, 2, 9, 16, 23, 30, 37, 44],
      tag := [190, 97, 169, 55, 54, 153, 186, 219, 174, 102, 197, 244, 222, 13, 15, 32] }]⟩

def demoKeys : kdf.Keys :=
  { enc := [66, 50, 118, 63, 210, 134, 78, 143, 19, 64, 220, 170, 186, 251, 115, 13, 201,
      251, 31, 27, 47, 211, 38, 132, 128, 199, 22, 142, 86, 185, 9, 187],
    mac := [183, 137, 165, 72, 70, 191, 94, 204, 172, 91, 9, 60, 110, 100, 198, 238, 5, 158,
      127, 34, 7, 198, 101, 225, 132, 152, 70, 50, 222, 170, 109, 237] }

def demoOpen : vault.VaultOpen :=
  { header := demoHeader, trailer := demoTrailer, idx := demoIndex, keys := demoKeys }

/-- The two ciphertext bytes of the file r/a. -/
def demoObject : Bytes := [197, 241]

/-- The 304 bytes of the vault: header, object, index, trailer. -/
def demoVault : Bytes :=
  vault.header_bytes demoHeader ++ demoObject ++ index.encode_index demoIndex ++
    vault.trailer_bytes demoTrailer

def demoFs : FileSys := fun p => if p = "v.1654" then some demoVault else none

/-- The same vault with five extra bytes between the encoded index and the trailer. -/
def gapVault : Bytes :=
  vault.header_bytes demoHeader ++ demoObject ++ index.encode_index demoIndex ++
    [0, 0, 0, 0, 0] ++ vault.trailer_bytes demoTrailer

def gapFs : FileSys := fun p => if p = "g.1654" then some gapVault else none

/-- The value of a result, or the given default when an exception was thrown. -/
def okOr {α : Type} (x : Except String α) (d : α) : α :=
  match x with
  | .ok a => a
  | .error _ => d

/-- A status and file system standing for no result. -/
def noResult : Status × FileSys := (Status.err ExitCode.InternalError "", fun _ => none)

def demoRng : Rng := { draws := fun i => 7 * i + 3, pos := 0 }

/-- The directory r holding the file a with the bytes 104, 105. -/
def demoInput : HostPath := HostPath.dir [114] [DirItem.file [97] (some [104, 105])]

def emptyFs : FileSys := fun _ => none

/-- Creating the concrete vault. -/
def demoCreate : Except String (Status × FileSys) :=
  vault.create_vault_from_path IoFaults.none demoRng emptyFs demoInput "v.1654" demoPw 256 1

def demoCreated : Status × FileSys := okOr demoCreate noResult

/-! ## Predicates on the object region -/

namespace vault

/-- The entry is a File entry. -/
def isFile (e : index.Entry) : Bool := decide (e.type = fmt.ObjType.File)

/-- A directory entry as the writer and the updater create it: no object, all-zero
nonce and tag. -/
def ZeroDir (e : index.Entry) : Prop :=
  e.data_offset = 0 ∧ e.data_size = 0 ∧ e.nonce = List.replicate NONCE_SIZE 0 ∧
    e.tag = List.replicate TAG_SIZE 0

/-- The integer fields of the entry fit their widths and its nonce and tag have their
fixed sizes. -/
def FieldsOk (e : index.Entry) : Prop :=
  e.flags < U32 ∧ e.size < U64 ∧ e.data_offset < U64 ∧ e.data_size < U64 ∧
    e.nonce.length = NONCE_SIZE ∧ e.tag.length = TAG_SIZE

/-- The position reached after the objects of the File entries of a list, laid out one
after the other from pos. -/
def layoutEnd : Nat → List index.Entry → Nat
  | pos, [] => pos
  | pos, e :: es => layoutEnd (if isFile e then pos + e.data_size else pos) es

/-- The File entries of the list occupy consecutive ranges starting at pos. -/
def Consecutive : Nat → List index.Entry → Prop
  | _, [] => True
  | pos, e :: es =>
    (isFile e = true → e.data_offset = pos) ∧
      Consecutive (if isFile e then pos + e.data_size else pos) es

/-- The bytes of the vault at the range of a File entry are an object that decrypts,
with the given keys and the nonce and tag of the entry, to the plaintext of the file f
(its in-vault path and content). -/
def ObjectAt (keys : kdf.Keys) (data : Bytes) (e : index.Entry) (f : Bytes × Bytes) : Prop :=
  e.path = f.1 ∧ e.data_offset + e.data_size ≤ data.length ∧ e.data_size = f.2.length ∧
    ∀ out2 : OStream, out2.good = true →
      ∃ out3 : OStream,
        obj.decrypt_stream (fun _ => false) ((data.drop e.data_offset).take e.data_size) out2
            keys.enc keys.mac e.nonce e.data_size e.tag = .ok (Status.ok, out3) ∧
          out3.data = out2.data ++ f.2

/-- What holds of the entries added to an index while the stream grew from position pos
to the bytes data: the added File entries lie one after the other from pos to the end
of data and hold the objects of the files F, the added Dir entries carry no object. -/
structure AddedOk (keys : kdf.Keys) (pos : Nat) (data : Bytes) (added : List index.Entry)
    (F : List (Bytes × Bytes)) : Prop where
  consecutive : Consecutive pos added
  ends : layoutEnd pos added = data.length
  dirs : ∀ e ∈ added, e.type = fmt.ObjType.Dir → ZeroDir e
  fields : ∀ e ∈ added, FieldsOk e
  objects : List.Forall₂ (ObjectAt keys data) (added.filter isFile) F

/-- The state s1 extends the state s: bytes were appended to the stream, entries were
appended to the index, and, provided the stream stayed below 2^63 bytes, the added
entries describe the appended bytes. -/
def Grows (keys : kdf.Keys) (s s1 : WriteState) (F : List (Bytes × Bytes)) : Prop :=
  ∃ (more : Bytes) (added : List index.Entry),
    s1.ofs.data = s.ofs.data ++ more ∧ s1.idx.entries = s.idx.entries ++ added ∧
      s1.ofs.good = true ∧
      (s1.ofs.data.length < 2 ^ 63 → AddedOk keys s.ofs.data.length s1.ofs.data added F)

/-- The regular files among the items of a directory listing, with their in-vault paths
under root, in listing order. Files that cannot be opened are left out. -/
def filesOfItems (root : Bytes) : List DirItem → List (Bytes × Bytes)
  | [] => []
  | .file rel (some c) :: rest => (root ++ [47] ++ rel, c) :: filesOfItems root rest
  | _ :: rest => filesOfItems root rest

/-- The regular files of an input path with their in-vault paths. -/
def filesOfHost : HostPath → List (Bytes × Bytes)
  | .file filename (some c) => [(if filename = [] then ascii "file" else filename, c)]
  | .dir filename items => filesOfItems (if filename = [] then ascii "folder" else filename) items
  | _ => []

end vault

namespace vault

/-- The header create_vault_from_path builds from its random bytes and parameters. -/
def built_header (rng : Rng) (key_bits kdf_cost : Nat) : fmt.GlobalHeader :=
  { fmt.GlobalHeader.init with
    magic := fmt.VAULT_MAGIC, version := VERSION, salt := (rng.bytes SALT_SIZE).1,
    nonce := ((rng.bytes SALT_SIZE).2.bytes NONCE_SIZE).1,
    reserved := write_u32_le (key_bits % U32) ++ write_u32_le kdf_cost ++ List.replicate 24 0 }

/-- The same header with the header_size write_global_header stores. -/
def created_header (rng : Rng) (key_bits kdf_cost : Nat) : fmt.GlobalHeader :=
  { built_header rng key_bits kdf_cost with header_size := fmt.GLOBAL_HEADER_SIZE % U32 }

/-- The trailer written after a region of the given bytes and an encoded index. -/
def written_trailer (pre idxb tag : Bytes) : fmt.IndexTrailer :=
  { magic := fmt.INDEX_MAGIC, trailer_size := fmt.INDEX_TRAILER_SIZE % U32,
    index_offset := pre.length % U64, index_size := idxb.length % U64, index_tag := tag }

/-- What a successful create_vault_from_path leaves in the output file: the header, the
objects, the encoded index and the trailer, with the keys derived from the password. -/
structure Created (rng : Rng) (input : HostPath) (password : Bytes) (key_bits kdf_cost : Nat)
    (bytes : Bytes) (keys : kdf.Keys) (objs : Bytes) (idx : index.Index) (tag : Bytes) :
    Prop where
  keys_eq : kdf.derive password (created_header rng key_bits kdf_cost).salt
    (bits_to_bytes key_bits) kdf_cost = .ok keys
  bytes_eq : bytes = header_bytes (created_header rng key_bits kdf_cost) ++ objs ++
    index.encode_index idx ++
    trailer_bytes (written_trailer (header_bytes (created_header rng key_bits kdf_cost) ++ objs)
      (index.encode_index idx) tag)
  mac_eq : mac.compute keys.mac (index.encode_index idx) = .ok tag
  added : (header_bytes (created_header rng key_bits kdf_cost) ++ objs).length < 2 ^ 63 →
    AddedOk keys fmt.GLOBAL_HEADER_SIZE
      (header_bytes (created_header rng key_bits kdf_cost) ++ objs) idx.entries
      (filesOfHost input)

end vault
/-! ## A directory of many small files -/

/-- The five-letter name number i over the letters a to p. -/
def nameOf (i : Nat) : Bytes :=
  [97 + i / 65536 % 16, 97 + i / 4096 % 16, 97 + i / 256 % 16, 97 + i / 16 % 16, 97 + i % 16]

/-- The 2^20 names aaaaa to ppppp. -/
def bigNames : List Bytes := (List.range (2 ^ 20)).map nameOf

/-- The directory r holding 2^20 empty regular files with these names. -/
def bigInput : HostPath := HostPath.dir [114] (bigNames.map fun n => DirItem.file n (some []))

/-- The 2^20 empty regular files with these names, as paths given to add. -/
def bigPaths : List HostPath := bigNames.map fun n => HostPath.file n (some [])

/-- The entry written for an empty file with the given path, at the given offset, with
the given nonce and tag. -/
def nilEntry (path : Bytes) (off : Nat) (nonce tag : Bytes) : index.Entry :=
  { path := path, type := fmt.ObjType.File, flags := fmt.F_VISIBLE,
    size := ([] : Bytes).length % U64, data_offset := off, data_size := 0,
    nonce := nonce, tag := tag }
/-! ## Predicates on updates -/

namespace vault

/-- The entry e2 is the entry e1 except, possibly, for its flags. -/
def SameButFlags (e1 e2 : index.Entry) : Prop :=
  e2.path = e1.path ∧ e2.type = e1.type ∧ e2.size = e1.size ∧
    e2.data_offset = e1.data_offset ∧ e2.data_size = e1.data_size ∧
    e2.nonce = e1.nonce ∧ e2.tag = e1.tag

/-- The entry e2 is e1 up to its flags, which stay a 32-bit value. -/
def Kept (e1 e2 : index.Entry) : Prop :=
  SameButFlags e1 e2 ∧ (e1.flags < U32 → e2.flags < U32)

/-- The state s1 extends the state s by the objects of some files. -/
def GrowsSome (keys : kdf.Keys) (s s1 : WriteState) : Prop := ∃ F, Grows keys s s1 F

/-- What a successful update of a vault opened as vo leaves in the vault file: the first
index_offset bytes of the old file, the bytes the extra writer appended, the encoded new
index (the old entries up to their flags, then the added ones) and the trailer. -/
structure Updated (vo : VaultOpen) (old new more : Bytes) (kept added : List index.Entry)
    (tag : Bytes) : Prop where
  old_len : (old.take vo.trailer.index_offset).length = vo.trailer.index_offset
  offset_ge : fmt.GLOBAL_HEADER_SIZE ≤ vo.trailer.index_offset
  bytes_eq : new = old.take vo.trailer.index_offset ++ more ++
    index.encode_index ⟨kept ++ added⟩ ++
    trailer_bytes (written_trailer (old.take vo.trailer.index_offset ++ more)
      (index.encode_index ⟨kept ++ added⟩) tag)
  mac_eq : mac.compute vo.keys.mac (index.encode_index ⟨kept ++ added⟩) = .ok tag
  kept_ok : List.Forall₂ Kept vo.idx.entries kept
  added_ok : (old.take vo.trailer.index_offset ++ more).length < 2 ^ 63 →
    ∃ F, AddedOk vo.keys vo.trailer.index_offset (old.take vo.trailer.index_offset ++ more)
      added F

/-- The status atomic_rewrite_vault returns when both renames of the temp file fail. -/
def rename_failed : Status := io_err "update: rename temp->vault failed"

/-- The result r is that of one of the four update operations (add, delete, stealth set
or clear, replace) on the vault at vault_path. -/
def IsUpdate (env : Env) (rng : Rng) (fs : FileSys) (vault_path : String) (password : Bytes)
    (r : Except String (Status × FileSys)) : Prop :=
  (∃ paths, add_paths_to_vault env rng fs vault_path password paths = r) ∨
  (∃ paths, delete_paths_in_vault env rng fs vault_path password paths = r) ∨
  (∃ paths hidden, set_hidden_paths_in_vault env rng fs vault_path password paths hidden = r) ∨
  (∃ target src, replace_file_in_vault env rng fs vault_path password target src = r)

end vault
/-! ## Concrete updates -/

/-- An environment in which nothing fails. -/
def demoEnv : vault.Env := { io := IoFaults.none, pid := 7, now := 9 }

/-- An environment in which both renames of the temp file fail. -/
def failEnv : vault.Env :=
  { io := { IoFaults.none with renameFails := true, renameAgainFails := true },
    pid := 7, now := 9 }

/-- Replacing the file r/a of the concrete vault by a file holding the byte 120. -/
def demoReplace : Except String (Status × FileSys) :=
  vault.replace_file_in_vault demoEnv demoRng demoFs "v.1654" demoPw [114, 47, 97]
    (HostPath.file [98] (some [120]))

def demoReplaced : Status × FileSys := okOr demoReplace noResult

/-- The index after the replacement: the old entry of r/a is flagged deleted and the
entry of the new object follows. -/
def demoReplacedIndex : index.Index :=
  ⟨[{ path := [114], type := fmt.ObjType.Dir, flags := 1, size := 0, data_offset := 0,
      data_size := 0, nonce := List.replicate 24 0, tag := List.replicate 16 0 },
    { path := [114, 47, 97], type := fmt.ObjType.File, flags := 5, size := 2,
      data_offset := 100, data_size := 2,
      nonce := [139, 146, 153, 160, 167, 174, 181, 188, 195, 202, 209, 216, 223, 230, 237,
        244, 251, 2, 9, 16, 23, 30, 37, 44],
      tag := [190, 97, 169, 55, 54, 153, 186, 219, 174, 102, 197, 244, 222, 13, 15, 32] },
    { path := [114, 47, 97], type := fmt.ObjType.File, flags := 1, size := 1,
      data_offset := 102, data_size := 1,
      nonce := [3, 10, 17, 24, 31, 38, 45, 52, 59, 66, 73, 80, 87, 94, 101, 108, 115, 122,
        129, 136, 143, 150, 157, 164],
      tag := [50, 28, 127, 248, 213, 69, 68, 151, 2, 139, 152, 250, 162, 242, 29, 45] }]⟩

def demoReplacedTrailer : fmt.IndexTrailer :=
  { magic := [73, 68, 88, 49], trailer_size := 40, index_offset := 103, index_size := 238,
    index_tag := [239, 83, 216, 251, 83, 52, 176, 196, 150, 75, 19, 248, 54, 246, 118, 67] }

/-- The concrete vault after the replacement: the old header and object, the new object,
the new index and the new trailer. -/
def demoReplacedVault : Bytes :=
  demoVault.take 102 ++ [238] ++ index.encode_index demoReplacedIndex ++
    vault.trailer_bytes demoReplacedTrailer

/-- Deleting the file r/a of the concrete vault while both renames fail. -/
def demoDeleteFailed : Except String (Status × FileSys) :=
  vault.delete_paths_in_vault failEnv demoRng demoFs "v.1654" demoPw [[114, 47, 97]]

def demoDeleteFailedResult : Status × FileSys := okOr demoDeleteFailed noResult
/-! ## Predicates and shorthands used in the statements -/

namespace petoron

/-- The shape of a live sponge object: 25 lanes and rate 136. -/
def PhashXof.Shaped (x : PhashXof) : Prop := x.a_.length = 25 ∧ x.r_ = 136

end petoron

/-- The fault description of a stream on which no write fails. -/
def noFaults : WriteFaults := fun _ => false

namespace index

/-- The result of decode_index on a host that grants the reservation of out.entries: the
status and the value left in out. -/
def decode_reserved (data : Bytes) : Status × Index :=
  match read_u32 data 0 with
  | none => (truncated "magic", ⟨[]⟩)
  | some (magic, off) =>
    match read_u32 data off with
    | none => (truncated "ver", ⟨[]⟩)
    | some (ver, off) =>
      match read_u32 data off with
      | none => (truncated "count", ⟨[]⟩)
      | some (count, off) =>
        if magic ≠ IDX_MAGIC then (Status.err ExitCode.IntegrityError "index: bad magic", ⟨[]⟩)
        else if ver ≠ IDX_VER then
          (Status.err ExitCode.IntegrityError "index: unsupported version", ⟨[]⟩)
        else
          match decodeEntries data count off [] with
          | .inl (st, entries) => (st, ⟨entries⟩)
          | .inr (entries, off) =>
            if off ≠ data.length then
              (Status.err ExitCode.IntegrityError "index: trailing bytes", ⟨entries⟩)
            else (Status.ok, ⟨entries⟩)

/-- The inputs on which decode_index reaches out.entries.reserve(count) and the host
refuses it: the three header words are there, the magic and the version are right, and the
count word, at offset 8, is not 0 and is refused. -/
def reserve_refused (af : AllocFaults) (data : Bytes) : Bool :=
  decide (12 ≤ data.length ∧ endian.load_u32_le (data.drop 0) = IDX_MAGIC ∧
    endian.load_u32_le (data.drop 4) = IDX_VER ∧ endian.load_u32_le (data.drop 8) ≠ 0) &&
    af (endian.load_u32_le (data.drop 8))

/-- The host grants decode_index the storage of n entries: the reservation is not asked
for when n is 0, and is not refused otherwise. -/
def Grants (af : AllocFaults) (n : Nat) : Prop := n ≠ 0 → af n = false

instance instDecidableGrants (af : AllocFaults) (n : Nat) : Decidable (Grants af n) := by
  unfold Grants
  exact inferInstance

/-- The bytes encode_index appends for one entry. -/
def entryBytes (e : Entry) : Bytes :=
  endian.store_u32_le (e.path.length % U32) ++ e.path ++ [e.type.toU8] ++
    endian.store_u32_le e.flags ++ endian.store_u64_le e.size ++
    endian.store_u64_le e.data_offset ++ endian.store_u64_le e.data_size ++
    resize e.nonce NONCE_SIZE ++ resize e.tag TAG_SIZE

/-- The three header words of an encoded index. -/
def indexHeader (n : Nat) : Bytes :=
  endian.store_u32_le IDX_MAGIC ++ endian.store_u32_le IDX_VER ++ endian.store_u32_le (n % U32)

/-- The entries the codec represents exactly: the nonce and tag have their fixed sizes
and every integer field fits its width. -/
def Entry.WellFormed (e : Entry) : Prop :=
  e.path.length < U32 ∧ e.flags < U32 ∧ e.size < U64 ∧ e.data_offset < U64 ∧
    e.data_size < U64 ∧ e.nonce.length = NONCE_SIZE ∧ e.tag.length = TAG_SIZE

end index

namespace vault

/-- The structural checks of open_for_view on a file content, relating it to the header,
the trailer and the index bytes read from it. -/
structure StructOk (content : Bytes) (hdr : fmt.GlobalHeader) (tr : fmt.IndexTrailer)
    (idx_bytes : Bytes) : Prop where
  size_hdr : fmt.GLOBAL_HEADER_SIZE ≤ content.length % U64
  size_trl : fmt.INDEX_TRAILER_SIZE ≤ content.length % U64
  hdr_eq : hdr = parse_header ((content.drop 0).take fmt.GLOBAL_HEADER_SIZE)
  magic : hdr.magic = fmt.VAULT_MAGIC
  hsize_lo : fmt.GLOBAL_HEADER_SIZE % U32 ≤ hdr.header_size
  hsize_hi : hdr.header_size ≤ content.length % U64
  tr_eq : tr = parse_trailer
    ((content.drop (content.length % U64 - fmt.INDEX_TRAILER_SIZE)).take fmt.INDEX_TRAILER_SIZE)
  tmagic : tr.magic = fmt.INDEX_MAGIC
  tsize : tr.trailer_size = fmt.INDEX_TRAILER_SIZE % U32
  isize_pos : tr.index_size ≠ 0
  isize_max : tr.index_size ≤ MAX_INDEX_SIZE
  ioff_lo : hdr.header_size ≤ tr.index_offset
  ioff_hi : tr.index_offset ≤ content.length % U64 - fmt.INDEX_TRAILER_SIZE
  iend : (tr.index_offset + tr.index_size) % U64 ≤ content.length % U64 - fmt.INDEX_TRAILER_SIZE
  ibytes : idx_bytes = (content.drop tr.index_offset).take tr.index_size
  ilen : idx_bytes.length = tr.index_size

end vault
/-! ## selftest.cpp: helpers that tamper with a vault file and check an index -/

namespace selftest

/-- The function flip_byte_at: the byte at off is read, xored with 0x01 and written back;
none when the byte cannot be read. -/
def flip_byte_at (content : Bytes) (off : Nat) : Option Bytes :=
  if off < content.length then some (content.set off (content.getD off 0 ^^^ 0x01)) else none

/-- The byte at off with its bit j flipped; flip_byte_at flips bit 0. -/
def flip_bit_at (content : Bytes) (off j : Nat) : Bytes :=
  content.set off (content.getD off 0 ^^^ (1 <<< j))

/-- The function truncate_file, that is fs::resize_file: the file is cut to new_size
bytes, or extended with zero bytes. -/
def truncate_file (content : Bytes) (new_size : Nat) : Bytes :=
  content.take new_size ++ List.replicate (new_size - content.length) 0

def MAX_OBJ : Nat := 256 * 1024 * 1024

def MAX_ENTRIES : Nat := 200000

/-- The body of the loop of sanity_check_index for one entry: false when one of the
checks returns false. -/
def sanity_check_entry (fsz : Nat) (e : index.Entry) : Bool :=
  let off := e.data_offset
  let sz := e.data_size
  if e.path = [] then false
  else if e.path.length > 4096 then false
  else if sz > MAX_OBJ then false
  else if off > fsz then false
  else if (off + sz) % U64 > fsz then false
  else true

/-- The function sanity_check_index (the text of the reason is left out). -/
def sanity_check_index (idx : index.Index) (fsz : Nat) : Bool :=
  if idx.entries.length > MAX_ENTRIES then false
  else idx.entries.all (sanity_check_entry fsz)

end selftest

/-! ## PetoronHash/include/petoron/util.hpp, PetoronHash/tests/kat.cpp -/

namespace petoron

/-- The function hex_lower; the string it returns is given by its character codes. -/
def hex_lower (b : Bytes) : Bytes :=
  b.flatMap fun x =>
    [(ascii "0123456789abcdef").getD ((x >>> 4) &&& 0xF) 0,
     (ascii "0123456789abcdef").getD (x &&& 0xF) 0]

end petoron

namespace kat

/-- The function chk (without the printing): the hash of the message, with the strong
variant when a salt is given, is compared in hex with the expected string. -/
def chk (msg : Bytes) (ctx : Bytes) (salt : Bytes) (out_bits : Nat) (expected_hex : String) :
    Except String Bool :=
  let p : petoron.HashParams := { out_bits := out_bits }
  match (if salt = [] then petoron.petoron_hash msg ctx p
         else petoron.petoron_hash_strong msg salt ctx p) with
  | .error e => .error e
  | .ok out => .ok (decide (petoron.hex_lower out = ascii expected_hex))

def hello : Bytes := ascii "hello"

def ctx : Bytes := ascii "CTX"

def salt : Bytes := ascii "SALT-123"

def k1 : String :=
  "d6e7f871713e19cca9191b2816a421843d86fc8393bcd2cc946015d58677787e89c24f260e0a85737e85e44729565160a9fc7c6c53775cd28cde69446a00cd5d5dfe859f97d82455f7ac8fb04e918112efc3cd96cdebb9c71c91aa84d97548d9293ea020dc2a44e4c2b55b515db74dac51586568e62896ba507ab95b367ff251"

def k2 : String :=
  "d6e7f871713e19cca9191b2816a421843d86fc8393bcd2cc946015d58677787e89c24f260e0a85737e85e44729565160a9fc7c6c53775cd28cde69446a00cd5d"

def k3 : String :=
  "1f0c07e60bbb7c512b65a4aaa248b007eb32963fa7392b3ba0e7c1df5d758414716852364d0222cd1f6e5e45f8b9fcc48552c9832950f4a46f9c86c6ca2001cc0f1a211d9448be0ca1f7d084688f937d741615bca35d51b221535288cc4b1dcd9637175a99b6ac26bb2b5cc6bc6abb7f07561bb6a89204b9032625c90b12ab33a6c0a3b8a37ae0a08815c07c0bee27e4c16725ebb6e54d222d1ee60b47261c87721fcdb1a1b27f6e4344ea5fa8b0f0cd60ff8532ad737c59a4f184a8a5189dbd6a9387040fea39fcaa8902472f22b61daa5f67b2f078563fbbec46945d0089fe61feab462fa5fe666c0514a0d75ad3b9dc085e91271448d6e6d145c309eaefd9"

/-- The function main of the test program: the exit code, 0 when the three checks
pass. -/
def main : Except String Nat :=
  match chk hello ctx [] 1024 k1 with
  | .error e => .error e
  | .ok ok1 =>
    match chk hello ctx [] 512 k2 with
    | .error e => .error e
    | .ok ok2 =>
      match chk hello ctx salt 2048 k3 with
      | .error e => .error e
      | .ok ok3 => .ok (if ok1 && ok2 && ok3 then 0 else 1)

/-- The hex digits the hash of hello with context CTX and 1024 output bits has. -/
def hello_ctx_1024 : String :=
  "90f5ddb3817cdf1213d29a9f52643ca98ab28dd0bf04221a116be8deb7efa577e73d871b99b539e1d578f4c8c476bcf2066fb5f3432edcce80be6ae0898e0508114e3aaa0ac2394dbb3edb5fa70dd6a7b73b9d2b849da158ce34d34ba5f82c217fc34ae2e2a15eb26fde1ea69b55c0b974e92e63b107fdc71a55066bfcf37092"

/-- The hex digits the strong hash of hello with salt SALT-123, context CTX and 2048
output bits has. -/
def hello_salt_ctx_2048 : String :=
  "54399ef4b147bc21604226f4907ea98c2163f1e43e3f50b0c472fc94782375970051a11f5a46ea5e97731fd4f2554e01f64fa4f42e1f72af8ac95fb6f113c6094c641fffe5ed631dbf8980de10eb13b18c631251d3aac4473e6e4423e333ac4e4d94f42eff5b040a7bf67941db0f8c5f81804f6ab477853c0211a099de92564c82fc004e502797fef93ce5c373401bf3079b0f82dce958818ab448e6d3ed87e87fc0dc8b80866bb5eddabdfae1cae399cd7b22fa0b047c49719dc0c913563a165cf79c4db98f5805299132410f068125b4bcd77a88a32e18405a2a93149a9afd4c5edac1f4ef8103ddefef1779e305623c3c8f472ee9d3b2cf45d13e7500b9ee"

end kat

/-! ## Concrete tampered vaults -/

/-- The concrete index with the data offset of its file entry moved beyond the end of
the file. -/
def rangeIndex : index.Index :=
  ⟨demoIndex.entries.map fun e =>
    if e.type = fmt.ObjType.File then { e with data_offset := 4096 } else e⟩

/-- The trailer of the vault holding rangeIndex: the tag is the MAC of the encoded
rangeIndex under the MAC key of the concrete vault. -/
def rangeTrailer : fmt.IndexTrailer :=
  { demoTrailer with
    index_tag := [54, 27, 124, 99, 129, 222, 74, 135, 251, 88, 118, 59, 88, 66, 66, 70] }

/-- The concrete vault with rangeIndex as its authenticated index. -/
def rangeVault : Bytes :=
  vault.header_bytes demoHeader ++ demoObject ++ index.encode_index rangeIndex ++
    vault.trailer_bytes rangeTrailer

def rangeOpen : vault.VaultOpen :=
  { demoOpen with trailer := rangeTrailer, idx := rangeIndex }

/-- The trailer of the concrete vault, pointing at a second copy of the index that
starts where the concrete vault ends. -/
def nestedTrailer : fmt.IndexTrailer := { demoTrailer with index_offset := 304 }

/-- The concrete vault followed by a second copy of its index and the trailer for that
copy: 506 bytes, the first 304 of which are the concrete vault. -/
def nestedVault : Bytes :=
  demoVault ++ index.encode_index demoIndex ++ vault.trailer_bytes nestedTrailer

/-- The twelve bytes of an index header that announces 2^32 - 1 entries, with no entry
behind them. -/
def unbackedIndexBytes : Bytes := index.indexHeader 4294967295

/-- The trailer for these index bytes: the tag is their MAC under the MAC key of the
concrete vault. -/
def unbackedTrailer : fmt.IndexTrailer :=
  { demoTrailer with
    index_size := 12,
    index_tag := [49, 89, 35, 58, 91, 163, 11, 214, 184, 206, 81, 178, 9, 12, 218, 82] }

/-- The 154-byte vault made of the header and the object of the concrete vault, these
index bytes and their trailer. -/
def unbackedVault : Bytes :=
  vault.header_bytes demoHeader ++ demoObject ++ unbackedIndexBytes ++
    vault.trailer_bytes unbackedTrailer

/-- A host that refuses the storage of 2^31 entries or more. -/
def smallHost : AllocFaults := fun n => decide (2147483648 ≤ n)

/-- The file system holding the given bytes as the vault file. -/
def vaultFs (content : Bytes) : FileSys := demoFs.set "v.1654" (some content)

/-! ## core/path.hpp -/

namespace path

/-- The C string of a std::string: its bytes before the first NUL. -/
def c_str (s : Bytes) : Bytes := s.takeWhile (· ≠ 0)

/-- The function match_glob on two C strings, given without their terminating NUL;
42 is the star and 63 the question mark. After a star that is not the last character
of the pattern, the loop while (*s) tries every non-empty rest of s in turn. -/
def match_glob : Bytes → Bytes → Bool
  | [], s => decide (s = [])
  | c :: pat, s =>
    if c = 42 then
      if pat = [] then true
      else (s.tails.filter (· ≠ [])).any fun t => match_glob pat t
    else if c = 63 then
      match s with
      | [] => false
      | _ :: s1 => match_glob pat s1
    else
      match s with
      | [] => false
      | d :: s1 => if c ≠ d then false else match_glob pat s1

/-- The function match of path.hpp. -/
def match_value (pattern : Bytes) (value : Bytes) : Bool :=
  if pattern = [] then true else match_glob (c_str pattern) (c_str value)

end path

/-! ## modes/view.cpp -/

namespace modes

/-- The state of the loop of parse_flags: pattern, show_hidden, show_all. -/
structure ViewFlags where
  pattern : Bytes
  show_hidden : Bool
  show_all : Bool
  deriving DecidableEq, Repr

/-- The loop of parse_flags over the arguments from index i on, given as the list of
the arguments not yet looked at. -/
def parseFlagsLoop : List String → ViewFlags → ViewFlags
  | [], f => f
  | [a], f =>
    if a = "--hidden" then { f with show_hidden := true }
    else if a = "--all" then { f with show_all := true }
    else f
  | a :: b :: rest, f =>
    if a = "--search" then parseFlagsLoop rest { f with pattern := ascii b }
    else if a = "--hidden" then parseFlagsLoop (b :: rest) { f with show_hidden := true }
    else if a = "--all" then parseFlagsLoop (b :: rest) { f with show_all := true }
    else parseFlagsLoop (b :: rest) f

/-- The function parse_flags: the loop starts at args[1]. -/
def parse_flags (args : List String) : ViewFlags :=
  parseFlagsLoop (args.drop 1) { pattern := [], show_hidden := false, show_all := false }

/-- The body of the loop of view_cmd for one entry: none when the entry is skipped,
otherwise the bytes written to std::cout, which end with a newline. -/
def view_line (f : ViewFlags) (e : index.Entry) : Option Bytes :=
  let deleted := (e.flags &&& fmt.F_DELETED) ≠ 0
  let hidden := (e.flags &&& fmt.F_HIDDEN) ≠ 0
  if deleted ∧ ¬ f.show_all then none
  else if hidden ∧ ¬ f.show_hidden then none
  else if f.pattern ≠ [] ∧ ¬ path.match_value f.pattern e.path then none
  else
    some (e.path ++ (if e.type = fmt.ObjType.Dir then ascii "/" else []) ++
      (if deleted then ascii " [deleted]" else if hidden then ascii " [hidden]" else []) ++
      ascii "\n")

/-- The function view_cmd with the password the prompt returns: the status and the
output on std::cout, one element per entry listed. -/
def view_cmd (af : AllocFaults) (fs : FileSys) (args : List String) (password : Bytes) :
    Except String (Status × List Bytes) :=
  match args with
  | [] =>
    .ok (Status.err ExitCode.Usage
      "Usage: 1654 view <vault.1654> [--search <pattern>] [--hidden] [--all]", [])
  | vault_path :: _ =>
    let f := parse_flags args
    match vault.open_for_view af fs vault_path password with
    | .error x => .error x
    | .ok (st, vo) =>
      if ¬ st.is_ok then .ok (st, [])
      else .ok (Status.ok, vo.idx.entries.filterMap (view_line f))

end modes

/-! ## The encodings and rules as the specification words them -/

namespace spec

/-- LE32(v): the four bytes of the low 32 bits of v, least significant first. -/
def le32 (v : Nat) : Bytes := (List.range 4).map fun i => v / 256 ^ i % 256

/-- LE64(v): the eight bytes of the low 64 bits of v, least significant first. -/
def le64 (v : Nat) : Bytes := (List.range 8).map fun i => v / 256 ^ i % 256

/-- The byte string padded with zero bytes, or truncated, to n bytes. -/
def padTo (n : Nat) (v : Bytes) : Bytes := v.take n ++ List.replicate (n - v.length) 0

/-- The single byte string the hash absorbs: the domain literals, the context and the
message with their lengths and, when the salt is not empty, the salt with its length
before the FINAL literal. -/
def framed (context msg salt : Bytes) : Bytes :=
  ascii "PETORON:INIT:v1" ++
    (ascii "PETORON:CTX:v1" ++ le64 context.length ++ context) ++
    (ascii "PETORON:MSG:v1" ++ le64 msg.length ++ msg) ++
    (if salt = [] then [] else ascii "PETORON:SALT:v1" ++ le64 salt.length ++ salt) ++
    ascii "PETORON:FINAL:v1"

/-- The states of the key derivation: state 0 is the strong hash of the password, state
i + 1 the strong hash of state i followed by LE32(i + 1); when the hash fails the state
is empty. -/
def kdf_state (password salt : Bytes) (key_bytes : Nat) : Nat → Bytes
  | 0 =>
    okOr (petoron.petoron_hash_strong password salt (ascii "1654|KDF|0")
      { out_bits := 16 * key_bytes }) []
  | i + 1 =>
    okOr (petoron.petoron_hash_strong (kdf_state password salt key_bytes i ++ le32 (i + 1))
      salt (ascii "1654|KDF|R") { out_bits := 16 * key_bytes }) []

/-- The value of the four bytes at offsets k to k + 3 read as a little-endian 32-bit
number. -/
def u32_at (bs : Bytes) (k : Nat) : Nat :=
  bs.getD k 0 + 256 * bs.getD (k + 1) 0 + 256 ^ 2 * bs.getD (k + 2) 0 +
    256 ^ 3 * bs.getD (k + 3) 0

/-- The key_bits the reader uses: the first word of the reserved field, 512 when that
word is zero. -/
def reader_key_bits (reserved : Bytes) : Nat :=
  if u32_at reserved 0 ≠ 0 then u32_at reserved 0 else 512

/-- The cost the reader uses: the second word of the reserved field, 1 when that word is
zero. -/
def reader_kdf_cost (reserved : Bytes) : Nat :=
  if u32_at reserved 4 ≠ 0 then u32_at reserved 4 else 1

/-- The type byte of an entry: 1 for a file, 2 for a directory. -/
def type_byte (t : fmt.ObjType) : Nat :=
  match t with
  | fmt.ObjType.File => 1
  | fmt.ObjType.Dir => 2

/-- The serialised form of one index entry. -/
def entry_layout (e : index.Entry) : Bytes :=
  le32 e.path.length ++ e.path ++ [type_byte e.type] ++ le32 e.flags ++ le64 e.size ++
    le64 e.data_offset ++ le64 e.data_size ++ padTo 24 e.nonce ++ padTo 16 e.tag

/-- The serialised form of an index. -/
def index_layout (idx : index.Index) : Bytes :=
  [0x49, 0x44, 0x58, 0x31] ++ le32 1 ++ le32 idx.entries.length ++
    idx.entries.flatMap entry_layout

/-- The path p is the target t or lies under t followed by a slash. -/
def under (t p : Bytes) : Prop := p = t ∨ (t ++ ascii "/") <+: p

instance (t p : Bytes) : Decidable (under t p) := by
  unfold under
  exact inferInstance

/-- The path p is matched by one of the targets. -/
def matched (targets : List Bytes) (p : Bytes) : Prop := ∃ t ∈ targets, under t p

instance (targets : List Bytes) (p : Bytes) : Decidable (matched targets p) := by
  unfold matched
  exact inferInstance

/-- The entry after a delete of the targets: a matched entry gets the DELETED flag. -/
def deleted_entry (targets : List Bytes) (e : index.Entry) : index.Entry :=
  if matched targets e.path then { e with flags := e.flags ||| fmt.F_DELETED } else e

/-- The flags with the HIDDEN bit given the value hidden and every other bit as it is. -/
def with_hidden (hidden : Bool) (flags : Nat) : Nat :=
  if hidden then flags ||| fmt.F_HIDDEN else flags ^^^ (flags &&& fmt.F_HIDDEN)

/-- The entry after a stealth set or clear of the targets: a matched entry that is not
DELETED gets its HIDDEN bit set to hidden. -/
def stealth_entry (targets : List Bytes) (hidden : Bool) (e : index.Entry) : index.Entry :=
  if matched targets e.path ∧ e.flags &&& fmt.F_DELETED = 0 then
    { e with flags := with_hidden hidden e.flags }
  else e

end spec

/-! ## Concrete flag updates -/

/-- Hiding the file r/a of the concrete vault with stealth set. -/
def demoHide : Except String (Status × FileSys) :=
  vault.set_hidden_paths_in_vault demoEnv demoRng demoFs "v.1654" demoPw [[114, 47, 97]] true

def demoHidden : Status × FileSys := okOr demoHide noResult

/-- Deleting the file r/a of the concrete vault after it was hidden. -/
def demoHideDelete : Except String (Status × FileSys) :=
  vault.delete_paths_in_vault demoEnv demoRng demoHidden.2 "v.1654" demoPw [[114, 47, 97]]

def demoHiddenDeleted : Status × FileSys := okOr demoHideDelete noResult

/-- Deleting the file r/a of the concrete vault. -/
def demoDelete : Except String (Status × FileSys) :=
  vault.delete_paths_in_vault demoEnv demoRng demoFs "v.1654" demoPw [[114, 47, 97]]

def demoDeleted : Status × FileSys := okOr demoDelete noResult

/-! ## The sponge as a function of the whole input -/

namespace spec

/-- The lanes after the first n blocks of 136 bytes of d were absorbed in turn into the
lanes a. -/
def absorbBlocks : Nat → List Nat → Bytes → List Nat
  | 0, a, _ => a
  | n + 1, a, d =>
    absorbBlocks n (petoron.permute (petoron.xorBlockIntoLanes 17 a d)) (d.drop 136)

/-- The sponge object with rate 136 after the bytes d were absorbed into the lanes a:
the whole blocks of d are absorbed, the rest of d is queued and the queue is zero
behind it. -/
def sponge_state (a : List Nat) (d : Bytes) : petoron.PhashXof :=
  { a_ := absorbBlocks (d.length / 136) a d, r_ := 136, queued_ := d.length % 136,
    q_ := d.drop (d.length / 136 * 136) ++ List.replicate (200 - d.length % 136) 0 }

end spec

/-! ## The sponge of the specification -/

namespace petoron

/-- The states of a PhashXof object of rate 136 that its public interface reaches: the
constructor, reset, absorb, absorb_domain_pad and squeeze. -/
inductive Reachable : PhashXof → Prop
  | init : Reachable (PhashXof.init 136)
  | reset (x : PhashXof) : Reachable x → Reachable x.reset
  | absorb (x : PhashXof) (data : Bytes) : Reachable x → Reachable (x.absorb data)
  | absorb_domain_pad (x : PhashXof) (domain : Nat) :
    Reachable x → Reachable (x.absorb_domain_pad domain)
  | squeeze (x : PhashXof) (n : Nat) : Reachable x → Reachable (x.squeeze n).1

end petoron

namespace spec

/-- The rotation offsets of the specification, one row of five per line. -/
def R : List Nat :=
  [0, 1, 62, 28, 27] ++
  [36, 44, 6, 55, 20] ++
  [3, 10, 43, 25, 39] ++
  [41, 45, 15, 21, 8] ++
  [18, 2, 61, 56, 14]

end spec

/-! ## The type bytes of an encoded index -/

namespace spec

/-- The offsets of the type bytes of the entries in an encoded index, the first of the
entries starting at off: each entry is LE32(|path|), the path, the type byte and 68 more
bytes. -/
def type_byte_offsets : Nat → List index.Entry → List Nat
  | _, [] => []
  | off, e :: es =>
    (off + 4 + e.path.length) :: type_byte_offsets (off + 73 + e.path.length) es

end spec

/-- The encoded concrete index with the type byte of its first entry, at offset 17, set
to 0. -/
def laxIndexBytes : Bytes := (index.encode_index demoIndex).set 17 0

/-- The index laxIndexBytes decodes to: the first entry is read as a File. -/
def laxIndex : index.Index :=
  ⟨demoIndex.entries.map fun e => { e with type := fmt.ObjType.File }⟩
/-! ## The ciphertext formula of the specification -/

namespace spec

/-- The keystream of chunk c in the words of the specification: the first L bytes of
hash_strong(nonce ‖ LE64(c), enc_key, "1654|XOF", max(256, L*8)). -/
def keystream (enc_key nonce : Bytes) (c L : Nat) : Except String Bytes :=
  match petoron.petoron_hash_strong (nonce ++ le64 c) enc_key (ascii "1654|XOF")
      { out_bits := max 256 (L * 8) } with
  | .error e => .error e
  | .ok h => .ok (h.take L)

/-- The length of chunk c of a plaintext of n bytes: 65536 for every chunk but possibly
the last. -/
def chunk_len (n c : Nat) : Nat := min 65536 (n - 65536 * c)

end spec

/-! ## modes/encrypt.cpp -/

namespace modes

/-- The function encrypt_cmd from its checks of bits and cost on. The arguments bits and
cost are the values the option loop has left in the variables of these names (a size_t
and a uint32_t), out is the output path and input what the input path resolves to. -/
def encrypt_cmd (io : IoFaults) (rng : Rng) (fs : FileSys) (input : HostPath) (out : String)
    (password : Bytes) (bits cost : Nat) : Except String (Status × FileSys) :=
  if bits < 256 ∨ bits % 8 ≠ 0 then
    .ok (Status.err ExitCode.Usage "encrypt: --bits must be >= 256 and divisible by 8", fs)
  else if cost < 1 then
    .ok (Status.err ExitCode.Usage "encrypt: --cost must be >= 1", fs)
  else vault.create_vault_from_path io rng fs input out password bits cost

end modes

/-! ## core/vault_transfer.cpp -/

namespace vault

/-- The function match_prefix of vault_transfer.cpp; 47 is the slash character. -/
def match_prefix (wanted : Bytes) (entry : Bytes) : Bool :=
  if wanted = entry then true
  else if entry.length > wanted.length ∧ entry.take wanted.length = wanted ∧
      entry.getD wanted.length 0 = 47 then true
  else false

/-- The loop over the entries of the source in transfer_to_vault: content is the source
file as the stream ifs reads it, s holds the destination stream, the destination index
and the random device. The seek to data_offset, cast to a signed stream offset, fails
for an offset of 2^63 or more; the read fails when fewer than data_size bytes follow.
The plaintext goes through a string stream, on which no write fails. -/
def transferEntries (wf : WriteFaults) (content : Bytes) (src_keys dst_keys : kdf.Keys)
    (select_paths : List Bytes) (include_hidden : Bool) :
    List index.Entry → WriteState → Except String (Status × WriteState)
  | [], s => .ok (Status.ok, s)
  | e :: rest, s =>
    if (e.flags &&& fmt.F_DELETED) ≠ 0 then
      transferEntries wf content src_keys dst_keys select_paths include_hidden rest s
    else if ¬ include_hidden ∧ (e.flags &&& fmt.F_HIDDEN) ≠ 0 then
      transferEntries wf content src_keys dst_keys select_paths include_hidden rest s
    else if select_paths ≠ [] ∧ ¬ select_paths.any (fun w => match_prefix w e.path) then
      transferEntries wf content src_keys dst_keys select_paths include_hidden rest s
    else if e.type = fmt.ObjType.Dir then
      let d : index.Entry :=
        { e with data_offset := 0, data_size := 0, nonce := List.replicate NONCE_SIZE 0,
                 tag := List.replicate TAG_SIZE 0 }
      transferEntries wf content src_keys dst_keys select_paths include_hidden rest
        { s with idx := ⟨s.idx.entries ++ [d]⟩ }
    else if 2 ^ 63 ≤ e.data_offset then .ok (io_err "transfer: seek source failed", s)
    else
      let cipher := (content.drop e.data_offset).take e.data_size
      if cipher.length ≠ e.data_size then
        .ok (io_err "transfer: read source object failed", s)
      else
        match obj.decrypt_stream (fun _ => false) cipher OStream.fresh src_keys.enc src_keys.mac
            e.nonce e.data_size e.tag with
        | .error x => .error x
        | .ok (st2, pout) =>
          if ¬ st2.is_ok then .ok (st2, s)
          else
            let plain := pout.data
            let r := s.rng.bytes NONCE_SIZE
            let fe : index.Entry :=
              { e with size := plain.length % U64, nonce := r.1, data_offset := s.ofs.tellp }
            match obj.encrypt_stream wf plain s.ofs dst_keys.enc dst_keys.mac fe.nonce with
            | .error x => .error x
            | .ok res =>
              if ¬ res.status.is_ok then
                .ok (res.status, { ofs := res.out, idx := s.idx, rng := r.2 })
              else
                transferEntries wf content src_keys dst_keys select_paths include_hidden rest
                  { ofs := res.out,
                    idx := ⟨s.idx.entries ++
                      [{ fe with data_size := res.bytes_written, tag := res.tag }]⟩,
                    rng := r.2 }

/-- The body of transfer_to_vault with its local constants key_bits and kdf_cost as
parameters, for a destination path other than the source path: the source is read as it
was when the call began. The result is the status and the file system after the call;
once the destination stream is open, the destination holds what was written before the
return. -/
def transfer_with (key_bits kdf_cost : Nat) (io : IoFaults) (rng : Rng) (fs : FileSys)
    (src_vault : String) (src_password : Bytes) (dst_vault : String) (dst_password : Bytes)
    (select_paths : List Bytes) (include_hidden : Bool) : Except String (Status × FileSys) :=
  match open_for_view io.reserveFails fs src_vault src_password with
  | .error x => .error x
  | .ok (st, src) =>
    if ¬ st.is_ok then .ok (st, fs)
    else
      let r1 := rng.bytes SALT_SIZE
      let r2 := r1.2.bytes NONCE_SIZE
      let key_bytes := bits_to_bytes key_bits
      let dst_h : fmt.GlobalHeader :=
        { fmt.GlobalHeader.init with
          magic := fmt.VAULT_MAGIC, version := VERSION, salt := r1.1, nonce := r2.1,
          reserved := write_u32_le (key_bits % U32) ++ write_u32_le kdf_cost ++
            List.replicate 24 0 }
      match kdf.derive dst_password dst_h.salt key_bytes kdf_cost with
      | .error x => .error x
      | .ok dst_keys =>
        match (if io.reopenFails then none else fs src_vault) with
        | none => .ok (io_err "transfer: cannot open source vault", fs)
        | some content =>
          if io.createFails then .ok (io_err "transfer: cannot create destination vault", fs)
          else
            let ofs := (write_global_header io.writes OStream.fresh dst_h).1
            if ¬ ofs.good then
              .ok (io_err "transfer: write header failed", fs.set dst_vault (some ofs.data))
            else
              match transferEntries io.writes content src.keys dst_keys select_paths
                  include_hidden src.idx.entries { ofs := ofs, idx := ⟨[]⟩, rng := r2.2 } with
              | .error x => .error x
              | .ok (st1, s1) =>
                if ¬ st1.is_ok then .ok (st1, fs.set dst_vault (some s1.ofs.data))
                else
                  match write_index_and_trailer io.writes s1.ofs dst_keys s1.idx
                      "transfer: write index failed" "transfer: write trailer failed" with
                  | .error x => .error x
                  | .ok (st2, ofs2) => .ok (st2, fs.set dst_vault (some ofs2.data))

/-- The function transfer_to_vault: key_bits is DEFAULT_KEY_BITS and kdf_cost is
DEFAULT_KDF_COST. -/
def transfer_to_vault (io : IoFaults) (rng : Rng) (fs : FileSys) (src_vault : String)
    (src_password : Bytes) (dst_vault : String) (dst_password : Bytes)
    (select_paths : List Bytes) (include_hidden : Bool) : Except String (Status × FileSys) :=
  transfer_with DEFAULT_KEY_BITS DEFAULT_KDF_COST io rng fs src_vault src_password dst_vault
    dst_password select_paths include_hidden

end vault

namespace spec

/-- The selection rule of transfer in the words of the specification: the entry is not
DELETED, is not HIDDEN unless include_hidden, and, when select_paths is not empty, its
path equals some w of select_paths or starts with w followed by a slash. -/
def transfer_selects (select_paths : List Bytes) (include_hidden : Bool) (e : index.Entry) :
    Bool :=
  decide (e.flags &&& fmt.F_DELETED = 0 ∧ (include_hidden = true ∨ e.flags &&& fmt.F_HIDDEN = 0) ∧
    (select_paths = [] ∨ matched select_paths e.path))

end spec

namespace vault

/-- What transfer leaves for a selected source entry e of the source file content: the
destination entry d in the destination bytes data. The path, type and flags are those
of e; a Dir entry keeps its size and carries no object; for a File entry the data_size
bytes of the source object decrypt under the source keys to a plaintext P of data_size
bytes, d has size and data_size equal to the length of P and a nonce of 24
bytes, and, in a destination shorter than 2^63 bytes, the range of d holds an object
that decrypts under the destination keys, the nonce and the tag of d to P. -/
def Transferred (src_keys dst_keys : kdf.Keys) (content data : Bytes) (e d : index.Entry) :
    Prop :=
  d.path = e.path ∧ d.type = e.type ∧ d.flags = e.flags ∧
  (e.type = fmt.ObjType.Dir → d.size = e.size ∧ ZeroDir d) ∧
  (e.type ≠ fmt.ObjType.Dir →
    ∃ (P : Bytes) (out : OStream),
      obj.decrypt_stream (fun _ => false) ((content.drop e.data_offset).take e.data_size)
        OStream.fresh src_keys.enc src_keys.mac e.nonce e.data_size e.tag =
          .ok (Status.ok, out) ∧
      out.data = P ∧ P.length = e.data_size ∧ d.size = P.length ∧
      d.data_size = e.data_size ∧ d.nonce.length = NONCE_SIZE ∧
      (data.length < 2 ^ 63 → ObjectAt dst_keys data d (e.path, P)))

end vault

/-! ## modes/extract.cpp -/

namespace modes

/-- The function match_path_prefix; 47 is the slash character. -/
def match_path_prefix (wanted : Bytes) (entry : Bytes) : Bool :=
  if wanted = entry then true
  else if entry.length > wanted.length ∧ entry.take wanted.length = wanted ∧
      entry.getD wanted.length 0 = 47 then true
  else false

/-- What can fail on the host during an extract: opening the vault for reading, creating
the output file of an entry (given by the path of the entry), the write calls on an
output file, and the reservation in decode_index. -/
structure ExtractFaults where
  openFails : Bool
  createFails : Bytes → Bool
  writes : WriteFaults
  reserveFails : AllocFaults

def ExtractFaults.none : ExtractFaults :=
  { openFails := false, createFails := fun _ => false, writes := fun _ => false,
    reserveFails := noAllocFaults }

/-- The files under the output directory: the content of the output file of an entry
path, if the file exists. An output file is identified with the path of its entry. -/
abbrev OutDir := Bytes → Option Bytes

def OutDir.set (d : OutDir) (path : Bytes) (c : Option Bytes) : OutDir :=
  fun p => if p = path then c else d p

/-- The loop over the entries in extract_cmd: content is the vault file as the stream
ifs reads it, any is the flag of the same name. The output file of an entry is created
empty before the seek; the seek to data_offset, cast to a signed stream offset, fails for
an offset of 2^63 or more; decrypt_stream writes to the output file before it checks the
tag. -/
def extractLoop (xf : ExtractFaults) (content : Bytes) (keys : kdf.Keys)
    (include_hidden : Bool) (wanted : List Bytes) :
    List index.Entry → OutDir → Bool → Except String (Status × OutDir)
  | [], d, any =>
    if ¬ any then .ok (Status.err ExitCode.IoError "extract: no matching files", d)
    else .ok (Status.ok, d)
  | e :: rest, d, any =>
    if e.type ≠ fmt.ObjType.File then extractLoop xf content keys include_hidden wanted rest d any
    else if (e.flags &&& fmt.F_DELETED) ≠ 0 then
      extractLoop xf content keys include_hidden wanted rest d any
    else if ¬ include_hidden ∧ (e.flags &&& fmt.F_HIDDEN) ≠ 0 then
      extractLoop xf content keys include_hidden wanted rest d any
    else if ¬ wanted.any (fun w => match_path_prefix w e.path) then
      extractLoop xf content keys include_hidden wanted rest d any
    else if xf.createFails e.path then
      .ok (Status.err ExitCode.IoError "extract: cannot create output file", d)
    else if 2 ^ 63 ≤ e.data_offset then
      .ok (Status.err ExitCode.IoError "extract: seek failed", d.set e.path (some []))
    else
      match obj.decrypt_stream xf.writes (content.drop e.data_offset) OStream.fresh keys.enc
          keys.mac e.nonce e.data_size e.tag with
      | .error x => .error x
      | .ok (st2, ofs) =>
        if ¬ st2.is_ok then .ok (st2, d.set e.path (some ofs.data))
        else
          extractLoop xf content keys include_hidden wanted rest (d.set e.path (some ofs.data))
            true

/-- The function extract_cmd without the --to branch, from the check of the wanted paths
on: wanted and include_hidden are what the option loop has collected, d the files under
the output directory before the call. -/
def extract_cmd (xf : ExtractFaults) (fs : FileSys) (vault_path : String) (password : Bytes)
    (wanted : List Bytes) (include_hidden : Bool) (d : OutDir) :
    Except String (Status × OutDir) :=
  if wanted = [] then .ok (Status.err ExitCode.Usage "extract: no paths specified", d)
  else
    match vault.open_for_view xf.reserveFails fs vault_path password with
    | .error x => .error x
    | .ok (st, vo) =>
      if ¬ st.is_ok then .ok (st, d)
      else
        match (if xf.openFails then none else fs vault_path) with
        | none => .ok (Status.err ExitCode.IoError "extract: cannot open vault file", d)
        | some content =>
          extractLoop xf content vo.keys include_hidden wanted vo.idx.entries d false

end modes

/-! ## A concrete transfer -/

namespace spec

/-- The destination entry d of a selected source entry e in the words of the
specification: d keeps the path, type and flags of e, is not DELETED, and a Dir entry is
written with data_offset = data_size = 0 and all-zero nonce and tag. -/
def transfer_copy (e d : index.Entry) : Prop :=
  d.path = e.path ∧ d.type = e.type ∧ d.flags = e.flags ∧ d.flags &&& fmt.F_DELETED = 0 ∧
    (d.type = fmt.ObjType.Dir →
      d.data_offset = 0 ∧ d.data_size = 0 ∧ d.nonce = List.replicate 24 0 ∧
        d.tag = List.replicate 16 0)

end spec

/-- Transferring every visible entry of the concrete vault to w.1654 under the password
dw. -/
def demoTransfer : Except String (Status × FileSys) :=
  vault.transfer_to_vault IoFaults.none demoRng demoFs "v.1654" demoPw "w.1654" [100, 119] []
    false

def demoTransferred : Status × FileSys := okOr demoTransfer noResult

/-! ## Replacement: the entries and a concrete vault with a file below a file -/

namespace spec

/-- The entry is a File entry with the path of the target that is not DELETED. -/
def live_file_at (target : Bytes) (e : index.Entry) : Bool :=
  decide (e.path = target ∧ e.type = fmt.ObjType.File ∧ e.flags &&& fmt.F_DELETED = 0)

/-- The entry after a replacement of the target: a File entry with the path of the
target that is not DELETED gets the DELETED flag, every other entry stays as it is. -/
def replaced_entry (target : Bytes) (e : index.Entry) : index.Entry :=
  if live_file_at target e then { e with flags := e.flags ||| fmt.F_DELETED } else e

/-- The entry is one extract_cmd writes a file for: a File entry that is not DELETED, is
not HIDDEN unless include_hidden, and whose path is matched by one of the wanted
paths. -/
def extract_selects (wanted : List Bytes) (include_hidden : Bool) (e : index.Entry) : Bool :=
  decide (e.type = fmt.ObjType.File ∧ e.flags &&& fmt.F_DELETED = 0 ∧
    (include_hidden = true ∨ e.flags &&& fmt.F_HIDDEN = 0) ∧ matched wanted e.path)

end spec

/-- The concrete index followed by an entry for a file r/a/b, below the file r/a, whose
object would lie beyond the end of the vault file. -/
def belowIndex : index.Index :=
  ⟨demoIndex.entries ++
    [{ path := [114, 47, 97, 47, 98], type := fmt.ObjType.File, flags := 1, size := 1,
       data_offset := 4096, data_size := 1, nonce := List.replicate 24 0,
       tag := List.replicate 16 0 }]⟩

/-- The trailer of the vault holding belowIndex: the tag is the MAC of the encoded
belowIndex under the MAC key of the concrete vault. -/
def belowTrailer : fmt.IndexTrailer :=
  { demoTrailer with
    index_size := 240,
    index_tag := [68, 188, 218, 115, 29, 245, 163, 186, 60, 57, 92, 148, 202, 228, 212, 30] }

/-- The concrete vault with belowIndex as its authenticated index. -/
def belowVault : Bytes :=
  vault.header_bytes demoHeader ++ demoObject ++ index.encode_index belowIndex ++
    vault.trailer_bytes belowTrailer

def belowOpen : vault.VaultOpen :=
  { demoOpen with trailer := belowTrailer, idx := belowIndex }

/-- Replacing the file r/a of that vault by a file holding the byte 120. -/
def belowReplace : Except String (Status × FileSys) :=
  vault.replace_file_in_vault demoEnv demoRng (vaultFs belowVault) "v.1654" demoPw [114, 47, 97]
    (HostPath.file [98] (some [120]))

/-- Extracting r/a from the vault the replacement left, into an empty output
directory. -/
def belowExtract : Except String (Status × modes.OutDir) :=
  match belowReplace with
  | .error x => .error x
  | .ok r =>
    modes.extract_cmd modes.ExtractFaults.none r.2 "v.1654" demoPw [[114, 47, 97]] false
      (fun _ => none)

/-- Extracting r/a from the concrete vault after the replacement of r/a, into an empty
output directory. -/
def demoExtract : Except String (Status × modes.OutDir) :=
  modes.extract_cmd modes.ExtractFaults.none demoReplaced.2 "v.1654" demoPw [[114, 47, 97]]
    false (fun _ => none)


/-! # Theorems -/

/-! ## The sponge: shape invariants -/

namespace petoron

theorem theta_length (a : List Nat) (h : a.length = 25) : (theta a).length = 25 := by
  unfold theta
  split
  · rfl
  · exact h

theorem rhoPi_length (a : List Nat) (h : a.length = 25) : (rhoPi a).length = 25 := by
  unfold rhoPi
  split
  · rfl
  · exact h

theorem chi_length (a : List Nat) (h : a.length = 25) : (chi a).length = 25 := by
  unfold chi
  split
  · rfl
  · exact h

theorem iota_length (a : List Nat) (r : Nat) : (iota a r).length = a.length := by
  unfold iota
  split <;> rfl

theorem keccakRound_length (a : List Nat) (r : Nat) (h : a.length = 25) :
    (keccakRound a r).length = 25 := by
  unfold keccakRound
  rw [iota_length]
  exact chi_length _ (rhoPi_length _ (theta_length _ h))

theorem foldl_keccakRound_length (rs : List Nat) (a : List Nat) (h : a.length = 25) :
    (rs.foldl keccakRound a).length = 25 := by
  induction rs generalizing a with
  | nil => exact h
  | cons r rs ih => exact ih _ (keccakRound_length a r h)

theorem permute_length (a : List Nat) (h : a.length = 25) : (permute a).length = 25 :=
  foldl_keccakRound_length _ a h

theorem xorBlockIntoLanes_length (n : Nat) (a : List Nat) (block : Bytes) :
    (xorBlockIntoLanes n a block).length = a.length := by
  induction n generalizing a block with
  | zero => simp [xorBlockIntoLanes]
  | succ n ih =>
    cases a with
    | nil => simp [xorBlockIntoLanes]
    | cons l a => simp [xorBlockIntoLanes, ih]

theorem init_shaped : (PhashXof.init 136).Shaped := by
  simp [PhashXof.Shaped, PhashXof.init]

theorem absorb_block_shaped (x : PhashXof) (block : Bytes) (h : x.Shaped) :
    (x.absorb_block block).Shaped := by
  refine ⟨?_, h.2⟩
  simp only [PhashXof.absorb_block]
  exact permute_length _ (by rw [xorBlockIntoLanes_length]; exact h.1)

theorem absorbWhole_shaped (fuel : Nat) (x : PhashXof) (data : Bytes) (off : Nat)
    (h : x.Shaped) : (absorbWhole fuel x data off).1.Shaped := by
  induction fuel generalizing x off with
  | zero => exact h
  | succ n ih =>
    simp only [absorbWhole]
    split
    · exact ih _ _ (absorb_block_shaped _ _ h)
    · exact h

theorem absorbQueued_shaped (x : PhashXof) (data : Bytes) (h : x.Shaped) :
    (x.absorbQueued data).1.Shaped := by
  unfold PhashXof.absorbQueued
  split
  · simp only
    split
    · exact absorb_block_shaped { x with q_ := _, queued_ := _ } _ h
    · exact h
  · exact h

theorem absorbRest_shaped (x : PhashXof) (data : Bytes) (off : Nat) (h : x.Shaped) :
    (x.absorbRest data off).Shaped := by
  unfold PhashXof.absorbRest
  split
  · exact h
  · exact h

theorem absorb_shaped (x : PhashXof) (data : Bytes) (h : x.Shaped) : (x.absorb data).Shaped := by
  unfold PhashXof.absorb
  exact absorbRest_shaped _ _ _ (absorbWhole_shaped _ _ _ _ (absorbQueued_shaped _ _ h))

theorem absorb_tagged_shaped (x : PhashXof) (tag data : Bytes) (h : x.Shaped) :
    (absorb_tagged x tag data).Shaped := by
  unfold absorb_tagged absorb_len_le
  simp only
  split
  · exact absorb_shaped _ _ (absorb_shaped _ _ (absorb_shaped _ _ h))
  · exact absorb_shaped _ _ (absorb_shaped _ _ h)

theorem absorb_domain_pad_shaped (x : PhashXof) (d : Nat) (h : x.Shaped) :
    (x.absorb_domain_pad d).Shaped := by
  unfold PhashXof.absorb_domain_pad
  exact absorb_block_shaped { x with q_ := _ } _ h

theorem store_le64_length (v : Nat) : (store_le64 v).length = 8 := by
  simp [store_le64]

theorem flatMap_store_le64_length (l : List Nat) : (l.flatMap store_le64).length = 8 * l.length := by
  induction l with
  | nil => rfl
  | cons a l ih => simp [List.flatMap_cons, store_le64_length, ih]; omega

theorem extract_block_length (x : PhashXof) (h : x.Shaped) : x.extract_block.length = 136 := by
  unfold PhashXof.extract_block
  rw [flatMap_store_le64_length, List.length_take, h.1, h.2]
  rfl

theorem squeezeLoop_length (fuel : Nat) (x : PhashXof) (want : Nat) (acc : Bytes)
    (h : x.Shaped) (hf : want ≤ fuel) :
    (squeezeLoop fuel x want acc).2.length = acc.length + want := by
  induction fuel generalizing x want acc with
  | zero =>
    have : want = 0 := by omega
    simp [squeezeLoop, this]
  | succ n ih =>
    simp only [squeezeLoop]
    have hr136 : x.r_ = 136 := h.2
    by_cases hw : 0 < want
    · rw [if_pos hw]
      have hlen : (x.extract_block.take (min x.r_ want)).length = min 136 want := by
        rw [List.length_take, extract_block_length x h, hr136]
        omega
      by_cases hr : 0 < want - min x.r_ want
      · rw [if_pos hr]
        have hsh : PhashXof.Shaped { x with a_ := permute x.a_ } := ⟨permute_length _ h.1, h.2⟩
        have hle : want - min x.r_ want ≤ n := by rw [hr136] at hr ⊢; omega
        have := ih { x with a_ := permute x.a_ } (want - min x.r_ want)
          (acc ++ x.extract_block.take (min x.r_ want)) hsh hle
        rw [this, List.length_append, hlen, hr136]
        omega
      · rw [if_neg hr]
        simp only [List.length_append, hlen]
        rw [hr136] at hr
        omega
    · rw [if_neg hw]
      simp only
      omega

theorem squeeze_length (x : PhashXof) (n : Nat) (h : x.Shaped) : (x.squeeze n).2.length = n := by
  unfold PhashXof.squeeze
  rw [squeezeLoop_length n x n [] h (Nat.le_refl n)]
  simp

theorem phash_core_length (context msg salt : Bytes) (out_bits : Nat) :
    (phash_core context msg salt out_bits).length = (out_bits + 7) % U64 / 8 := by
  unfold phash_core
  simp only
  apply squeeze_length
  apply absorb_domain_pad_shaped
  apply absorb_shaped
  split
  · exact absorb_tagged_shaped _ _ _
      (absorb_tagged_shaped _ _ _ (absorb_tagged_shaped _ _ _ (absorb_shaped _ _ init_shaped)))
  · exact absorb_tagged_shaped _ _ _ (absorb_tagged_shaped _ _ _ (absorb_shaped _ _ init_shaped))

theorem petoron_hash_strong_ok (msg salt context : Bytes) (p : HashParams)
    (hs : salt ≠ []) (hp : 256 ≤ p.out_bits) :
    petoron_hash_strong msg salt context p = .ok (phash_core context msg salt p.out_bits) := by
  unfold petoron_hash_strong validate_params
  have h1 : ¬ ¬ (p.out_bits ≥ 256) := fun h => h hp
  simp [h1, hs]

end petoron

/-! ## The unrolled round is the round of the source -/

namespace petoron

end petoron

/-! ## Keystream, MAC and object encryption -/

theorem xof_generate_length (key nonce : Bytes) (counter n : Nat) (ks : Bytes)
    (h : xof.generate key nonce counter n = .ok ks) : ks.length = n := by
  unfold xof.generate at h
  simp only at h
  split at h
  · cases h
  · split at h
    · cases h
    · rename_i full _ hlen
      cases h
      rw [List.length_take]
      omega

theorem xof_generate_ok (key nonce : Bytes) (counter n : Nat) (hk : key ≠ [])
    (hn : n ≤ obj.CHUNK) : ∃ ks, xof.generate key nonce counter n = .ok ks := by
  unfold xof.generate
  simp only
  rw [petoron.petoron_hash_strong_ok _ _ _ _ hk (by simp)]
  simp only
  rw [if_neg]
  · exact ⟨_, rfl⟩
  · rw [petoron.phash_core_length]
    simp only [obj.CHUNK, U64] at hn ⊢
    omega

theorem mac_compute_length (key data t : Bytes) (h : mac.compute key data = .ok t) :
    t.length = 16 := by
  unfold mac.compute at h
  simp only at h
  split at h
  · cases h
  · split at h
    · cases h
    · rename_i full _ hlen
      cases h
      rw [List.length_take]
      simp only [TAG_SIZE] at hlen ⊢
      omega

theorem mac_compute_ok (key data : Bytes) (hk : key ≠ []) : ∃ t, mac.compute key data = .ok t := by
  unfold mac.compute
  simp only
  rw [petoron.petoron_hash_strong_ok _ _ _ _ hk (by simp)]
  simp only
  rw [if_neg]
  · exact ⟨_, rfl⟩
  · rw [petoron.phash_core_length]
    simp [TAG_SIZE, U64]

theorem mac_verify_of_compute (key data t : Bytes) (h : mac.compute key data = .ok t) :
    mac.verify key data t = .ok true := by
  unfold mac.verify
  rw [h]
  simp

theorem xorBytes_length (buf ks : Bytes) (h : ks.length = buf.length) :
    (obj.xorBytes buf ks).length = buf.length := by
  simp [obj.xorBytes, h]

theorem xorBytes_xorBytes (buf ks : Bytes) (h : ks.length = buf.length) :
    obj.xorBytes (obj.xorBytes buf ks) ks = buf := by
  induction buf generalizing ks with
  | nil => simp [obj.xorBytes]
  | cons b buf ih =>
    cases ks with
    | nil => simp at h
    | cons k ks =>
      simp only [List.length_cons, Nat.add_right_cancel_iff] at h
      have := ih ks h
      simp only [obj.xorBytes, List.zipWith_cons_cons] at this ⊢
      rw [this, Nat.xor_cancel_right]

theorem write_noFaults (s : OStream) (bs : Bytes) (h : s.good = true) :
    (s.write noFaults bs).good = true ∧ (s.write noFaults bs).data = s.data ++ bs := by
  simp [OStream.write, h, noFaults]

theorem write_good (wf : WriteFaults) (s : OStream) (bs : Bytes)
    (h : (s.write wf bs).good = true) : (s.write wf bs).data = s.data ++ bs ∧ s.good = true := by
  unfold OStream.write at h ⊢
  by_cases hg : s.good = true
  · rw [if_pos hg] at h ⊢
    by_cases hw : wf s.nwrites = true
    · rw [if_pos hw] at h
      simp at h
    · rw [if_neg hw]
      exact ⟨rfl, hg⟩
  · rw [if_neg hg] at h
    exact absurd h hg

/-- What a successful run of the encrypt loop leaves behind, and that the decrypt loop
run over the produced ciphertext undoes it. -/
theorem encryptLoop_decryptLoop (wf : WriteFaults) (ke nonce : Bytes) (fuel : Nat) :
    ∀ (inp : Bytes) (st st1 : obj.EncState), inp.length < fuel →
      obj.encryptLoop wf ke nonce fuel inp st = .ok (true, st1) →
      ∃ C : Bytes, st1.out.data = st.out.data ++ C ∧ st1.mac_buf = st.mac_buf ++ C ∧
        C.length = inp.length ∧ st1.written % U64 = (st.written + inp.length) % U64 ∧
        (st.out.good = true → st1.out.good = true) ∧ (st.written < U64 → st1.written < U64) ∧
        ∀ (fuel2 : Nat) (d : obj.DecState), inp.length < fuel2 → d.out.good = true →
          d.counter = st.counter →
          ∃ d1 : obj.DecState,
            obj.decryptLoop noFaults ke nonce fuel2 C inp.length d = .ok (none, d1) ∧
            d1.out.good = true ∧ d1.out.data = d.out.data ++ inp ∧
            d1.mac_buf = d.mac_buf ++ C := by
  induction fuel with
  | zero => intro inp st st1 h; omega
  | succ n ih =>
    intro inp st st1 hfuel henc
    simp only [obj.encryptLoop] at henc
    by_cases hgot : (inp.take obj.CHUNK).length = 0
    · rw [if_pos hgot] at henc
      have hinp : inp = [] := by
        rw [List.length_take] at hgot
        have : inp.length = 0 := by simp only [obj.CHUNK] at hgot; omega
        exact List.length_eq_zero.mp this
      cases henc
      subst hinp
      refine ⟨[], by simp, by simp, rfl, by simp, fun h => h, fun h => h, ?_⟩
      intro fuel2 d hf2 hg hc
      refine ⟨d, ?_, hg, by simp, by simp⟩
      cases fuel2 with
      | zero => simp at hf2
      | succ m => simp [obj.decryptLoop]
    · rw [if_neg hgot] at henc
      cases hx : xof.generate ke nonce st.counter (inp.take obj.CHUNK).length with
      | error e => rw [hx] at henc; cases henc
      | ok ks =>
        rw [hx] at henc
        simp only at henc
        have hks : ks.length = (inp.take obj.CHUNK).length := xof_generate_length _ _ _ _ _ hx
        by_cases hgood : (st.out.write wf (obj.xorBytes (inp.take obj.CHUNK) ks)).good = true
        · rw [if_neg (by simpa using hgood)] at henc
          have hw := write_good wf st.out _ hgood
          have hdrop : (inp.drop obj.CHUNK).length < n := by
            rw [List.length_drop]
            rw [List.length_take] at hgot
            simp only [obj.CHUNK] at hgot ⊢
            omega
          obtain ⟨C1, hd1, hm1, hl1, hwr1, hg1, hlt1, hdec⟩ := ih _ _ _ hdrop henc
          have hb1 : (obj.xorBytes (inp.take obj.CHUNK) ks).length = (inp.take obj.CHUNK).length :=
            xorBytes_length _ _ hks
          have hsplit : (inp.take obj.CHUNK).length + (inp.drop obj.CHUNK).length = inp.length := by
            rw [← List.length_append, List.take_append_drop]
          refine ⟨obj.xorBytes (inp.take obj.CHUNK) ks ++ C1, ?_, ?_, ?_, ?_, ?_, ?_, ?_⟩
          · rw [hd1, hw.1, List.append_assoc]
          · rw [hm1, List.append_assoc]
          · rw [List.length_append, hb1, hl1, hsplit]
          · simp only [U64] at hwr1 ⊢
            omega
          · intro _; exact hg1 hgood
          · intro _; exact hlt1 (Nat.mod_lt _ (by simp [U64]))
          · intro fuel2 d hf2 hg hc
            cases fuel2 with
            | zero => omega
            | succ m =>
              have hne : inp.length ≠ 0 := by
                intro h0
                rw [List.length_take, h0] at hgot
                simp at hgot
              have hwant : (if inp.length > obj.CHUNK then obj.CHUNK else inp.length) =
                  (inp.take obj.CHUNK).length := by
                rw [List.length_take]
                split <;> omega
              simp only [obj.decryptLoop]
              rw [if_neg hne, hwant]
              have htake : (obj.xorBytes (inp.take obj.CHUNK) ks ++ C1).take
                  (inp.take obj.CHUNK).length = obj.xorBytes (inp.take obj.CHUNK) ks := by
                rw [← hb1, List.take_left]
              have hdropC : (obj.xorBytes (inp.take obj.CHUNK) ks ++ C1).drop
                  (inp.take obj.CHUNK).length = C1 := by
                rw [← hb1, List.drop_left]
              rw [htake, hdropC]
              rw [if_neg (by rw [hb1]; simp)]
              rw [hc, hx]
              simp only
              rw [xorBytes_xorBytes _ _ hks]
              have hwn := write_noFaults d.out (inp.take obj.CHUNK) hg
              rw [if_neg (by simp [hwn.1])]
              have hrem : inp.length - (inp.take obj.CHUNK).length = (inp.drop obj.CHUNK).length := by
                omega
              rw [hrem]
              obtain ⟨d1, hdl, hdg, hdd, hdm⟩ := hdec m
                { out := d.out.write noFaults (inp.take obj.CHUNK),
                  mac_buf := d.mac_buf ++ obj.xorBytes (inp.take obj.CHUNK) ks,
                  counter := (st.counter + 1) % U64 }
                (by omega) hwn.1 rfl
              refine ⟨d1, hdl, hdg, ?_, ?_⟩
              · rw [hdd, hwn.2, List.append_assoc, List.take_append_drop]
              · rw [hdm, List.append_assoc]
        · rw [if_pos (by simpa using hgood)] at henc
          cases henc

/-- On a stream without write faults and with a non-empty key the encrypt loop runs to
its normal exit. -/
theorem encryptLoop_ok (ke nonce : Bytes) (hk : ke ≠ []) (fuel : Nat) :
    ∀ (inp : Bytes) (st : obj.EncState), st.out.good = true →
      ∃ st1, obj.encryptLoop noFaults ke nonce fuel inp st = .ok (true, st1) := by
  induction fuel with
  | zero => intro inp st _; exact ⟨st, rfl⟩
  | succ n ih =>
    intro inp st hg
    simp only [obj.encryptLoop]
    by_cases hgot : (inp.take obj.CHUNK).length = 0
    · rw [if_pos hgot]
      exact ⟨st, rfl⟩
    · rw [if_neg hgot]
      obtain ⟨ks, hks⟩ := xof_generate_ok ke nonce st.counter (inp.take obj.CHUNK).length hk
        (by rw [List.length_take]; exact Nat.min_le_left _ _)
      rw [hks]
      simp only
      have hw := write_noFaults st.out (obj.xorBytes (inp.take obj.CHUNK) ks) hg
      rw [if_neg (by simp [hw.1])]
      exact ih _ _ hw.1

/-- Shape of a successful encrypt_stream call and its inversion by decrypt_stream. -/
theorem encrypt_stream_decrypt_stream (wf : WriteFaults) (P ke km nonce : Bytes) (out : OStream)
    (r : obj.EncResult)
    (henc : obj.encrypt_stream wf P out ke km nonce = .ok r) (hok : r.status.is_ok = true) :
    ∃ C : Bytes, r.out.data = out.data ++ C ∧ C.length = P.length ∧
      mac.compute km C = .ok r.tag ∧ (out.good = true → r.out.good = true) ∧
      r.bytes_written < U64 ∧
      (P.length < U64 → r.bytes_written = P.length ∧
        ∀ out2 : OStream, out2.good = true →
          ∃ out3 : OStream,
            obj.decrypt_stream noFaults C out2 ke km nonce r.bytes_written r.tag =
              .ok (Status.ok, out3) ∧
            out3.data = out2.data ++ P ∧ out3.good = true) := by
  unfold obj.encrypt_stream at henc
  cases hl : obj.encryptLoop wf ke nonce (P.length + 1) P
      { out := out, mac_buf := [], counter := 0, written := 0 } with
  | error e => rw [hl] at henc; cases henc
  | ok res =>
    obtain ⟨b, st1⟩ := res
    rw [hl] at henc
    cases b with
    | false =>
      simp only at henc
      cases henc
      simp [Status.err, Status.is_ok] at hok
    | true =>
      simp only at henc
      cases hm : mac.compute km st1.mac_buf with
      | error e => rw [hm] at henc; cases henc
      | ok tag =>
        rw [hm] at henc
        cases henc
        obtain ⟨C, hd, hmb, hlen, hwr, hg, hlt, hdec⟩ :=
          encryptLoop_decryptLoop wf ke nonce (P.length + 1) P _ st1 (Nat.lt_succ_self _) hl
        simp only [List.nil_append, Nat.zero_add] at hmb hwr
        have h1 : st1.written < U64 := hlt (by simp [U64])
        refine ⟨C, hd, hlen, by rw [← hmb]; exact hm, hg, h1, ?_⟩
        intro hP
        have hwritten : st1.written = P.length := by
          rw [Nat.mod_eq_of_lt h1, Nat.mod_eq_of_lt hP] at hwr
          exact hwr
        refine ⟨hwritten, ?_⟩
        intro out2 hg2
        obtain ⟨d1, hdl, hdg, hdd, hdm⟩ := hdec (P.length + 1)
          { out := out2, mac_buf := [], counter := 0 } (Nat.lt_succ_self _) hg2 rfl
        refine ⟨d1.out, ?_, hdd, hdg⟩
        unfold obj.decrypt_stream
        simp only [hwritten]
        rw [hdl]
        simp only
        rw [hdm, List.nil_append, ← hmb, mac_verify_of_compute _ _ _ hm]
        simp

/-! ## C1 -/

/-- C1 (object round-trip): for every plaintext P shorter than 2^64 bytes, non-empty
enc_key and mac_key and every nonce, encrypt_stream into a fault-free stream returns Ok;
and whenever encrypt_stream returns Ok, having appended ciphertext C with bytes_written n
and tag t, then n = |P| = |C| and decrypt_stream over C with the same keys and nonce,
data_size = n and expected_tag = t returns Ok and appends exactly P to its output. -/
theorem C1_object_round_trip (P key_enc key_mac nonce : Bytes)
    (hk : key_enc ≠ []) (hm : key_mac ≠ []) (hP : P.length < U64) :
    (∃ r, obj.encrypt_stream noFaults P OStream.fresh key_enc key_mac nonce = .ok r ∧
      r.status = Status.ok) ∧
    ∀ (wf : WriteFaults) (out : OStream) (r : obj.EncResult),
      obj.encrypt_stream wf P out key_enc key_mac nonce = .ok r → r.status = Status.ok →
      ∃ C : Bytes, r.out.data = out.data ++ C ∧ r.bytes_written = P.length ∧
        C.length = P.length ∧
        ∀ out2 : OStream, out2.good = true →
          ∃ out3 : OStream,
            obj.decrypt_stream noFaults C out2 key_enc key_mac nonce r.bytes_written r.tag =
              .ok (Status.ok, out3) ∧
            out3.data = out2.data ++ P := by
  constructor
  · unfold obj.encrypt_stream
    obtain ⟨st1, h1⟩ := encryptLoop_ok key_enc nonce hk (P.length + 1) P
      { out := OStream.fresh, mac_buf := [], counter := 0, written := 0 } rfl
    rw [h1]
    obtain ⟨t, ht⟩ := mac_compute_ok key_mac st1.mac_buf hm
    simp only [ht]
    exact ⟨_, rfl, rfl⟩
  · intro wf out r henc hok
    obtain ⟨C, h1, h3, _, _, _, h6⟩ :=
      encrypt_stream_decrypt_stream wf P key_enc key_mac nonce out r henc (by rw [hok]; rfl)
    obtain ⟨h2, h6⟩ := h6 hP
    refine ⟨C, h1, h2, h3, ?_⟩
    intro out2 hg
    obtain ⟨out3, h7, h8, _⟩ := h6 out2 hg
    exact ⟨out3, h7, h8⟩

theorem C1_object_round_trip_witness :
    ([104, 105] : Bytes) ≠ [] ∧ ([1, 2] : Bytes) ≠ [] ∧ ([3, 4] : Bytes).length < U64 ∧
    ∃ r, obj.encrypt_stream noFaults [3, 4] OStream.fresh [104, 105] [1, 2]
      (List.replicate 24 7) = .ok r ∧ r.status = Status.ok :=
  ⟨by decide, by decide, by decide,
    (C1_object_round_trip [3, 4] [104, 105] [1, 2] (List.replicate 24 7)
      (by decide) (by decide) (by decide)).1⟩

/-! ## Little-endian loads and stores -/

theorem or_shiftLeft_eq_add (a b k : Nat) (ha : a < 2 ^ k) : a ||| (b <<< k) = a + b * 2 ^ k := by
  rw [Nat.shiftLeft_eq, Nat.lor_comm, Nat.mul_comm b, ← Nat.mul_add_lt_is_or ha b, Nat.add_comm]

theorem load_u32_le_bytes (b0 b1 b2 b3 : Nat) (rest : Bytes)
    (h0 : b0 < 256) (h1 : b1 < 256) (h2 : b2 < 256) (_h3 : b3 < 256) :
    endian.load_u32_le (b0 :: b1 :: b2 :: b3 :: rest) =
      b0 + b1 * 2 ^ 8 + b2 * 2 ^ 16 + b3 * 2 ^ 24 := by
  simp only [endian.load_u32_le, List.getD_cons_zero, List.getD_cons_succ]
  rw [or_shiftLeft_eq_add b0 b1 8 (by omega),
    or_shiftLeft_eq_add _ b2 16 (by omega), or_shiftLeft_eq_add _ b3 24 (by omega)]

theorem load_u64_le_bytes (b0 b1 b2 b3 b4 b5 b6 b7 : Nat) (rest : Bytes)
    (h0 : b0 < 256) (h1 : b1 < 256) (h2 : b2 < 256) (h3 : b3 < 256)
    (h4 : b4 < 256) (h5 : b5 < 256) (h6 : b6 < 256) (_h7 : b7 < 256) :
    endian.load_u64_le (b0 :: b1 :: b2 :: b3 :: b4 :: b5 :: b6 :: b7 :: rest) =
      b0 + b1 * 2 ^ 8 + b2 * 2 ^ 16 + b3 * 2 ^ 24 + b4 * 2 ^ 32 + b5 * 2 ^ 40 + b6 * 2 ^ 48 +
        b7 * 2 ^ 56 := by
  simp only [endian.load_u64_le, List.getD_cons_zero, List.getD_cons_succ]
  rw [or_shiftLeft_eq_add b0 b1 8 (by omega),
    or_shiftLeft_eq_add _ b2 16 (by omega), or_shiftLeft_eq_add _ b3 24 (by omega),
    or_shiftLeft_eq_add _ b4 32 (by omega), or_shiftLeft_eq_add _ b5 40 (by omega),
    or_shiftLeft_eq_add _ b6 48 (by omega), or_shiftLeft_eq_add _ b7 56 (by omega)]

theorem load_store_u32 (v : Nat) (rest : Bytes) :
    endian.load_u32_le (endian.store_u32_le v ++ rest) = v % U32 := by
  simp only [endian.store_u32_le, List.cons_append, List.nil_append, show U8 = 256 from rfl]
  rw [load_u32_le_bytes _ _ _ _ _ (Nat.mod_lt _ (by norm_num)) (Nat.mod_lt _ (by norm_num))
    (Nat.mod_lt _ (by norm_num)) (Nat.mod_lt _ (by norm_num))]
  simp only [Nat.shiftRight_eq_div_pow, U32]
  omega

theorem load_store_u64 (v : Nat) (rest : Bytes) :
    endian.load_u64_le (endian.store_u64_le v ++ rest) = v % U64 := by
  simp only [endian.store_u64_le, List.cons_append, List.nil_append, show U8 = 256 from rfl]
  rw [load_u64_le_bytes _ _ _ _ _ _ _ _ _ (Nat.mod_lt _ (by norm_num)) (Nat.mod_lt _ (by norm_num))
    (Nat.mod_lt _ (by norm_num)) (Nat.mod_lt _ (by norm_num)) (Nat.mod_lt _ (by norm_num))
    (Nat.mod_lt _ (by norm_num)) (Nat.mod_lt _ (by norm_num)) (Nat.mod_lt _ (by norm_num))]
  simp only [Nat.shiftRight_eq_div_pow, U64]
  omega

theorem store_u32_le_length (v : Nat) : (endian.store_u32_le v).length = 4 := rfl

theorem store_u64_le_length (v : Nat) : (endian.store_u64_le v).length = 8 := rfl

/-! ## The index codec -/

namespace index

theorem resize_length (v : Bytes) (n : Nat) : (resize v n).length = n := by
  simp [resize]

theorem resize_of_length (v : Bytes) (n : Nat) (h : v.length = n) : resize v n = v := by
  simp [resize, ← h]

theorem encodeEntry_eq (out : Bytes) (e : Entry) : encodeEntry out e = out ++ entryBytes e := by
  simp [encodeEntry, entryBytes, push_string, push_bytes, push_u32, push_u64, List.append_assoc]

theorem foldl_encodeEntry (es : List Entry) (out : Bytes) :
    es.foldl encodeEntry out = out ++ es.flatMap entryBytes := by
  induction es generalizing out with
  | nil => simp
  | cons e es ih => simp [List.foldl_cons, ih, encodeEntry_eq, List.flatMap_cons, List.append_assoc]

theorem encode_index_eq (idx : Index) :
    encode_index idx = indexHeader idx.entries.length ++ idx.entries.flatMap entryBytes := by
  simp [encode_index, foldl_encodeEntry, push_u32, indexHeader]

theorem entryBytes_length (e : Entry) : (entryBytes e).length = 73 + e.path.length := by
  simp [entryBytes, resize_length, store_u32_le_length, store_u64_le_length, NONCE_SIZE, TAG_SIZE]
  omega

theorem read_u32_at (data : Bytes) (off v : Nat) (rest : Bytes)
    (h : data.drop off = endian.store_u32_le v ++ rest) :
    read_u32 data off = some (v % U32, off + 4) ∧ data.drop (off + 4) = rest := by
  have hlen : (data.drop off).length = 4 + rest.length := by
    rw [h, List.length_append, store_u32_le_length]
  rw [List.length_drop] at hlen
  constructor
  · unfold read_u32
    rw [if_neg (by omega), h, load_store_u32]
  · rw [← List.drop_drop, h, List.drop_left' (store_u32_le_length v)]

theorem read_u64_at (data : Bytes) (off v : Nat) (rest : Bytes)
    (h : data.drop off = endian.store_u64_le v ++ rest) :
    read_u64 data off = some (v % U64, off + 8) ∧ data.drop (off + 8) = rest := by
  have hlen : (data.drop off).length = 8 + rest.length := by
    rw [h, List.length_append, store_u64_le_length]
  rw [List.length_drop] at hlen
  constructor
  · unfold read_u64
    rw [if_neg (by omega), h, load_store_u64]
  · rw [← List.drop_drop, h, List.drop_left' (store_u64_le_length v)]

theorem read_bytes_at (data : Bytes) (off : Nat) (bs rest : Bytes) (hoff : off ≤ data.length)
    (h : data.drop off = bs ++ rest) :
    read_bytes data off bs.length = some (bs, off + bs.length) ∧
      data.drop (off + bs.length) = rest := by
  have hlen : (data.drop off).length = bs.length + rest.length := by
    rw [h, List.length_append]
  rw [List.length_drop] at hlen
  constructor
  · unfold read_bytes
    rw [if_neg (by omega), h, List.take_left]
  · rw [← List.drop_drop, h, List.drop_left]

theorem read_string_at (data : Bytes) (off : Nat) (s rest : Bytes) (hs : s.length < U32)
    (h : data.drop off = endian.store_u32_le (s.length % U32) ++ s ++ rest) :
    read_string data off = some (s, off + 4 + s.length) ∧
      data.drop (off + 4 + s.length) = rest := by
  rw [List.append_assoc] at h
  obtain ⟨h1, h2⟩ := read_u32_at data off _ _ h
  rw [Nat.mod_mod, Nat.mod_eq_of_lt hs] at h1
  have hlen : (data.drop (off + 4)).length = s.length + rest.length := by
    rw [h2, List.length_append]
  rw [List.length_drop] at hlen
  have hlen0 : (data.drop off).length = 4 + (s ++ rest).length := by
    rw [h, List.length_append, store_u32_le_length]
  rw [List.length_drop] at hlen0
  constructor
  · unfold read_string
    rw [h1]
    simp only
    rw [if_neg (by omega), h2, List.take_left]
  · rw [← List.drop_drop, h2, List.drop_left]

theorem drop_length_le (data : Bytes) (off : Nat) (x rest : Bytes) (hx : x ≠ [])
    (h : data.drop off = x ++ rest) : off + x.length + rest.length = data.length := by
  have h1 := congrArg List.length h
  rw [List.length_drop, List.length_append] at h1
  have : 0 < x.length := List.length_pos.mpr hx
  omega

theorem decodeEntry_at (data : Bytes) (off : Nat) (e : Entry) (rest : Bytes)
    (hw : e.WellFormed) (h : data.drop off = entryBytes e ++ rest) :
    decodeEntry data off = .inr (e, off + (entryBytes e).length) ∧
      data.drop (off + (entryBytes e).length) = rest := by
  obtain ⟨hp, hf, hs, hdo, hds, hn, ht⟩ := hw
  have htot : off + (entryBytes e).length + rest.length = data.length :=
    drop_length_le data off _ rest (by simp [entryBytes, endian.store_u32_le]) h
  rw [entryBytes_length] at htot
  unfold entryBytes at h
  simp only [List.append_assoc] at h
  obtain ⟨r1, d1⟩ := read_string_at data off e.path _ hp (by rw [List.append_assoc]; exact h)
  obtain ⟨r2, d2⟩ := read_bytes_at data _ [e.type.toU8] _ (by omega) d1
  obtain ⟨r3, d3⟩ := read_u32_at data _ _ _ d2
  obtain ⟨r4, d4⟩ := read_u64_at data _ _ _ d3
  obtain ⟨r5, d5⟩ := read_u64_at data _ _ _ d4
  obtain ⟨r6, d6⟩ := read_u64_at data _ _ _ d5
  simp only [List.length_singleton] at r2 r3 r4 r5 r6 d2 d3 d4 d5 d6
  obtain ⟨r7, d7⟩ := read_bytes_at data _ (resize e.nonce NONCE_SIZE) _ (by omega) d6
  rw [resize_length] at r7 d7
  obtain ⟨r8, d8⟩ := read_bytes_at data _ (resize e.tag TAG_SIZE) _
    (by simp only [NONCE_SIZE]; omega) d7
  rw [resize_length] at r8 d8
  rw [Nat.mod_eq_of_lt hf] at r3
  rw [Nat.mod_eq_of_lt hs] at r4
  rw [Nat.mod_eq_of_lt hdo] at r5
  rw [Nat.mod_eq_of_lt hds] at r6
  rw [resize_of_length _ _ hn] at r7
  rw [resize_of_length _ _ ht] at r8
  have hlen : off + 4 + e.path.length + 1 + 4 + 8 + 8 + 8 + NONCE_SIZE + TAG_SIZE =
      off + (73 + e.path.length) := by
    simp only [NONCE_SIZE, TAG_SIZE]
    omega
  rw [hlen] at r8 d8
  constructor
  · unfold decodeEntry
    simp only [r1, r2, r3, r4, r5, r6, r7, r8]
    have htype : (if [e.type.toU8].getD 0 0 = fmt.ObjType.Dir.toU8 then fmt.ObjType.Dir
        else fmt.ObjType.File) = e.type := by
      cases e.type <;> simp [fmt.ObjType.toU8]
    rw [htype, entryBytes_length]
  · rw [entryBytes_length]
    exact d8

theorem decodeEntries_at (data : Bytes) (es : List Entry) :
    ∀ (off : Nat) (acc : List Entry) (rest : Bytes), (∀ e ∈ es, e.WellFormed) →
      data.drop off = es.flatMap entryBytes ++ rest →
      decodeEntries data es.length off acc =
        .inr (acc ++ es, off + (es.flatMap entryBytes).length) := by
  induction es with
  | nil => intro off acc rest _ _; simp [decodeEntries]
  | cons e es ih =>
    intro off acc rest hw h
    rw [List.flatMap_cons, List.append_assoc] at h
    obtain ⟨r, d⟩ := decodeEntry_at data off e _ (hw e (List.mem_cons_self _ _)) h
    simp only [List.length_cons, decodeEntries, r]
    rw [ih _ _ rest (fun x hx => hw x (List.mem_cons_of_mem _ hx)) d]
    simp [List.flatMap_cons, Nat.add_assoc]

/-- Decoding an encoded index gives the index back. -/
theorem decode_encode_index (idx : Index) (hn : idx.entries.length < U32)
    (hw : ∀ e ∈ idx.entries, e.WellFormed) :
    decode_reserved (encode_index idx) = (Status.ok, idx) := by
  have hlen : (encode_index idx).length = 12 + (idx.entries.flatMap entryBytes).length := by
    rw [encode_index_eq]
    simp only [indexHeader, store_u32_le_length, List.length_append]
  have h0 : (encode_index idx).drop 0 =
      endian.store_u32_le IDX_MAGIC ++ (endian.store_u32_le IDX_VER ++
        (endian.store_u32_le (idx.entries.length % U32) ++
          (idx.entries.flatMap entryBytes ++ []))) := by
    rw [encode_index_eq]
    simp [indexHeader, List.append_assoc]
  generalize encode_index idx = data at hlen h0
  obtain ⟨r1, d1⟩ := read_u32_at _ 0 _ _ h0
  obtain ⟨r2, d2⟩ := read_u32_at _ _ _ _ d1
  obtain ⟨r3, d3⟩ := read_u32_at _ _ _ _ d2
  rw [Nat.mod_mod, Nat.mod_eq_of_lt hn] at r3
  have hm : IDX_MAGIC % U32 = IDX_MAGIC := by decide
  have hv : IDX_VER % U32 = IDX_VER := by decide
  rw [hm] at r1
  rw [hv] at r2
  unfold decode_reserved
  simp only [r1, r2, r3]
  rw [if_neg (by simp), if_neg (by simp)]
  rw [decodeEntries_at _ idx.entries _ [] [] hw d3]
  simp only [List.nil_append]
  rw [if_neg]
  rw [hlen]
  simp only [ne_eq, Decidable.not_not]

/-- The function decode_index on a host: std::bad_alloc escapes when the reservation is
reached and refused, and otherwise the result is the one of a granted reservation. -/
theorem decode_index_eq (af : AllocFaults) (data : Bytes) :
    decode_index af data =
      if reserve_refused af data = true then .error "std::bad_alloc"
      else .ok (decode_reserved data) := by
  unfold decode_index decode_reserved reserve_refused read_u32
  by_cases h12 : 12 ≤ data.length
  · rw [if_neg (by omega)]
    simp only
    rw [if_neg (by omega)]
    simp only
    rw [if_neg (by omega)]
    simp only
    by_cases hm : endian.load_u32_le (data.drop 0) = IDX_MAGIC
    · by_cases hv : endian.load_u32_le (data.drop 4) = IDX_VER
      · by_cases hc : endian.load_u32_le (data.drop 8) = 0
        · simp only [hm, hv, hc, h12, ne_eq, not_true_eq_false, and_false, decide_False,
            Bool.false_and, if_false, false_and, Bool.false_eq_true]
          split <;> [rfl; (split <;> rfl)]
        · cases haf : af (endian.load_u32_le (data.drop 8))
          · simp only [hm, hv, hc, h12, haf, ne_eq, not_true_eq_false, not_false_eq_true,
              and_self, decide_True, Bool.and_false, if_false, and_false, Bool.false_eq_true]
            split <;> [rfl; (split <;> rfl)]
          · simp only [hm, hv, hc, h12, haf, ne_eq, not_true_eq_false, not_false_eq_true,
              and_self, decide_True, Bool.and_true, if_false, if_true]
      · simp only [hm, hv, ne_eq, not_true_eq_false, not_false_eq_true, and_false, and_true,
          false_and, decide_False, Bool.false_and, if_false, if_true, Bool.false_eq_true]
    · simp only [hm, ne_eq, not_false_eq_true, and_false, false_and, decide_False,
        Bool.false_and, if_false, if_true, Bool.false_eq_true]
  · have hr : (decide (12 ≤ data.length ∧ endian.load_u32_le (data.drop 0) = IDX_MAGIC ∧
        endian.load_u32_le (data.drop 4) = IDX_VER ∧ endian.load_u32_le (data.drop 8) ≠ 0) &&
        af (endian.load_u32_le (data.drop 8))) = false := by
      rw [Bool.and_eq_false_iff]
      left
      exact decide_eq_false (fun h => h12 h.1)
    rw [hr]
    simp only [Bool.false_eq_true, if_false]
    by_cases h4 : 0 + 4 > data.length
    · rw [if_pos h4]
    · rw [if_neg h4]
      simp only
      by_cases h8 : 0 + 4 + 4 > data.length
      · rw [if_pos h8]
      · rw [if_neg h8]
        simp only
        rw [if_pos (by omega)]

/-- On a host that grants every reservation decode_index returns. -/
theorem decode_index_noAlloc (data : Bytes) :
    decode_index noAllocFaults data = .ok (decode_reserved data) := by
  rw [decode_index_eq, if_neg]
  unfold reserve_refused noAllocFaults
  simp only [Bool.and_false, Bool.false_eq_true, not_false_eq_true]

/-- A result of decode_index is the one of a granted reservation. -/
theorem decode_index_ok (af : AllocFaults) (data : Bytes) (r : Status × Index)
    (h : decode_index af data = .ok r) : decode_reserved data = r := by
  rw [decode_index_eq] at h
  by_cases hr : reserve_refused af data = true
  · rw [if_pos hr] at h
    cases h
  · rw [if_neg hr] at h
    cases h
    rfl

/-- The function decode_index returns when the host grants the count word. -/
theorem decode_index_granted (af : AllocFaults) (data : Bytes)
    (h : af (endian.load_u32_le (data.drop 8)) = false) :
    decode_index af data = .ok (decode_reserved data) := by
  rw [decode_index_eq, if_neg]
  unfold reserve_refused
  rw [h]
  simp only [Bool.and_false, Bool.false_eq_true, not_false_eq_true]

/-- The count word of an encoded index. -/
theorem encode_index_count (idx : Index) (hn : idx.entries.length < U32) :
    endian.load_u32_le ((encode_index idx).drop 8) = idx.entries.length := by
  have h0 : (encode_index idx).drop 0 =
      endian.store_u32_le IDX_MAGIC ++ (endian.store_u32_le IDX_VER ++
        (endian.store_u32_le (idx.entries.length % U32) ++
          (idx.entries.flatMap entryBytes ++ []))) := by
    rw [encode_index_eq]
    simp [indexHeader, List.append_assoc]
  generalize encode_index idx = data at h0
  obtain ⟨_, d1⟩ := read_u32_at _ 0 _ _ h0
  obtain ⟨_, d2⟩ := read_u32_at _ _ _ _ d1
  obtain ⟨r3, _⟩ := read_u32_at _ _ _ _ d2
  rw [Nat.mod_mod, Nat.mod_eq_of_lt hn] at r3
  unfold read_u32 at r3
  split at r3
  · cases r3
  · injection r3 with r3
    injection r3 with r3 _

/-- The host that refuses nothing grants every storage. -/
theorem grants_noAlloc (n : Nat) : Grants noAllocFaults n := fun _ => rfl

/-- The reservation for an encoded index is the one of the storage of its entries. -/
theorem reserve_refused_encode (af : AllocFaults) (idx : Index) (hn : idx.entries.length < U32)
    (hmem : Grants af idx.entries.length) : reserve_refused af (encode_index idx) = false := by
  unfold reserve_refused
  rw [encode_index_count idx hn]
  by_cases h0 : idx.entries.length = 0
  · rw [Bool.and_eq_false_iff]
    left
    exact decide_eq_false (fun hh => hh.2.2.2 h0)
  · rw [hmem h0, Bool.and_false]

/-- The round trip of the codec on a host that grants the storage of the entries. -/
theorem decode_index_encode (af : AllocFaults) (idx : Index) (hn : idx.entries.length < U32)
    (hw : ∀ e ∈ idx.entries, e.WellFormed) (hmem : Grants af idx.entries.length) :
    decode_index af (encode_index idx) = .ok (Status.ok, idx) := by
  rw [decode_index_eq, reserve_refused_encode af idx hn hmem, if_neg Bool.false_ne_true,
    decode_encode_index idx hn hw]

end index

/-! ## C7 -/

/-- C7 (index codec round-trip): for every index with fewer than 2^32 entries whose
entries have a type in File / Dir, a 24-byte nonce, a 16-byte tag, a path shorter than
2^32 bytes and integer fields within their widths (flags any 32-bit value), on a host
that grants the storage reserved for the entries, decode_index (encode_index idx) returns
Ok and yields an index equal to idx, entry for entry and in the same order. -/
theorem C7_index_codec_round_trip (af : AllocFaults) (idx : index.Index)
    (hn : idx.entries.length < U32)
    (hw : ∀ e ∈ idx.entries,
      e.path.length < U32 ∧ e.flags < U32 ∧ e.size < U64 ∧ e.data_offset < U64 ∧
        e.data_size < U64 ∧ e.nonce.length = 24 ∧ e.tag.length = 16)
    (hmem : index.Grants af idx.entries.length) :
    index.decode_index af (index.encode_index idx) = .ok (Status.ok, idx) :=
  index.decode_index_encode af idx hn hw hmem

theorem C7_index_codec_round_trip_witness :
    ([{ path := [114, 47, 97], type := fmt.ObjType.File, flags := 4294967295, size := 2,
        data_offset := 100, data_size := 2, nonce := List.replicate 24 9,
        tag := List.replicate 16 7 },
      { path := [114], type := fmt.ObjType.Dir, flags := 1, size := 0,
        data_offset := 0, data_size := 0, nonce := List.replicate 24 0,
        tag := List.replicate 16 0 }] : List index.Entry).length < U32 ∧
    index.decode_index noAllocFaults (index.encode_index
      ⟨[{ path := [114, 47, 97], type := fmt.ObjType.File, flags := 4294967295, size := 2,
          data_offset := 100, data_size := 2, nonce := List.replicate 24 9,
          tag := List.replicate 16 7 },
        { path := [114], type := fmt.ObjType.Dir, flags := 1, size := 0,
          data_offset := 0, data_size := 0, nonce := List.replicate 24 0,
          tag := List.replicate 16 0 }]⟩) =
      .ok (Status.ok,
        ⟨[{ path := [114, 47, 97], type := fmt.ObjType.File, flags := 4294967295, size := 2,
            data_offset := 100, data_size := 2, nonce := List.replicate 24 9,
            tag := List.replicate 16 7 },
          { path := [114], type := fmt.ObjType.Dir, flags := 1, size := 0,
            data_offset := 0, data_size := 0, nonce := List.replicate 24 0,
            tag := List.replicate 16 0 }]⟩) :=
  ⟨by decide,
    C7_index_codec_round_trip noAllocFaults _ (by decide) (by
      intro e he
      simp only [List.mem_cons, List.mem_singleton, List.not_mem_nil, or_false] at he
      rcases he with rfl | rfl <;> decide) (index.grants_noAlloc _)⟩

/-! ## The reader -/

namespace vault

theorem status_err_not_ok (c : ExitCode) (m : String) (hc : c ≠ ExitCode.Ok) :
    (Status.err c m).is_ok = false := by
  cases c <;> simp_all [Status.err, Status.is_ok]

theorem io_err_not_ok (m : String) : (io_err m).is_ok = false :=
  status_err_not_ok _ _ (by decide)

theorem integrity_err_not_ok (m : String) : (integrity_err m).is_ok = false :=
  status_err_not_ok _ _ (by decide)

theorem is_ok_iff (s : Status) : s.is_ok = true ↔ s.code = ExitCode.Ok := by
  simp [Status.is_ok]

theorem read_exact_some (content : Bytes) (pos n : Nat) (bs : Bytes)
    (h : read_exact content pos n = some bs) :
    bs = (content.drop pos).take n ∧ bs.length = n := by
  unfold read_exact at h
  simp only at h
  split at h
  · rename_i hl
    cases h
    exact ⟨rfl, hl⟩
  · cases h

theorem read_exact_of_le (content : Bytes) (pos n : Nat) (h : pos + n ≤ content.length) :
    read_exact content pos n = some ((content.drop pos).take n) := by
  unfold read_exact
  simp only
  rw [if_pos]
  rw [List.length_take, List.length_drop]
  omega

/-- When the structural checks pass, open_for_view continues with the key derivation. -/
theorem open_for_view_of_structOk {af : AllocFaults} (fs : FileSys) (path : String)
    (password : Bytes) (content : Bytes) (hdr : fmt.GlobalHeader) (tr : fmt.IndexTrailer)
    (idx_bytes : Bytes)
    (hfile : fs path = some content) (h : StructOk content hdr tr idx_bytes) :
    open_for_view af fs path password =
      open_tail af password idx_bytes { VaultOpen.init with header := hdr, trailer := tr } := by
  have hmod : content.length % U64 ≤ content.length := Nat.mod_le _ _
  have h1 := h.size_hdr
  have h2 := h.size_trl
  have hr1 : read_exact content 0 fmt.GLOBAL_HEADER_SIZE =
      some ((content.drop 0).take fmt.GLOBAL_HEADER_SIZE) :=
    read_exact_of_le _ _ _ (by omega)
  have hr2 : read_exact content (content.length % U64 - fmt.INDEX_TRAILER_SIZE)
      fmt.INDEX_TRAILER_SIZE = some ((content.drop
        (content.length % U64 - fmt.INDEX_TRAILER_SIZE)).take fmt.INDEX_TRAILER_SIZE) :=
    read_exact_of_le _ _ _ (by omega)
  have hr3 : read_exact content tr.index_offset tr.index_size = some idx_bytes := by
    unfold read_exact
    simp only
    rw [← h.ibytes, if_pos h.ilen]
  unfold open_for_view
  simp only [hfile]
  rw [if_neg (by omega), if_neg (by omega), hr1]
  simp only
  rw [← h.hdr_eq]
  rw [if_neg (by simp [h.magic]), if_neg (by have := h.hsize_lo; omega),
    if_neg (by have := h.hsize_hi; omega), hr2]
  simp only
  rw [← h.tr_eq]
  rw [if_neg (by simp [h.tmagic]), if_neg (by simp [h.tsize]),
    if_neg (by have := h.isize_pos; have := h.isize_max; omega),
    if_neg (by have := h.ioff_lo; omega), if_neg (by have := h.ioff_hi; omega),
    if_neg (by have := h.iend; omega), hr3]

/-- A successful open_for_view passed the structural checks. -/
theorem open_for_view_ok_inv {af : AllocFaults} (fs : FileSys) (path : String)
    (password : Bytes) (st : Status) (vo : VaultOpen)
    (hopen : open_for_view af fs path password = .ok (st, vo)) (hok : st.is_ok = true) :
    ∃ content hdr tr idx_bytes, fs path = some content ∧ StructOk content hdr tr idx_bytes ∧
      open_tail af password idx_bytes { VaultOpen.init with header := hdr, trailer := tr } =
        .ok (st, vo) := by
  unfold open_for_view at hopen
  simp only at hopen
  have bad : ∀ (s : Status) (v : VaultOpen), s.is_ok = false →
      (Except.ok (s, v) : Except String (Status × VaultOpen)) = .ok (st, vo) → False := by
    intro s v hs he
    cases he
    rw [hs] at hok
    cases hok
  cases hfile : fs path with
  | none =>
    rw [hfile] at hopen
    exact (bad _ _ (io_err_not_ok _) hopen).elim
  | some content =>
    rw [hfile] at hopen
    simp only at hopen
    by_cases c1 : content.length % U64 < fmt.GLOBAL_HEADER_SIZE
    · rw [if_pos c1] at hopen; exact (bad _ _ (integrity_err_not_ok _) hopen).elim
    rw [if_neg c1] at hopen
    by_cases c2 : content.length % U64 < fmt.INDEX_TRAILER_SIZE
    · rw [if_pos c2] at hopen; exact (bad _ _ (integrity_err_not_ok _) hopen).elim
    rw [if_neg c2] at hopen
    cases hr1 : read_exact content 0 fmt.GLOBAL_HEADER_SIZE with
    | none => rw [hr1] at hopen; exact (bad _ _ (io_err_not_ok _) hopen).elim
    | some hdrb =>
      rw [hr1] at hopen
      simp only at hopen
      obtain ⟨hb1, _⟩ := read_exact_some _ _ _ _ hr1
      by_cases c3 : (parse_header hdrb).magic ≠ fmt.VAULT_MAGIC
      · rw [if_pos c3] at hopen; exact (bad _ _ (integrity_err_not_ok _) hopen).elim
      rw [if_neg c3] at hopen
      by_cases c4 : (parse_header hdrb).header_size < fmt.GLOBAL_HEADER_SIZE % U32
      · rw [if_pos c4] at hopen; exact (bad _ _ (integrity_err_not_ok _) hopen).elim
      rw [if_neg c4] at hopen
      by_cases c5 : (parse_header hdrb).header_size > content.length % U64
      · rw [if_pos c5] at hopen; exact (bad _ _ (integrity_err_not_ok _) hopen).elim
      rw [if_neg c5] at hopen
      cases hr2 : read_exact content (content.length % U64 - fmt.INDEX_TRAILER_SIZE)
          fmt.INDEX_TRAILER_SIZE with
      | none => rw [hr2] at hopen; exact (bad _ _ (io_err_not_ok _) hopen).elim
      | some trb =>
        rw [hr2] at hopen
        simp only at hopen
        obtain ⟨hb2, _⟩ := read_exact_some _ _ _ _ hr2
        by_cases c6 : (parse_trailer trb).magic ≠ fmt.INDEX_MAGIC
        · rw [if_pos c6] at hopen; exact (bad _ _ (integrity_err_not_ok _) hopen).elim
        rw [if_neg c6] at hopen
        by_cases c7 : (parse_trailer trb).trailer_size ≠ fmt.INDEX_TRAILER_SIZE % U32
        · rw [if_pos c7] at hopen; exact (bad _ _ (integrity_err_not_ok _) hopen).elim
        rw [if_neg c7] at hopen
        by_cases c8 : (parse_trailer trb).index_size = 0 ∨
            (parse_trailer trb).index_size > MAX_INDEX_SIZE
        · rw [if_pos c8] at hopen; exact (bad _ _ (integrity_err_not_ok _) hopen).elim
        rw [if_neg c8] at hopen
        by_cases c9 : (parse_trailer trb).index_offset < (parse_header hdrb).header_size
        · rw [if_pos c9] at hopen; exact (bad _ _ (integrity_err_not_ok _) hopen).elim
        rw [if_neg c9] at hopen
        by_cases c10 : (parse_trailer trb).index_offset >
            content.length % U64 - fmt.INDEX_TRAILER_SIZE
        · rw [if_pos c10] at hopen; exact (bad _ _ (integrity_err_not_ok _) hopen).elim
        rw [if_neg c10] at hopen
        by_cases c11 : ((parse_trailer trb).index_offset + (parse_trailer trb).index_size) % U64 >
            content.length % U64 - fmt.INDEX_TRAILER_SIZE
        · rw [if_pos c11] at hopen; exact (bad _ _ (integrity_err_not_ok _) hopen).elim
        rw [if_neg c11] at hopen
        cases hr3 : read_exact content (parse_trailer trb).index_offset
            (parse_trailer trb).index_size with
        | none => rw [hr3] at hopen; exact (bad _ _ (io_err_not_ok _) hopen).elim
        | some ib =>
          rw [hr3] at hopen
          simp only at hopen
          obtain ⟨hb3, hl3⟩ := read_exact_some _ _ _ _ hr3
          refine ⟨content, parse_header hdrb, parse_trailer trb, ib, rfl, ?_, hopen⟩
          exact
            { size_hdr := by omega
              size_trl := by omega
              hdr_eq := by rw [hb1]
              magic := by simpa using c3
              hsize_lo := by omega
              hsize_hi := by omega
              tr_eq := by rw [hb2]
              tmagic := by simpa using c6
              tsize := by simpa using c7
              isize_pos := fun h => c8 (Or.inl h)
              isize_max := by
                by_contra hc
                exact c8 (Or.inr (by omega))
              ioff_lo := by omega
              ioff_hi := by omega
              iend := by omega
              ibytes := hb3
              ilen := hl3 }

/-- What a successful tail of open_for_view establishes. -/
theorem open_tail_ok_inv {af : AllocFaults} (password idx_bytes : Bytes) (out : VaultOpen)
    (st : Status) (vo : VaultOpen) (h : open_tail af password idx_bytes out = .ok (st, vo))
    (hok : st.is_ok = true) :
    vo.header = out.header ∧ vo.trailer = out.trailer ∧
      kdf.derive password out.header.salt
        (bits_to_bytes (if read_u32_le (out.header.reserved.drop 0) ≠ 0
          then read_u32_le (out.header.reserved.drop 0) else 512))
        (if read_u32_le (out.header.reserved.drop 4) ≠ 0
          then read_u32_le (out.header.reserved.drop 4) else 1) = .ok vo.keys ∧
      mac.verify vo.keys.mac idx_bytes out.trailer.index_tag = .ok true ∧
      index.decode_reserved idx_bytes = (st, vo.idx) := by
  unfold open_tail at h
  simp only at h
  split at h
  · cases h
  · rename_i keys hk
    split at h
    · cases h
    · rename_i okv hv
      by_cases hb : okv = true
      · rw [if_neg (by simp [hb])] at h
        cases hd : index.decode_index af idx_bytes with
        | error e =>
          rw [hd] at h
          cases h
        | ok r =>
          rw [hd] at h
          cases h
          subst hb
          exact ⟨rfl, rfl, hk, hv, index.decode_index_ok af _ _ hd⟩
      · rw [if_pos (by simpa using hb)] at h
        cases h
        rw [status_err_not_ok _ _ (by decide)] at hok
        cases hok

/-- A successful tail of open_for_view returns what decode_index returned on the index
bytes. -/
theorem open_tail_ok_decode {af : AllocFaults} (password idx_bytes : Bytes) (out : VaultOpen)
    (st : Status) (vo : VaultOpen) (h : open_tail af password idx_bytes out = .ok (st, vo))
    (hok : st.is_ok = true) : index.decode_index af idx_bytes = .ok (st, vo.idx) := by
  unfold open_tail at h
  simp only at h
  split at h
  · cases h
  · split at h
    · cases h
    · rename_i okv _
      by_cases hb : okv = true
      · rw [if_neg (by simp [hb])] at h
        cases hd : index.decode_index af idx_bytes with
        | error e =>
          rw [hd] at h
          cases h
        | ok r =>
          rw [hd] at h
          cases h
          rfl
      · rw [if_pos (by simpa using hb)] at h
        cases h
        rw [status_err_not_ok _ _ (by decide)] at hok
        cases hok

end vault

/-! ## The concrete vaults open -/

set_option maxRecDepth 1000000 in
/-- The reader accepts the concrete vault and returns its header, trailer, index and
keys. -/
theorem demo_open_eq :
    vault.open_for_view noAllocFaults demoFs "v.1654" demoPw = .ok (Status.ok, demoOpen) := by
  decide!

set_option maxRecDepth 1000000 in
/-- The reader accepts the vault with extra bytes before the trailer. -/
theorem gap_open_eq :
    vault.open_for_view noAllocFaults gapFs "g.1654" demoPw = .ok (Status.ok, demoOpen) := by
  decide!

set_option maxRecDepth 100000 in
theorem demoVault_length : demoVault.length = 304 := by decide!

set_option maxRecDepth 100000 in
theorem gapVault_length : gapVault.length = 309 := by decide!

theorem demoFs_vault : demoFs "v.1654" = some demoVault := by simp [demoFs]

theorem gapFs_vault : gapFs "g.1654" = some gapVault := by simp [gapFs]

theorem demoVault_small : demoVault.length < 2 ^ 63 := by rw [demoVault_length]; norm_num

theorem gapVault_small : gapVault.length < 2 ^ 63 := by rw [gapVault_length]; norm_num

/-! ## C8 -/

/-- C8, as stated, fails: the header size constant is not 76. -/
theorem C8_header_size_not_76 : fmt.GLOBAL_HEADER_SIZE ≠ 76 := by decide

/-- C8, amended: the size constant GLOBAL_HEADER_SIZE equals 100 (4 + 4 + 4 + 32 + 24 + 32);
write_global_header stores that value in the header_size field and, for a header whose
arrays have their declared sizes, emits exactly 100 bytes when the write succeeds; and
every header the reader accepts has header_size at least 100. -/
theorem C8_header_size_100 :
    fmt.GLOBAL_HEADER_SIZE = 100 ∧
    (∀ (wf : WriteFaults) (ofs : OStream) (h : fmt.GlobalHeader),
      (vault.write_global_header wf ofs h).2.header_size = 100 ∧
      (h.magic.length = 4 → h.salt.length = 32 → h.nonce.length = 24 → h.reserved.length = 32 →
        (vault.write_global_header wf ofs h).1.good = true →
        (vault.write_global_header wf ofs h).1.data.length = ofs.data.length + 100)) ∧
    (∀ (af : AllocFaults) (fs : FileSys) (path : String) (pw : Bytes) (st : Status)
      (vo : vault.VaultOpen),
      vault.open_for_view af fs path pw = .ok (st, vo) → st.is_ok = true →
      100 ≤ vo.header.header_size) := by
  refine ⟨by decide, ?_, ?_⟩
  · intro wf ofs h
    refine ⟨rfl, ?_⟩
    intro h1 h2 h3 h4 hg
    have hw := write_good wf ofs _ hg
    simp only [vault.write_global_header] at hw ⊢
    rw [hw.1]
    simp [vault.header_bytes, store_u32_le_length, h1, h2, h3, h4, SALT_SIZE, NONCE_SIZE]
  · intro af fs path pw st vo hopen hok
    obtain ⟨content, hdr, tr, ib, _, hs, ht⟩ :=
      vault.open_for_view_ok_inv fs path pw st vo hopen hok
    obtain ⟨hh, _⟩ := vault.open_tail_ok_inv _ _ _ _ _ ht hok
    rw [hh]
    exact hs.hsize_lo

/-! ## C9 -/

/-- C9: whenever open_for_view returns Ok on a file of size fsz (below 2^63, the range of a stream offset), the decoded
header and trailer satisfy: header magic = 1654, trailer magic = IDX1, trailer_size = 40,
fsz >= header_size + 40, header_size <= index_offset <= fsz - 40 and
0 < index_size <= 64 MiB, and the sum index_offset + index_size does not wrap. -/
theorem C9_open_structural_invariants (af : AllocFaults) (fs : FileSys) (path : String) (pw : Bytes)
    (content : Bytes) (st : Status) (vo : vault.VaultOpen)
    (hfile : fs path = some content) (hsz : content.length < 2 ^ 63)
    (hopen : vault.open_for_view af fs path pw = .ok (st, vo)) (hok : st.is_ok = true) :
    vo.header.magic = [49, 54, 53, 52] ∧ vo.trailer.magic = [73, 68, 88, 49] ∧
    vo.trailer.trailer_size = 40 ∧
    content.length ≥ vo.header.header_size + 40 ∧
    vo.header.header_size ≤ vo.trailer.index_offset ∧
    vo.trailer.index_offset ≤ content.length - 40 ∧
    0 < vo.trailer.index_size ∧ vo.trailer.index_size ≤ 64 * 1024 * 1024 ∧
    vo.trailer.index_offset + vo.trailer.index_size < U64 := by
  obtain ⟨content1, hdr, tr, ib, hf, hs, ht⟩ :=
    vault.open_for_view_ok_inv fs path pw st vo hopen hok
  rw [hfile] at hf
  cases hf
  obtain ⟨hh, htr, _⟩ := vault.open_tail_ok_inv _ _ _ _ _ ht hok
  rw [hh, htr]
  simp only
  have h1 := hs.size_hdr
  have h2 := hs.size_trl
  have h3 := hs.hsize_lo
  have h4 := hs.ioff_lo
  have h5 := hs.ioff_hi
  have h6 := hs.isize_pos
  have h7 := hs.isize_max
  have hm : content.length % U64 = content.length :=
    Nat.mod_eq_of_lt (by simp only [U64]; omega)
  rw [hm] at h1 h2 h5
  simp only [fmt.INDEX_TRAILER_SIZE, fmt.GLOBAL_HEADER_SIZE, TAG_SIZE, SALT_SIZE, NONCE_SIZE,
    vault.MAX_INDEX_SIZE, U64, U32] at h1 h2 h3 h4 h5 h6 h7 hsz ⊢
  refine ⟨hs.magic, hs.tmagic, ?_, by omega, h4, h5, by omega, h7, by omega⟩
  have := hs.tsize
  simpa [fmt.INDEX_TRAILER_SIZE, TAG_SIZE, U32] using this

theorem C9_open_structural_invariants_witness :
    demoFs "v.1654" = some demoVault ∧ demoVault.length < 2 ^ 63 ∧
    vault.open_for_view noAllocFaults demoFs "v.1654" demoPw = .ok (Status.ok, demoOpen) ∧
    Status.ok.is_ok = true ∧
    (demoOpen.header.magic = [49, 54, 53, 52] ∧ demoOpen.trailer.magic = [73, 68, 88, 49] ∧
    demoOpen.trailer.trailer_size = 40 ∧
    demoVault.length ≥ demoOpen.header.header_size + 40 ∧
    demoOpen.header.header_size ≤ demoOpen.trailer.index_offset ∧
    demoOpen.trailer.index_offset ≤ demoVault.length - 40 ∧
    0 < demoOpen.trailer.index_size ∧ demoOpen.trailer.index_size ≤ 64 * 1024 * 1024 ∧
    demoOpen.trailer.index_offset + demoOpen.trailer.index_size < U64) :=
  ⟨demoFs_vault, demoVault_small, demo_open_eq, rfl,
    C9_open_structural_invariants noAllocFaults demoFs "v.1654" demoPw demoVault Status.ok demoOpen
      demoFs_vault demoVault_small demo_open_eq rfl⟩

/-! ## C10 -/

/-- C10, as stated, fails: the reader returns Ok on a 309-byte file whose index ends at
264 while the trailer begins at 269. -/
theorem C10_gap_vault_opens :
    gapFs "g.1654" = some gapVault ∧
    vault.open_for_view noAllocFaults gapFs "g.1654" demoPw = .ok (Status.ok, demoOpen) ∧
    demoOpen.trailer.index_offset + demoOpen.trailer.index_size ≠
      gapVault.length - fmt.INDEX_TRAILER_SIZE :=
  ⟨gapFs_vault, gap_open_eq, by rw [gapVault_length]; decide⟩

/-- C10, amended: whenever open_for_view returns Ok on a file of size fsz (below 2^63),
index_offset + index_size <= fsz - trailer_size (the encoded index ends at or before the
place where the 40-byte trailer begins); any file in which the sum stored in its last 40
bytes exceeds fsz - trailer_size is rejected with IntegrityError. -/
theorem C10_index_ends_before_trailer (af : AllocFaults) (fs : FileSys) (path : String) (pw : Bytes)
    (content : Bytes) (hfile : fs path = some content) (hsz : content.length < 2 ^ 63) :
    (∀ (st : Status) (vo : vault.VaultOpen),
      vault.open_for_view af fs path pw = .ok (st, vo) → st.is_ok = true →
      vo.trailer.index_offset + vo.trailer.index_size ≤
        content.length - fmt.INDEX_TRAILER_SIZE) ∧
    ((vault.parse_trailer ((content.drop (content.length - fmt.INDEX_TRAILER_SIZE)).take
        fmt.INDEX_TRAILER_SIZE)).index_offset +
      (vault.parse_trailer ((content.drop (content.length - fmt.INDEX_TRAILER_SIZE)).take
        fmt.INDEX_TRAILER_SIZE)).index_size > content.length - fmt.INDEX_TRAILER_SIZE →
      ∃ (st : Status) (vo : vault.VaultOpen),
        vault.open_for_view af fs path pw = .ok (st, vo) ∧ st.code = ExitCode.IntegrityError) := by
  have hm : content.length % U64 = content.length :=
    Nat.mod_eq_of_lt (by simp only [U64]; omega)
  constructor
  · intro st vo hopen hok
    obtain ⟨content1, hdr, tr, ib, hf, hs, ht⟩ :=
      vault.open_for_view_ok_inv fs path pw st vo hopen hok
    rw [hfile] at hf
    cases hf
    obtain ⟨_, htr, _⟩ := vault.open_tail_ok_inv _ _ _ _ _ ht hok
    rw [htr]
    simp only
    have h5 := hs.ioff_hi
    have h6 := hs.iend
    have h7 := hs.isize_max
    rw [hm] at h5 h6
    have hlt : tr.index_offset + tr.index_size < U64 := by
      simp only [vault.MAX_INDEX_SIZE, U64] at h7 hsz ⊢
      omega
    rw [Nat.mod_eq_of_lt hlt] at h6
    exact h6
  · intro hsum
    unfold vault.open_for_view
    simp only [hfile]
    rw [hm]
    by_cases c1 : content.length < fmt.GLOBAL_HEADER_SIZE
    · rw [if_pos c1]; exact ⟨_, _, rfl, rfl⟩
    rw [if_neg c1]
    by_cases c2 : content.length < fmt.INDEX_TRAILER_SIZE
    · rw [if_pos c2]; exact ⟨_, _, rfl, rfl⟩
    rw [if_neg c2]
    rw [vault.read_exact_of_le content 0 fmt.GLOBAL_HEADER_SIZE (by omega)]
    simp only
    generalize vault.parse_header ((content.drop 0).take fmt.GLOBAL_HEADER_SIZE) = hdr
    by_cases c3 : hdr.magic ≠ fmt.VAULT_MAGIC
    · rw [if_pos c3]; exact ⟨_, _, rfl, rfl⟩
    rw [if_neg c3]
    by_cases c4 : hdr.header_size < fmt.GLOBAL_HEADER_SIZE % U32
    · rw [if_pos c4]; exact ⟨_, _, rfl, rfl⟩
    rw [if_neg c4]
    by_cases c5 : hdr.header_size > content.length
    · rw [if_pos c5]; exact ⟨_, _, rfl, rfl⟩
    rw [if_neg c5]
    rw [vault.read_exact_of_le content _ fmt.INDEX_TRAILER_SIZE (by omega)]
    simp only
    generalize vault.parse_trailer ((content.drop (content.length - fmt.INDEX_TRAILER_SIZE)).take
      fmt.INDEX_TRAILER_SIZE) = tr at hsum ⊢
    by_cases c6 : tr.magic ≠ fmt.INDEX_MAGIC
    · rw [if_pos c6]; exact ⟨_, _, rfl, rfl⟩
    rw [if_neg c6]
    by_cases c7 : tr.trailer_size ≠ fmt.INDEX_TRAILER_SIZE % U32
    · rw [if_pos c7]; exact ⟨_, _, rfl, rfl⟩
    rw [if_neg c7]
    by_cases c8 : tr.index_size = 0 ∨ tr.index_size > vault.MAX_INDEX_SIZE
    · rw [if_pos c8]; exact ⟨_, _, rfl, rfl⟩
    rw [if_neg c8]
    by_cases c9 : tr.index_offset < hdr.header_size
    · rw [if_pos c9]; exact ⟨_, _, rfl, rfl⟩
    rw [if_neg c9]
    by_cases c10 : tr.index_offset > content.length - fmt.INDEX_TRAILER_SIZE
    · rw [if_pos c10]; exact ⟨_, _, rfl, rfl⟩
    rw [if_neg c10]
    have hlt : tr.index_offset + tr.index_size < U64 := by
      simp only [vault.MAX_INDEX_SIZE, U64] at c8 c10 hsz ⊢
      omega
    rw [Nat.mod_eq_of_lt hlt, if_pos hsum]
    exact ⟨_, _, rfl, rfl⟩

theorem C10_index_ends_before_trailer_witness :
    demoFs "v.1654" = some demoVault ∧ demoVault.length < 2 ^ 63 ∧
    ∀ (st : Status) (vo : vault.VaultOpen),
      vault.open_for_view noAllocFaults demoFs "v.1654" demoPw = .ok (st, vo) → st.is_ok = true →
      vo.trailer.index_offset + vo.trailer.index_size ≤
        demoVault.length - fmt.INDEX_TRAILER_SIZE :=
  ⟨demoFs_vault, demoVault_small,
    (C10_index_ends_before_trailer noAllocFaults demoFs "v.1654" demoPw demoVault demoFs_vault
      demoVault_small).1⟩

/-! ## The object region: how the writer states grow -/

namespace vault

theorem layoutEnd_append (pos : Nat) (l1 l2 : List index.Entry) :
    layoutEnd pos (l1 ++ l2) = layoutEnd (layoutEnd pos l1) l2 := by
  induction l1 generalizing pos with
  | nil => rfl
  | cons e l1 ih => simp only [List.cons_append, layoutEnd]; exact ih _

theorem consecutive_append (pos : Nat) (l1 l2 : List index.Entry) :
    Consecutive pos (l1 ++ l2) ↔ Consecutive pos l1 ∧ Consecutive (layoutEnd pos l1) l2 := by
  induction l1 generalizing pos with
  | nil => simp [Consecutive, layoutEnd]
  | cons e l1 ih =>
    show (_ ∧ Consecutive _ (l1 ++ l2)) ↔ _
    rw [ih]
    simp only [Consecutive, layoutEnd]
    tauto

theorem layoutEnd_ge (pos : Nat) (l : List index.Entry) : pos ≤ layoutEnd pos l := by
  induction l generalizing pos with
  | nil => exact Nat.le_refl _
  | cons e l ih =>
    simp only [layoutEnd]
    split
    · exact Nat.le_trans (Nat.le_add_right _ _) (ih _)
    · exact ih _

theorem objectAt_mono (keys : kdf.Keys) (data more : Bytes) (e : index.Entry) (f : Bytes × Bytes)
    (h : ObjectAt keys data e f) : ObjectAt keys (data ++ more) e f := by
  obtain ⟨h1, h2, h3, h4⟩ := h
  refine ⟨h1, by rw [List.length_append]; omega, h3, ?_⟩
  have hs : ((data ++ more).drop e.data_offset).take e.data_size =
      (data.drop e.data_offset).take e.data_size := by
    rw [List.drop_append_of_le_length (by omega),
      List.take_append_of_le_length (by rw [List.length_drop]; omega)]
  rw [hs]
  exact h4

theorem forall2_objectAt_mono (keys : kdf.Keys) (data more : Bytes) (es : List index.Entry)
    (F : List (Bytes × Bytes)) (h : List.Forall₂ (ObjectAt keys data) es F) :
    List.Forall₂ (ObjectAt keys (data ++ more)) es F := by
  induction h with
  | nil => exact List.Forall₂.nil
  | cons h1 _ ih => exact List.Forall₂.cons (objectAt_mono _ _ _ _ _ h1) ih

theorem forall2_append {α β : Type} (R : α → β → Prop) (l1 l2 : List α) (m1 m2 : List β)
    (h1 : List.Forall₂ R l1 m1) (h2 : List.Forall₂ R l2 m2) :
    List.Forall₂ R (l1 ++ l2) (m1 ++ m2) := by
  induction h1 with
  | nil => exact h2
  | cons h _ ih => exact List.Forall₂.cons h ih

/-- Entries added in two stages. -/
theorem addedOk_append (keys : kdf.Keys) (pos : Nat) (data1 more : Bytes)
    (a1 a2 : List index.Entry) (F1 F2 : List (Bytes × Bytes))
    (h1 : AddedOk keys pos data1 a1 F1)
    (h2 : AddedOk keys data1.length (data1 ++ more) a2 F2) :
    AddedOk keys pos (data1 ++ more) (a1 ++ a2) (F1 ++ F2) where
  consecutive := by
    rw [consecutive_append, h1.ends]
    exact ⟨h1.consecutive, h2.consecutive⟩
  ends := by rw [layoutEnd_append, h1.ends]; exact h2.ends
  dirs := by
    intro e he
    rcases List.mem_append.mp he with h | h
    · exact h1.dirs e h
    · exact h2.dirs e h
  fields := by
    intro e he
    rcases List.mem_append.mp he with h | h
    · exact h1.fields e h
    · exact h2.fields e h
  objects := by
    rw [List.filter_append]
    exact forall2_append _ _ _ _ _ (forall2_objectAt_mono _ _ _ _ _ h1.objects) h2.objects

theorem addedOk_nil (keys : kdf.Keys) (data : Bytes) : AddedOk keys data.length data [] [] where
  consecutive := trivial
  ends := rfl
  dirs := by intro e he; cases he
  fields := by intro e he; cases he
  objects := List.Forall₂.nil

theorem grows_refl (keys : kdf.Keys) (s : WriteState) (hg : s.ofs.good = true) :
    Grows keys s s [] :=
  ⟨[], [], by simp, by simp, hg, fun _ => addedOk_nil keys _⟩

theorem grows_trans (keys : kdf.Keys) (s s1 s2 : WriteState) (F1 F2 : List (Bytes × Bytes))
    (h1 : Grows keys s s1 F1) (h2 : Grows keys s1 s2 F2) : Grows keys s s2 (F1 ++ F2) := by
  obtain ⟨m1, a1, hd1, he1, _, hk1⟩ := h1
  obtain ⟨m2, a2, hd2, he2, hg2, hk2⟩ := h2
  refine ⟨m1 ++ m2, a1 ++ a2, by rw [hd2, hd1, List.append_assoc],
    by rw [he2, he1, List.append_assoc], hg2, ?_⟩
  intro hlt
  have hlt1 : s1.ofs.data.length < 2 ^ 63 := by
    rw [hd2, List.length_append] at hlt
    omega
  have k1 := hk1 hlt1
  have k2 := hk2 hlt
  rw [hd2]
  rw [hd2] at k2
  exact addedOk_append keys _ _ _ _ _ _ _ k1 k2

theorem dir_entry_zeroDir (path : Bytes) : ZeroDir (dir_entry path) := ⟨rfl, rfl, rfl, rfl⟩

theorem dir_entry_fieldsOk (path : Bytes) : FieldsOk (dir_entry path) := by
  simp [FieldsOk, dir_entry, fmt.F_VISIBLE, U32, U64, NONCE_SIZE, TAG_SIZE]

/-- Appending directory entries only, without writing. -/
theorem grows_of_dirs (keys : kdf.Keys) (s s1 : WriteState) (paths : List Bytes)
    (hg : s.ofs.good = true) (hofs : s1.ofs = s.ofs)
    (hidx : s1.idx.entries = s.idx.entries ++ paths.map dir_entry) : Grows keys s s1 [] := by
  refine ⟨[], paths.map dir_entry, by simp [hofs], hidx, by rw [hofs]; exact hg, ?_⟩
  intro _
  rw [hofs]
  have hnf : ∀ l : List Bytes, (l.map dir_entry).filter isFile = [] := by
    intro l
    induction l with
    | nil => rfl
    | cons p l ih => simp [List.filter_cons, isFile, dir_entry, ih]
  have hle : ∀ (l : List Bytes) (pos : Nat), layoutEnd pos (l.map dir_entry) = pos ∧
      Consecutive pos (l.map dir_entry) := by
    intro l
    induction l with
    | nil => intro pos; exact ⟨rfl, trivial⟩
    | cons p l ih =>
      intro pos
      simp only [List.map_cons, layoutEnd, Consecutive]
      have : isFile (dir_entry p) = false := by simp [isFile, dir_entry]
      simp only [this, Bool.false_eq_true, if_false, false_implies, true_and]
      exact ih pos
  exact
    { consecutive := (hle paths _).2
      ends := (hle paths _).1
      dirs := by
        intro e he _
        obtain ⟨p, _, rfl⟩ := List.mem_map.mp he
        exact dir_entry_zeroDir p
      fields := by
        intro e he
        obtain ⟨p, _, rfl⟩ := List.mem_map.mp he
        exact dir_entry_fieldsOk p
      objects := by rw [hnf]; exact List.Forall₂.nil }

/-- The loop of ensure_parent_dirs only appends directory entries. -/
theorem ensureLoop_appends (fuel : Nat) :
    ∀ (idx : index.Index) (full_path : Bytes) (pos : Nat),
      ∃ paths : List Bytes,
        (ensureLoop fuel idx full_path pos).entries = idx.entries ++ paths.map dir_entry := by
  induction fuel with
  | zero => intro idx fp pos; exact ⟨[], by simp [ensureLoop]⟩
  | succ n ih =>
    intro idx fp pos
    simp only [ensureLoop]
    split
    · exact ⟨[], by simp⟩
    · rename_i pos1 _
      split
      · obtain ⟨ps, hps⟩ := ih ⟨idx.entries ++ [dir_entry (fp.take pos1)]⟩ fp (pos1 + 1)
        exact ⟨fp.take pos1 :: ps, by rw [hps]; simp⟩
      · exact ih idx fp (pos1 + 1)

theorem ensure_parent_dirs_appends (idx : index.Index) (full_path : Bytes) :
    ∃ paths : List Bytes,
      (ensure_parent_dirs idx full_path).entries = idx.entries ++ paths.map dir_entry :=
  ensureLoop_appends _ idx full_path 0

theorem add_dir_entry_appends (idx : index.Index) (path : Bytes) :
    ∃ paths : List Bytes,
      (add_dir_entry idx path).entries = idx.entries ++ paths.map dir_entry := by
  unfold add_dir_entry
  split
  · exact ⟨[], by simp⟩
  · split
    · exact ⟨[], by simp⟩
    · exact ⟨[path], by simp⟩

end vault

/-! ## The writer loops -/

namespace vault

theorem rng_bytes_length (g : Rng) (n : Nat) : (g.bytes n).1.length = n := by
  simp [Rng.bytes]

theorem rng_bytes_lt (g : Rng) (n : Nat) : ∀ b ∈ (g.bytes n).1, b < 256 := by
  intro b hb
  simp only [Rng.bytes, List.mem_map] at hb
  obtain ⟨i, _, rfl⟩ := hb
  exact Nat.mod_lt _ (by decide)

theorem tellp_good (s : OStream) (hg : s.good = true) (h : s.data.length < U64) :
    s.tellp = s.data.length := by
  simp [OStream.tellp, hg, Nat.mod_eq_of_lt h]

/-- Appending one encrypted file object and its entry. -/
theorem grows_file (wf : WriteFaults) (keys : kdf.Keys) (s s1 : WriteState)
    (res : obj.EncResult) (bytes nonce : Bytes) (e : index.Entry)
    (hg : s.ofs.good = true) (hn : nonce.length = NONCE_SIZE)
    (henc : obj.encrypt_stream wf bytes s.ofs keys.enc keys.mac nonce = .ok res)
    (hok : res.status.is_ok = true)
    (hofs : s1.ofs = res.out) (hidx : s1.idx.entries = s.idx.entries ++ [e])
    (htype : e.type = fmt.ObjType.File) (hflags : e.flags < U32) (hsize : e.size < U64)
    (hnonce : e.nonce = nonce) (hoff : e.data_offset = s.ofs.tellp)
    (hds : e.data_size = res.bytes_written) (htag : e.tag = res.tag) :
    Grows keys s s1 [(e.path, bytes)] := by
  obtain ⟨C, hd, hlen, hmac, hgood, hbw, hdec⟩ :=
    encrypt_stream_decrypt_stream wf bytes keys.enc keys.mac nonce s.ofs res henc hok
  refine ⟨C, [e], by rw [hofs, hd], hidx, by rw [hofs]; exact hgood hg, ?_⟩
  intro hlt
  rw [hofs, hd, List.length_append, hlen] at hlt
  have hP : bytes.length < U64 := by simp only [U64]; omega
  obtain ⟨hbw2, hdec2⟩ := hdec hP
  have htell : s.ofs.tellp = s.ofs.data.length :=
    tellp_good _ hg (by simp only [U64]; omega)
  have hfile : isFile e = true := by simp [isFile, htype]
  rw [hofs, hd]
  exact
    { consecutive := by
        simp only [Consecutive, and_true]
        intro _
        rw [hoff, htell]
      ends := by
        simp only [layoutEnd, hfile, if_true, List.length_append, hds, hbw2, hlen]
      dirs := by
        intro x hx hdir
        rw [List.mem_singleton.mp hx, htype] at hdir
        cases hdir
      fields := by
        intro x hx
        rw [List.mem_singleton.mp hx]
        refine ⟨hflags, hsize, ?_, ?_, ?_, ?_⟩
        · rw [hoff, htell]; simp only [U64]; omega
        · rw [hds]; exact hbw
        · rw [hnonce]; exact hn
        · rw [htag]; exact mac_compute_length _ _ _ hmac
      objects := by
        simp only [List.filter_cons, hfile, if_true, List.filter_nil]
        refine List.Forall₂.cons ?_ List.Forall₂.nil
        refine ⟨rfl, ?_, ?_, ?_⟩
        · rw [hoff, htell, hds, hbw2, List.length_append, hlen]
        · rw [hds, hbw2]
        · intro out2 hg2
          obtain ⟨out3, h1, h2, _⟩ := hdec2 out2 hg2
          refine ⟨out3, ?_, h2⟩
          rw [hoff, htell, hds, hnonce, htag, List.drop_left]
          have htk : List.take res.bytes_written C = C := by
            rw [hbw2, ← hlen, List.take_length]
          rw [htk]
          exact h1 }

theorem push_dir_appends (idx : index.Index) (p : Bytes) :
    ∃ paths : List Bytes,
      (if ¬ has_dir_entry idx p = true then (⟨idx.entries ++ [dir_entry p]⟩ : index.Index)
        else idx).entries = idx.entries ++ paths.map dir_entry := by
  split
  · exact ⟨[p], by simp⟩
  · exact ⟨[], by simp⟩

/-- A successful write_one_file extends the state by the parent directories and the file. -/
theorem write_one_file_grows (wf : WriteFaults) (keys : kdf.Keys) (s s1 : WriteState)
    (content : Option Bytes) (p : Bytes) (st : Status) (hg : s.ofs.good = true)
    (h : write_one_file wf s content p keys = .ok (st, s1)) (hok : st.is_ok = true) :
    ∃ bytes, content = some bytes ∧ Grows keys s s1 [(p, bytes)] := by
  unfold write_one_file at h
  cases content with
  | none =>
    simp only at h
    cases h
    rw [io_err_not_ok] at hok
    cases hok
  | some bytes =>
    simp only at h
    cases henc : obj.encrypt_stream wf bytes s.ofs keys.enc keys.mac (s.rng.bytes NONCE_SIZE).1 with
    | error x => rw [henc] at h; cases h
    | ok res =>
      rw [henc] at h
      simp only at h
      by_cases hres : res.status.is_ok = true
      · rw [if_neg (by simp [hres])] at h
        cases h
        refine ⟨bytes, rfl, ?_⟩
        obtain ⟨paths, hp⟩ := ensure_parent_dirs_appends s.idx p
        have g1 : Grows keys s { s with idx := ensure_parent_dirs s.idx p } [] :=
          grows_of_dirs keys s _ paths hg rfl hp
        have g2 := grows_file wf keys { s with idx := ensure_parent_dirs s.idx p }
          { ofs := res.out,
            idx := ⟨(ensure_parent_dirs s.idx p).entries ++
              [{ path := p, type := fmt.ObjType.File, flags := fmt.F_VISIBLE,
                 size := bytes.length % U64, data_offset := s.ofs.tellp,
                 data_size := res.bytes_written, nonce := (s.rng.bytes NONCE_SIZE).1,
                 tag := res.tag }]⟩,
            rng := (s.rng.bytes NONCE_SIZE).2 }
          res bytes (s.rng.bytes NONCE_SIZE).1 _ hg (rng_bytes_length _ _) henc hres rfl rfl rfl
          (by simp [fmt.F_VISIBLE, U32]) (Nat.mod_lt _ (by simp [U64])) rfl rfl rfl rfl
        exact grows_trans keys _ _ _ [] _ g1 g2
      · rw [if_pos (by simpa using hres)] at h
        cases h
        exact absurd hok hres

/-- A successful run of the directory loop of the writer extends the state by the files
of the listing. -/
theorem writeItems_grows (wf : WriteFaults) (keys : kdf.Keys) (root : Bytes)
    (items : List DirItem) :
    ∀ (s s1 : WriteState) (st : Status), s.ofs.good = true →
      writeItems wf keys root items s = .ok (st, s1) → st.is_ok = true →
      Grows keys s s1 (filesOfItems root items) := by
  induction items with
  | nil =>
    intro s s1 st hg h _
    simp only [writeItems] at h
    cases h
    exact grows_refl keys s hg
  | cons it rest ih =>
    intro s s1 st hg h hok
    cases it with
    | dir rel =>
      simp only [writeItems] at h
      obtain ⟨paths, hp⟩ := push_dir_appends s.idx (root ++ [47] ++ rel)
      have g1 : Grows keys s
          { s with idx := if ¬ has_dir_entry s.idx (root ++ [47] ++ rel) = true then
              ⟨s.idx.entries ++ [dir_entry (root ++ [47] ++ rel)]⟩ else s.idx } [] :=
        grows_of_dirs keys s _ paths hg rfl hp
      have g2 := ih { s with idx := if ¬ has_dir_entry s.idx (root ++ [47] ++ rel) = true then
              ⟨s.idx.entries ++ [dir_entry (root ++ [47] ++ rel)]⟩ else s.idx } s1 st hg h hok
      have := grows_trans keys _ _ _ _ _ g1 g2
      simpa [filesOfItems] using this
    | file rel content =>
      simp only [writeItems] at h
      cases hw : write_one_file wf s content (root ++ [47] ++ rel) keys with
      | error x => rw [hw] at h; cases h
      | ok r =>
        obtain ⟨st1, sm⟩ := r
        rw [hw] at h
        simp only at h
        by_cases hst : st1.is_ok = true
        · rw [if_neg (by simp [hst])] at h
          obtain ⟨bytes, hc, g1⟩ := write_one_file_grows wf keys s sm content _ st1 hg hw hst
          have hgm : sm.ofs.good = true := by
            obtain ⟨_, _, _, _, hh, _⟩ := g1
            exact hh
          have g2 := ih sm s1 st hgm h hok
          subst hc
          have := grows_trans keys _ _ _ _ _ g1 g2
          simpa [filesOfItems] using this
        · rw [if_pos (by simpa using hst)] at h
          cases h
          exact absurd hok hst
    | other rel =>
      simp only [writeItems] at h
      have := ih s s1 st hg h hok
      simpa [filesOfItems] using this

end vault

/-! ## Reading back what was written -/

namespace vault

theorem header_bytes_length (h : fmt.GlobalHeader) (h1 : h.magic.length = 4)
    (h2 : h.salt.length = SALT_SIZE) (h3 : h.nonce.length = NONCE_SIZE)
    (h4 : h.reserved.length = 32) : (header_bytes h).length = fmt.GLOBAL_HEADER_SIZE := by
  simp [header_bytes, store_u32_le_length, h1, h2, h3, h4, fmt.GLOBAL_HEADER_SIZE]
  simp [SALT_SIZE, NONCE_SIZE]

theorem trailer_bytes_length (tr : fmt.IndexTrailer) (h1 : tr.magic.length = 4)
    (h2 : tr.index_tag.length = TAG_SIZE) :
    (trailer_bytes tr).length = fmt.INDEX_TRAILER_SIZE := by
  simp [trailer_bytes, store_u32_le_length, store_u64_le_length, h1, h2, fmt.INDEX_TRAILER_SIZE]
  simp [TAG_SIZE]

theorem take_of_length {α : Type} (l : List α) (n : Nat) (h : l.length = n) : l.take n = l := by
  rw [← h, List.take_length]

/-- The header fields read back from the bytes write_global_header emits. -/
theorem parse_header_bytes (h : fmt.GlobalHeader) (rest : Bytes) (h1 : h.magic.length = 4)
    (h2 : h.salt.length = SALT_SIZE) (h3 : h.nonce.length = NONCE_SIZE)
    (h4 : h.reserved.length = 32) (hv : h.version < U32) (hs : h.header_size < U32) :
    parse_header (((header_bytes h ++ rest).drop 0).take fmt.GLOBAL_HEADER_SIZE) = h := by
  rw [List.drop_zero, List.take_left' (header_bytes_length h h1 h2 h3 h4)]
  unfold parse_header header_bytes
  rw [take_of_length _ _ h1, take_of_length _ _ h2, take_of_length _ _ h3, take_of_length _ _ h4]
  have e1 : ∀ (x : Bytes), (h.magic ++ x).drop 4 = x := fun x => List.drop_left' h1
  have e2 : ∀ (x : Bytes), (h.magic ++ x).take 4 = h.magic := fun x => List.take_left' h1
  have d4 : (h.magic ++ endian.store_u32_le h.version ++ endian.store_u32_le h.header_size ++
      h.salt ++ h.nonce ++ h.reserved).drop 4 =
      endian.store_u32_le h.version ++ (endian.store_u32_le h.header_size ++
        (h.salt ++ (h.nonce ++ h.reserved))) := by
    simp only [List.append_assoc]
    exact e1 _
  have d8 : (h.magic ++ endian.store_u32_le h.version ++ endian.store_u32_le h.header_size ++
      h.salt ++ h.nonce ++ h.reserved).drop 8 =
      endian.store_u32_le h.header_size ++ (h.salt ++ (h.nonce ++ h.reserved)) := by
    rw [show 8 = 4 + 4 from rfl, ← List.drop_drop, d4]
    exact List.drop_left' (store_u32_le_length _)
  have d12 : (h.magic ++ endian.store_u32_le h.version ++ endian.store_u32_le h.header_size ++
      h.salt ++ h.nonce ++ h.reserved).drop 12 = h.salt ++ (h.nonce ++ h.reserved) := by
    rw [show 12 = 8 + 4 from rfl, ← List.drop_drop, d8]
    exact List.drop_left' (store_u32_le_length _)
  have d44 : (h.magic ++ endian.store_u32_le h.version ++ endian.store_u32_le h.header_size ++
      h.salt ++ h.nonce ++ h.reserved).drop (12 + SALT_SIZE) = h.nonce ++ h.reserved := by
    rw [← List.drop_drop, d12]
    exact List.drop_left' h2
  have d68 : (h.magic ++ endian.store_u32_le h.version ++ endian.store_u32_le h.header_size ++
      h.salt ++ h.nonce ++ h.reserved).drop (12 + SALT_SIZE + NONCE_SIZE) = h.reserved := by
    rw [← List.drop_drop, d44]
    exact List.drop_left' h3
  rw [List.drop_zero, d4, d8, d12, d44, d68, load_store_u32, load_store_u32,
    Nat.mod_eq_of_lt hv, Nat.mod_eq_of_lt hs, List.take_left' h2, List.take_left' h3,
    take_of_length _ _ h4]
  simp only [List.append_assoc]
  rw [e2]

/-- The trailer fields read back from the bytes write_index_trailer emits. -/
theorem parse_trailer_bytes (tr : fmt.IndexTrailer) (h1 : tr.magic.length = 4)
    (h2 : tr.index_tag.length = TAG_SIZE) (hs : tr.trailer_size < U32)
    (ho : tr.index_offset < U64) (hz : tr.index_size < U64) :
    parse_trailer (trailer_bytes tr) = tr := by
  unfold parse_trailer trailer_bytes
  rw [take_of_length _ _ h1, take_of_length _ _ h2]
  have e1 : ∀ (x : Bytes), (tr.magic ++ x).drop 4 = x := fun x => List.drop_left' h1
  have e2 : ∀ (x : Bytes), (tr.magic ++ x).take 4 = tr.magic := fun x => List.take_left' h1
  have d4 : (tr.magic ++ endian.store_u32_le tr.trailer_size ++
      endian.store_u64_le tr.index_offset ++ endian.store_u64_le tr.index_size ++
      tr.index_tag).drop 4 =
      endian.store_u32_le tr.trailer_size ++ (endian.store_u64_le tr.index_offset ++
        (endian.store_u64_le tr.index_size ++ tr.index_tag)) := by
    simp only [List.append_assoc]
    exact e1 _
  have d8 : (tr.magic ++ endian.store_u32_le tr.trailer_size ++
      endian.store_u64_le tr.index_offset ++ endian.store_u64_le tr.index_size ++
      tr.index_tag).drop 8 =
      endian.store_u64_le tr.index_offset ++ (endian.store_u64_le tr.index_size ++
        tr.index_tag) := by
    rw [show 8 = 4 + 4 from rfl, ← List.drop_drop, d4]
    exact List.drop_left' (store_u32_le_length _)
  have d16 : (tr.magic ++ endian.store_u32_le tr.trailer_size ++
      endian.store_u64_le tr.index_offset ++ endian.store_u64_le tr.index_size ++
      tr.index_tag).drop 16 = endian.store_u64_le tr.index_size ++ tr.index_tag := by
    rw [show 16 = 8 + 8 from rfl, ← List.drop_drop, d8]
    exact List.drop_left' (store_u64_le_length _)
  have d24 : (tr.magic ++ endian.store_u32_le tr.trailer_size ++
      endian.store_u64_le tr.index_offset ++ endian.store_u64_le tr.index_size ++
      tr.index_tag).drop 24 = tr.index_tag := by
    rw [show 24 = 16 + 8 from rfl, ← List.drop_drop, d16]
    exact List.drop_left' (store_u64_le_length _)
  rw [List.drop_zero, d4, d8, d16, d24, load_store_u32, load_store_u64, load_store_u64,
    Nat.mod_eq_of_lt hs, Nat.mod_eq_of_lt ho, Nat.mod_eq_of_lt hz, take_of_length _ _ h2]
  simp only [List.append_assoc]
  rw [e2]

/-- The value read_u32_le reads back from the bytes write_u32_le stores. -/
theorem read_write_u32_le (v : Nat) (rest : Bytes) :
    read_u32_le (write_u32_le v ++ rest) = v % U32 := by
  have hb : ∀ x : Nat, x &&& 0xFF = x % 256 := by
    intro x
    exact Nat.and_pow_two_sub_one_eq_mod x 8
  have := load_store_u32 v rest
  simp only [endian.load_u32_le, endian.store_u32_le, show U8 = 256 from rfl] at this
  simp only [read_u32_le, write_u32_le, hb]
  exact this

/-- The reader accepts a file made of a region starting with a valid header, an encoded
index and the matching trailer, and returns exactly these, on a host that grants the
reservation of decode_index. -/
theorem open_for_view_written {af : AllocFaults} (fs : FileSys) (path : String) (password : Bytes)
    (pre idxb : Bytes) (hdr : fmt.GlobalHeader) (tr : fmt.IndexTrailer) (idx : index.Index)
    (keys : kdf.Keys)
    (hfile : fs path = some (pre ++ idxb ++ trailer_bytes tr))
    (hsmall : (pre ++ idxb ++ trailer_bytes tr).length < 2 ^ 63)
    (hpre : fmt.GLOBAL_HEADER_SIZE ≤ pre.length)
    (hhdr : parse_header ((pre.drop 0).take fmt.GLOBAL_HEADER_SIZE) = hdr)
    (hmagic : hdr.magic = fmt.VAULT_MAGIC)
    (hhs : fmt.GLOBAL_HEADER_SIZE ≤ hdr.header_size) (hhs2 : hdr.header_size ≤ pre.length)
    (htm : tr.magic = fmt.INDEX_MAGIC) (hts : tr.trailer_size = fmt.INDEX_TRAILER_SIZE)
    (hto : tr.index_offset = pre.length) (htz : tr.index_size = idxb.length)
    (htl : tr.index_tag.length = TAG_SIZE)
    (hnz : idxb ≠ []) (hmax : idxb.length ≤ MAX_INDEX_SIZE)
    (hkeys : kdf.derive password hdr.salt
      (bits_to_bytes (if read_u32_le (hdr.reserved.drop 0) ≠ 0
        then read_u32_le (hdr.reserved.drop 0) else 512))
      (if read_u32_le (hdr.reserved.drop 4) ≠ 0
        then read_u32_le (hdr.reserved.drop 4) else 1) = .ok keys)
    (hmac : mac.compute keys.mac idxb = .ok tr.index_tag)
    (hdec : index.decode_reserved idxb = (Status.ok, idx))
    (hmem : index.reserve_refused af idxb = false) :
    open_for_view af fs path password =
      .ok (Status.ok, { header := hdr, trailer := tr, idx := idx, keys := keys }) := by
  have htb : (trailer_bytes tr).length = fmt.INDEX_TRAILER_SIZE :=
    trailer_bytes_length tr (by rw [htm]; rfl) htl
  have hlen : (pre ++ idxb ++ trailer_bytes tr).length =
      pre.length + idxb.length + fmt.INDEX_TRAILER_SIZE := by
    rw [List.length_append, List.length_append, htb]
  have hmod : (pre ++ idxb ++ trailer_bytes tr).length % U64 =
      pre.length + idxb.length + fmt.INDEX_TRAILER_SIZE := by
    rw [Nat.mod_eq_of_lt (by simp only [U64]; omega), hlen]
  have hipos : 0 < idxb.length := List.length_pos.mpr hnz
  have hso : StructOk (pre ++ idxb ++ trailer_bytes tr) hdr tr idxb :=
    { size_hdr := by rw [hmod]; omega
      size_trl := by rw [hmod]; omega
      hdr_eq := by
        rw [← hhdr, List.drop_zero, List.drop_zero, List.append_assoc,
          List.take_append_of_le_length hpre]
      magic := hmagic
      hsize_lo := by
        have : fmt.GLOBAL_HEADER_SIZE % U32 = fmt.GLOBAL_HEADER_SIZE := by decide
        rw [this]; exact hhs
      hsize_hi := by rw [hmod]; omega
      tr_eq := by
        rw [hmod, Nat.add_sub_cancel, ← List.length_append, List.drop_left,
          take_of_length _ _ htb]
        rw [parse_trailer_bytes tr (by rw [htm]; rfl) htl (by rw [hts]; decide)
          (by rw [hto]; simp only [U64]; omega) (by rw [htz]; simp only [U64]; omega)]
      tmagic := htm
      tsize := by rw [hts]; decide
      isize_pos := by rw [htz]; omega
      isize_max := by rw [htz]; exact hmax
      ioff_lo := by rw [hto]; exact hhs2
      ioff_hi := by rw [hmod, hto]; omega
      iend := by
        rw [hmod, hto, htz, Nat.mod_eq_of_lt (by simp only [U64]; omega)]
        omega
      ibytes := by
        rw [hto, htz, List.append_assoc, List.drop_left, List.take_left]
      ilen := htz.symm }
  rw [open_for_view_of_structOk fs path password _ hdr tr idxb hfile hso]
  unfold open_tail
  simp only
  rw [hkeys]
  simp only
  rw [mac_verify_of_compute _ _ _ hmac]
  rw [index.decode_index_eq, hmem, if_neg Bool.false_ne_true]
  simp only [hdec]
  rfl

end vault

/-! ## What the writer leaves in the file -/

namespace vault

theorem created_header_bytes_length (rng : Rng) (key_bits kdf_cost : Nat) :
    (header_bytes (created_header rng key_bits kdf_cost)).length = fmt.GLOBAL_HEADER_SIZE :=
  header_bytes_length _ rfl (rng_bytes_length _ _) (rng_bytes_length _ _) (by
    simp [created_header, built_header, write_u32_le])

/-- A successful write of the index and the trailer appends the encoded index and the
trailer that records where it starts. -/
theorem write_index_and_trailer_ok_inv (wf : WriteFaults) (ofs ofs2 : OStream) (keys : kdf.Keys)
    (idx : index.Index) (m1 m2 : String) (st : Status) (hg : ofs.good = true)
    (h : write_index_and_trailer wf ofs keys idx m1 m2 = .ok (st, ofs2))
    (hok : st.is_ok = true) :
    ∃ tag, mac.compute keys.mac (index.encode_index idx) = .ok tag ∧
      ofs2.data = ofs.data ++ index.encode_index idx ++
        trailer_bytes (written_trailer ofs.data (index.encode_index idx) tag) := by
  unfold write_index_and_trailer at h
  simp only at h
  by_cases hg1 : (ofs.write wf (index.encode_index idx)).good = true
  · rw [if_neg (by simp [hg1])] at h
    cases hm : mac.compute keys.mac (index.encode_index idx) with
    | error x => rw [hm] at h; cases h
    | ok tag =>
      rw [hm] at h
      simp only at h
      have ht : tag.take TAG_SIZE = tag := take_of_length _ _ (mac_compute_length _ _ _ hm)
      rw [ht] at h
      by_cases hg2 : (write_index_trailer wf (ofs.write wf (index.encode_index idx))
          { magic := fmt.INDEX_MAGIC, trailer_size := fmt.INDEX_TRAILER_SIZE % U32,
            index_offset := ofs.tellp, index_size := (index.encode_index idx).length % U64,
            index_tag := tag }).good = true
      · rw [if_neg (by simp [hg2])] at h
        cases h
        refine ⟨tag, rfl, ?_⟩
        have w1 := write_good wf ofs _ hg1
        have w2 := write_good wf _ _ hg2
        unfold write_index_trailer at w2 ⊢
        rw [w2.1, w1.1]
        simp only [written_trailer, OStream.tellp, hg, if_true]
      · rw [if_pos (by simpa using hg2)] at h
        cases h
        rw [io_err_not_ok] at hok
        cases hok
  · rw [if_pos (by simpa using hg1)] at h
    cases h
    rw [io_err_not_ok] at hok
    cases hok

/-- A successful create_body wrote header, objects, index and trailer. -/
theorem create_body_ok_inv (wf : WriteFaults) (input : HostPath) (keys : kdf.Keys)
    (rng : Rng) (key_bits kdf_cost : Nat) (rng2 : Rng) (st : Status) (ofs : OStream)
    (h : create_body wf input keys
      (built_header rng key_bits kdf_cost) rng2 = .ok (st, ofs))
    (hok : st.is_ok = true) :
    ∃ (objs : Bytes) (idx : index.Index) (tag : Bytes),
      mac.compute keys.mac (index.encode_index idx) = .ok tag ∧
      ofs.data = header_bytes (created_header rng key_bits kdf_cost) ++ objs ++
        index.encode_index idx ++
        trailer_bytes (written_trailer
          (header_bytes (created_header rng key_bits kdf_cost) ++ objs)
          (index.encode_index idx) tag) ∧
      ((header_bytes (created_header rng key_bits kdf_cost) ++ objs).length < 2 ^ 63 →
        AddedOk keys fmt.GLOBAL_HEADER_SIZE
          (header_bytes (created_header rng key_bits kdf_cost) ++ objs) idx.entries
          (filesOfHost input)) := by
  unfold create_body at h
  simp only at h
  by_cases hg0 : (write_global_header wf OStream.fresh
      (built_header rng key_bits kdf_cost)).1.good = true
  · rw [if_neg (by simp [hg0])] at h
    have w0 := write_good wf OStream.fresh _ hg0
    have hdata0 : (write_global_header wf OStream.fresh
        (built_header rng key_bits kdf_cost)).1.data =
        header_bytes (created_header rng key_bits kdf_cost) := by
      unfold write_global_header at w0 ⊢
      simp only at w0 ⊢
      rw [w0.1]
      rfl
    -- the common conclusion from a grown state
    have fin : ∀ (s1 : WriteState) (F : List (Bytes × Bytes)) (st1 : Status),
        Grows keys
          { ofs := (write_global_header wf OStream.fresh
              (built_header rng key_bits kdf_cost)).1,
            idx := ⟨[]⟩, rng := rng2 } s1 F →
        F = filesOfHost input →
        write_index_and_trailer wf s1.ofs keys s1.idx "encrypt: write index failed"
          "encrypt: write trailer failed" = .ok (st, ofs) →
        ∃ (objs : Bytes) (idx : index.Index) (tag : Bytes),
          mac.compute keys.mac (index.encode_index idx) = .ok tag ∧
          ofs.data = header_bytes (created_header rng key_bits kdf_cost) ++ objs ++
            index.encode_index idx ++
            trailer_bytes (written_trailer
              (header_bytes (created_header rng key_bits kdf_cost) ++ objs)
              (index.encode_index idx) tag) ∧
          ((header_bytes (created_header rng key_bits kdf_cost) ++ objs).length < 2 ^ 63 →
            AddedOk keys fmt.GLOBAL_HEADER_SIZE
              (header_bytes (created_header rng key_bits kdf_cost) ++ objs) idx.entries
              (filesOfHost input)) := by
      intro s1 F st1 hgr hF hw
      obtain ⟨more, added, hd, he, hgood, hadd⟩ := hgr
      simp only [List.nil_append] at he
      rw [hdata0] at hd hadd
      obtain ⟨tag, hmac, hdata⟩ :=
        write_index_and_trailer_ok_inv wf s1.ofs ofs keys s1.idx _ _ st hgood hw hok
      refine ⟨more, s1.idx, tag, hmac, by rw [hdata, hd], ?_⟩
      intro hlt
      rw [← hd] at hlt
      have := hadd hlt
      rw [hd, created_header_bytes_length, ← he, hF] at this
      exact this
    cases input with
    | missing =>
      simp only at h
      rw [if_pos (by simp [status_err_not_ok])] at h
      cases h
      rw [status_err_not_ok _ _ (by decide)] at hok
      cases hok
    | other =>
      simp only at h
      rw [if_pos (by simp [status_err_not_ok])] at h
      cases h
      rw [status_err_not_ok _ _ (by decide)] at hok
      cases hok
    | file filename content =>
      simp only at h
      cases hw : write_one_file wf
          { ofs := (write_global_header wf OStream.fresh
              (built_header rng key_bits kdf_cost)).1,
            idx := ⟨[]⟩, rng := rng2 } content
          (if filename = [] then ascii "file" else filename) keys with
      | error x => rw [hw] at h; cases h
      | ok r =>
        obtain ⟨st1, s1⟩ := r
        rw [hw] at h
        simp only at h
        by_cases hst : st1.is_ok = true
        · rw [if_neg (by simp [hst])] at h
          obtain ⟨bytes, hc, g1⟩ := write_one_file_grows wf keys _ s1 content _ st1 hg0 hw hst
          subst hc
          exact fin s1 _ st1 g1 rfl h
        · rw [if_pos (by simpa using hst)] at h
          cases h
          exact absurd hok hst
    | dir filename items =>
      simp only at h
      cases hw : writeItems wf keys (if filename = [] then ascii "folder" else filename) items
          { ofs := (write_global_header wf OStream.fresh
              (built_header rng key_bits kdf_cost)).1,
            idx := if ¬ has_dir_entry ⟨[]⟩
                (if filename = [] then ascii "folder" else filename) = true then
              ⟨([] : List index.Entry) ++
                [dir_entry (if filename = [] then ascii "folder" else filename)]⟩
              else ⟨[]⟩,
            rng := rng2 } with
      | error x => rw [hw] at h; cases h
      | ok r =>
        obtain ⟨st1, s1⟩ := r
        rw [hw] at h
        simp only at h
        by_cases hst : st1.is_ok = true
        · rw [if_neg (by simp [hst])] at h
          obtain ⟨paths, hp⟩ := push_dir_appends ⟨[]⟩
            (if filename = [] then ascii "folder" else filename)
          have g1 : Grows keys
              { ofs := (write_global_header wf OStream.fresh
                  (built_header rng key_bits kdf_cost)).1,
                idx := ⟨[]⟩, rng := rng2 }
              { ofs := (write_global_header wf OStream.fresh
                  (built_header rng key_bits kdf_cost)).1,
                idx := if ¬ has_dir_entry ⟨[]⟩
                    (if filename = [] then ascii "folder" else filename) = true then
                  ⟨([] : List index.Entry) ++
                    [dir_entry (if filename = [] then ascii "folder" else filename)]⟩
                  else ⟨[]⟩,
                rng := rng2 } [] :=
            grows_of_dirs keys _ _ paths hg0 rfl hp
          have g2 := writeItems_grows wf keys _ items _ s1 st1 hg0 hw hst
          exact fin s1 _ st1 (grows_trans keys _ _ _ _ _ g1 g2) (by simp [filesOfHost]) h
        · rw [if_pos (by simpa using hst)] at h
          cases h
          exact absurd hok hst
  · rw [if_pos (by simpa using hg0)] at h
    cases h
    rw [io_err_not_ok] at hok
    cases hok

/-- A successful create_vault_from_path leaves a file with the layout Created. -/
theorem create_ok_inv (io : IoFaults) (rng : Rng) (fs fs1 : FileSys) (input : HostPath)
    (out : String) (password : Bytes) (key_bits kdf_cost : Nat) (st : Status)
    (h : create_vault_from_path io rng fs input out password key_bits kdf_cost = .ok (st, fs1))
    (hok : st.is_ok = true) :
    ∃ bytes keys objs idx tag, fs1 = fs.set out (some bytes) ∧
      Created rng input password key_bits kdf_cost bytes keys objs idx tag := by
  have key : ∀ (hne : input ≠ HostPath.missing),
      (match kdf.derive password (rng.bytes SALT_SIZE).1 (bits_to_bytes key_bits) kdf_cost with
        | .error x => (.error x : Except String (Status × FileSys))
        | .ok keys =>
          if io.createFails = true then
            .ok (io_err "encrypt: cannot create vault output file", fs)
          else
            match create_body io.writes input keys
                (built_header rng key_bits kdf_cost)
                ((rng.bytes SALT_SIZE).2.bytes NONCE_SIZE).2 with
            | .error x => .error x
            | .ok (st, ofs) => .ok (st, fs.set out (some ofs.data))) = .ok (st, fs1) →
      ∃ bytes keys objs idx tag, fs1 = fs.set out (some bytes) ∧
        Created rng input password key_bits kdf_cost bytes keys objs idx tag := by
    intro _ h
    cases hk : kdf.derive password (rng.bytes SALT_SIZE).1 (bits_to_bytes key_bits) kdf_cost with
    | error x => rw [hk] at h; cases h
    | ok keys =>
      rw [hk] at h
      simp only at h
      by_cases hc : io.createFails = true
      · rw [if_pos hc] at h
        cases h
        rw [io_err_not_ok] at hok
        cases hok
      · rw [if_neg hc] at h
        cases hb : create_body io.writes input keys
            (built_header rng key_bits kdf_cost)
            ((rng.bytes SALT_SIZE).2.bytes NONCE_SIZE).2 with
        | error x => rw [hb] at h; cases h
        | ok r =>
          obtain ⟨st1, ofs⟩ := r
          rw [hb] at h
          cases h
          obtain ⟨objs, idx, tag, hmac, hdata, hadd⟩ :=
            create_body_ok_inv io.writes input keys rng key_bits kdf_cost _ st ofs hb hok
          exact ⟨ofs.data, keys, objs, idx, tag, rfl,
            { keys_eq := hk, bytes_eq := hdata, mac_eq := hmac, added := hadd }⟩
  cases input with
  | missing =>
    simp only [create_vault_from_path] at h
    cases h
    rw [status_err_not_ok _ _ (by decide)] at hok
    cases hok
  | file f c => exact key (by simp) h
  | dir f c => exact key (by simp) h
  | other => exact key (by simp) h

end vault

/-! ## Consequences of the layout -/

theorem eq_ok_okOr {α : Type} (x : Except String α) (d : α) (h : ∃ a, x = .ok a) :
    x = .ok (okOr x d) := by
  obtain ⟨a, rfl⟩ := h
  rfl

theorem exists_ok_of_map {α β : Type} (x : Except String α) (f : α → β) (b : β)
    (h : x.map f = .ok b) : ∃ a, x = .ok a := by
  cases x with
  | error e => cases h
  | ok a => exact ⟨a, rfl⟩

theorem fileSys_set_same (fs : FileSys) (p : String) (c : Option Bytes) : (fs.set p c) p = c := by
  simp [FileSys.set]

theorem fileSys_set_other (fs : FileSys) (p q : String) (c : Option Bytes) (h : q ≠ p) :
    (fs.set p c) q = fs q := by
  simp [FileSys.set, h]

namespace vault

/-- Entries laid out consecutively lie between the start and the end of the layout. -/
theorem consecutive_range (pos : Nat) (es : List index.Entry) (h : Consecutive pos es) :
    ∀ e ∈ es, isFile e = true →
      pos ≤ e.data_offset ∧ e.data_offset + e.data_size ≤ layoutEnd pos es := by
  induction es generalizing pos with
  | nil => intro e he; cases he
  | cons x es ih =>
    intro e he hf
    obtain ⟨h1, h2⟩ := h
    rcases List.mem_cons.mp he with rfl | hm
    · have := h1 hf
      simp only [layoutEnd, hf, if_true]
      exact ⟨by omega, by rw [this]; exact layoutEnd_ge _ _⟩
    · have := ih _ h2 e hm hf
      simp only [layoutEnd]
      refine ⟨?_, this.2⟩
      split at this
      · omega
      · exact this.1

theorem isFile_of_ne_dir (e : index.Entry) (h : e.type ≠ fmt.ObjType.Dir) : isFile e = true := by
  unfold isFile
  cases ht : e.type with
  | File => simp
  | Dir => exact absurd ht h

theorem flatMap_entryBytes_length_ge (es : List index.Entry) :
    73 * es.length ≤ (es.flatMap index.entryBytes).length ∧
      ∀ e ∈ es, e.path.length ≤ (es.flatMap index.entryBytes).length := by
  induction es with
  | nil => exact ⟨Nat.le_refl _, by intro e he; cases he⟩
  | cons x es ih =>
    rw [List.flatMap_cons, List.length_append, index.entryBytes_length]
    constructor
    · rw [List.length_cons]; omega
    · intro e he
      rcases List.mem_cons.mp he with rfl | hm
      · omega
      · have := ih.2 e hm
        omega

theorem encode_index_length (idx : index.Index) :
    (index.encode_index idx).length = 12 + (idx.entries.flatMap index.entryBytes).length := by
  rw [index.encode_index_eq]
  simp only [index.indexHeader, store_u32_le_length, List.length_append]

theorem encode_index_ne_nil (idx : index.Index) : index.encode_index idx ≠ [] := by
  intro h
  have := encode_index_length idx
  rw [h, List.length_nil] at this
  omega

/-- An encoded index of at most 64 MiB has fewer than 2^32 entries, each with a path
shorter than 2^32 bytes. -/
theorem bounds_of_index_size (idx : index.Index)
    (h : (index.encode_index idx).length ≤ MAX_INDEX_SIZE) :
    idx.entries.length < U32 ∧ ∀ e ∈ idx.entries, e.path.length < U32 := by
  rw [encode_index_length] at h
  obtain ⟨h1, h2⟩ := flatMap_entryBytes_length_ge idx.entries
  simp only [MAX_INDEX_SIZE, U32] at h ⊢
  refine ⟨by omega, ?_⟩
  intro e he
  have := h2 e he
  omega

theorem wellFormed_of_fieldsOk (e : index.Entry) (h : FieldsOk e) (hp : e.path.length < U32) :
    e.WellFormed :=
  ⟨hp, h.1, h.2.1, h.2.2.1, h.2.2.2.1, h.2.2.2.2.1, h.2.2.2.2.2⟩

end vault

/-! ## The concrete vault is what the writer produces -/

set_option maxRecDepth 1000000 in
/-- Creating a vault from the concrete input succeeds and writes the concrete vault. -/
theorem demo_create_eval :
    demoCreate.map (fun r => (r.1, r.2 "v.1654")) = .ok (Status.ok, some demoVault) := by
  decide!

theorem demo_create_eq : demoCreate = .ok demoCreated :=
  eq_ok_okOr demoCreate noResult (exists_ok_of_map _ _ _ demo_create_eval)

theorem demo_created_status : demoCreated.1 = Status.ok := by
  have h := demo_create_eval
  rw [demo_create_eq] at h
  simp only [Except.map, Except.ok.injEq, Prod.mk.injEq] at h
  exact h.1

theorem demo_created_file : demoCreated.2 "v.1654" = some demoVault := by
  have h := demo_create_eval
  rw [demo_create_eq] at h
  simp only [Except.map, Except.ok.injEq, Prod.mk.injEq] at h
  exact h.2

/-! ## C3 -/

/-- C3: every vault written by create_vault_from_path (of a size below 2^63, the range of
a stream offset) is header, objects, encoded index and trailer, and satisfies the
container invariants: file_size >= header_size + trailer_size; header_size <=
index_offset; index_offset + index_size = file_size - trailer_size; index_size > 0; every
non-Dir entry has data_offset >= header_size and data_offset + data_size <= index_offset,
the File objects occupying consecutive ranges that start right after the header and end
at index_offset; every Dir entry has data_offset = data_size = 0 and all-zero nonce and
tag. -/
theorem C3_created_vault_invariants (io : IoFaults) (rng : Rng) (fs : FileSys)
    (input : HostPath) (out : String) (password : Bytes) (key_bits kdf_cost : Nat)
    (r : Status × FileSys) (bytes : Bytes)
    (hcreate : vault.create_vault_from_path io rng fs input out password key_bits kdf_cost =
      .ok r)
    (hok : r.1.is_ok = true) (hfile : r.2 out = some bytes) (hsmall : bytes.length < 2 ^ 63) :
    ∃ (hdr : fmt.GlobalHeader) (objs : Bytes) (idx : index.Index) (tr : fmt.IndexTrailer),
      bytes = vault.header_bytes hdr ++ objs ++ index.encode_index idx ++
        vault.trailer_bytes tr ∧
      hdr.header_size = 100 ∧ (vault.header_bytes hdr).length = hdr.header_size ∧
      tr.trailer_size = 40 ∧ (vault.trailer_bytes tr).length = tr.trailer_size ∧
      tr.index_size = (index.encode_index idx).length ∧
      bytes.length ≥ hdr.header_size + tr.trailer_size ∧
      hdr.header_size ≤ tr.index_offset ∧
      tr.index_offset + tr.index_size = bytes.length - tr.trailer_size ∧
      0 < tr.index_size ∧
      (∀ e ∈ idx.entries, e.type ≠ fmt.ObjType.Dir →
        e.data_offset ≥ hdr.header_size ∧ e.data_offset + e.data_size ≤ tr.index_offset) ∧
      vault.Consecutive hdr.header_size idx.entries ∧
      vault.layoutEnd hdr.header_size idx.entries = tr.index_offset ∧
      (∀ e ∈ idx.entries, e.type = fmt.ObjType.Dir →
        e.data_offset = 0 ∧ e.data_size = 0 ∧ e.nonce = List.replicate 24 0 ∧
          e.tag = List.replicate 16 0) := by
  obtain ⟨st, fs1⟩ := r
  obtain ⟨bytes1, keys, objs, idx, tag, hfs, hc⟩ :=
    vault.create_ok_inv io rng fs fs1 input out password key_bits kdf_cost st hcreate hok
  simp only at hfile
  rw [hfs, fileSys_set_same] at hfile
  cases hfile
  have hb := hc.bytes_eq
  have hhl := vault.created_header_bytes_length rng key_bits kdf_cost
  have htag : tag.length = TAG_SIZE := mac_compute_length _ _ _ hc.mac_eq
  have htl : (vault.trailer_bytes (vault.written_trailer
      (vault.header_bytes (vault.created_header rng key_bits kdf_cost) ++ objs)
      (index.encode_index idx) tag)).length = fmt.INDEX_TRAILER_SIZE :=
    vault.trailer_bytes_length _ rfl htag
  have hlen := congrArg List.length hb
  rw [List.length_append, List.length_append, htl] at hlen
  have hpre : (vault.header_bytes (vault.created_header rng key_bits kdf_cost) ++ objs).length
      < 2 ^ 63 := by omega
  have hidxlen := vault.encode_index_length idx
  have hadd := hc.added hpre
  have ho : (vault.written_trailer
      (vault.header_bytes (vault.created_header rng key_bits kdf_cost) ++ objs)
      (index.encode_index idx) tag).index_offset =
      (vault.header_bytes (vault.created_header rng key_bits kdf_cost) ++ objs).length := by
    simp only [vault.written_trailer]
    exact Nat.mod_eq_of_lt (by simp only [U64]; omega)
  have hz : (vault.written_trailer
      (vault.header_bytes (vault.created_header rng key_bits kdf_cost) ++ objs)
      (index.encode_index idx) tag).index_size = (index.encode_index idx).length := by
    simp only [vault.written_trailer]
    exact Nat.mod_eq_of_lt (by simp only [U64]; omega)
  have hhs : (vault.created_header rng key_bits kdf_cost).header_size = 100 := rfl
  have hts : (vault.written_trailer
      (vault.header_bytes (vault.created_header rng key_bits kdf_cost) ++ objs)
      (index.encode_index idx) tag).trailer_size = 40 := rfl
  have hG : fmt.GLOBAL_HEADER_SIZE = 100 := rfl
  have hT : fmt.INDEX_TRAILER_SIZE = 40 := rfl
  have hprelen : (vault.header_bytes (vault.created_header rng key_bits kdf_cost) ++ objs).length
      = 100 + objs.length := by rw [List.length_append, hhl, hG]
  refine ⟨vault.created_header rng key_bits kdf_cost, objs, idx, _, hb, hhs, by rw [hhl, hhs, hG],
    hts, by rw [htl, hts, hT], hz, ?_, ?_, ?_, ?_, ?_, ?_, ?_, ?_⟩
  · rw [hhs, hts]; omega
  · rw [hhs, ho]; omega
  · rw [ho, hz, hts]; omega
  · rw [hz]; omega
  · intro e he hnd
    have := vault.consecutive_range _ _ hadd.consecutive e he (vault.isFile_of_ne_dir e hnd)
    rw [hadd.ends] at this
    rw [hhs, ho]
    exact ⟨by rw [hG] at this; exact this.1, this.2⟩
  · rw [hhs]; exact hadd.consecutive
  · rw [hhs, ho]; exact hadd.ends
  · intro e he hd
    exact hadd.dirs e he hd

theorem C3_created_vault_invariants_witness :
    vault.create_vault_from_path IoFaults.none demoRng emptyFs demoInput "v.1654" demoPw 256 1 =
      .ok demoCreated ∧
    demoCreated.1.is_ok = true ∧ demoCreated.2 "v.1654" = some demoVault ∧
    demoVault.length < 2 ^ 63 ∧
    ∃ (hdr : fmt.GlobalHeader) (objs : Bytes) (idx : index.Index) (tr : fmt.IndexTrailer),
      demoVault = vault.header_bytes hdr ++ objs ++ index.encode_index idx ++
        vault.trailer_bytes tr ∧
      hdr.header_size = 100 ∧ (vault.header_bytes hdr).length = hdr.header_size ∧
      tr.trailer_size = 40 ∧ (vault.trailer_bytes tr).length = tr.trailer_size ∧
      tr.index_size = (index.encode_index idx).length ∧
      demoVault.length ≥ hdr.header_size + tr.trailer_size ∧
      hdr.header_size ≤ tr.index_offset ∧
      tr.index_offset + tr.index_size = demoVault.length - tr.trailer_size ∧
      0 < tr.index_size ∧
      (∀ e ∈ idx.entries, e.type ≠ fmt.ObjType.Dir →
        e.data_offset ≥ hdr.header_size ∧ e.data_offset + e.data_size ≤ tr.index_offset) ∧
      vault.Consecutive hdr.header_size idx.entries ∧
      vault.layoutEnd hdr.header_size idx.entries = tr.index_offset ∧
      (∀ e ∈ idx.entries, e.type = fmt.ObjType.Dir →
        e.data_offset = 0 ∧ e.data_size = 0 ∧ e.nonce = List.replicate 24 0 ∧
          e.tag = List.replicate 16 0) :=
  ⟨demo_create_eq, by rw [demo_created_status]; rfl, demo_created_file, demoVault_small,
    C3_created_vault_invariants IoFaults.none demoRng emptyFs demoInput "v.1654" demoPw 256 1
      demoCreated demoVault demo_create_eq (by rw [demo_created_status]; rfl) demo_created_file
      demoVault_small⟩

/-! ## Opening what the writer wrote -/

namespace vault

/-- The key parameters the reader recovers from the reserved field the writer stored. -/
theorem reserved_key_params (rng : Rng) (key_bits kdf_cost : Nat)
    (hkb : 256 ≤ key_bits) (hkb32 : key_bits < 2 ^ 32) (hc1 : 1 ≤ kdf_cost)
    (hc32 : kdf_cost < 2 ^ 32) :
    (if read_u32_le ((created_header rng key_bits kdf_cost).reserved.drop 0) ≠ 0
      then read_u32_le ((created_header rng key_bits kdf_cost).reserved.drop 0) else 512) =
      key_bits ∧
    (if read_u32_le ((created_header rng key_bits kdf_cost).reserved.drop 4) ≠ 0
      then read_u32_le ((created_header rng key_bits kdf_cost).reserved.drop 4) else 1) =
      kdf_cost := by
  have hU : U32 = 2 ^ 32 := rfl
  have h0 : read_u32_le ((created_header rng key_bits kdf_cost).reserved.drop 0) = key_bits := by
    simp only [created_header, built_header, List.drop_zero, List.append_assoc]
    rw [read_write_u32_le, Nat.mod_mod, Nat.mod_eq_of_lt (by rw [hU]; exact hkb32)]
  have h4 : read_u32_le ((created_header rng key_bits kdf_cost).reserved.drop 4) = kdf_cost := by
    simp only [created_header, built_header, List.append_assoc]
    rw [List.drop_left' (by simp [write_u32_le]), read_write_u32_le,
      Nat.mod_eq_of_lt (by rw [hU]; exact hc32)]
  rw [h0, h4, if_pos (by omega), if_pos (by omega)]
  exact ⟨rfl, rfl⟩

/-- The reader opens the file a successful create left, when its index is at most
64 MiB and the host grants the storage of its entries. -/
theorem open_created (af : AllocFaults) (fs : FileSys) (path : String) (rng : Rng)
    (input : HostPath)
    (password : Bytes) (key_bits kdf_cost : Nat) (bytes : Bytes) (keys : kdf.Keys)
    (objs : Bytes) (idx : index.Index) (tag : Bytes)
    (hc : Created rng input password key_bits kdf_cost bytes keys objs idx tag)
    (hfile : fs path = some bytes) (hsmall : bytes.length < 2 ^ 63)
    (hmax : (index.encode_index idx).length ≤ MAX_INDEX_SIZE)
    (hkb : 256 ≤ key_bits) (hkb32 : key_bits < 2 ^ 32) (hc1 : 1 ≤ kdf_cost)
    (hc32 : kdf_cost < 2 ^ 32) (hmem : index.Grants af idx.entries.length) :
    open_for_view af fs path password =
      .ok (Status.ok,
        { header := created_header rng key_bits kdf_cost,
          trailer := written_trailer
            (header_bytes (created_header rng key_bits kdf_cost) ++ objs)
            (index.encode_index idx) tag,
          idx := idx, keys := keys }) ∧
    List.Forall₂ (ObjectAt keys bytes) (idx.entries.filter isFile) (filesOfHost input) := by
  have hb := hc.bytes_eq
  have hhl := created_header_bytes_length rng key_bits kdf_cost
  have htag : tag.length = TAG_SIZE := mac_compute_length _ _ _ hc.mac_eq
  have htl : (trailer_bytes (written_trailer
      (header_bytes (created_header rng key_bits kdf_cost) ++ objs)
      (index.encode_index idx) tag)).length = fmt.INDEX_TRAILER_SIZE :=
    trailer_bytes_length _ rfl htag
  have hlen := congrArg List.length hb
  rw [List.length_append, List.length_append, htl] at hlen
  have hpre : (header_bytes (created_header rng key_bits kdf_cost) ++ objs).length < 2 ^ 63 := by
    omega
  have hadd := hc.added hpre
  obtain ⟨hcount, hpaths⟩ := bounds_of_index_size idx hmax
  obtain ⟨hkb_eq, hcost_eq⟩ := reserved_key_params rng key_bits kdf_cost hkb hkb32 hc1 hc32
  constructor
  · have hsmall2 := hsmall
    rw [hb] at hfile hsmall2
    apply open_for_view_written fs path password _ _ _ _ idx keys hfile hsmall2
    · rw [List.length_append, hhl]; omega
    · exact parse_header_bytes (created_header rng key_bits kdf_cost) objs rfl
        (rng_bytes_length _ _) (rng_bytes_length _ _)
        (by simp [created_header, built_header, write_u32_le])
        (show VERSION < U32 by decide) (show fmt.GLOBAL_HEADER_SIZE % U32 < U32 by decide)
    · rfl
    · exact Nat.le_of_eq rfl
    · rw [List.length_append, hhl]
      exact Nat.le_add_right _ _
    · rfl
    · rfl
    · simp only [written_trailer]
      exact Nat.mod_eq_of_lt (by simp only [U64]; omega)
    · simp only [written_trailer]
      exact Nat.mod_eq_of_lt (by simp only [U64]; omega)
    · exact htag
    · exact encode_index_ne_nil idx
    · exact hmax
    · rw [hkb_eq, hcost_eq]
      exact hc.keys_eq
    · exact hc.mac_eq
    · exact index.decode_encode_index idx hcount
        (fun e he => wellFormed_of_fieldsOk e (hadd.fields e he) (hpaths e he))
    · exact index.reserve_refused_encode af idx hcount hmem
  · rw [hb, List.append_assoc]
    exact forall2_objectAt_mono _ _ _ _ _ hadd.objects

/-- The trailer at the end of a file made of a region, an encoded index and the trailer
the writer stores after them. -/
theorem parse_written_trailer (pre idxb tag : Bytes) (htag : tag.length = TAG_SIZE) :
    parse_trailer ((pre ++ idxb ++ trailer_bytes (written_trailer pre idxb tag)).drop
      ((pre ++ idxb ++ trailer_bytes (written_trailer pre idxb tag)).length -
        fmt.INDEX_TRAILER_SIZE)) = written_trailer pre idxb tag := by
  have htl : (trailer_bytes (written_trailer pre idxb tag)).length = fmt.INDEX_TRAILER_SIZE :=
    trailer_bytes_length _ rfl htag
  have hd : (pre ++ idxb ++ trailer_bytes (written_trailer pre idxb tag)).length -
      fmt.INDEX_TRAILER_SIZE = (pre ++ idxb).length := by
    rw [List.length_append, htl]; omega
  rw [hd, List.drop_left' rfl]
  exact parse_trailer_bytes _ rfl htag (Nat.mod_lt _ (by decide)) (Nat.mod_lt _ (by decide))
    (Nat.mod_lt _ (by decide))

/-- The index_size field in the trailer of a created file is the length of its encoded
index, reduced to 64 bits. -/
theorem created_index_size (rng : Rng) (input : HostPath) (password : Bytes)
    (key_bits kdf_cost : Nat) (bytes : Bytes) (keys : kdf.Keys) (objs : Bytes)
    (idx : index.Index) (tag : Bytes)
    (hc : Created rng input password key_bits kdf_cost bytes keys objs idx tag) :
    (parse_trailer (bytes.drop (bytes.length - fmt.INDEX_TRAILER_SIZE))).index_size =
      (index.encode_index idx).length % U64 := by
  have htag : tag.length = TAG_SIZE := mac_compute_length _ _ _ hc.mac_eq
  rw [hc.bytes_eq, parse_written_trailer _ _ _ htag]
  rfl

end vault

/-! ## Writing many empty files -/

namespace vault

/-- The loop of ensure_parent_dirs adds at most one directory entry per iteration, each
with a path that is a prefix of the full path. -/
theorem ensureLoop_bounded (fuel : Nat) :
    ∀ (idx : index.Index) (full_path : Bytes) (pos : Nat),
      ∃ paths : List Bytes,
        (ensureLoop fuel idx full_path pos).entries = idx.entries ++ paths.map dir_entry ∧
          paths.length ≤ fuel ∧ ∀ p ∈ paths, p.length ≤ full_path.length := by
  induction fuel with
  | zero => intro idx fp pos; exact ⟨[], by simp [ensureLoop]⟩
  | succ n ih =>
    intro idx fp pos
    simp only [ensureLoop]
    split
    · exact ⟨[], by simp⟩
    · rename_i pos1 _
      split
      · obtain ⟨ps, hps, hl, hp⟩ := ih ⟨idx.entries ++ [dir_entry (fp.take pos1)]⟩ fp (pos1 + 1)
        refine ⟨fp.take pos1 :: ps, by rw [hps]; simp, by simp only [List.length_cons]; omega, ?_⟩
        intro p hpm
        rcases List.mem_cons.mp hpm with h | h
        · rw [h, List.length_take]; exact Nat.min_le_right _ _
        · exact hp p h
      · obtain ⟨ps, hps, hl, hp⟩ := ih idx fp (pos1 + 1)
        exact ⟨ps, hps, by omega, hp⟩

/-- Encrypting an empty input writes nothing and returns the tag of the empty
ciphertext. -/
theorem encrypt_stream_nil (wf : WriteFaults) (out : OStream) (ke km nonce tag : Bytes)
    (h : mac.compute km [] = .ok tag) :
    obj.encrypt_stream wf [] out ke km nonce =
      .ok { status := Status.ok, out := out, bytes_written := 0, tag := tag } := by
  simp [obj.encrypt_stream, obj.encryptLoop, h]

/-- Writing an empty file leaves the stream as it is and appends the entry of the file,
after at most one directory entry per byte of its path. -/
theorem write_one_file_nil (wf : WriteFaults) (s : WriteState) (p : Bytes) (keys : kdf.Keys)
    (tag : Bytes) (h : mac.compute keys.mac [] = .ok tag) :
    ∃ (s1 : WriteState) (added : List index.Entry),
      write_one_file wf s (some []) p keys = .ok (Status.ok, s1) ∧ s1.ofs = s.ofs ∧
        s1.idx.entries = s.idx.entries ++ added ∧ 1 ≤ added.length ∧
        added.length ≤ p.length + 2 ∧ ∀ e ∈ added, e.path.length ≤ p.length := by
  obtain ⟨ps, hps, hl, hp⟩ := ensureLoop_bounded (p.length + 1) s.idx p 0
  unfold write_one_file
  simp only
  rw [encrypt_stream_nil wf s.ofs keys.enc keys.mac _ tag h]
  simp only
  rw [if_neg (by decide)]
  refine ⟨_, ps.map dir_entry ++
    [{ path := p, type := fmt.ObjType.File, flags := fmt.F_VISIBLE,
       size := ([] : Bytes).length % U64, data_offset := s.ofs.tellp, data_size := 0,
       nonce := (s.rng.bytes NONCE_SIZE).1, tag := tag }], rfl, rfl, ?_, ?_, ?_, ?_⟩
  · show (ensure_parent_dirs s.idx p).entries ++ _ = _
    unfold ensure_parent_dirs
    rw [hps, List.append_assoc]
  · simp
  · simp only [List.length_append, List.length_map, List.length_singleton]
    omega
  · intro e he
    rcases List.mem_append.mp he with h1 | h1
    · obtain ⟨q, hq, rfl⟩ := List.mem_map.mp h1
      exact hp q hq
    · rw [List.mem_singleton.mp h1]

/-- Writing a listing of empty regular files succeeds, leaves the stream as it is and
appends between one and K + 2 entries per file, where K bounds the in-vault paths. -/
theorem writeItems_nil_files (wf : WriteFaults) (keys : kdf.Keys) (root : Bytes) (tag : Bytes)
    (K : Nat) (h : mac.compute keys.mac [] = .ok tag) (names : List Bytes) :
    (∀ n ∈ names, (root ++ [47] ++ n).length ≤ K) →
    ∀ s : WriteState, ∃ (s1 : WriteState) (added : List index.Entry),
      writeItems wf keys root (names.map fun n => DirItem.file n (some [])) s =
          .ok (Status.ok, s1) ∧ s1.ofs = s.ofs ∧
        s1.idx.entries = s.idx.entries ++ added ∧ names.length ≤ added.length ∧
        added.length ≤ names.length * (K + 2) ∧ ∀ e ∈ added, e.path.length ≤ K := by
  induction names with
  | nil => intro _ s; exact ⟨s, [], rfl, rfl, by simp, by simp, by simp, by simp⟩
  | cons n rest ih =>
    intro hK s
    have hn := hK n (List.mem_cons_self _ _)
    obtain ⟨s1, a1, hw, ho1, he1, hl1, hu1, hp1⟩ :=
      write_one_file_nil wf s (root ++ [47] ++ n) keys tag h
    obtain ⟨s2, a2, hw2, ho2, he2, hl2, hu2, hp2⟩ :=
      ih (fun m hm => hK m (List.mem_cons_of_mem _ hm)) s1
    refine ⟨s2, a1 ++ a2, ?_, by rw [ho2, ho1], by rw [he2, he1, List.append_assoc], ?_, ?_, ?_⟩
    · simp only [List.map_cons, writeItems]
      rw [hw]
      simp only
      rw [if_neg (by decide)]
      exact hw2
    · simp only [List.length_append, List.length_cons]; omega
    · simp only [List.length_append, List.length_cons]
      have : (rest.length + 1) * (K + 2) = rest.length * (K + 2) + (K + 2) := by ring
      omega
    · intro e he
      rcases List.mem_append.mp he with h1 | h1
      · exact Nat.le_trans (hp1 e h1) hn
      · exact hp2 e h1

end vault

namespace vault

/-- With no write failing and a non-empty MAC key, the index and the trailer are
written. -/
theorem write_index_and_trailer_noFaults (ofs : OStream) (keys : kdf.Keys) (idx : index.Index)
    (m1 m2 : String) (hg : ofs.good = true) (hk : keys.mac ≠ []) :
    ∃ (tag : Bytes) (ofs2 : OStream),
      mac.compute keys.mac (index.encode_index idx) = .ok tag ∧
      write_index_and_trailer noFaults ofs keys idx m1 m2 = .ok (Status.ok, ofs2) ∧
      ofs2.data = ofs.data ++ index.encode_index idx ++
        trailer_bytes (written_trailer ofs.data (index.encode_index idx) tag) := by
  obtain ⟨tag, hm⟩ := mac_compute_ok keys.mac (index.encode_index idx) hk
  have ht : tag.take TAG_SIZE = tag := take_of_length _ _ (mac_compute_length _ _ _ hm)
  obtain ⟨g1, d1⟩ := write_noFaults ofs (index.encode_index idx) hg
  unfold write_index_and_trailer
  simp only
  rw [if_neg (by simp [g1]), hm]
  simp only
  rw [ht]
  unfold write_index_trailer
  have w2 := fun bs => write_noFaults (ofs.write noFaults (index.encode_index idx)) bs g1
  rw [if_neg (by simp [(w2 _).1])]
  refine ⟨tag, _, rfl, rfl, ?_⟩
  rw [(w2 _).2, d1]
  simp only [written_trailer, OStream.tellp, hg, if_true]

/-- Creating a vault from a directory of empty regular files, with nothing failing:
the file written is the header, the encoded index and the trailer, and the index has
between one and K + 2 entries per file besides the entry of the root. -/
theorem create_nil_files (rng : Rng) (fs : FileSys) (root : Bytes) (names : List Bytes)
    (out : String) (password : Bytes) (key_bits kdf_cost : Nat) (keys : kdf.Keys) (K : Nat)
    (hder : kdf.derive password (created_header rng key_bits kdf_cost).salt
      (bits_to_bytes key_bits) kdf_cost = .ok keys)
    (hk : keys.mac ≠ []) (hK : ∀ n ∈ names, (root ++ [47] ++ n).length ≤ K)
    (hroot : root ≠ []) (hrK : root.length ≤ K) :
    ∃ (idx : index.Index) (tag : Bytes),
      create_vault_from_path IoFaults.none rng fs
          (HostPath.dir root (names.map fun n => DirItem.file n (some []))) out password
          key_bits kdf_cost =
        .ok (Status.ok, fs.set out (some
          (header_bytes (created_header rng key_bits kdf_cost) ++ index.encode_index idx ++
            trailer_bytes (written_trailer (header_bytes (created_header rng key_bits kdf_cost))
              (index.encode_index idx) tag)))) ∧
      mac.compute keys.mac (index.encode_index idx) = .ok tag ∧
      names.length + 1 ≤ idx.entries.length ∧
      idx.entries.length ≤ 1 + names.length * (K + 2) ∧
      ∀ e ∈ idx.entries, e.path.length ≤ K := by
  obtain ⟨tag0, hm0⟩ := mac_compute_ok keys.mac [] hk
  have hw : IoFaults.none.writes = noFaults := rfl
  obtain ⟨g0, d0⟩ := write_noFaults OStream.fresh
    (header_bytes (created_header rng key_bits kdf_cost)) rfl
  obtain ⟨s1, added, hitems, hofs, hent, hl, hu, hp⟩ :=
    writeItems_nil_files noFaults keys root tag0 K hm0 names hK
      { ofs := OStream.fresh.write noFaults (header_bytes (created_header rng key_bits kdf_cost)),
        idx := ⟨[dir_entry root]⟩, rng := ((rng.bytes SALT_SIZE).2.bytes NONCE_SIZE).2 }
  simp only at hofs hent
  obtain ⟨tag, ofs2, hm, hwit, hdata⟩ := write_index_and_trailer_noFaults s1.ofs keys s1.idx
    "encrypt: write index failed" "encrypt: write trailer failed" (by rw [hofs]; exact g0) hk
  refine ⟨s1.idx, tag, ?_, hm, ?_, ?_, ?_⟩
  · unfold create_vault_from_path
    simp only
    rw [show kdf.derive password (rng.bytes SALT_SIZE).1 (bits_to_bytes key_bits) kdf_cost =
      .ok keys from hder]
    simp only
    rw [if_neg (by decide)]
    unfold create_body
    simp only [hw]
    have hgh : (write_global_header noFaults OStream.fresh
        { magic := fmt.VAULT_MAGIC, version := VERSION,
          header_size := fmt.GlobalHeader.init.header_size,
          salt := (rng.bytes SALT_SIZE).1, nonce := ((rng.bytes SALT_SIZE).2.bytes NONCE_SIZE).1,
          reserved := write_u32_le (key_bits % U32) ++ write_u32_le kdf_cost ++
            List.replicate 24 0 }).1 =
        OStream.fresh.write noFaults (header_bytes (created_header rng key_bits kdf_cost)) := rfl
    rw [hgh, if_neg (by simp [g0]), if_neg hroot]
    have hidx0 : (if ¬ has_dir_entry ⟨[]⟩ root = true then
        (⟨[] ++ [dir_entry root]⟩ : index.Index) else ⟨[]⟩) = ⟨[dir_entry root]⟩ := by
      rw [if_pos (by simp [has_dir_entry])]
      rfl
    rw [hidx0, hitems]
    simp only
    rw [if_neg (by decide), hwit]
    simp only
    rw [hdata, hofs, d0]
    rfl
  · rw [hent]; simp only [List.length_append, List.length_singleton]; omega
  · rw [hent]; simp only [List.length_append, List.length_singleton]; omega
  · intro e he
    rw [hent] at he
    rcases List.mem_append.mp he with h1 | h1
    · rw [List.mem_singleton.mp h1]; exact hrK
    · exact hp e h1

end vault

namespace vault

theorem flatMap_entryBytes_length_le (es : List index.Entry) (K : Nat)
    (h : ∀ e ∈ es, e.path.length ≤ K) :
    (es.flatMap index.entryBytes).length ≤ (73 + K) * es.length := by
  induction es with
  | nil => exact Nat.le_refl _
  | cons x es ih =>
    rw [List.flatMap_cons, List.length_append, index.entryBytes_length, List.length_cons]
    have h1 := h x (List.mem_cons_self _ _)
    have h2 := ih (fun e he => h e (List.mem_cons_of_mem _ he))
    have : (73 + K) * (es.length + 1) = (73 + K) * es.length + (73 + K) := by ring
    omega

/-- The reader rejects a file whose trailer records an index of more than 64 MiB, however
well-formed the file is otherwise. -/
theorem open_for_view_oversize {af : AllocFaults} (fs : FileSys) (path : String) (password : Bytes)
    (pre idxb : Bytes) (hdr : fmt.GlobalHeader) (tr : fmt.IndexTrailer)
    (hfile : fs path = some (pre ++ idxb ++ trailer_bytes tr))
    (hsmall : (pre ++ idxb ++ trailer_bytes tr).length < 2 ^ 63)
    (hpre : fmt.GLOBAL_HEADER_SIZE ≤ pre.length)
    (hhdr : parse_header ((pre.drop 0).take fmt.GLOBAL_HEADER_SIZE) = hdr)
    (hmagic : hdr.magic = fmt.VAULT_MAGIC)
    (hhs : fmt.GLOBAL_HEADER_SIZE ≤ hdr.header_size) (hhs2 : hdr.header_size ≤ pre.length)
    (htm : tr.magic = fmt.INDEX_MAGIC) (hts : tr.trailer_size = fmt.INDEX_TRAILER_SIZE)
    (hto : tr.index_offset < U64) (htz : tr.index_size = idxb.length)
    (htl : tr.index_tag.length = TAG_SIZE)
    (hbig : MAX_INDEX_SIZE < idxb.length) :
    open_for_view af fs path password =
      .ok (integrity_err "bad index_size",
        { VaultOpen.init with header := hdr, trailer := tr }) := by
  have htb : (trailer_bytes tr).length = fmt.INDEX_TRAILER_SIZE :=
    trailer_bytes_length tr (by rw [htm]; rfl) htl
  have hlen : (pre ++ idxb ++ trailer_bytes tr).length =
      pre.length + idxb.length + fmt.INDEX_TRAILER_SIZE := by
    rw [List.length_append, List.length_append, htb]
  have hmod : (pre ++ idxb ++ trailer_bytes tr).length % U64 =
      pre.length + idxb.length + fmt.INDEX_TRAILER_SIZE := by
    rw [Nat.mod_eq_of_lt (by simp only [U64]; omega), hlen]
  have hG : fmt.GLOBAL_HEADER_SIZE = 100 := rfl
  have hT : fmt.INDEX_TRAILER_SIZE = 40 := rfl
  have hr1 : read_exact (pre ++ idxb ++ trailer_bytes tr) 0 fmt.GLOBAL_HEADER_SIZE =
      some ((pre.drop 0).take fmt.GLOBAL_HEADER_SIZE) := by
    rw [read_exact_of_le _ _ _ (by omega), List.drop_zero, List.drop_zero, List.append_assoc,
      List.take_append_of_le_length hpre]
  have hr2 : read_exact (pre ++ idxb ++ trailer_bytes tr)
      (pre.length + idxb.length + fmt.INDEX_TRAILER_SIZE - fmt.INDEX_TRAILER_SIZE)
      fmt.INDEX_TRAILER_SIZE = some (trailer_bytes tr) := by
    rw [read_exact_of_le _ _ _ (by omega), Nat.add_sub_cancel, ← List.length_append,
      List.drop_left, take_of_length _ _ htb]
  have hpt : parse_trailer (trailer_bytes tr) = tr :=
    parse_trailer_bytes tr (by rw [htm]; rfl) htl (by rw [hts]; decide) hto
      (by rw [htz]; simp only [U64]; omega)
  unfold open_for_view
  simp only [hfile]
  rw [hmod, if_neg (by omega), if_neg (by omega), hr1]
  simp only
  rw [hhdr, if_neg (by simp [hmagic]),
    if_neg (by
      have : fmt.GLOBAL_HEADER_SIZE % U32 = fmt.GLOBAL_HEADER_SIZE := by decide
      omega),
    if_neg (by omega), hr2]
  simp only
  rw [hpt, if_neg (by simp [htm]), if_neg (by rw [hts]; decide),
    if_pos (Or.inr (by rw [htz]; exact hbig))]

end vault

set_option maxRecDepth 1000000 in
/-- The keys derived for the concrete vault. -/
theorem demo_derive :
    kdf.derive demoPw (vault.created_header demoRng 256 1).salt (bits_to_bytes 256) 1 =
      .ok demoKeys := by
  decide!

theorem bigNames_length : bigNames.length = 2 ^ 20 := by
  unfold bigNames
  rw [List.length_map, List.length_range]

theorem bigNames_path_length (n : Bytes) (h : n ∈ bigNames) : ([114] ++ [47] ++ n).length ≤ 7 := by
  unfold bigNames at h
  obtain ⟨i, _, rfl⟩ := List.mem_map.mp h
  exact Nat.le_refl _
/-- C2 fails as stated: creating a vault from the directory r of 2^20 empty regular
files (key_bits 256, cost 1, nothing failing) returns Ok, and open_for_view on the file
written, with the same password, returns the integrity error for a bad index_size: the
encoded index is larger than the 64 MiB the reader accepts. -/
theorem C2_large_directory_not_reopened :
    ∃ (r : Status × FileSys) (vo : vault.VaultOpen),
      vault.create_vault_from_path IoFaults.none demoRng emptyFs bigInput "v.1654" demoPw
        256 1 = .ok r ∧
      r.1 = Status.ok ∧
      vault.open_for_view noAllocFaults r.2 "v.1654" demoPw =
        .ok (vault.integrity_err "bad index_size", vo) := by
  obtain ⟨idx, tag, hcreate, hm, hl, hu, hp⟩ :=
    vault.create_nil_files demoRng emptyFs [114] bigNames "v.1654" demoPw 256 1 demoKeys 7
      demo_derive (by decide) bigNames_path_length (by decide) (by decide)
  rw [bigNames_length] at hl hu
  have htag : tag.length = TAG_SIZE := mac_compute_length _ _ _ hm
  have hhl := vault.created_header_bytes_length demoRng 256 1
  have hG : fmt.GLOBAL_HEADER_SIZE = 100 := rfl
  have hil := vault.encode_index_length idx
  have hlo := (vault.flatMap_entryBytes_length_ge idx.entries).1
  have hhi := vault.flatMap_entryBytes_length_le idx.entries 7 hp
  have htl : (vault.trailer_bytes (vault.written_trailer
      (vault.header_bytes (vault.created_header demoRng 256 1))
      (index.encode_index idx) tag)).length = fmt.INDEX_TRAILER_SIZE :=
    vault.trailer_bytes_length _ rfl htag
  have hT : fmt.INDEX_TRAILER_SIZE = 40 := rfl
  have hn : idx.entries.length ≤ 9437185 := by
    have : (1 : Nat) + 2 ^ 20 * (7 + 2) = 9437185 := by norm_num
    omega
  have hn2 : 1048577 ≤ idx.entries.length := by
    have : (2 : Nat) ^ 20 + 1 = 1048577 := by norm_num
    omega
  refine ⟨_, { vault.VaultOpen.init with
    header := vault.created_header demoRng 256 1,
    trailer := vault.written_trailer (vault.header_bytes (vault.created_header demoRng 256 1))
      (index.encode_index idx) tag }, hcreate, rfl, ?_⟩
  apply vault.open_for_view_oversize _ _ _ _ _ _ _ (fileSys_set_same _ _ _)
  · rw [List.length_append, List.length_append, htl, hhl, hil]
    omega
  · rw [hhl]
  · rw [← List.append_nil (vault.header_bytes (vault.created_header demoRng 256 1))]
    exact vault.parse_header_bytes (vault.created_header demoRng 256 1) [] rfl
      (vault.rng_bytes_length _ _) (vault.rng_bytes_length _ _)
      (by simp [vault.created_header, vault.built_header, write_u32_le])
      (show VERSION < U32 by decide) (show fmt.GLOBAL_HEADER_SIZE % U32 < U32 by decide)
  · rfl
  · exact Nat.le_of_eq rfl
  · rw [hhl]; exact Nat.le_of_eq rfl
  · rfl
  · rfl
  · exact Nat.mod_lt _ (by decide)
  · simp only [vault.written_trailer]
    exact Nat.mod_eq_of_lt (by simp only [U64]; omega)
  · exact htag
  · rw [hil]
    simp only [vault.MAX_INDEX_SIZE]
    omega
/-! ## C2 -/

/-- C2 (as amended): for every input file or directory tree, password, key_bits (at
least 256, a multiple of 8, below 2^32), cost (at least 1, below 2^32) and every choice
of random salt and nonces, when create_vault_from_path returns Ok and the written file
is shorter than 2^63 bytes with an index_size of at most 64 MiB in its trailer,
open_for_view on that file with the same password, on a host that grants the storage
decode_index reserves for the entries, returns Ok with header magic 1654,
version 1, reserved[0..4] = LE32(key_bits), reserved[4..8] = LE32(cost), trailer magic
IDX1, the keys the writer derived and the index the writer encoded; the File entries of
that index are, in order, the regular files of the input, and for each of them
decrypt_stream over the vault bytes [data_offset, data_offset + data_size) with the
opened keys and the nonce and tag of the entry returns Ok and yields the bytes of the
file. -/
theorem C2_vault_round_trip (io : IoFaults) (rng : Rng) (fs : FileSys) (input : HostPath)
    (out : String) (password : Bytes) (key_bits kdf_cost : Nat) (r : Status × FileSys)
    (bytes : Bytes)
    (hkb : 256 ≤ key_bits) (_hkb8 : key_bits % 8 = 0) (hkb32 : key_bits < 2 ^ 32)
    (hc1 : 1 ≤ kdf_cost) (hc32 : kdf_cost < 2 ^ 32)
    (hcreate : vault.create_vault_from_path io rng fs input out password key_bits kdf_cost =
      .ok r)
    (hok : r.1.is_ok = true) (hfile : r.2 out = some bytes) (hsmall : bytes.length < 2 ^ 63)
    (hmax : (vault.parse_trailer (bytes.drop (bytes.length - fmt.INDEX_TRAILER_SIZE))).index_size
      ≤ vault.MAX_INDEX_SIZE) :
    ∃ (vo : vault.VaultOpen) (keys : kdf.Keys) (objs : Bytes) (idx : index.Index)
        (tag : Bytes),
      vault.Created rng input password key_bits kdf_cost bytes keys objs idx tag ∧
      vault.open_for_view noAllocFaults r.2 out password = .ok (Status.ok, vo) ∧
      vo.header.magic = [49, 54, 53, 52] ∧ vo.header.version = 1 ∧
      vo.header.reserved.take 4 = write_u32_le key_bits ∧
      (vo.header.reserved.drop 4).take 4 = write_u32_le kdf_cost ∧
      vo.trailer.magic = [73, 68, 88, 49] ∧
      vo.idx = idx ∧ vo.keys = keys ∧
      List.Forall₂ (vault.ObjectAt vo.keys bytes) (vo.idx.entries.filter vault.isFile)
        (vault.filesOfHost input) := by
  obtain ⟨st, fs1⟩ := r
  obtain ⟨bytes1, keys, objs, idx, tag, hfs, hc⟩ :=
    vault.create_ok_inv io rng fs fs1 input out password key_bits kdf_cost st hcreate hok
  simp only at hfile
  have hfile2 := hfile
  rw [hfs, fileSys_set_same] at hfile2
  cases hfile2
  have hlenidx : (index.encode_index idx).length < U64 := by
    have hl := congrArg List.length hc.bytes_eq
    rw [List.length_append, List.length_append] at hl
    simp only [U64]
    omega
  rw [vault.created_index_size rng input password key_bits kdf_cost bytes keys objs idx tag hc,
    Nat.mod_eq_of_lt hlenidx] at hmax
  obtain ⟨hopen, hobjs⟩ := vault.open_created noAllocFaults fs1 out rng input password
    key_bits kdf_cost bytes keys objs idx tag hc hfile hsmall hmax hkb hkb32 hc1 hc32
    (index.grants_noAlloc _)
  have hU : U32 = 2 ^ 32 := rfl
  refine ⟨_, keys, objs, idx, tag, hc, hopen, rfl, rfl, ?_, ?_, rfl, rfl, rfl, hobjs⟩
  · show (write_u32_le (key_bits % U32) ++ write_u32_le kdf_cost ++
      List.replicate 24 0).take 4 = write_u32_le key_bits
    rw [Nat.mod_eq_of_lt (by rw [hU]; exact hkb32), List.append_assoc,
      List.take_left' (by simp [write_u32_le])]
  · show ((write_u32_le (key_bits % U32) ++ write_u32_le kdf_cost ++
      List.replicate 24 0).drop 4).take 4 = write_u32_le kdf_cost
    rw [List.append_assoc, List.drop_left' (by simp [write_u32_le]),
      List.take_left' (by simp [write_u32_le])]

set_option maxRecDepth 1000000 in
theorem C2_vault_round_trip_witness :
    ∃ (vo : vault.VaultOpen) (keys : kdf.Keys) (objs : Bytes) (idx : index.Index)
        (tag : Bytes),
      vault.Created demoRng demoInput demoPw 256 1 demoVault keys objs idx tag ∧
      vault.open_for_view noAllocFaults demoCreated.2 "v.1654" demoPw = .ok (Status.ok, vo) ∧
      vo.header.magic = [49, 54, 53, 52] ∧ vo.header.version = 1 ∧
      vo.header.reserved.take 4 = write_u32_le 256 ∧
      (vo.header.reserved.drop 4).take 4 = write_u32_le 1 ∧
      vo.trailer.magic = [73, 68, 88, 49] ∧
      vo.idx = idx ∧ vo.keys = keys ∧
      List.Forall₂ (vault.ObjectAt vo.keys demoVault) (vo.idx.entries.filter vault.isFile)
        (vault.filesOfHost demoInput) :=
  C2_vault_round_trip IoFaults.none demoRng emptyFs demoInput "v.1654" demoPw 256 1
    demoCreated demoVault (by decide) (by decide) (by decide) (by decide) (by decide)
    demo_create_eq (by rw [demo_created_status]; rfl) demo_created_file demoVault_small
    (by decide!)

/-! ## The atomic rewrite -/

namespace vault

/-- A successful copy loop appended exactly the first remain bytes of the source. -/
theorem copyLoop_ok_inv (wf : WriteFaults) (fuel : Nat) :
    ∀ (src : Bytes) (dst dst1 : OStream) (remain : Nat), remain < fuel → dst.good = true →
      copyLoop wf fuel src dst remain = (true, dst1) →
      dst1.data = dst.data ++ src.take remain ∧ remain ≤ src.length ∧ dst1.good = true := by
  induction fuel with
  | zero => intro _ _ _ _ h; omega
  | succ n ih =>
    intro src dst dst1 remain hlt hg h
    simp only [copyLoop] at h
    by_cases h0 : remain = 0
    · rw [if_pos h0] at h
      cases h
      subst h0
      exact ⟨by simp, Nat.zero_le _, hg⟩
    · rw [if_neg h0] at h
      generalize htk : (if remain > COPY_CHUNK then COPY_CHUNK else remain) = tk at h
      have htk1 : 1 ≤ tk ∧ tk ≤ remain := by
        rw [← htk]
        have : 1 ≤ COPY_CHUNK := by decide
        split <;> omega
      by_cases hb : (src.take tk).length = tk
      · rw [if_neg (by simp [hb])] at h
        by_cases hw : (dst.write wf (src.take tk)).good = true
        · rw [if_neg (by simp [hw])] at h
          obtain ⟨hd, hle, hg1⟩ := ih _ _ _ _ (by omega) hw h
          have hwd := (write_good wf dst _ hw).1
          have hsl : tk ≤ src.length := by
            rw [List.length_take] at hb
            omega
          rw [List.length_drop] at hle
          refine ⟨?_, by omega, hg1⟩
          rw [hd, hwd, List.append_assoc]
          congr 1
          rw [← List.take_add]
          congr 1
          omega
        · rw [if_pos (by simpa using hw)] at h
          cases h
      · rw [if_pos (by simpa using hb)] at h
        cases h

theorem make_temp_path_ne (vp : String) (pid now : Nat) : make_temp_path vp pid now ≠ vp := by
  intro h
  have hl := congrArg String.length h
  unfold make_temp_path at hl
  simp only [String.length_append] at hl
  have : (".tmp." : String).length = 5 := by decide
  omega

/-- A successful write of the index and the trailer, without an assumption on the
stream. -/
theorem write_index_and_trailer_good (wf : WriteFaults) (ofs ofs2 : OStream) (keys : kdf.Keys)
    (idx : index.Index) (m1 m2 : String) (st : Status)
    (h : write_index_and_trailer wf ofs keys idx m1 m2 = .ok (st, ofs2))
    (hok : st.is_ok = true) : ofs.good = true := by
  unfold write_index_and_trailer at h
  simp only at h
  by_cases hg1 : (ofs.write wf (index.encode_index idx)).good = true
  · exact (write_good wf ofs _ hg1).2
  · rw [if_pos (by simpa using hg1)] at h
    cases h
    rw [io_err_not_ok] at hok
    cases hok

/-- A successful atomic rewrite copied the first index_offset bytes of the vault, ran
the extra writer, wrote the index and the trailer, and put the result in place of the
vault. -/
theorem atomic_rewrite_ok_inv (env : Env) (fs fs1 : FileSys) (vp : String) (vo : VaultOpen)
    (new_idx : index.Index) (rng : Rng) (ew : ExtraWriter) (st : Status)
    (h : atomic_rewrite_vault env fs vp vo new_idx rng ew = .ok (st, fs1))
    (hok : st.is_ok = true) :
    ∃ (old : Bytes) (c : OStream) (s1 : WriteState) (stx : Status) (tag : Bytes),
      fs vp = some old ∧ c.good = true ∧ c.data = old.take vo.trailer.index_offset ∧
      (old.take vo.trailer.index_offset).length = vo.trailer.index_offset ∧
      fmt.GLOBAL_HEADER_SIZE ≤ vo.trailer.index_offset ∧
      ew { ofs := c, idx := new_idx, rng := rng } = .ok (stx, s1) ∧ stx.is_ok = true ∧
      s1.ofs.good = true ∧
      mac.compute vo.keys.mac (index.encode_index s1.idx) = .ok tag ∧
      fs1 vp = some (s1.ofs.data ++ index.encode_index s1.idx ++
        trailer_bytes (written_trailer s1.ofs.data (index.encode_index s1.idx) tag)) := by
  unfold atomic_rewrite_vault at h
  simp only at h
  by_cases hpl : vo.trailer.index_offset < fmt.GLOBAL_HEADER_SIZE
  · rw [if_pos hpl] at h
    cases h
    rw [integrity_err_not_ok] at hok
    cases hok
  rw [if_neg hpl] at h
  by_cases hcf : env.io.createFails = true
  · rw [if_pos hcf] at h
    cases h
    rw [io_err_not_ok] at hok
    cases hok
  rw [if_neg hcf] at h
  unfold rewrite_body at h
  simp only at h
  generalize hsrc : (if env.io.reopenFails = true then none else fs vp) = src at h
  cases src with
  | none =>
    simp only [copy_prefix_bytes] at h
    rw [if_pos (by simp)] at h
    simp only at h
    cases h
    rw [io_err_not_ok] at hok
    cases hok
  | some old =>
    have hold : fs vp = some old := by
      by_cases hr : env.io.reopenFails = true
      · rw [if_pos hr] at hsrc
        cases hsrc
      · rw [if_neg hr] at hsrc
        exact hsrc
    simp only [copy_prefix_bytes] at h
    generalize hc : copyLoop env.io.writes (vo.trailer.index_offset + 1) old OStream.fresh
      vo.trailer.index_offset = c at h
    obtain ⟨cb, cs⟩ := c
    cases cb with
    | false =>
      rw [if_pos (by simp)] at h
      simp only at h
      cases h
      rw [io_err_not_ok] at hok
      cases hok
    | true =>
      rw [if_neg (by simp)] at h
      simp only at h
      obtain ⟨hcd, hcl, hcg⟩ := copyLoop_ok_inv _ _ _ _ _ _ (Nat.lt_succ_self _) rfl hc
      cases hew : ew { ofs := cs, idx := new_idx, rng := rng } with
      | error x => rw [hew] at h; cases h
      | ok r1 =>
        obtain ⟨stx, s1⟩ := r1
        rw [hew] at h
        simp only at h
        by_cases hsx : stx.is_ok = true
        · rw [if_neg (by simp [hsx])] at h
          cases hwi : write_index_and_trailer_to_stream env.io.writes s1.ofs vo.keys s1.idx with
          | error x => rw [hwi] at h; cases h
          | ok r2 =>
            obtain ⟨st2, ofs2⟩ := r2
            rw [hwi] at h
            simp only at h
            by_cases hs2 : st2.is_ok = true
            · rw [if_neg (by simp [hs2])] at h
              by_cases hff : env.io.flushFails = true
              · rw [if_pos hff] at h
                simp only at h
                cases h
                rw [io_err_not_ok] at hok
                cases hok
              · rw [if_neg hff] at h
                simp only at h
                unfold write_index_and_trailer_to_stream at hwi
                have hg1 := write_index_and_trailer_good _ _ _ _ _ _ _ _ hwi hs2
                obtain ⟨tag, hmac, hdata⟩ :=
                  write_index_and_trailer_ok_inv _ _ _ _ _ _ _ _ hg1 hwi hs2
                have hne := make_temp_path_ne vp env.pid env.now
                refine ⟨old, cs, s1, stx, tag, hold, hcg, by rw [hcd]; rfl, ?_, by omega, hew,
                  hsx, hg1, hmac, ?_⟩
                · rw [List.length_take]; omega
                · unfold rename_step at h
                  by_cases hrf : env.io.renameFails = true
                  · rw [if_pos hrf] at h
                    simp only at h
                    by_cases hra : env.io.renameAgainFails = true
                    · rw [if_pos hra] at h
                      cases h
                      rw [io_err_not_ok] at hok
                      cases hok
                    · rw [if_neg hra] at h
                      cases h
                      rw [fileSys_set_other _ _ _ _ hne.symm, fileSys_set_same]
                      split
                      · rw [fileSys_set_same, hdata]
                      · rw [fileSys_set_other _ _ _ _ hne, fileSys_set_same, hdata]
                  · rw [if_neg hrf] at h
                    cases h
                    rw [fileSys_set_other _ _ _ _ hne.symm, fileSys_set_same, fileSys_set_same,
                      hdata]
            · rw [if_pos (by simpa using hs2)] at h
              simp only at h
              cases h
              exact absurd hok hs2
        · rw [if_pos (by simpa using hsx)] at h
          simp only at h
          cases h
          exact absurd hok hsx

end vault

/-! ## The extra writers of the updates -/

namespace vault

theorem growsSome_trans (keys : kdf.Keys) (s s1 s2 : WriteState) (h1 : GrowsSome keys s s1)
    (h2 : GrowsSome keys s1 s2) : GrowsSome keys s s2 := by
  obtain ⟨F1, g1⟩ := h1
  obtain ⟨F2, g2⟩ := h2
  exact ⟨F1 ++ F2, grows_trans keys _ _ _ _ _ g1 g2⟩

theorem growsSome_good (keys : kdf.Keys) (s s1 : WriteState) (h : GrowsSome keys s s1) :
    s1.ofs.good = true := by
  obtain ⟨_, _, _, _, _, hg, _⟩ := h
  exact hg

/-- A successful append_file_object appended one object and produced its entry. -/
theorem append_file_grows (wf : WriteFaults) (keys : kdf.Keys) (s : WriteState)
    (content : Option Bytes) (p : Bytes) (st : Status) (ofs : OStream) (e : index.Entry)
    (rng1 : Rng) (hg : s.ofs.good = true)
    (h : append_file_object wf s.ofs content keys (file_entry p content) s.rng =
      .ok (st, ofs, e, rng1))
    (hok : st.is_ok = true) :
    GrowsSome keys s { ofs := ofs, idx := ⟨s.idx.entries ++ [e]⟩, rng := rng1 } := by
  unfold append_file_object at h
  cases content with
  | none =>
    simp only at h
    cases h
    rw [io_err_not_ok] at hok
    cases hok
  | some bytes =>
    simp only at h
    cases henc : obj.encrypt_stream wf bytes s.ofs keys.enc keys.mac (s.rng.bytes NONCE_SIZE).1 with
    | error x => rw [henc] at h; cases h
    | ok res =>
      rw [henc] at h
      simp only at h
      by_cases hres : res.status.is_ok = true
      · rw [if_neg (by simp [hres])] at h
        cases h
        exact ⟨_, grows_file wf keys s _ res bytes (s.rng.bytes NONCE_SIZE).1 _ hg
          (rng_bytes_length _ _) henc hres rfl rfl rfl
          (by simp [file_entry, fmt.F_VISIBLE, U32])
          (by simp only [file_entry]; exact Nat.mod_lt _ (by simp [U64])) rfl rfl rfl rfl⟩
      · rw [if_pos (by simpa using hres)] at h
        cases h
        exact absurd hok hres

theorem growsSome_dirs (keys : kdf.Keys) (s : WriteState) (idx1 : index.Index)
    (hg : s.ofs.good = true)
    (h : ∃ paths : List Bytes, idx1.entries = s.idx.entries ++ paths.map dir_entry) :
    GrowsSome keys s { s with idx := idx1 } := by
  obtain ⟨paths, hp⟩ := h
  exact ⟨[], grows_of_dirs keys s _ paths hg rfl hp⟩

/-- A successful run of the directory loop of add extends the state. -/
theorem addItems_grows (wf : WriteFaults) (keys : kdf.Keys) (root : Bytes)
    (items : List DirItem) :
    ∀ (s s1 : WriteState) (st : Status), s.ofs.good = true →
      addItems wf keys root items s = .ok (st, s1) → st.is_ok = true →
      GrowsSome keys s s1 := by
  induction items with
  | nil =>
    intro s s1 st hg h _
    simp only [addItems] at h
    cases h
    exact ⟨[], grows_refl keys s hg⟩
  | cons it rest ih =>
    intro s s1 st hg h hok
    cases it with
    | dir rel =>
      simp only [addItems] at h
      exact growsSome_trans keys _ _ _
        (growsSome_dirs keys s _ hg (add_dir_entry_appends s.idx _)) (ih _ s1 st hg h hok)
    | file rel content =>
      simp only [addItems] at h
      by_cases hcol : entry_exists_not_deleted s.idx (root ++ [47] ++ rel) = true
      · rw [if_pos hcol] at h
        cases h
        cases hok
      · rw [if_neg hcol] at h
        have g1 := growsSome_dirs keys s (ensure_parent_dirs s.idx (root ++ [47] ++ rel)) hg
          (ensure_parent_dirs_appends s.idx _)
        cases ha : append_file_object wf s.ofs content keys
            (file_entry (root ++ [47] ++ rel) content) s.rng with
        | error x => rw [ha] at h; cases h
        | ok r =>
          obtain ⟨st2, ofs, e, rng1⟩ := r
          rw [ha] at h
          simp only at h
          by_cases hst : st2.is_ok = true
          · rw [if_neg (by simp [hst])] at h
            have g2 := append_file_grows wf keys
              { s with idx := ensure_parent_dirs s.idx (root ++ [47] ++ rel) } content _ st2 ofs e
              rng1 hg ha hst
            have g12 := growsSome_trans keys _ _ _ g1 g2
            exact growsSome_trans keys _ _ _ g12 (ih _ s1 st (growsSome_good _ _ _ g2) h hok)
          · rw [if_pos (by simpa using hst)] at h
            cases h
            exact absurd hok hst
    | other rel =>
      simp only [addItems] at h
      exact ih s s1 st hg h hok

/-- A successful run of the extra writer of add extends the state. -/
theorem addPaths_grows (wf : WriteFaults) (keys : kdf.Keys) (paths : List HostPath) :
    ∀ (s s1 : WriteState) (st : Status), s.ofs.good = true →
      addPaths wf keys paths s = .ok (st, s1) → st.is_ok = true →
      GrowsSome keys s s1 := by
  induction paths with
  | nil =>
    intro s s1 st hg h _
    simp only [addPaths] at h
    cases h
    exact ⟨[], grows_refl keys s hg⟩
  | cons p rest ih =>
    intro s s1 st hg h hok
    cases p with
    | missing =>
      simp only [addPaths] at h
      cases h
      cases hok
    | other =>
      simp only [addPaths] at h
      cases h
      cases hok
    | dir filename items =>
      simp only [addPaths] at h
      generalize (if filename = [] then ascii "folder" else filename) = root at h
      by_cases hcol : entry_exists_not_deleted s.idx root = true ∨ has_dir_entry s.idx root = true
      · rw [if_pos hcol] at h
        cases h
        cases hok
      · rw [if_neg hcol] at h
        cases hi : addItems wf keys root items { s with idx := add_dir_entry s.idx root } with
        | error x => rw [hi] at h; cases h
        | ok r =>
          obtain ⟨st1, sm⟩ := r
          rw [hi] at h
          simp only at h
          by_cases hst : st1.is_ok = true
          · rw [if_neg (by simp [hst])] at h
            have g1 := growsSome_dirs keys s _ hg (add_dir_entry_appends s.idx root)
            have g2 := addItems_grows wf keys root items
              { s with idx := add_dir_entry s.idx root } sm st1 hg hi hst
            have g12 := growsSome_trans keys _ _ _ g1 g2
            exact growsSome_trans keys _ _ _ g12 (ih sm s1 st (growsSome_good _ _ _ g2) h hok)
          · rw [if_pos (by simpa using hst)] at h
            cases h
            exact absurd hok hst
    | file filename content =>
      simp only [addPaths] at h
      generalize (if filename = [] then ascii "file" else filename) = name at h
      by_cases hcol : entry_exists_not_deleted s.idx name = true
      · rw [if_pos hcol] at h
        cases h
        cases hok
      · rw [if_neg hcol] at h
        cases ha : append_file_object wf s.ofs content keys (file_entry name content) s.rng with
        | error x => rw [ha] at h; cases h
        | ok r =>
          obtain ⟨st2, ofs, e, rng1⟩ := r
          rw [ha] at h
          simp only at h
          by_cases hst : st2.is_ok = true
          · rw [if_neg (by simp [hst])] at h
            have g2 := append_file_grows wf keys s content _ st2 ofs e rng1 hg ha hst
            exact growsSome_trans keys _ _ _ g2 (ih _ s1 st (growsSome_good _ _ _ g2) h hok)
          · rw [if_pos (by simpa using hst)] at h
            cases h
            exact absurd hok hst

/-- A successful run of the extra writer of replace extends the state. -/
theorem replaceExtra_grows (wf : WriteFaults) (keys : kdf.Keys) (target : Bytes)
    (content : Option Bytes) (s s1 : WriteState) (st : Status) (hg : s.ofs.good = true)
    (h : replaceExtra wf keys target content s = .ok (st, s1)) (hok : st.is_ok = true) :
    GrowsSome keys s s1 := by
  unfold replaceExtra at h
  cases ha : append_file_object wf s.ofs content keys (file_entry target content) s.rng with
  | error x => rw [ha] at h; cases h
  | ok r =>
    obtain ⟨st2, ofs, e, rng1⟩ := r
    rw [ha] at h
    simp only at h
    by_cases hst : st2.is_ok = true
    · rw [if_neg (by simp [hst])] at h
      cases h
      exact append_file_grows wf keys s content _ st2 ofs e rng1 hg ha hst
    · rw [if_pos (by simpa using hst)] at h
      cases h
      exact absurd hok hst

end vault

/-! ## The old entries under an update -/

namespace vault

theorem kept_refl (e : index.Entry) : Kept e e :=
  ⟨⟨rfl, rfl, rfl, rfl, rfl, rfl, rfl⟩, fun h => h⟩

theorem kept_trans (e1 e2 e3 : index.Entry) (h1 : Kept e1 e2) (h2 : Kept e2 e3) : Kept e1 e3 := by
  obtain ⟨⟨a1, a2, a3, a4, a5, a6, a7⟩, a8⟩ := h1
  obtain ⟨⟨b1, b2, b3, b4, b5, b6, b7⟩, b8⟩ := h2
  exact ⟨⟨b1.trans a1, b2.trans a2, b3.trans a3, b4.trans a4, b5.trans a5, b6.trans a6,
    b7.trans a7⟩, fun h => b8 (a8 h)⟩

theorem kept_list_refl (es : List index.Entry) : List.Forall₂ Kept es es := by
  induction es with
  | nil => exact List.Forall₂.nil
  | cons e es ih => exact List.Forall₂.cons (kept_refl e) ih

/-- Setting flag bits keeps a 32-bit value in 32 bits. -/
theorem kept_or (e : index.Entry) (f : Nat) (hf : f < U32) :
    Kept e { e with flags := e.flags ||| f } :=
  ⟨⟨rfl, rfl, rfl, rfl, rfl, rfl, rfl⟩, fun h => Nat.or_lt_two_pow h hf⟩

theorem kept_and (e : index.Entry) (f : Nat) : Kept e { e with flags := e.flags &&& f } :=
  ⟨⟨rfl, rfl, rfl, rfl, rfl, rfl, rfl⟩, fun h => Nat.lt_of_le_of_lt Nat.and_le_left h⟩

theorem deleteEntry_kept (paths : List Bytes) :
    ∀ (e0 : index.Entry) (acc : index.Entry × Bool), Kept e0 acc.1 →
      Kept e0 (paths.foldl
        (fun (acc : index.Entry × Bool) p =>
          if is_prefix_path p acc.1.path then
            if (acc.1.flags &&& fmt.F_DELETED) = 0 then
              ({ acc.1 with flags := acc.1.flags ||| fmt.F_DELETED }, true)
            else acc
          else acc) acc).1 := by
  induction paths with
  | nil => intro e0 acc h; exact h
  | cons p rest ih =>
    intro e0 acc h
    simp only [List.foldl_cons]
    apply ih
    split
    · split
      · exact kept_trans _ _ _ h (kept_or acc.1 fmt.F_DELETED (by decide))
      · exact h
    · exact h

theorem deleteEntries_kept (paths : List Bytes) (es : List index.Entry) :
    ∀ any : Bool, List.Forall₂ Kept es (deleteEntries paths es any).1 := by
  induction es with
  | nil => intro _; exact List.Forall₂.nil
  | cons e rest ih =>
    intro any
    simp only [deleteEntries]
    exact List.Forall₂.cons (deleteEntry_kept paths e (e, any) (kept_refl e)) (ih _)

theorem hideEntry_kept (paths : List Bytes) (hidden : Bool) :
    ∀ (e0 : index.Entry) (acc : index.Entry × Bool), Kept e0 acc.1 →
      Kept e0 (paths.foldl
        (fun (acc : index.Entry × Bool) p =>
          if is_prefix_path p acc.1.path then
            if (acc.1.flags &&& fmt.F_DELETED) ≠ 0 then acc
            else if hidden then
              if (acc.1.flags &&& fmt.F_HIDDEN) = 0 then
                ({ acc.1 with flags := acc.1.flags ||| fmt.F_HIDDEN }, true)
              else acc
            else
              if (acc.1.flags &&& fmt.F_HIDDEN) ≠ 0 then
                ({ acc.1 with flags := acc.1.flags &&& ((U32 - 1) ^^^ fmt.F_HIDDEN) }, true)
              else acc
          else acc) acc).1 := by
  induction paths with
  | nil => intro e0 acc h; exact h
  | cons p rest ih =>
    intro e0 acc h
    simp only [List.foldl_cons]
    apply ih
    split
    · split
      · exact h
      · split
        · split
          · exact kept_trans _ _ _ h (kept_or acc.1 fmt.F_HIDDEN (by decide))
          · exact h
        · split
          · exact kept_trans _ _ _ h (kept_and acc.1 _)
          · exact h
    · exact h

theorem hideEntries_kept (paths : List Bytes) (hidden : Bool) (es : List index.Entry) :
    ∀ any : Bool, List.Forall₂ Kept es (hideEntries paths hidden es any).1 := by
  induction es with
  | nil => intro _; exact List.Forall₂.nil
  | cons e rest ih =>
    intro any
    simp only [hideEntries]
    exact List.Forall₂.cons (hideEntry_kept paths hidden e (e, any) (kept_refl e)) (ih _)

theorem markReplaced_kept (target : Bytes) (es : List index.Entry) :
    ∀ found : Bool, List.Forall₂ Kept es (markReplaced target es found).1 := by
  induction es with
  | nil => intro _; exact List.Forall₂.nil
  | cons e rest ih =>
    intro found
    simp only [markReplaced]
    split
    · exact List.Forall₂.cons (kept_or e fmt.F_DELETED (by decide)) (ih _)
    · exact List.Forall₂.cons (kept_refl e) (ih _)

/-- A successful atomic rewrite, with a new index made of the old entries up to their
flags and directory entries, and an extra writer that extends the state, leaves an
updated vault. -/
theorem rewrite_updated (env : Env) (fs fs1 : FileSys) (vp : String) (vo : VaultOpen)
    (new_idx : index.Index) (rng : Rng) (ew : ExtraWriter) (st : Status)
    (kept : List index.Entry)
    (hnew : ∃ paths : List Bytes, new_idx.entries = kept ++ paths.map dir_entry)
    (hk : List.Forall₂ Kept vo.idx.entries kept)
    (hew : ∀ (s s1 : WriteState) (stx : Status), s.ofs.good = true →
      ew s = .ok (stx, s1) → stx.is_ok = true → GrowsSome vo.keys s s1)
    (h : atomic_rewrite_vault env fs vp vo new_idx rng ew = .ok (st, fs1))
    (hok : st.is_ok = true) :
    ∃ (old new more : Bytes) (added : List index.Entry) (tag : Bytes),
      fs vp = some old ∧ fs1 vp = some new ∧ Updated vo old new more kept added tag := by
  obtain ⟨old, c, s1, stx, tag, hold, hcg, hcd, hpl, hge, hrun, hsx, _, hmac, hfs1⟩ :=
    atomic_rewrite_ok_inv env fs fs1 vp vo new_idx rng ew st h hok
  have g1 : GrowsSome vo.keys { ofs := c, idx := ⟨kept⟩, rng := rng }
      { ofs := c, idx := new_idx, rng := rng } :=
    growsSome_dirs vo.keys { ofs := c, idx := ⟨kept⟩, rng := rng } new_idx hcg hnew
  have g2 := hew _ s1 stx hcg hrun hsx
  obtain ⟨F, more, added, hd, he, _, hadd⟩ := growsSome_trans _ _ _ _ g1 g2
  simp only at hd he hadd
  have hidx : s1.idx = ⟨kept ++ added⟩ := by
    cases hs : s1.idx
    rw [hs] at he
    simp only at he
    rw [he]
  rw [hidx, hd, hcd] at hfs1
  rw [hidx] at hmac
  refine ⟨old, _, more, added, tag, hold, hfs1, ?_⟩
  exact
    { old_len := hpl
      offset_ge := hge
      bytes_eq := rfl
      mac_eq := hmac
      kept_ok := hk
      added_ok := by
        intro hlt
        rw [hd, hcd] at hadd
        have := hadd hlt
        rw [hpl] at this
        exact ⟨F, this⟩ }

end vault

/-! ## The four update operations -/

namespace vault

/-- A successful update opened the vault and left an updated vault in its place. -/
theorem update_ok_inv (env : Env) (rng : Rng) (fs : FileSys) (vp : String) (password : Bytes)
    (r : Status × FileSys) (hop : IsUpdate env rng fs vp password (.ok r))
    (hok : r.1.is_ok = true) :
    ∃ (st0 : Status) (vo : VaultOpen) (old new more : Bytes) (kept added : List index.Entry)
        (tag : Bytes),
      open_for_view env.io.reserveFails fs vp password = .ok (st0, vo) ∧ st0.is_ok = true ∧
      fs vp = some old ∧ r.2 vp = some new ∧ Updated vo old new more kept added tag := by
  obtain ⟨st, fs1⟩ := r
  simp only at hok
  have fin : ∀ (st0 : Status) (vo : VaultOpen) (kept : List index.Entry),
      open_for_view env.io.reserveFails fs vp password = .ok (st0, vo) → st0.is_ok = true →
      (∃ (old new more : Bytes) (added : List index.Entry) (tag : Bytes),
        fs vp = some old ∧ fs1 vp = some new ∧ Updated vo old new more kept added tag) →
      ∃ (st0 : Status) (vo : VaultOpen) (old new more : Bytes) (kept added : List index.Entry)
          (tag : Bytes),
        open_for_view env.io.reserveFails fs vp password = .ok (st0, vo) ∧ st0.is_ok = true ∧
        fs vp = some old ∧ fs1 vp = some new ∧ Updated vo old new more kept added tag := by
    intro st0 vo kept h1 h2 ⟨old, new, more, added, tag, h3, h4, h5⟩
    exact ⟨st0, vo, old, new, more, kept, added, tag, h1, h2, h3, h4, h5⟩
  rcases hop with ⟨paths, h⟩ | ⟨paths, h⟩ | ⟨paths, hidden, h⟩ | ⟨target, src, h⟩
  · unfold add_paths_to_vault open_for_mutation at h
    cases ho : open_for_view env.io.reserveFails fs vp password with
    | error x => rw [ho] at h; cases h
    | ok r0 =>
      obtain ⟨st0, vo⟩ := r0
      rw [ho] at h
      simp only at h
      by_cases hs0 : st0.is_ok = true
      · rw [if_neg (by simp [hs0])] at h
        rw [← ho]
        exact fin st0 vo vo.idx.entries ho hs0
          (rewrite_updated env fs fs1 vp vo vo.idx rng _ st vo.idx.entries ⟨[], by simp⟩
            (kept_list_refl _) (addPaths_grows env.io.writes vo.keys paths) h hok)
      · rw [if_pos (by simpa using hs0)] at h
        cases h
        exact absurd hok hs0
  · unfold delete_paths_in_vault open_for_mutation at h
    cases ho : open_for_view env.io.reserveFails fs vp password with
    | error x => rw [ho] at h; cases h
    | ok r0 =>
      obtain ⟨st0, vo⟩ := r0
      rw [ho] at h
      simp only at h
      by_cases hs0 : st0.is_ok = true
      · rw [if_neg (by simp [hs0])] at h
        by_cases hany : (deleteEntries paths vo.idx.entries false).2 = true
        · rw [if_neg (by simp [hany])] at h
          rw [← ho]
          exact fin st0 vo _ ho hs0
            (rewrite_updated env fs fs1 vp vo _ rng _ st
              (deleteEntries paths vo.idx.entries false).1 ⟨[], by simp⟩
              (deleteEntries_kept paths _ _)
              (fun s s1 stx hg hrun _ => by
                cases hrun
                exact ⟨[], grows_refl _ _ hg⟩) h hok)
        · rw [if_pos (by simpa using hany)] at h
          cases h
          cases hok
      · rw [if_pos (by simpa using hs0)] at h
        cases h
        exact absurd hok hs0
  · unfold set_hidden_paths_in_vault open_for_mutation at h
    cases ho : open_for_view env.io.reserveFails fs vp password with
    | error x => rw [ho] at h; cases h
    | ok r0 =>
      obtain ⟨st0, vo⟩ := r0
      rw [ho] at h
      simp only at h
      by_cases hs0 : st0.is_ok = true
      · rw [if_neg (by simp [hs0])] at h
        by_cases hany : (hideEntries paths hidden vo.idx.entries false).2 = true
        · rw [if_neg (by simp [hany])] at h
          rw [← ho]
          exact fin st0 vo _ ho hs0
            (rewrite_updated env fs fs1 vp vo _ rng _ st
              (hideEntries paths hidden vo.idx.entries false).1 ⟨[], by simp⟩
              (hideEntries_kept paths hidden _ _)
              (fun s s1 stx hg hrun _ => by
                cases hrun
                exact ⟨[], grows_refl _ _ hg⟩) h hok)
        · rw [if_pos (by simpa using hany)] at h
          cases h
          cases hok
      · rw [if_pos (by simpa using hs0)] at h
        cases h
        exact absurd hok hs0
  · unfold replace_file_in_vault open_for_mutation at h
    cases ho : open_for_view env.io.reserveFails fs vp password with
    | error x => rw [ho] at h; cases h
    | ok r0 =>
      obtain ⟨st0, vo⟩ := r0
      rw [ho] at h
      simp only at h
      by_cases hs0 : st0.is_ok = true
      · rw [if_neg (by simp [hs0])] at h
        cases src with
        | file filename content =>
          simp only at h
          by_cases hany : (markReplaced target vo.idx.entries false).2 = true
          · rw [if_neg (by simp [hany])] at h
            rw [← ho]
            exact fin st0 vo _ ho hs0
              (rewrite_updated env fs fs1 vp vo _ rng _ st
                (markReplaced target vo.idx.entries false).1
                (ensure_parent_dirs_appends ⟨(markReplaced target vo.idx.entries false).1⟩ target)
                (markReplaced_kept target _ _)
                (replaceExtra_grows env.io.writes vo.keys target content) h hok)
          · rw [if_pos (by simpa using hany)] at h
            cases h
            cases hok
        | missing => simp only at h; cases h; cases hok
        | dir _ _ => simp only at h; cases h; cases hok
        | other => simp only at h; cases h; cases hok
      · rw [if_pos (by simpa using hs0)] at h
        cases h
        exact absurd hok hs0

end vault

/-! ## The entries a successful decode returns -/

theorem getD_lt_256 (p : Bytes) (h : ∀ b ∈ p, b < 256) (i : Nat) : p.getD i 0 < 256 := by
  by_cases hi : i < p.length
  · rw [List.getD_eq_getElem _ _ hi]
    exact h _ (List.getElem_mem hi)
  · rw [List.getD_eq_default _ _ (by omega)]
    decide

theorem shiftLeft_lt (b k n : Nat) (hb : b < 256) (hk : k + 8 ≤ n) : b <<< k < 2 ^ n := by
  rw [Nat.shiftLeft_eq]
  calc b * 2 ^ k < 2 ^ 8 * 2 ^ k := Nat.mul_lt_mul_of_pos_right hb (Nat.two_pow_pos k)
    _ = 2 ^ (8 + k) := (Nat.pow_add 2 8 k).symm
    _ ≤ 2 ^ n := Nat.pow_le_pow_right (by decide) (by omega)

theorem load_u32_le_lt (p : Bytes) (h : ∀ b ∈ p, b < 256) : endian.load_u32_le p < U32 := by
  have g := getD_lt_256 p h
  unfold endian.load_u32_le
  show _ < 2 ^ 32
  exact Nat.or_lt_two_pow (Nat.or_lt_two_pow (Nat.or_lt_two_pow
    (Nat.lt_of_lt_of_le (g 0) (by decide)) (shiftLeft_lt _ 8 32 (g 1) (by decide)))
    (shiftLeft_lt _ 16 32 (g 2) (by decide))) (shiftLeft_lt _ 24 32 (g 3) (by decide))

theorem load_u64_le_lt (p : Bytes) (h : ∀ b ∈ p, b < 256) : endian.load_u64_le p < U64 := by
  have g := getD_lt_256 p h
  unfold endian.load_u64_le
  show _ < 2 ^ 64
  exact Nat.or_lt_two_pow (Nat.or_lt_two_pow (Nat.or_lt_two_pow (Nat.or_lt_two_pow
    (Nat.or_lt_two_pow (Nat.or_lt_two_pow (Nat.or_lt_two_pow
    (Nat.lt_of_lt_of_le (g 0) (by decide)) (shiftLeft_lt _ 8 64 (g 1) (by decide)))
    (shiftLeft_lt _ 16 64 (g 2) (by decide))) (shiftLeft_lt _ 24 64 (g 3) (by decide)))
    (shiftLeft_lt _ 32 64 (g 4) (by decide))) (shiftLeft_lt _ 40 64 (g 5) (by decide)))
    (shiftLeft_lt _ 48 64 (g 6) (by decide))) (shiftLeft_lt _ 56 64 (g 7) (by decide))

namespace index

theorem read_u32_lt (data : Bytes) (off v off1 : Nat) (hb : ∀ b ∈ data, b < 256)
    (h : read_u32 data off = some (v, off1)) : v < U32 := by
  unfold read_u32 at h
  split at h
  · cases h
  · cases h
    exact load_u32_le_lt _ (fun b hm => hb b (List.mem_of_mem_drop hm))

theorem read_u64_lt (data : Bytes) (off v off1 : Nat) (hb : ∀ b ∈ data, b < 256)
    (h : read_u64 data off = some (v, off1)) : v < U64 := by
  unfold read_u64 at h
  split at h
  · cases h
  · cases h
    exact load_u64_le_lt _ (fun b hm => hb b (List.mem_of_mem_drop hm))

theorem read_bytes_length (data : Bytes) (off n : Nat) (bs : Bytes) (off1 : Nat)
    (h : read_bytes data off n = some (bs, off1)) : bs.length = n := by
  unfold read_bytes at h
  split at h
  · cases h
  · cases h
    rw [List.length_take, List.length_drop]
    omega

/-- An entry read from bytes has integer fields within their widths and a nonce and tag
of the fixed sizes. -/
theorem decodeEntry_fieldsOk (data : Bytes) (off : Nat) (e : Entry) (off1 : Nat)
    (hb : ∀ b ∈ data, b < 256) (h : decodeEntry data off = .inr (e, off1)) :
    vault.FieldsOk e := by
  unfold decodeEntry at h
  split at h
  · cases h
  · split at h
    · cases h
    · split at h
      · cases h
      · rename_i hflags
        split at h
        · cases h
        · rename_i hsize
          split at h
          · cases h
          · rename_i hoff
            split at h
            · cases h
            · rename_i hds
              split at h
              · cases h
              · rename_i hnonce
                split at h
                · cases h
                · rename_i htag
                  cases h
                  exact ⟨read_u32_lt _ _ _ _ hb hflags, read_u64_lt _ _ _ _ hb hsize,
                    read_u64_lt _ _ _ _ hb hoff, read_u64_lt _ _ _ _ hb hds,
                    read_bytes_length _ _ _ _ _ hnonce, read_bytes_length _ _ _ _ _ htag⟩

theorem truncated_not_ok (what : String) : (truncated what).is_ok = false := rfl

theorem decodeEntry_inl_not_ok (data : Bytes) (off : Nat) (st : Status)
    (h : decodeEntry data off = .inl st) : st.is_ok = false := by
  unfold decodeEntry at h
  split at h
  · cases h; rfl
  · split at h
    · cases h; rfl
    · split at h
      · cases h; rfl
      · split at h
        · cases h; rfl
        · split at h
          · cases h; rfl
          · split at h
            · cases h; rfl
            · split at h
              · cases h; rfl
              · split at h
                · cases h; rfl
                · cases h

theorem decodeEntries_inl_not_ok (data : Bytes) (n : Nat) :
    ∀ (off : Nat) (acc es : List Entry) (st : Status),
      decodeEntries data n off acc = .inl (st, es) → st.is_ok = false := by
  induction n with
  | zero =>
    intro off acc es st h
    simp only [decodeEntries] at h
    cases h
  | succ n ih =>
    intro off acc es st h
    simp only [decodeEntries] at h
    split at h
    · rename_i st1 he
      cases h
      exact decodeEntry_inl_not_ok data off _ he
    · exact ih _ _ _ _ h

theorem decodeEntries_fieldsOk (data : Bytes) (hb : ∀ b ∈ data, b < 256) (n : Nat) :
    ∀ (off : Nat) (acc es : List Entry) (off1 : Nat), (∀ e ∈ acc, vault.FieldsOk e) →
      decodeEntries data n off acc = .inr (es, off1) → ∀ e ∈ es, vault.FieldsOk e := by
  induction n with
  | zero =>
    intro off acc es off1 hacc h
    simp only [decodeEntries] at h
    cases h
    exact hacc
  | succ n ih =>
    intro off acc es off1 hacc h
    simp only [decodeEntries] at h
    split at h
    · cases h
    · rename_i e off2 he
      apply ih off2 (acc ++ [e]) es off1 _ h
      intro x hx
      rcases List.mem_append.mp hx with h1 | h1
      · exact hacc x h1
      · rw [List.mem_singleton.mp h1]
        exact decodeEntry_fieldsOk data off e off2 hb he

/-- The entries of a successfully decoded index have fields within their widths. -/
theorem decode_index_fieldsOk (data : Bytes) (st : Status) (idx : Index)
    (hb : ∀ b ∈ data, b < 256) (h : decode_reserved data = (st, idx)) (hok : st.is_ok = true) :
    ∀ e ∈ idx.entries, vault.FieldsOk e := by
  unfold decode_reserved at h
  split at h
  · cases h; cases hok
  · split at h
    · cases h; cases hok
    · split at h
      · cases h; cases hok
      · split at h
        · cases h; cases hok
        · split at h
          · cases h; cases hok
          · split at h
            · rename_i st1 es hd
              cases h
              rw [decodeEntries_inl_not_ok _ _ _ _ _ _ hd] at hok
              cases hok
            · rename_i es off1 hd
              split at h
              · cases h; cases hok
              · cases h
                exact decodeEntries_fieldsOk data hb _ _ _ _ _ (by intro e he; cases he) hd

end index

/-! ## Opening an updated vault -/

namespace vault

theorem kept_fieldsOk (es kept : List index.Entry) (h : List.Forall₂ Kept es kept)
    (hf : ∀ e ∈ es, FieldsOk e) : ∀ e ∈ kept, FieldsOk e := by
  induction h with
  | nil => intro e he; cases he
  | @cons a b l1 l2 hk _ ih =>
    intro e he
    rcases List.mem_cons.mp he with rfl | hm
    · obtain ⟨f1, f2, f3, f4, f5, f6⟩ := hf a (List.mem_cons_self _ _)
      obtain ⟨⟨_, _, s3, s4, s5, s6, s7⟩, s8⟩ := hk
      exact ⟨s8 f1, by rw [s3]; exact f2, by rw [s4]; exact f3, by rw [s5]; exact f4,
        by rw [s6]; exact f5, by rw [s7]; exact f6⟩
    · exact ih (fun x hx => hf x (List.mem_cons_of_mem _ hx)) e hm

/-- What a successful open_for_view tells about the file: its header was parsed from
the first bytes, the key derivation gave the keys, and the entries have fields within
their widths. -/
theorem open_ok_facts {af : AllocFaults} (fs : FileSys) (vp : String) (password : Bytes)
    (st0 : Status)
    (vo : VaultOpen) (old : Bytes)
    (hopen : open_for_view af fs vp password = .ok (st0, vo)) (hst0 : st0.is_ok = true)
    (hold : fs vp = some old) (hbytes : ∀ b ∈ old, b < 256) :
    vo.header = parse_header ((old.drop 0).take fmt.GLOBAL_HEADER_SIZE) ∧
    vo.header.magic = fmt.VAULT_MAGIC ∧
    fmt.GLOBAL_HEADER_SIZE ≤ vo.header.header_size ∧
    vo.header.header_size ≤ vo.trailer.index_offset ∧
    kdf.derive password vo.header.salt
      (bits_to_bytes (if read_u32_le (vo.header.reserved.drop 0) ≠ 0
        then read_u32_le (vo.header.reserved.drop 0) else 512))
      (if read_u32_le (vo.header.reserved.drop 4) ≠ 0
        then read_u32_le (vo.header.reserved.drop 4) else 1) = .ok vo.keys ∧
    ∀ e ∈ vo.idx.entries, FieldsOk e := by
  obtain ⟨content, hdr, tr, ib, hfile, hso, htail⟩ :=
    open_for_view_ok_inv fs vp password st0 vo hopen hst0
  rw [hold] at hfile
  cases hfile
  obtain ⟨hh, ht, hder, _, hdec⟩ := open_tail_ok_inv password ib _ st0 vo htail hst0
  simp only at hh ht hder
  have hlo := hso.hsize_lo
  have h100 : fmt.GLOBAL_HEADER_SIZE % U32 = fmt.GLOBAL_HEADER_SIZE := by decide
  refine ⟨by rw [hh]; exact hso.hdr_eq, by rw [hh]; exact hso.magic, by rw [hh]; omega,
    by rw [hh, ht]; exact hso.ioff_lo, by rw [hh]; exact hder, ?_⟩
  apply index.decode_index_fieldsOk ib st0 vo.idx _ hdec hst0
  intro b hb
  rw [hso.ibytes] at hb
  exact hbytes b (List.mem_of_mem_drop (List.mem_of_mem_take hb))

/-- The reader opens an updated vault, when its index is at most 64 MiB and the host
grants the storage of its entries, with the header and the keys of the old vault and the
new index. -/
theorem reopen_updated {af : AllocFaults} (af2 : AllocFaults) (fs fs1 : FileSys) (vp : String)
    (password : Bytes) (st0 : Status) (vo : VaultOpen) (old new more : Bytes)
    (kept added : List index.Entry) (tag : Bytes)
    (hopen : open_for_view af fs vp password = .ok (st0, vo)) (hst0 : st0.is_ok = true)
    (hold : fs vp = some old) (hbytes : ∀ b ∈ old, b < 256)
    (hnewf : fs1 vp = some new) (hu : Updated vo old new more kept added tag)
    (hsmall : new.length < 2 ^ 63)
    (hmax : (index.encode_index ⟨kept ++ added⟩).length ≤ MAX_INDEX_SIZE)
    (hmem : index.Grants af2 (kept ++ added).length) :
    open_for_view af2 fs1 vp password =
      .ok (Status.ok,
        { header := vo.header,
          trailer := written_trailer (old.take vo.trailer.index_offset ++ more)
            (index.encode_index ⟨kept ++ added⟩) tag,
          idx := ⟨kept ++ added⟩, keys := vo.keys }) := by
  obtain ⟨hhdr, hmagic, hhs, hhs2, hder, hfo⟩ :=
    open_ok_facts fs vp password st0 vo old hopen hst0 hold hbytes
  have hb := hu.bytes_eq
  have hpl := hu.old_len
  have hge := hu.offset_ge
  have htag : tag.length = TAG_SIZE := mac_compute_length _ _ _ hu.mac_eq
  have htl : (trailer_bytes (written_trailer (old.take vo.trailer.index_offset ++ more)
      (index.encode_index ⟨kept ++ added⟩) tag)).length = fmt.INDEX_TRAILER_SIZE :=
    trailer_bytes_length _ rfl htag
  have hlen := congrArg List.length hb
  rw [List.length_append, List.length_append, htl] at hlen
  have hprelen : (old.take vo.trailer.index_offset ++ more).length =
      vo.trailer.index_offset + more.length := by rw [List.length_append, hpl]
  have hpre : (old.take vo.trailer.index_offset ++ more).length < 2 ^ 63 := by omega
  obtain ⟨F, hadd⟩ := hu.added_ok hpre
  obtain ⟨hcount, hpaths⟩ := bounds_of_index_size ⟨kept ++ added⟩ hmax
  have hkf := kept_fieldsOk _ _ hu.kept_ok hfo
  have hsmall2 := hsmall
  rw [hb] at hnewf hsmall2
  apply open_for_view_written fs1 vp password _ _ _ _ ⟨kept ++ added⟩ vo.keys hnewf hsmall2
  · rw [hprelen]; omega
  · rw [hhdr, List.drop_zero, List.drop_zero, List.take_append_of_le_length (by omega),
      List.take_take, Nat.min_eq_left hge]
  · exact hmagic
  · exact hhs
  · rw [hprelen]; omega
  · rfl
  · rfl
  · simp only [written_trailer]
    exact Nat.mod_eq_of_lt (by simp only [U64]; omega)
  · simp only [written_trailer]
    exact Nat.mod_eq_of_lt (by simp only [U64]; omega)
  · exact htag
  · exact encode_index_ne_nil _
  · exact hmax
  · exact hder
  · exact hu.mac_eq
  · apply index.decode_encode_index ⟨kept ++ added⟩ hcount
    intro e he
    apply wellFormed_of_fieldsOk e _ (hpaths e he)
    rcases List.mem_append.mp he with h1 | h1
    · exact hkf e h1
    · exact hadd.fields e h1
  · exact index.reserve_refused_encode af2 ⟨kept ++ added⟩ hcount hmem

end vault

/-! ## The concrete updates evaluated -/

set_option maxRecDepth 1000000 in
theorem demo_replace_eval :
    demoReplace.map (fun r => (r.1, r.2 "v.1654")) = .ok (Status.ok, some demoReplacedVault) := by
  decide!

theorem demo_replace_eq : demoReplace = .ok demoReplaced :=
  eq_ok_okOr demoReplace noResult (exists_ok_of_map _ _ _ demo_replace_eval)

theorem demo_replaced_status : demoReplaced.1 = Status.ok := by
  have h := demo_replace_eval
  rw [demo_replace_eq] at h
  simp only [Except.map, Except.ok.injEq, Prod.mk.injEq] at h
  exact h.1

theorem demo_replaced_file : demoReplaced.2 "v.1654" = some demoReplacedVault := by
  have h := demo_replace_eval
  rw [demo_replace_eq] at h
  simp only [Except.map, Except.ok.injEq, Prod.mk.injEq] at h
  exact h.2

set_option maxRecDepth 1000000 in
theorem demoVault_bytes : ∀ b ∈ demoVault, b < 256 := by
  decide!

set_option maxRecDepth 1000000 in
theorem demoReplacedVault_small : demoReplacedVault.length < 2 ^ 63 := by
  decide!

set_option maxRecDepth 1000000 in
theorem demoReplacedVault_index_size :
    (vault.parse_trailer (demoReplacedVault.drop
      (demoReplacedVault.length - fmt.INDEX_TRAILER_SIZE))).index_size ≤ vault.MAX_INDEX_SIZE := by
  decide!

set_option maxRecDepth 1000000 in
theorem demo_delete_failed_eval :
    demoDeleteFailed.map (fun r =>
        (r.1, r.2 "v.1654", r.2 (vault.make_temp_path "v.1654" failEnv.pid failEnv.now))) =
      .ok (vault.io_err "update: rename temp->vault failed", none, none) := by
  decide!

theorem demo_delete_failed_eq : demoDeleteFailed = .ok demoDeleteFailedResult :=
  eq_ok_okOr demoDeleteFailed noResult (exists_ok_of_map _ _ _ demo_delete_failed_eval)

theorem demo_delete_failed_status :
    demoDeleteFailedResult.1 = vault.io_err "update: rename temp->vault failed" := by
  have h := demo_delete_failed_eval
  rw [demo_delete_failed_eq] at h
  simp only [Except.map, Except.ok.injEq, Prod.mk.injEq] at h
  exact h.1

theorem demo_delete_failed_vault : demoDeleteFailedResult.2 "v.1654" = none := by
  have h := demo_delete_failed_eval
  rw [demo_delete_failed_eq] at h
  simp only [Except.map, Except.ok.injEq, Prod.mk.injEq] at h
  exact h.2.1

/-! ## C6 -/

/-- C6: in every successful update (add, delete, stealth set or clear, replace) of a
vault, the vault opened with index_offset off, the first off bytes of the rewritten vault
file are byte for byte the first off bytes of the original, and there are exactly off of
them; the rewritten file is that prefix, the bytes the update appended, the encoded new
index and the trailer; the new index consists of the pre-existing entries in their
order, each with its path, type, size, data_offset, data_size, nonce and tag unchanged
(only flags may differ), followed by the new entries. -/
theorem C6_update_frame (env : vault.Env) (rng : Rng) (fs : FileSys) (vp : String)
    (password : Bytes) (r : Status × FileSys)
    (hop : vault.IsUpdate env rng fs vp password (.ok r)) (hok : r.1.is_ok = true) :
    ∃ (st0 : Status) (vo : vault.VaultOpen) (old new more : Bytes)
        (kept added : List index.Entry) (tag : Bytes),
      vault.open_for_view env.io.reserveFails fs vp password = .ok (st0, vo) ∧ st0.is_ok = true ∧
      fs vp = some old ∧ r.2 vp = some new ∧
      new.take vo.trailer.index_offset = old.take vo.trailer.index_offset ∧
      (old.take vo.trailer.index_offset).length = vo.trailer.index_offset ∧
      new = old.take vo.trailer.index_offset ++ more ++
        index.encode_index ⟨kept ++ added⟩ ++
        vault.trailer_bytes (vault.written_trailer (old.take vo.trailer.index_offset ++ more)
          (index.encode_index ⟨kept ++ added⟩) tag) ∧
      List.Forall₂ vault.SameButFlags vo.idx.entries kept := by
  obtain ⟨st0, vo, old, new, more, kept, added, tag, hopen, hst0, hold, hnew, hu⟩ :=
    vault.update_ok_inv env rng fs vp password r hop hok
  refine ⟨st0, vo, old, new, more, kept, added, tag, hopen, hst0, hold, hnew, ?_,
    hu.old_len, hu.bytes_eq, ?_⟩
  · rw [hu.bytes_eq, List.append_assoc, List.append_assoc, List.take_left' hu.old_len]
  · exact List.Forall₂.imp (fun _ _ h => h.1) hu.kept_ok

theorem C6_update_frame_witness :
    ∃ (st0 : Status) (vo : vault.VaultOpen) (old new more : Bytes)
        (kept added : List index.Entry) (tag : Bytes),
      vault.open_for_view noAllocFaults demoFs "v.1654" demoPw = .ok (st0, vo) ∧ st0.is_ok = true ∧
      demoFs "v.1654" = some old ∧ demoReplaced.2 "v.1654" = some new ∧
      new.take vo.trailer.index_offset = old.take vo.trailer.index_offset ∧
      (old.take vo.trailer.index_offset).length = vo.trailer.index_offset ∧
      new = old.take vo.trailer.index_offset ++ more ++
        index.encode_index ⟨kept ++ added⟩ ++
        vault.trailer_bytes (vault.written_trailer (old.take vo.trailer.index_offset ++ more)
          (index.encode_index ⟨kept ++ added⟩) tag) ∧
      List.Forall₂ vault.SameButFlags vo.idx.entries kept :=
  C6_update_frame demoEnv demoRng demoFs "v.1654" demoPw demoReplaced
    (Or.inr (Or.inr (Or.inr ⟨[114, 47, 97], HostPath.file [98] (some [120]), demo_replace_eq⟩)))
    (by rw [demo_replaced_status]; rfl)

namespace vault

theorem forall2_mem_right {α β : Type} (R : α → β → Prop) (l1 : List α) (l2 : List β)
    (h : List.Forall₂ R l1 l2) : ∀ b ∈ l2, ∃ a ∈ l1, R a b := by
  induction h with
  | nil => intro b hb; cases hb
  | @cons a b l1 l2 hab _ ih =>
    intro x hx
    rcases List.mem_cons.mp hx with rfl | hm
    · exact ⟨a, List.mem_cons_self _ _, hab⟩
    · obtain ⟨y, hy, hr⟩ := ih x hm
      exact ⟨y, List.mem_cons_of_mem _ hy, hr⟩

/-- The index_size field in the trailer of an updated file is the length of its encoded
index, reduced to 64 bits. -/
theorem updated_index_size (vo : VaultOpen) (old new more : Bytes)
    (kept added : List index.Entry) (tag : Bytes)
    (hu : Updated vo old new more kept added tag) :
    (parse_trailer (new.drop (new.length - fmt.INDEX_TRAILER_SIZE))).index_size =
      (index.encode_index ⟨kept ++ added⟩).length % U64 := by
  have htag : tag.length = TAG_SIZE := mac_compute_length _ _ _ hu.mac_eq
  rw [hu.bytes_eq, parse_written_trailer _ _ _ htag]
  rfl

/-- The per-object range invariant carries over from the old index to the new one. -/
theorem updated_ranges (vo : VaultOpen) (old new more : Bytes)
    (kept added : List index.Entry) (tag : Bytes)
    (hu : Updated vo old new more kept added tag) (hsmall : new.length < 2 ^ 63)
    (hhs : vo.header.header_size ≤ vo.trailer.index_offset)
    (hinv : ∀ e ∈ vo.idx.entries, e.type ≠ fmt.ObjType.Dir →
      vo.header.header_size ≤ e.data_offset ∧
        e.data_offset + e.data_size ≤ vo.trailer.index_offset) :
    ∀ e ∈ kept ++ added, e.type ≠ fmt.ObjType.Dir →
      vo.header.header_size ≤ e.data_offset ∧
        e.data_offset + e.data_size ≤
          (written_trailer (old.take vo.trailer.index_offset ++ more)
            (index.encode_index ⟨kept ++ added⟩) tag).index_offset := by
  have htag : tag.length = TAG_SIZE := mac_compute_length _ _ _ hu.mac_eq
  have htl : (trailer_bytes (written_trailer (old.take vo.trailer.index_offset ++ more)
      (index.encode_index ⟨kept ++ added⟩) tag)).length = fmt.INDEX_TRAILER_SIZE :=
    trailer_bytes_length _ rfl htag
  have hlen := congrArg List.length hu.bytes_eq
  rw [List.length_append, List.length_append, htl] at hlen
  have hprelen : (old.take vo.trailer.index_offset ++ more).length =
      vo.trailer.index_offset + more.length := by rw [List.length_append, hu.old_len]
  have hpre : (old.take vo.trailer.index_offset ++ more).length < 2 ^ 63 := by omega
  have hoff : (written_trailer (old.take vo.trailer.index_offset ++ more)
      (index.encode_index ⟨kept ++ added⟩) tag).index_offset =
      vo.trailer.index_offset + more.length := by
    simp only [written_trailer]
    rw [hprelen]
    exact Nat.mod_eq_of_lt (by simp only [U64]; omega)
  obtain ⟨F, hadd⟩ := hu.added_ok hpre
  intro e he hnd
  rw [hoff]
  rcases List.mem_append.mp he with h1 | h1
  · obtain ⟨e0, he0, ⟨_, s2, _, s4, s5, _, _⟩, _⟩ := forall2_mem_right _ _ _ hu.kept_ok e h1
    have := hinv e0 he0 (by rw [← s2]; exact hnd)
    rw [s4, s5]
    omega
  · have := consecutive_range _ _ hadd.consecutive e h1 (isFile_of_ne_dir e hnd)
    rw [hadd.ends, hprelen] at this
    omega

end vault

/-! ## Adding many empty files -/

namespace vault

theorem entry_exists_not_deleted_path (idx : index.Index) (p : Bytes)
    (h : entry_exists_not_deleted idx p = true) : ∃ e ∈ idx.entries, e.path = p := by
  unfold entry_exists_not_deleted at h
  obtain ⟨e, he, hp⟩ := List.any_eq_true.mp h
  exact ⟨e, he, (of_decide_eq_true hp).1⟩

/-- The entry of an empty file. -/
theorem nilEntry_path (p : Bytes) (off : Nat) (nonce tag : Bytes) :
    (nilEntry p off nonce tag).path = p := rfl

/-- Adding distinct, fresh, empty regular files succeeds, leaves the stream as it is and
appends one entry per file. -/
theorem addPaths_nil_files (wf : WriteFaults) (keys : kdf.Keys) (tag : Bytes)
    (h : mac.compute keys.mac [] = .ok tag) (names : List Bytes) :
    names.Nodup → (∀ n ∈ names, n ≠ []) →
    ∀ s : WriteState, (∀ n ∈ names, ∀ e ∈ s.idx.entries, e.path ≠ n) →
      ∃ (s1 : WriteState) (added : List index.Entry),
        addPaths wf keys (names.map fun n => HostPath.file n (some [])) s =
            .ok (Status.ok, s1) ∧ s1.ofs = s.ofs ∧
          s1.idx.entries = s.idx.entries ++ added ∧ added.length = names.length ∧
          ∀ e ∈ added, e.path ∈ names := by
  induction names with
  | nil => intro _ _ s _; exact ⟨s, [], rfl, rfl, by simp, rfl, by simp⟩
  | cons n rest ih =>
    intro hnd hne s hfresh
    have hn : n ≠ [] := hne n (List.mem_cons_self _ _)
    have hnotin : n ∉ rest := (List.nodup_cons.mp hnd).1
    have hcol : ¬ entry_exists_not_deleted s.idx n = true := by
      intro hc
      obtain ⟨e, he, hp⟩ := entry_exists_not_deleted_path _ _ hc
      exact hfresh n (List.mem_cons_self _ _) e he hp
    have happ : append_file_object wf s.ofs (some []) keys (file_entry n (some [])) s.rng =
        .ok (Status.ok, s.ofs, nilEntry n s.ofs.tellp (s.rng.bytes NONCE_SIZE).1 tag,
          (s.rng.bytes NONCE_SIZE).2) := by
      unfold append_file_object
      simp only
      rw [encrypt_stream_nil wf s.ofs keys.enc keys.mac _ tag h]
      simp only
      rw [if_neg (by decide)]
      rfl
    obtain ⟨s2, a2, hw2, ho2, he2, hl2, hp2⟩ :=
      ih (List.nodup_cons.mp hnd).2 (fun m hm => hne m (List.mem_cons_of_mem _ hm))
        { ofs := s.ofs,
          idx := ⟨s.idx.entries ++ [nilEntry n s.ofs.tellp (s.rng.bytes NONCE_SIZE).1 tag]⟩,
          rng := (s.rng.bytes NONCE_SIZE).2 }
        (by
          intro m hm e he
          rcases List.mem_append.mp he with h1 | h1
          · exact hfresh m (List.mem_cons_of_mem _ hm) e h1
          · rw [List.mem_singleton.mp h1]
            intro heq
            exact hnotin ((show n = m from heq) ▸ hm))
    refine ⟨s2, nilEntry n s.ofs.tellp (s.rng.bytes NONCE_SIZE).1 tag :: a2, ?_, ho2, ?_,
      by rw [List.length_cons, List.length_cons, hl2], ?_⟩
    · simp only [List.map_cons, addPaths]
      rw [if_neg hn, if_neg hcol, happ]
      simp only
      rw [if_neg (by decide)]
      exact hw2
    · rw [he2]
      simp
    · intro e he
      rcases List.mem_cons.mp he with h1 | h1
      · rw [h1]
        exact List.mem_cons_self _ _
      · exact List.mem_cons_of_mem _ (hp2 e h1)

end vault

theorem nameOf_injOn (i j : Nat) (hi : i < 2 ^ 20) (hj : j < 2 ^ 20) (h : nameOf i = nameOf j) :
    i = j := by
  simp only [nameOf, List.cons.injEq, and_true] at h
  obtain ⟨h1, h2, h3, h4, h5⟩ := h
  have : (2 : Nat) ^ 20 = 1048576 := by norm_num
  omega

theorem bigNames_nodup : bigNames.Nodup := by
  unfold bigNames
  apply List.Nodup.map_on _ (List.nodup_range _)
  intro x hx y hy h
  exact nameOf_injOn x y (List.mem_range.mp hx) (List.mem_range.mp hy) h

theorem bigNames_name_length (n : Bytes) (h : n ∈ bigNames) : n.length = 5 := by
  unfold bigNames at h
  obtain ⟨i, _, rfl⟩ := List.mem_map.mp h
  rfl

namespace vault

/-- An atomic rewrite in which nothing fails, given what the prefix copy and the extra
writer return, puts the written file in place of the vault. -/
theorem atomic_rewrite_noFaults (pid now : Nat) (fs : FileSys) (vp : String) (vo : VaultOpen)
    (new_idx : index.Index) (rng : Rng) (ew : ExtraWriter) (old : Bytes) (c : OStream)
    (s1 : WriteState)
    (hold : fs vp = some old) (hge : fmt.GLOBAL_HEADER_SIZE ≤ vo.trailer.index_offset)
    (hcopy : copy_prefix_bytes noFaults (some old) OStream.fresh vo.trailer.index_offset =
      (true, c))
    (hrun : ew { ofs := c, idx := new_idx, rng := rng } = .ok (Status.ok, s1))
    (hg : s1.ofs.good = true) (hk : vo.keys.mac ≠ []) :
    ∃ (tag : Bytes) (fs1 : FileSys),
      mac.compute vo.keys.mac (index.encode_index s1.idx) = .ok tag ∧
      atomic_rewrite_vault { io := IoFaults.none, pid := pid, now := now } fs vp vo new_idx rng
        ew = .ok (Status.ok, fs1) ∧
      fs1 vp = some (s1.ofs.data ++ index.encode_index s1.idx ++
        trailer_bytes (written_trailer s1.ofs.data (index.encode_index s1.idx) tag)) := by
  obtain ⟨tag, ofs2, hm, hwit, hdata⟩ := write_index_and_trailer_noFaults s1.ofs vo.keys s1.idx
    "update: write index failed" "update: write trailer failed" hg hk
  have hw : IoFaults.none.writes = noFaults := rfl
  have hne := make_temp_path_ne vp pid now
  have hbody : rewrite_body IoFaults.none fs vp vo new_idx rng ew = .ok (none, ofs2.data) := by
    unfold rewrite_body
    simp only
    rw [if_neg (show ¬ IoFaults.none.reopenFails = true by decide), hold, hw, hcopy]
    have hok : Status.ok.is_ok = true := rfl
    have hff : IoFaults.none.flushFails = false := rfl
    unfold write_index_and_trailer_to_stream
    simp only [not_true_eq_false, if_false, hrun, hok, hwit, hff, Bool.false_eq_true]
  refine ⟨tag,
    (((fs.set (make_temp_path vp pid now) (some ofs2.data)).set vp
      ((fs.set (make_temp_path vp pid now) (some ofs2.data)) (make_temp_path vp pid now))).set
        (make_temp_path vp pid now) none), hm, ?_, ?_⟩
  · unfold atomic_rewrite_vault
    simp only
    rw [if_neg (show ¬ vo.trailer.index_offset < fmt.GLOBAL_HEADER_SIZE by omega),
      if_neg (show ¬ IoFaults.none.createFails = true by decide), hbody]
    simp only [rename_step]
    rw [if_neg (show ¬ IoFaults.none.renameFails = true by decide)]
  · rw [fileSys_set_other _ _ _ _ hne.symm, fileSys_set_same, fileSys_set_same, hdata]

end vault

/-- Copying the prefix of the concrete vault. -/
theorem demo_prefix_copied :
    vault.copy_prefix_bytes noFaults (some demoVault) OStream.fresh
        demoOpen.trailer.index_offset =
      (true, { data := demoVault.take 102, good := true, nwrites := 1 }) := by
  rfl

set_option maxRecDepth 1000000 in
theorem demo_prefix_header :
    vault.parse_header (((demoVault.take 102).drop 0).take fmt.GLOBAL_HEADER_SIZE) =
      demoHeader := by
  decide!

set_option maxRecDepth 1000000 in
theorem demo_prefix_length : (demoVault.take 102).length = 102 := by
  decide!

theorem demo_paths_short : ∀ e ∈ demoOpen.idx.entries, e.path.length ≤ 3 := by
  decide

/-! ## C4 -/

/-- C4 fails as stated: the concrete vault opens and satisfies the per-object
invariants; adding 2^20 empty regular files with distinct fresh names to it, with
nothing failing, returns Ok; and open_for_view on the rewritten file, with the same
password, returns the integrity error for a bad index_size: the new encoded index is
larger than the 64 MiB the reader accepts. -/
theorem C4_large_add_not_reopened :
    vault.open_for_view noAllocFaults demoFs "v.1654" demoPw = .ok (Status.ok, demoOpen) ∧
    (∀ e ∈ demoOpen.idx.entries, e.type ≠ fmt.ObjType.Dir →
      demoOpen.header.header_size ≤ e.data_offset ∧
        e.data_offset + e.data_size ≤ demoOpen.trailer.index_offset) ∧
    ∃ (r : Status × FileSys) (vo : vault.VaultOpen),
      vault.add_paths_to_vault demoEnv demoRng demoFs "v.1654" demoPw bigPaths = .ok r ∧
      r.1 = Status.ok ∧
      vault.open_for_view noAllocFaults r.2 "v.1654" demoPw =
        .ok (vault.integrity_err "bad index_size", vo) := by
  refine ⟨demo_open_eq, by decide, ?_⟩
  obtain ⟨tag0, hm0⟩ := mac_compute_ok demoKeys.mac [] (by decide)
  have hne : ∀ n ∈ bigNames, n ≠ [] := by
    intro n hn h0
    have := bigNames_name_length n hn
    rw [h0] at this
    cases this
  obtain ⟨s1, added, hadd, hofs, hent, hlen, hpaths⟩ :=
    vault.addPaths_nil_files noFaults demoKeys tag0 hm0 bigNames bigNames_nodup hne
      { ofs := { data := demoVault.take 102, good := true, nwrites := 1 },
        idx := demoOpen.idx, rng := demoRng }
      (by
        intro n hn e he heq
        have h1 := demo_paths_short e he
        have h2 := bigNames_name_length n hn
        rw [heq, h2] at h1
        omega)
  simp only at hofs hent
  obtain ⟨tag, fs1, hm, hrw, hfs1⟩ :=
    vault.atomic_rewrite_noFaults 7 9 demoFs "v.1654" demoOpen demoOpen.idx demoRng
      (vault.addPaths noFaults demoOpen.keys bigPaths) demoVault _ s1 demoFs_vault (by decide)
      demo_prefix_copied hadd (by rw [hofs]) (by decide)
  rw [hofs] at hfs1
  simp only at hfs1
  rw [bigNames_length] at hlen
  have htag : tag.length = TAG_SIZE := mac_compute_length _ _ _ hm
  have hil := vault.encode_index_length s1.idx
  have hlo := (vault.flatMap_entryBytes_length_ge s1.idx.entries).1
  have hhi := vault.flatMap_entryBytes_length_le s1.idx.entries 5 (by
    intro e he
    rw [hent] at he
    rcases List.mem_append.mp he with h1 | h1
    · have := demo_paths_short e h1
      omega
    · rw [bigNames_name_length _ (hpaths e h1)])
  have hcount : s1.idx.entries.length = 2 + 2 ^ 20 := by
    rw [hent, List.length_append, hlen]
    rfl
  have hc2 : (2 : Nat) + 2 ^ 20 = 1048578 := by norm_num
  rw [hcount, hc2] at hlo hhi
  have htl : (vault.trailer_bytes (vault.written_trailer (demoVault.take 102)
      (index.encode_index s1.idx) tag)).length = fmt.INDEX_TRAILER_SIZE :=
    vault.trailer_bytes_length _ rfl htag
  have hT : fmt.INDEX_TRAILER_SIZE = 40 := rfl
  have hG : fmt.GLOBAL_HEADER_SIZE = 100 := rfl
  have hpl := demo_prefix_length
  refine ⟨(Status.ok, fs1), { vault.VaultOpen.init with
    header := demoHeader,
    trailer := vault.written_trailer (demoVault.take 102) (index.encode_index s1.idx) tag },
    ?_, rfl, ?_⟩
  · unfold vault.add_paths_to_vault vault.open_for_mutation
    rw [show demoEnv.io.reserveFails = noAllocFaults from rfl, demo_open_eq]
    simp only
    rw [if_neg (show ¬ ¬ Status.ok.is_ok = true by decide)]
    exact hrw
  · apply vault.open_for_view_oversize fs1 "v.1654" demoPw _ _ _ _ hfs1
    · rw [List.length_append, List.length_append, htl, hpl, hil]
      omega
    · rw [hpl, hG]; omega
    · exact demo_prefix_header
    · rfl
    · exact Nat.le_of_eq rfl
    · rw [hpl]; decide
    · rfl
    · rfl
    · exact Nat.mod_lt _ (by decide)
    · simp only [vault.written_trailer]
      exact Nat.mod_eq_of_lt (by simp only [U64]; omega)
    · exact htag
    · rw [hil]
      simp only [vault.MAX_INDEX_SIZE]
      omega

/-- C4 (as amended): for every vault file of bytes on which open_for_view succeeds with
the password and whose non-Dir entries satisfy data_offset >= header_size and
data_offset + data_size <= index_offset, after any successful update (delete, stealth
set or clear, replace, add) that leaves a file shorter than 2^63 bytes with an
index_size of at most 64 MiB in its trailer, the rewritten file again opens successfully
with the password on a host that grants the storage decode_index reserves for the
entries, the index returned is the new index the update built (the old entries up to
their flags, then the added ones), and every non-Dir entry satisfies data_offset >=
header_size and data_offset + data_size <= index_offset of the new trailer. -/
theorem C4_update_reopens (env : vault.Env) (rng : Rng) (fs : FileSys) (vp : String)
    (password : Bytes) (r : Status × FileSys) (st0 : Status) (vo : vault.VaultOpen)
    (old new : Bytes)
    (hopen : vault.open_for_view env.io.reserveFails fs vp password = .ok (st0, vo))
    (hst0 : st0.is_ok = true)
    (hold : fs vp = some old) (hbytes : ∀ b ∈ old, b < 256)
    (hinv : ∀ e ∈ vo.idx.entries, e.type ≠ fmt.ObjType.Dir →
      vo.header.header_size ≤ e.data_offset ∧
        e.data_offset + e.data_size ≤ vo.trailer.index_offset)
    (hop : vault.IsUpdate env rng fs vp password (.ok r)) (hok : r.1.is_ok = true)
    (hnew : r.2 vp = some new) (hsmall : new.length < 2 ^ 63)
    (hmax : (vault.parse_trailer (new.drop (new.length - fmt.INDEX_TRAILER_SIZE))).index_size
      ≤ vault.MAX_INDEX_SIZE) :
    ∃ (vo2 : vault.VaultOpen) (more : Bytes) (kept added : List index.Entry) (tag : Bytes),
      vault.Updated vo old new more kept added tag ∧
      vault.open_for_view noAllocFaults r.2 vp password = .ok (Status.ok, vo2) ∧
      vo2.idx = ⟨kept ++ added⟩ ∧
      ∀ e ∈ vo2.idx.entries, e.type ≠ fmt.ObjType.Dir →
        vo2.header.header_size ≤ e.data_offset ∧
          e.data_offset + e.data_size ≤ vo2.trailer.index_offset := by
  obtain ⟨st1, vo1, old1, new1, more, kept, added, tag, hopen1, _, hold1, hnew1, hu⟩ :=
    vault.update_ok_inv env rng fs vp password r hop hok
  rw [hopen] at hopen1
  rw [hold] at hold1
  rw [hnew] at hnew1
  cases hopen1
  cases hold1
  cases hnew1
  have hlenidx : (index.encode_index ⟨kept ++ added⟩).length < U64 := by
    have hl := congrArg List.length hu.bytes_eq
    rw [List.length_append, List.length_append] at hl
    simp only [U64]
    omega
  rw [vault.updated_index_size vo old new more kept added tag hu,
    Nat.mod_eq_of_lt hlenidx] at hmax
  have hre := vault.reopen_updated noAllocFaults fs r.2 vp password st0 vo old new more kept
    added tag hopen hst0 hold hbytes hnew hu hsmall hmax (index.grants_noAlloc _)
  have hfacts := vault.open_ok_facts fs vp password st0 vo old hopen hst0 hold hbytes
  exact ⟨_, more, kept, added, tag, hu, hre, rfl,
    vault.updated_ranges vo old new more kept added tag hu hsmall hfacts.2.2.2.1 hinv⟩

set_option maxRecDepth 1000000 in
theorem C4_update_reopens_witness :
    ∃ (vo2 : vault.VaultOpen) (more : Bytes) (kept added : List index.Entry) (tag : Bytes),
      vault.Updated demoOpen demoVault demoReplacedVault more kept added tag ∧
      vault.open_for_view noAllocFaults demoReplaced.2 "v.1654" demoPw = .ok (Status.ok, vo2) ∧
      vo2.idx = ⟨kept ++ added⟩ ∧
      ∀ e ∈ vo2.idx.entries, e.type ≠ fmt.ObjType.Dir →
        vo2.header.header_size ≤ e.data_offset ∧
          e.data_offset + e.data_size ≤ vo2.trailer.index_offset :=
  C4_update_reopens demoEnv demoRng demoFs "v.1654" demoPw demoReplaced Status.ok demoOpen
    demoVault demoReplacedVault demo_open_eq rfl demoFs_vault demoVault_bytes (by decide!)
    (Or.inr (Or.inr (Or.inr ⟨[114, 47, 97], HostPath.file [98] (some [120]), demo_replace_eq⟩)))
    (by rw [demo_replaced_status]; rfl) demo_replaced_file demoReplacedVault_small
    demoReplacedVault_index_size

/-! ## Failing updates -/

namespace vault

theorem encrypt_stream_status (wf : WriteFaults) (inp : Bytes) (out : OStream)
    (ke km nonce : Bytes) (res : obj.EncResult)
    (h : obj.encrypt_stream wf inp out ke km nonce = .ok res) :
    res.status = Status.ok ∨ res.status = Status.err ExitCode.IoError "encrypt: write failed" := by
  unfold obj.encrypt_stream at h
  split at h
  · cases h
  · cases h
    exact Or.inr rfl
  · split at h
    · cases h
    · cases h
      exact Or.inl rfl

theorem append_file_status_ne (wf : WriteFaults) (ofs ofs1 : OStream) (content : Option Bytes)
    (keys : kdf.Keys) (e0 e : index.Entry) (rng rng1 : Rng) (st : Status)
    (h : append_file_object wf ofs content keys e0 rng = .ok (st, ofs1, e, rng1))
    (hfail : st.is_ok = false) : st ≠ rename_failed := by
  unfold append_file_object at h
  cases content with
  | none =>
    simp only at h
    cases h
    decide
  | some bytes =>
    simp only at h
    cases henc : obj.encrypt_stream wf bytes ofs keys.enc keys.mac (rng.bytes NONCE_SIZE).1 with
    | error x => rw [henc] at h; cases h
    | ok res =>
      rw [henc] at h
      simp only at h
      by_cases hres : res.status.is_ok = true
      · rw [if_neg (by simp [hres])] at h
        cases h
        cases hfail
      · rw [if_pos (by simpa using hres)] at h
        cases h
        rcases encrypt_stream_status _ _ _ _ _ _ _ henc with h1 | h1
        · rw [h1] at hres
          exact absurd rfl hres
        · rw [h1]
          decide

theorem addItems_status_ne (wf : WriteFaults) (keys : kdf.Keys) (root : Bytes)
    (items : List DirItem) :
    ∀ (s s1 : WriteState) (st : Status), addItems wf keys root items s = .ok (st, s1) →
      st.is_ok = false → st ≠ rename_failed := by
  induction items with
  | nil =>
    intro s s1 st h hfail
    simp only [addItems] at h
    cases h
    cases hfail
  | cons it rest ih =>
    intro s s1 st h hfail
    cases it with
    | dir rel =>
      simp only [addItems] at h
      exact ih _ s1 st h hfail
    | file rel content =>
      simp only [addItems] at h
      by_cases hcol : entry_exists_not_deleted s.idx (root ++ [47] ++ rel) = true
      · rw [if_pos hcol] at h
        cases h
        decide
      · rw [if_neg hcol] at h
        cases ha : append_file_object wf s.ofs content keys
            (file_entry (root ++ [47] ++ rel) content) s.rng with
        | error x => rw [ha] at h; cases h
        | ok r =>
          obtain ⟨st2, ofs, e, rng1⟩ := r
          rw [ha] at h
          simp only at h
          by_cases hst : st2.is_ok = true
          · rw [if_neg (by simp [hst])] at h
            exact ih _ s1 st h hfail
          · rw [if_pos (by simpa using hst)] at h
            cases h
            exact append_file_status_ne _ _ _ _ _ _ _ _ _ _ ha hfail
    | other rel =>
      simp only [addItems] at h
      exact ih s s1 st h hfail

theorem addPaths_status_ne (wf : WriteFaults) (keys : kdf.Keys) (paths : List HostPath) :
    ∀ (s s1 : WriteState) (st : Status), addPaths wf keys paths s = .ok (st, s1) →
      st.is_ok = false → st ≠ rename_failed := by
  induction paths with
  | nil =>
    intro s s1 st h hfail
    simp only [addPaths] at h
    cases h
    cases hfail
  | cons p rest ih =>
    intro s s1 st h hfail
    cases p with
    | missing =>
      simp only [addPaths] at h
      cases h
      decide
    | other =>
      simp only [addPaths] at h
      cases h
      decide
    | dir filename items =>
      simp only [addPaths] at h
      generalize (if filename = [] then ascii "folder" else filename) = root at h
      by_cases hcol : entry_exists_not_deleted s.idx root = true ∨ has_dir_entry s.idx root = true
      · rw [if_pos hcol] at h
        cases h
        decide
      · rw [if_neg hcol] at h
        cases hi : addItems wf keys root items { s with idx := add_dir_entry s.idx root } with
        | error x => rw [hi] at h; cases h
        | ok r =>
          obtain ⟨st1, sm⟩ := r
          rw [hi] at h
          simp only at h
          by_cases hst : st1.is_ok = true
          · rw [if_neg (by simp [hst])] at h
            exact ih sm s1 st h hfail
          · rw [if_pos (by simpa using hst)] at h
            cases h
            exact addItems_status_ne wf keys root items _ _ _ hi hfail
    | file filename content =>
      simp only [addPaths] at h
      generalize (if filename = [] then ascii "file" else filename) = name at h
      by_cases hcol : entry_exists_not_deleted s.idx name = true
      · rw [if_pos hcol] at h
        cases h
        decide
      · rw [if_neg hcol] at h
        cases ha : append_file_object wf s.ofs content keys (file_entry name content) s.rng with
        | error x => rw [ha] at h; cases h
        | ok r =>
          obtain ⟨st2, ofs, e, rng1⟩ := r
          rw [ha] at h
          simp only at h
          by_cases hst : st2.is_ok = true
          · rw [if_neg (by simp [hst])] at h
            exact ih _ s1 st h hfail
          · rw [if_pos (by simpa using hst)] at h
            cases h
            exact append_file_status_ne _ _ _ _ _ _ _ _ _ _ ha hfail

theorem replaceExtra_status_ne (wf : WriteFaults) (keys : kdf.Keys) (target : Bytes)
    (content : Option Bytes) (s s1 : WriteState) (st : Status)
    (h : replaceExtra wf keys target content s = .ok (st, s1)) (hfail : st.is_ok = false) :
    st ≠ rename_failed := by
  unfold replaceExtra at h
  cases ha : append_file_object wf s.ofs content keys (file_entry target content) s.rng with
  | error x => rw [ha] at h; cases h
  | ok r =>
    obtain ⟨st2, ofs, e, rng1⟩ := r
    rw [ha] at h
    simp only at h
    by_cases hst : st2.is_ok = true
    · rw [if_neg (by simp [hst])] at h
      cases h
      cases hfail
    · rw [if_pos (by simpa using hst)] at h
      cases h
      exact append_file_status_ne _ _ _ _ _ _ _ _ _ _ ha hfail

theorem write_index_and_trailer_status (wf : WriteFaults) (ofs ofs2 : OStream) (keys : kdf.Keys)
    (idx : index.Index) (m1 m2 : String) (st : Status)
    (h : write_index_and_trailer wf ofs keys idx m1 m2 = .ok (st, ofs2)) :
    st = Status.ok ∨ st = io_err m1 ∨ st = io_err m2 := by
  unfold write_index_and_trailer at h
  simp only at h
  split at h
  · cases h
    exact Or.inr (Or.inl rfl)
  · split at h
    · cases h
    · split at h
      · cases h
        exact Or.inr (Or.inr rfl)
      · cases h
        exact Or.inl rfl

end vault

namespace vault

/-- An early return of the block writing the temp file is never the rename failure. -/
theorem rewrite_body_status (io : IoFaults) (fs : FileSys) (vp : String) (vo : VaultOpen)
    (new_idx : index.Index) (rng : Rng) (ew : ExtraWriter) (st : Status) (data : Bytes)
    (hew : ∀ (s s1 : WriteState) (stx : Status), ew s = .ok (stx, s1) → stx.is_ok = false →
      stx ≠ rename_failed)
    (h : rewrite_body io fs vp vo new_idx rng ew = .ok (some st, data)) :
    st ≠ rename_failed := by
  unfold rewrite_body at h
  simp only at h
  generalize copy_prefix_bytes io.writes (if io.reopenFails = true then none else fs vp)
    OStream.fresh vo.trailer.index_offset = c at h
  by_cases hc : c.1 = true
  · rw [if_neg (by simp [hc])] at h
    cases hrun : ew { ofs := c.2, idx := new_idx, rng := rng } with
    | error x => rw [hrun] at h; cases h
    | ok r1 =>
      obtain ⟨stx, s1⟩ := r1
      rw [hrun] at h
      simp only at h
      by_cases hsx : stx.is_ok = true
      · rw [if_neg (by simp [hsx])] at h
        cases hwi : write_index_and_trailer_to_stream io.writes s1.ofs vo.keys s1.idx with
        | error x => rw [hwi] at h; cases h
        | ok r2 =>
          obtain ⟨st2, ofs2⟩ := r2
          rw [hwi] at h
          simp only at h
          by_cases hs2 : st2.is_ok = true
          · rw [if_neg (by simp [hs2])] at h
            by_cases hff : io.flushFails = true
            · rw [if_pos hff] at h
              cases h
              decide
            · rw [if_neg hff] at h
              cases h
          · rw [if_pos (by simpa using hs2)] at h
            cases h
            unfold write_index_and_trailer_to_stream at hwi
            rcases write_index_and_trailer_status _ _ _ _ _ _ _ _ hwi with h1 | h1 | h1
            · rw [h1] at hs2
              exact absurd rfl hs2
            · rw [h1]; decide
            · rw [h1]; decide
      · rw [if_pos (by simpa using hsx)] at h
        cases h
        exact hew _ _ _ hrun (by simpa using hsx)
  · rw [if_pos (by simpa using hc)] at h
    cases h
    decide

/-- A failed atomic rewrite either failed before the renaming step and left the vault
file as it was, or failed at both renames; then the vault file is as it was if removing
it failed and is gone otherwise, and the temp file is gone unless removing it failed. -/
theorem atomic_rewrite_fail_inv (env : Env) (fs fs1 : FileSys) (vp : String) (vo : VaultOpen)
    (new_idx : index.Index) (rng : Rng) (ew : ExtraWriter) (st : Status)
    (hew : ∀ (s s1 : WriteState) (stx : Status), ew s = .ok (stx, s1) → stx.is_ok = false →
      stx ≠ rename_failed)
    (h : atomic_rewrite_vault env fs vp vo new_idx rng ew = .ok (st, fs1))
    (hfail : st.is_ok = false) :
    (st ≠ rename_failed ∧ fs1 vp = fs vp) ∨
    (st = rename_failed ∧ env.io.renameFails = true ∧ env.io.renameAgainFails = true ∧
      fs1 vp = (if env.io.removeVaultFails = true then fs vp else none) ∧
      (env.io.removeTmpFails = false → fs1 (make_temp_path vp env.pid env.now) = none)) := by
  have hne := make_temp_path_ne vp env.pid env.now
  unfold atomic_rewrite_vault at h
  simp only at h
  split at h
  · cases h
    exact Or.inl ⟨by decide, rfl⟩
  · split at h
    · cases h
      exact Or.inl ⟨by decide, rfl⟩
    · split at h
      · cases h
      · rename_i st1 data hrb
        cases h
        exact Or.inl ⟨rewrite_body_status _ _ _ _ _ _ _ _ _ hew hrb,
          fileSys_set_other _ _ _ _ hne.symm⟩
      · rename_i data hrb
        unfold rename_step at h
        by_cases hrf : env.io.renameFails = true
        · rw [if_pos hrf] at h
          simp only at h
          by_cases hra : env.io.renameAgainFails = true
          · rw [if_pos hra] at h
            cases h
            refine Or.inr ⟨rfl, hrf, hra, ?_, ?_⟩
            · by_cases hrv : env.io.removeVaultFails = true
              · rw [if_pos hrv, if_pos hrv]
                by_cases hrt : env.io.removeTmpFails = true
                · rw [if_pos hrt]
                  exact fileSys_set_other _ _ _ _ hne.symm
                · rw [if_neg hrt, fileSys_set_other _ _ _ _ hne.symm]
                  exact fileSys_set_other _ _ _ _ hne.symm
              · rw [if_neg hrv, if_neg hrv]
                by_cases hrt : env.io.removeTmpFails = true
                · rw [if_pos hrt]
                  exact fileSys_set_same _ _ _
                · rw [if_neg hrt, fileSys_set_other _ _ _ _ hne.symm]
                  exact fileSys_set_same _ _ _
            · intro hrt
              rw [if_neg (by simp [hrt])]
              exact fileSys_set_same _ _ _
          · rw [if_neg hra] at h
            cases h
            cases hfail
        · rw [if_neg hrf] at h
          cases h
          cases hfail

/-- A failed update of a vault that opens: see atomic_rewrite_fail_inv. -/
theorem update_fail_inv (env : Env) (rng : Rng) (fs : FileSys) (vp : String) (password : Bytes)
    (r : Status × FileSys) (st0 : Status) (vo : VaultOpen)
    (hopen : open_for_view env.io.reserveFails fs vp password = .ok (st0, vo))
    (hst0 : st0.is_ok = true)
    (hop : IsUpdate env rng fs vp password (.ok r)) (hfail : r.1.is_ok = false) :
    (r.1 ≠ rename_failed ∧ r.2 vp = fs vp) ∨
    (r.1 = rename_failed ∧ env.io.renameFails = true ∧ env.io.renameAgainFails = true ∧
      r.2 vp = (if env.io.removeVaultFails = true then fs vp else none) ∧
      (env.io.removeTmpFails = false → r.2 (make_temp_path vp env.pid env.now) = none)) := by
  obtain ⟨st, fs1⟩ := r
  simp only at hfail ⊢
  have hnot : ¬ (¬ st0.is_ok = true) := by simp [hst0]
  rcases hop with ⟨paths, h⟩ | ⟨paths, h⟩ | ⟨paths, hidden, h⟩ | ⟨target, src, h⟩
  · unfold add_paths_to_vault open_for_mutation at h
    rw [hopen] at h
    simp only at h
    rw [if_neg hnot] at h
    exact atomic_rewrite_fail_inv env fs fs1 vp vo _ rng _ st
      (addPaths_status_ne env.io.writes vo.keys paths) h hfail
  · unfold delete_paths_in_vault open_for_mutation at h
    rw [hopen] at h
    simp only at h
    rw [if_neg hnot] at h
    split at h
    · cases h
      exact Or.inl ⟨by decide, rfl⟩
    · exact atomic_rewrite_fail_inv env fs fs1 vp vo _ rng _ st
        (fun s s1 stx hrun hf => by cases hrun; cases hf) h hfail
  · unfold set_hidden_paths_in_vault open_for_mutation at h
    rw [hopen] at h
    simp only at h
    rw [if_neg hnot] at h
    split at h
    · cases h
      exact Or.inl ⟨by decide, rfl⟩
    · exact atomic_rewrite_fail_inv env fs fs1 vp vo _ rng _ st
        (fun s s1 stx hrun hf => by cases hrun; cases hf) h hfail
  · unfold replace_file_in_vault open_for_mutation at h
    rw [hopen] at h
    simp only at h
    rw [if_neg hnot] at h
    cases src with
    | file filename content =>
      simp only at h
      split at h
      · cases h
        exact Or.inl ⟨by decide, rfl⟩
      · exact atomic_rewrite_fail_inv env fs fs1 vp vo _ rng _ st
          (replaceExtra_status_ne env.io.writes vo.keys target content) h hfail
    | missing => simp only at h; cases h; exact Or.inl ⟨by decide, rfl⟩
    | dir _ _ => simp only at h; cases h; exact Or.inl ⟨by decide, rfl⟩
    | other => simp only at h; cases h; exact Or.inl ⟨by decide, rfl⟩

end vault

/-! ## C5 -/

/-- C5 fails as stated: deleting r/a from the concrete vault, which opens, when both
renames of the temp file fail (and removing files succeeds) returns the I/O error of
the rename failure, and the vault file, which held the vault before, no longer
exists. -/
theorem C5_rename_failure_loses_vault :
    vault.open_for_view noAllocFaults demoFs "v.1654" demoPw = .ok (Status.ok, demoOpen) ∧
    vault.delete_paths_in_vault failEnv demoRng demoFs "v.1654" demoPw [[114, 47, 97]] =
      .ok demoDeleteFailedResult ∧
    demoDeleteFailedResult.1 = vault.io_err "update: rename temp->vault failed" ∧
    demoDeleteFailedResult.1.is_ok = false ∧
    demoFs "v.1654" = some demoVault ∧
    demoDeleteFailedResult.2 "v.1654" = none :=
  ⟨demo_open_eq, demo_delete_failed_eq, demo_delete_failed_status,
    by rw [demo_delete_failed_status]; rfl, demoFs_vault, demo_delete_failed_vault⟩

/-- C5 (as amended): for every update operation (add, delete, stealth, replace) on a
vault that opens, if the operation returns a non-Ok status other than the rename failure
(so for a failure at temp creation, prefix copy, extra writer, index or trailer write, or
flush), the vault file still exists with unchanged content; if it returns the rename
failure, both renames failed, the vault file is unchanged if removing it failed and no
longer exists otherwise, and the temp file has been removed unless removing it
failed. -/
theorem C5_update_failure (env : vault.Env) (rng : Rng) (fs : FileSys) (vp : String)
    (password : Bytes) (r : Status × FileSys) (st0 : Status) (vo : vault.VaultOpen)
    (hopen : vault.open_for_view env.io.reserveFails fs vp password = .ok (st0, vo))
    (hst0 : st0.is_ok = true)
    (hop : vault.IsUpdate env rng fs vp password (.ok r)) (hfail : r.1.is_ok = false) :
    (r.1 ≠ vault.rename_failed → r.2 vp = fs vp) ∧
    (r.1 = vault.rename_failed →
      env.io.renameFails = true ∧ env.io.renameAgainFails = true ∧
      r.2 vp = (if env.io.removeVaultFails = true then fs vp else none) ∧
      (env.io.removeTmpFails = false →
        r.2 (vault.make_temp_path vp env.pid env.now) = none)) := by
  rcases vault.update_fail_inv env rng fs vp password r st0 vo hopen hst0 hop hfail with
    ⟨h1, h2⟩ | ⟨h1, h2⟩
  · exact ⟨fun _ => h2, fun h => absurd h h1⟩
  · exact ⟨fun h => absurd h1 h, fun _ => h2⟩

theorem C5_update_failure_witness :
    (demoDeleteFailedResult.1 ≠ vault.rename_failed →
      demoDeleteFailedResult.2 "v.1654" = demoFs "v.1654") ∧
    (demoDeleteFailedResult.1 = vault.rename_failed →
      failEnv.io.renameFails = true ∧ failEnv.io.renameAgainFails = true ∧
      demoDeleteFailedResult.2 "v.1654" =
        (if failEnv.io.removeVaultFails = true then demoFs "v.1654" else none) ∧
      (failEnv.io.removeTmpFails = false →
        demoDeleteFailedResult.2 (vault.make_temp_path "v.1654" failEnv.pid failEnv.now) =
          none)) :=
  C5_update_failure failEnv demoRng demoFs "v.1654" demoPw demoDeleteFailedResult Status.ok
    demoOpen demo_open_eq rfl (Or.inr (Or.inl ⟨[[114, 47, 97]], demo_delete_failed_eq⟩))
    (by rw [demo_delete_failed_status]; rfl)

/-! ## The decrypt loop on a readable input, and flipped bits -/

/-- On an input holding the requested bytes, with a non-empty key and no failing write,
the decrypt loop reaches its normal exit having collected exactly the bytes it read. -/
theorem decryptLoop_ok (ke nonce : Bytes) (hk : ke ≠ []) (fuel : Nat) :
    ∀ (inp : Bytes) (remaining : Nat) (st : obj.DecState), remaining ≤ inp.length →
      remaining < fuel → st.out.good = true →
      ∃ st1, obj.decryptLoop noFaults ke nonce fuel inp remaining st = .ok (none, st1) ∧
        st1.mac_buf = st.mac_buf ++ inp.take remaining ∧ st1.out.good = true := by
  induction fuel with
  | zero => intro inp remaining st _ h; omega
  | succ n ih =>
    intro inp remaining st hlen hfuel hg
    simp only [obj.decryptLoop]
    by_cases hr : remaining = 0
    · rw [if_pos hr]
      exact ⟨st, rfl, by simp [hr], hg⟩
    · rw [if_neg hr]
      generalize hw : (if remaining > obj.CHUNK then obj.CHUNK else remaining) = want
      have hw1 : want ≤ obj.CHUNK := by rw [← hw]; split <;> omega
      have hw2 : want ≤ remaining := by rw [← hw]; split <;> omega
      have hw3 : 0 < want := by
        rw [← hw]
        split
        · simp [obj.CHUNK]
        · omega
      have hbuf : (inp.take want).length = want := by
        rw [List.length_take]; omega
      rw [if_neg (by simp only [ne_eq, not_not]; exact hbuf)]
      obtain ⟨ks, hks⟩ := xof_generate_ok ke nonce st.counter want hk hw1
      rw [hks]
      simp only
      have hwr := write_noFaults st.out (obj.xorBytes (inp.take want) ks) hg
      rw [if_neg (by simp [hwr.1])]
      obtain ⟨st1, h1, h2, h3⟩ := ih (inp.drop want) (remaining - want)
        { out := st.out.write noFaults (obj.xorBytes (inp.take want) ks),
          mac_buf := st.mac_buf ++ inp.take want, counter := (st.counter + 1) % U64 }
        (by rw [List.length_drop]; omega) (by omega) hwr.1
      refine ⟨st1, h1, ?_, h3⟩
      rw [h2]
      simp only
      rw [List.append_assoc, ← List.take_add]
      congr 2
      omega

/-- On a readable input with non-empty keys and no failing write, decrypt_stream
compares the MAC of the bytes read with the expected tag and returns accordingly. -/
theorem decrypt_stream_status (inp ke km nonce expected_tag : Bytes) (out : OStream)
    (data_size : Nat) (hke : ke ≠ []) (hkm : km ≠ []) (hlen : data_size ≤ inp.length)
    (hg : out.good = true) :
    ∃ t out3, mac.compute km (inp.take data_size) = .ok t ∧
      obj.decrypt_stream noFaults inp out ke km nonce data_size expected_tag =
        .ok (if t = expected_tag then Status.ok
             else Status.err ExitCode.IntegrityError "integrity check failed", out3) := by
  obtain ⟨st1, h1, h2, _⟩ := decryptLoop_ok ke nonce hke (data_size + 1) inp data_size
    { out := out, mac_buf := [], counter := 0 } hlen (Nat.lt_succ_self _) hg
  obtain ⟨t, ht⟩ := mac_compute_ok km (inp.take data_size) hkm
  simp only [List.nil_append] at h2
  refine ⟨t, st1.out, ht, ?_⟩
  unfold obj.decrypt_stream
  rw [h1]
  simp only
  unfold mac.verify
  rw [h2, ht]
  simp only
  by_cases he : t = expected_tag
  · simp [he]
  · simp [he]

/-- A byte with one bit flipped differs from the byte. -/
theorem xor_bit_ne (x j : Nat) : x ^^^ (1 <<< j) ≠ x := by
  intro h
  have h0 : x ^^^ (1 <<< j) = x ^^^ 0 := by rw [Nat.xor_zero]; exact h
  have h1 := Nat.xor_right_injective h0
  rw [Nat.one_shiftLeft] at h1
  exact absurd h1 (Nat.pos_iff_ne_zero.mp (Nat.two_pow_pos j))

/-- Flipping a bit of a byte inside the list changes the list. -/
theorem flip_bit_at_ne (l : Bytes) (i j : Nat) (hi : i < l.length) :
    selftest.flip_bit_at l i j ≠ l := by
  intro h
  have h1 : (selftest.flip_bit_at l i j).getD i 0 = l.getD i 0 := by rw [h]
  unfold selftest.flip_bit_at at h1
  rw [List.getD_eq_getElem _ _ (by rw [List.length_set]; exact hi), List.getElem_set_self] at h1
  exact xor_bit_ne _ _ h1

/-! ## Windows of a byte string under a change of one byte or a cut -/

/-- A window that does not contain the changed position is unchanged. -/
theorem drop_take_set_out {α : Type} (l : List α) (p : Nat) (v : α) (a n : Nat)
    (h : p < a ∨ a + n ≤ p) : ((l.set p v).drop a).take n = (l.drop a).take n := by
  apply List.ext_getElem?
  intro i
  simp only [List.getElem?_take, List.getElem?_drop, List.getElem?_set]
  by_cases hi : i < n
  · rw [if_pos hi, if_pos hi, if_neg (by omega)]
  · rw [if_neg hi, if_neg hi]

/-- A window that contains the changed position is changed at that position. -/
theorem drop_take_set_in {α : Type} (l : List α) (p : Nat) (v : α) (a n : Nat)
    (h1 : a ≤ p) :
    ((l.set p v).drop a).take n = ((l.drop a).take n).set (p - a) v := by
  apply List.ext_getElem?
  intro i
  simp only [List.getElem?_take, List.getElem?_drop, List.getElem?_set, List.length_take,
    List.length_drop]
  split_ifs <;> first | rfl | (exfalso; omega)

/-- A window of a window. -/
theorem drop_take_drop_take {α : Type} (l : List α) (a n b m : Nat) (h : b + m ≤ n) :
    (((l.drop a).take n).drop b).take m = (l.drop (a + b)).take m := by
  apply List.ext_getElem?
  intro i
  simp only [List.getElem?_take, List.getElem?_drop]
  by_cases hi : i < m
  · rw [if_pos hi, if_pos hi, if_pos (by omega), Nat.add_assoc]
  · rw [if_neg hi, if_neg hi]

/-- A window of a cut that ends after the window. -/
theorem drop_take_take {α : Type} (l : List α) (m a n : Nat) (h : a + n ≤ m) :
    ((l.take m).drop a).take n = (l.drop a).take n := by
  apply List.ext_getElem?
  intro i
  simp only [List.getElem?_take, List.getElem?_drop]
  by_cases hi : i < n
  · rw [if_pos hi, if_pos hi, if_pos (by omega)]
  · rw [if_neg hi, if_neg hi]

theorem getD_take {α : Type} (l : List α) (n i : Nat) (d : α) (h : i < n) :
    (l.take n).getD i d = l.getD i d := by
  simp only [List.getD_eq_getElem?_getD, List.getElem?_take, if_pos h]

theorem load_u32_le_take (l : Bytes) : endian.load_u32_le (l.take 4) = endian.load_u32_le l := by
  unfold endian.load_u32_le
  rw [getD_take _ _ 0 _ (by decide), getD_take _ _ 1 _ (by decide),
    getD_take _ _ 2 _ (by decide), getD_take _ _ 3 _ (by decide)]

theorem load_u64_le_take (l : Bytes) : endian.load_u64_le (l.take 8) = endian.load_u64_le l := by
  unfold endian.load_u64_le
  rw [getD_take _ _ 0 _ (by decide), getD_take _ _ 1 _ (by decide),
    getD_take _ _ 2 _ (by decide), getD_take _ _ 3 _ (by decide),
    getD_take _ _ 4 _ (by decide), getD_take _ _ 5 _ (by decide),
    getD_take _ _ 6 _ (by decide), getD_take _ _ 7 _ (by decide)]

theorem read_u32_le_take (l : Bytes) : read_u32_le (l.take 4) = read_u32_le l := by
  unfold read_u32_le
  rw [getD_take _ _ 0 _ (by decide), getD_take _ _ 1 _ (by decide),
    getD_take _ _ 2 _ (by decide), getD_take _ _ 3 _ (by decide)]

namespace vault

/-- The header fields as windows of the file content. -/
theorem parse_header_window (c : Bytes) :
    parse_header ((c.drop 0).take fmt.GLOBAL_HEADER_SIZE) =
      { magic := (c.drop 0).take 4,
        version := endian.load_u32_le ((c.drop 4).take 4),
        header_size := endian.load_u32_le ((c.drop 8).take 4),
        salt := (c.drop 12).take 32,
        nonce := (c.drop 44).take 24,
        reserved := (c.drop 68).take 32 } := by
  unfold parse_header
  have e : fmt.GLOBAL_HEADER_SIZE = 100 := by decide
  rw [e]
  rw [← load_u32_le_take (List.drop 4 _), ← load_u32_le_take (List.drop 8 _)]
  rw [drop_take_drop_take c 0 100 0 4 (by decide), drop_take_drop_take c 0 100 4 4 (by decide),
    drop_take_drop_take c 0 100 8 4 (by decide)]
  rw [show SALT_SIZE = 32 by decide, show NONCE_SIZE = 24 by decide]
  rw [drop_take_drop_take c 0 100 12 32 (by decide),
    drop_take_drop_take c 0 100 (12 + 32) 24 (by decide),
    drop_take_drop_take c 0 100 (12 + 32 + 24) 32 (by decide)]

/-- The trailer fields as windows of the file content. -/
theorem parse_trailer_window (c : Bytes) (a : Nat) :
    parse_trailer ((c.drop a).take fmt.INDEX_TRAILER_SIZE) =
      { magic := (c.drop a).take 4,
        trailer_size := endian.load_u32_le ((c.drop (a + 4)).take 4),
        index_offset := endian.load_u64_le ((c.drop (a + 8)).take 8),
        index_size := endian.load_u64_le ((c.drop (a + 16)).take 8),
        index_tag := (c.drop (a + 24)).take 16 } := by
  unfold parse_trailer
  have e : fmt.INDEX_TRAILER_SIZE = 40 := by decide
  rw [e]
  rw [← load_u32_le_take (List.drop 4 _), ← load_u64_le_take (List.drop 8 _),
    ← load_u64_le_take (List.drop 16 _)]
  rw [drop_take_drop_take c a 40 0 4 (by decide), drop_take_drop_take c a 40 4 4 (by decide),
    drop_take_drop_take c a 40 8 8 (by decide), drop_take_drop_take c a 40 16 8 (by decide)]
  rw [show TAG_SIZE = 16 by decide]
  rw [drop_take_drop_take c a 40 24 16 (by decide)]
  rfl

end vault

/-! ## The outcomes of the structural checks of open_for_view -/

namespace vault

/-- The function open_for_view either stops at a failed read (which needs a file of
2^63 bytes or more, or no file), or stops at a structural check with IntegrityError, or
finds the structural checks passed. -/
theorem open_for_view_cases {af : AllocFaults} (fs : FileSys) (path : String) (password : Bytes) :
    (∃ m out, open_for_view af fs path password = .ok (io_err m, out) ∧
      ∀ content, fs path = some content → 2 ^ 63 ≤ content.length) ∨
    (∃ m out, open_for_view af fs path password = .ok (integrity_err m, out)) ∨
    (∃ content hdr tr idx_bytes, fs path = some content ∧
      StructOk content hdr tr idx_bytes) := by
  unfold open_for_view
  simp only
  cases hfile : fs path with
  | none => exact Or.inl ⟨_, _, rfl, fun c hc => by cases hc⟩
  | some content =>
    simp only
    have hmod : content.length % U64 ≤ content.length := Nat.mod_le _ _
    by_cases c1 : content.length % U64 < fmt.GLOBAL_HEADER_SIZE
    · rw [if_pos c1]; exact Or.inr (Or.inl ⟨_, _, rfl⟩)
    rw [if_neg c1]
    by_cases c2 : content.length % U64 < fmt.INDEX_TRAILER_SIZE
    · rw [if_pos c2]; exact Or.inr (Or.inl ⟨_, _, rfl⟩)
    rw [if_neg c2]
    rw [read_exact_of_le content 0 fmt.GLOBAL_HEADER_SIZE (by omega)]
    simp only
    generalize hh : parse_header ((content.drop 0).take fmt.GLOBAL_HEADER_SIZE) = hdr
    by_cases c3 : hdr.magic ≠ fmt.VAULT_MAGIC
    · rw [if_pos c3]; exact Or.inr (Or.inl ⟨_, _, rfl⟩)
    rw [if_neg c3]
    by_cases c4 : hdr.header_size < fmt.GLOBAL_HEADER_SIZE % U32
    · rw [if_pos c4]; exact Or.inr (Or.inl ⟨_, _, rfl⟩)
    rw [if_neg c4]
    by_cases c5 : hdr.header_size > content.length % U64
    · rw [if_pos c5]; exact Or.inr (Or.inl ⟨_, _, rfl⟩)
    rw [if_neg c5]
    rw [read_exact_of_le content (content.length % U64 - fmt.INDEX_TRAILER_SIZE)
      fmt.INDEX_TRAILER_SIZE (by omega)]
    simp only
    generalize ht : parse_trailer ((content.drop
      (content.length % U64 - fmt.INDEX_TRAILER_SIZE)).take fmt.INDEX_TRAILER_SIZE) = tr
    by_cases c6 : tr.magic ≠ fmt.INDEX_MAGIC
    · rw [if_pos c6]; exact Or.inr (Or.inl ⟨_, _, rfl⟩)
    rw [if_neg c6]
    by_cases c7 : tr.trailer_size ≠ fmt.INDEX_TRAILER_SIZE % U32
    · rw [if_pos c7]; exact Or.inr (Or.inl ⟨_, _, rfl⟩)
    rw [if_neg c7]
    by_cases c8 : tr.index_size = 0 ∨ tr.index_size > MAX_INDEX_SIZE
    · rw [if_pos c8]; exact Or.inr (Or.inl ⟨_, _, rfl⟩)
    rw [if_neg c8]
    by_cases c9 : tr.index_offset < hdr.header_size
    · rw [if_pos c9]; exact Or.inr (Or.inl ⟨_, _, rfl⟩)
    rw [if_neg c9]
    by_cases c10 : tr.index_offset > content.length % U64 - fmt.INDEX_TRAILER_SIZE
    · rw [if_pos c10]; exact Or.inr (Or.inl ⟨_, _, rfl⟩)
    rw [if_neg c10]
    by_cases c11 : (tr.index_offset + tr.index_size) % U64 >
        content.length % U64 - fmt.INDEX_TRAILER_SIZE
    · rw [if_pos c11]; exact Or.inr (Or.inl ⟨_, _, rfl⟩)
    rw [if_neg c11]
    have hmax : tr.index_size ≤ MAX_INDEX_SIZE := by
      by_contra hc
      exact c8 (Or.inr (by omega))
    cases hr3 : read_exact content tr.index_offset tr.index_size with
    | none =>
      refine Or.inl ⟨_, _, rfl, ?_⟩
      intro c hc
      cases hc
      by_contra hlt
      have hsmall : content.length < U64 := by simp only [U64]; omega
      rw [Nat.mod_eq_of_lt hsmall] at c10 c11
      have hm : MAX_INDEX_SIZE = 2 ^ 26 := by decide
      have hno : tr.index_offset + tr.index_size < U64 := by
        simp only [U64]; omega
      rw [Nat.mod_eq_of_lt hno] at c11
      rw [read_exact_of_le content _ _ (by omega)] at hr3
      cases hr3
    | some ib =>
      obtain ⟨hb3, hl3⟩ := read_exact_some _ _ _ _ hr3
      refine Or.inr (Or.inr ⟨content, hdr, tr, ib, rfl, ?_⟩)
      exact
        { size_hdr := by omega
          size_trl := by omega
          hdr_eq := hh.symm
          magic := by simpa using c3
          hsize_lo := by omega
          hsize_hi := by omega
          tr_eq := ht.symm
          tmagic := by simpa using c6
          tsize := by simpa using c7
          isize_pos := fun h => c8 (Or.inl h)
          isize_max := hmax
          ioff_lo := by omega
          ioff_hi := by omega
          iend := by omega
          ibytes := hb3
          ilen := hl3 }

/-- On a file shorter than 2^63 bytes which does not pass the structural checks,
open_for_view returns IntegrityError. -/
theorem open_for_view_struct_fail {af : AllocFaults} (fs : FileSys) (path : String)
    (password : Bytes)
    (content : Bytes) (hfile : fs path = some content) (hlen : content.length < 2 ^ 63)
    (hno : ¬ ∃ hdr tr idx_bytes, StructOk content hdr tr idx_bytes) :
    ∃ m out, open_for_view af fs path password = .ok (integrity_err m, out) := by
  rcases open_for_view_cases fs path password with ⟨m, out, _, h⟩ | h | ⟨c, hdr, tr, ib, hc, hs⟩
  · have := h content hfile
    omega
  · exact h
  · rw [hfile] at hc
    cases hc
    exact (hno ⟨hdr, tr, ib, hs⟩).elim

end vault

/-! ## The key derivation and the tail of open_for_view -/

theorem deriveLoop_ok (salt : Bytes) (p : petoron.HashParams) (hs : salt ≠ [])
    (hp : 256 ≤ p.out_bits) (n : Nat) :
    ∀ (i : Nat) (state : Bytes), state.length = (p.out_bits + 7) % U64 / 8 →
      ∃ state1, kdf.deriveLoop n i state salt p = .ok state1 ∧
        state1.length = (p.out_bits + 7) % U64 / 8 := by
  induction n with
  | zero => intro i state h; exact ⟨state, rfl, h⟩
  | succ n ih =>
    intro i state _
    simp only [kdf.deriveLoop]
    rw [petoron.petoron_hash_strong_ok _ _ _ _ hs hp]
    exact ih _ _ (petoron.phash_core_length _ _ _ _)

/-- With a non-empty salt and at least 16 key bytes (fewer than 2^60) the key derivation
returns two keys of key_bytes bytes each. -/
theorem derive_ok (password salt : Bytes) (key_bytes cost : Nat) (hs : salt ≠ [])
    (hk : 16 ≤ key_bytes) (hk2 : key_bytes < 2 ^ 60) :
    ∃ keys, kdf.derive password salt key_bytes cost = .ok keys ∧
      keys.enc.length = key_bytes ∧ keys.mac.length = key_bytes := by
  unfold kdf.derive
  rw [if_neg (by omega)]
  simp only
  have hw : ((key_bytes * 2) * 8) % U64 = (key_bytes * 2) * 8 :=
    Nat.mod_eq_of_lt (by simp only [U64]; omega)
  have hw2 : (key_bytes * 2) % U64 = key_bytes * 2 :=
    Nat.mod_eq_of_lt (by simp only [U64]; omega)
  rw [hw, hw2]
  have hp : 256 ≤ (key_bytes * 2) * 8 := by omega
  rw [petoron.petoron_hash_strong_ok _ _ _ _ hs hp]
  simp only
  have hlen : ((key_bytes * 2) * 8 + 7) % U64 / 8 = key_bytes * 2 := by
    rw [Nat.mod_eq_of_lt (by simp only [U64]; omega)]
    omega
  obtain ⟨state, h1, h2⟩ := deriveLoop_ok salt { out_bits := (key_bytes * 2) * 8 } hs hp
    ((if cost = 0 then 1 else cost) - 1) 1 _ (petoron.phash_core_length _ _ _ _)
  rw [h1]
  simp only at h2 ⊢
  rw [hlen] at h2
  rw [if_neg (by omega)]
  refine ⟨_, rfl, ?_, ?_⟩
  · simp only [List.length_take]; omega
  · simp only [List.length_take, List.length_drop]; omega

/-- With fewer than 16 key bytes the hash rejects the requested output length and the
key derivation throws. -/
theorem derive_small (password salt : Bytes) (key_bytes cost : Nat) (h1 : 1 ≤ key_bytes)
    (h2 : key_bytes < 16) :
    kdf.derive password salt key_bytes cost = .error "out_bits must be >= 256" := by
  unfold kdf.derive
  rw [if_neg (by omega)]
  simp only
  rw [Nat.mod_eq_of_lt (by simp only [U64]; omega)]
  unfold petoron.petoron_hash_strong petoron.validate_params
  rw [if_pos (by simp only [ge_iff_le, not_le]; omega)]

namespace vault

/-- The tail of open_for_view reads of the header only the salt and the first two words
of the reserved field. -/
theorem open_tail_congr {af : AllocFaults} (password idx_bytes : Bytes) (o1 o2 : VaultOpen)
    (hs : o1.header.salt = o2.header.salt)
    (hb : read_u32_le (o1.header.reserved.drop 0) = read_u32_le (o2.header.reserved.drop 0))
    (hc : read_u32_le (o1.header.reserved.drop 4) = read_u32_le (o2.header.reserved.drop 4))
    (ht : o1.trailer = o2.trailer) (hi : o1.idx = o2.idx) (st : Status) (vo : VaultOpen)
    (h : open_tail af password idx_bytes o1 = .ok (st, vo)) :
    open_tail af password idx_bytes o2 = .ok (st, { vo with header := o2.header }) := by
  unfold open_tail at h ⊢
  simp only at h ⊢
  rw [← hs, ← hb, ← hc, ← ht]
  split at h
  · cases h
  · rename_i keys hk
    split at h
    · cases h
    · rename_i okv hv
      split at h
      · cases h
        rw [if_pos (by assumption)]
        simp only [hi, ht]
      · rw [if_neg (by assumption)]
        cases hd : index.decode_index af idx_bytes with
        | error e =>
          rw [hd] at h
          cases h
        | ok r =>
          rw [hd] at h
          cases h
          rfl

/-- When the MAC of the index bytes differs from the tag of the trailer, the tail of
open_for_view returns the no-oracle error without decoding the index. -/
theorem open_tail_tag_mismatch {af : AllocFaults} (password idx_bytes : Bytes) (out : VaultOpen)
    (keys : kdf.Keys) (t : Bytes)
    (hk : kdf.derive password out.header.salt
        (bits_to_bytes (if read_u32_le (out.header.reserved.drop 0) ≠ 0
          then read_u32_le (out.header.reserved.drop 0) else 512))
        (if read_u32_le (out.header.reserved.drop 4) ≠ 0
          then read_u32_le (out.header.reserved.drop 4) else 1) = .ok keys)
    (hm : mac.compute keys.mac idx_bytes = .ok t) (hne : t ≠ out.trailer.index_tag) :
    open_tail af password idx_bytes out =
      .ok (Status.err ExitCode.IntegrityError "wrong password or corrupted vault",
        { out with keys := keys }) := by
  unfold open_tail
  simp only
  rw [hk]
  simp only
  unfold mac.verify
  rw [hm]
  simp only
  rw [if_pos (by simpa using hne)]

end vault

/-! ## The structural checks after a change of one byte -/

namespace vault

/-- The sizes and offsets of a file that passes the structural checks. -/
theorem structOk_bounds (content : Bytes) (hdr : fmt.GlobalHeader) (tr : fmt.IndexTrailer)
    (ib : Bytes) (h : StructOk content hdr tr ib) (hlen : content.length < 2 ^ 63) :
    100 ≤ hdr.header_size ∧ hdr.header_size ≤ tr.index_offset ∧ 1 ≤ tr.index_size ∧
      tr.index_offset + tr.index_size + 40 ≤ content.length := by
  have hsmall : content.length % U64 = content.length :=
    Nat.mod_eq_of_lt (by simp only [U64]; omega)
  have h1 := h.hsize_lo
  have h2 := h.ioff_lo
  have h3 := h.isize_pos
  have h4 := h.isize_max
  have h5 := h.ioff_hi
  have h6 := h.iend
  have h7 := h.size_hdr
  rw [hsmall] at h5 h6 h7
  have e1 : fmt.GLOBAL_HEADER_SIZE % U32 = 100 := by decide
  have e2 : fmt.INDEX_TRAILER_SIZE = 40 := by decide
  have e3 : MAX_INDEX_SIZE = 2 ^ 26 := by decide
  have e4 : fmt.GLOBAL_HEADER_SIZE = 100 := by decide
  rw [e1] at h1
  rw [e2] at h5 h6
  rw [e3] at h4
  rw [e4] at h7
  have hno : tr.index_offset + tr.index_size < U64 := by simp only [U64]; omega
  rw [Nat.mod_eq_of_lt hno] at h6
  omega

/-- A file that passes the structural checks still passes them after a change of a
header byte outside the magic, the header size, the salt and the key parameters; the
header read differs at most in the version, the nonce and the last 24 reserved bytes. -/
theorem structOk_set_header (content : Bytes) (hdr : fmt.GlobalHeader)
    (tr : fmt.IndexTrailer) (ib : Bytes) (h : StructOk content hdr tr ib)
    (hlen : content.length < 2 ^ 63) (p v : Nat)
    (hp : (4 ≤ p ∧ p < 8) ∨ (44 ≤ p ∧ p < 68) ∨ (76 ≤ p ∧ p < 100)) :
    ∃ hdr2, StructOk (content.set p v) hdr2 tr ib ∧ hdr2.salt = hdr.salt ∧
      read_u32_le (hdr2.reserved.drop 0) = read_u32_le (hdr.reserved.drop 0) ∧
      read_u32_le (hdr2.reserved.drop 4) = read_u32_le (hdr.reserved.drop 4) := by
  obtain ⟨b1, b2, b3, b4⟩ := structOk_bounds content hdr tr ib h hlen
  have hsmall : content.length % U64 = content.length :=
    Nat.mod_eq_of_lt (by simp only [U64]; omega)
  have e2 : fmt.INDEX_TRAILER_SIZE = 40 := by decide
  have hh := h.hdr_eq
  rw [parse_header_window] at hh
  refine ⟨parse_header (((content.set p v).drop 0).take fmt.GLOBAL_HEADER_SIZE), ?_, ?_, ?_, ?_⟩
  · exact
      { size_hdr := by rw [List.length_set]; exact h.size_hdr
        size_trl := by rw [List.length_set]; exact h.size_trl
        hdr_eq := rfl
        magic := by
          rw [parse_header_window]
          simp only
          rw [drop_take_set_out _ _ _ _ _ (by omega)]
          have := h.magic
          rw [hh] at this
          exact this
        hsize_lo := by
          rw [parse_header_window]
          simp only
          rw [drop_take_set_out _ _ _ _ _ (by omega)]
          have := h.hsize_lo
          rw [hh] at this
          exact this
        hsize_hi := by
          rw [parse_header_window, List.length_set]
          simp only
          rw [drop_take_set_out _ _ _ _ _ (by omega)]
          have := h.hsize_hi
          rw [hh] at this
          exact this
        tr_eq := by
          rw [List.length_set, hsmall, e2, drop_take_set_out _ _ _ _ _ (by omega)]
          have := h.tr_eq
          rw [hsmall, e2] at this
          exact this
        tmagic := h.tmagic
        tsize := h.tsize
        isize_pos := h.isize_pos
        isize_max := h.isize_max
        ioff_lo := by
          rw [parse_header_window]
          simp only
          rw [drop_take_set_out _ _ _ _ _ (by omega)]
          have := h.ioff_lo
          rw [hh] at this
          exact this
        ioff_hi := by rw [List.length_set]; exact h.ioff_hi
        iend := by rw [List.length_set]; exact h.iend
        ibytes := by
          rw [drop_take_set_out _ _ _ _ _ (by omega)]
          exact h.ibytes
        ilen := h.ilen }
  · rw [parse_header_window, hh]
    simp only
    rw [drop_take_set_out _ _ _ _ _ (by omega)]
  · rw [parse_header_window, hh]
    simp only
    rw [← read_u32_le_take, ← read_u32_le_take (List.drop 0 (List.take 32 (List.drop 68 content))),
      drop_take_drop_take _ 68 32 0 4 (by decide), drop_take_drop_take _ 68 32 0 4 (by decide),
      drop_take_set_out _ _ _ _ _ (by omega)]
  · rw [parse_header_window, hh]
    simp only
    rw [← read_u32_le_take, ← read_u32_le_take (List.drop 4 (List.take 32 (List.drop 68 content))),
      drop_take_drop_take _ 68 32 4 4 (by decide), drop_take_drop_take _ 68 32 4 4 (by decide),
      drop_take_set_out _ _ _ _ _ (by omega)]

/-- A file that passes the structural checks still passes them after a change of one
of its last 16 bytes, with the tag of the trailer changed at that byte. -/
theorem structOk_set_tag (content : Bytes) (hdr : fmt.GlobalHeader)
    (tr : fmt.IndexTrailer) (ib : Bytes) (h : StructOk content hdr tr ib)
    (hlen : content.length < 2 ^ 63) (i v : Nat) (hi : i < 16) :
    StructOk (content.set (content.length - 16 + i) v) hdr
      { tr with index_tag := tr.index_tag.set i v } ib ∧
    tr.index_tag.length = 16 ∧
    tr.index_tag.getD i 0 = content.getD (content.length - 16 + i) 0 := by
  obtain ⟨b1, b2, b3, b4⟩ := structOk_bounds content hdr tr ib h hlen
  have hsmall : content.length % U64 = content.length :=
    Nat.mod_eq_of_lt (by simp only [U64]; omega)
  have e2 : fmt.INDEX_TRAILER_SIZE = 40 := by decide
  have e4 : fmt.GLOBAL_HEADER_SIZE = 100 := by decide
  have ht := h.tr_eq
  rw [hsmall, parse_trailer_window, e2] at ht
  have htag : tr.index_tag = (content.drop (content.length - 40 + 24)).take 16 := by
    rw [ht]
  refine ⟨?_, ?_, ?_⟩
  · exact
      { size_hdr := by rw [List.length_set]; exact h.size_hdr
        size_trl := by rw [List.length_set]; exact h.size_trl
        hdr_eq := by
          rw [e4, drop_take_set_out _ _ _ _ _ (by omega), ← e4]
          exact h.hdr_eq
        magic := h.magic
        hsize_lo := h.hsize_lo
        hsize_hi := by rw [List.length_set]; exact h.hsize_hi
        tr_eq := by
          rw [List.length_set, hsmall, parse_trailer_window, e2]
          rw [drop_take_set_out _ _ _ _ 4 (by omega), drop_take_set_out _ _ _ _ 4 (by omega),
            drop_take_set_out _ _ _ _ 8 (by omega), drop_take_set_out _ _ _ _ 8 (by omega),
            drop_take_set_in _ _ _ _ _ (by omega)]
          rw [htag, ht]
          simp only
          rw [show content.length - 16 + i - (content.length - 40 + 24) = i by omega]
        tmagic := h.tmagic
        tsize := h.tsize
        isize_pos := h.isize_pos
        isize_max := h.isize_max
        ioff_lo := h.ioff_lo
        ioff_hi := by rw [List.length_set]; exact h.ioff_hi
        iend := by rw [List.length_set]; exact h.iend
        ibytes := by
          simp only
          rw [drop_take_set_out _ _ _ _ _ (by omega)]
          exact h.ibytes
        ilen := h.ilen }
  · rw [htag, List.length_take, List.length_drop]
    omega
  · rw [htag]
    simp only [List.getD_eq_getElem?_getD, List.getElem?_take, List.getElem?_drop, if_pos hi]
    rw [show content.length - 40 + 24 + i = content.length - 16 + i by omega]

end vault

/-! ## Flipped bits in a vault file -/

theorem mac_verify_true_inv (key data tag : Bytes) (h : mac.verify key data tag = .ok true) :
    mac.compute key data = .ok tag := by
  unfold mac.verify at h
  split at h
  · cases h
  · rename_i t ht
    simp only [Except.ok.injEq, decide_eq_true_eq] at h
    rw [ht, h]

namespace vault

/-- What a successful open_for_view read: the file passes the structural checks with the
header and trailer returned, the keys returned are the derived ones, and the tag of the
trailer is the MAC of the index bytes, which decode to the index returned. -/
theorem open_ok_struct {af : AllocFaults} (fs : FileSys) (path : String) (password content : Bytes)
    (vo : VaultOpen) (hfile : fs path = some content)
    (hopen : open_for_view af fs path password = .ok (Status.ok, vo)) :
    ∃ ib, StructOk content vo.header vo.trailer ib ∧
      kdf.derive password vo.header.salt
        (bits_to_bytes (if read_u32_le (vo.header.reserved.drop 0) ≠ 0
          then read_u32_le (vo.header.reserved.drop 0) else 512))
        (if read_u32_le (vo.header.reserved.drop 4) ≠ 0
          then read_u32_le (vo.header.reserved.drop 4) else 1) = .ok vo.keys ∧
      mac.compute vo.keys.mac ib = .ok vo.trailer.index_tag ∧
      index.decode_reserved ib = (Status.ok, vo.idx) ∧
      open_tail af password ib { VaultOpen.init with header := vo.header, trailer := vo.trailer } =
        .ok (Status.ok, vo) := by
  obtain ⟨c, hdr, tr, ib, hc, hs, ht⟩ := open_for_view_ok_inv fs path password _ _ hopen rfl
  rw [hfile] at hc
  cases hc
  obtain ⟨h1, h2, h3, h4, h5⟩ := open_tail_ok_inv password ib _ _ _ ht rfl
  simp only at h1 h2 h3 h4
  subst h1
  subst h2
  exact ⟨ib, hs, h3, mac_verify_true_inv _ _ _ h4, h5, ht⟩

end vault

namespace vault

/-- A file of at least 100 bytes whose first four bytes are not the magic is rejected
with the message "bad magic". -/
theorem open_for_view_bad_magic {af : AllocFaults} (fs : FileSys) (path : String)
    (password content : Bytes)
    (hfile : fs path = some content) (h1 : 100 ≤ content.length)
    (h2 : content.length < 2 ^ 63) (hm : (content.drop 0).take 4 ≠ fmt.VAULT_MAGIC) :
    open_for_view af fs path password =
      .ok (integrity_err "bad magic",
        { VaultOpen.init with
          header := parse_header ((content.drop 0).take fmt.GLOBAL_HEADER_SIZE) }) := by
  have hsmall : content.length % U64 = content.length :=
    Nat.mod_eq_of_lt (by simp only [U64]; omega)
  have e2 : fmt.INDEX_TRAILER_SIZE = 40 := by decide
  have e4 : fmt.GLOBAL_HEADER_SIZE = 100 := by decide
  unfold open_for_view
  simp only [hfile]
  rw [hsmall, if_neg (by omega), if_neg (by omega), read_exact_of_le _ _ _ (by omega)]
  simp only
  rw [if_pos]
  rw [parse_header_window]
  exact hm

/-- The first four bytes of a file with a bit flipped in one of them. -/
theorem flipped_magic_ne (content : Bytes) (p j : Nat) (hp : p < 4) (hl : 4 ≤ content.length) :
    ((selftest.flip_bit_at content p j).drop 0).take 4 ≠ (content.drop 0).take 4 := by
  have h1 : ((selftest.flip_bit_at content p j).drop 0).take 4 =
      selftest.flip_bit_at ((content.drop 0).take 4) p j := by
    unfold selftest.flip_bit_at
    rw [drop_take_set_in _ _ _ _ _ (Nat.zero_le _)]
    simp only [List.drop_zero, Nat.sub_zero]
    rw [getD_take _ _ _ _ hp]
  rw [h1]
  exact flip_bit_at_ne _ _ _ (by simp only [List.drop_zero, List.length_take]; omega)

/-- A result of the tail of open_for_view on some host is its result on the host that
grants every reservation. -/
theorem open_tail_noAlloc {af : AllocFaults} (password idx_bytes : Bytes) (out : VaultOpen)
    (r : Status × VaultOpen) (h : open_tail af password idx_bytes out = .ok r) :
    open_tail noAllocFaults password idx_bytes out = .ok r := by
  unfold open_tail at h ⊢
  simp only at h ⊢
  generalize kdf.derive password out.header.salt _ _ = d at h ⊢
  cases d with
  | error e => exact h
  | ok keys =>
    simp only at h ⊢
    generalize mac.verify keys.mac idx_bytes out.trailer.index_tag = v at h ⊢
    cases v with
    | error e => exact h
    | ok okv =>
      cases okv with
      | false => exact h
      | true =>
        simp only [Bool.not_true, Bool.false_eq_true, if_false, not_true_eq_false] at h ⊢
        rw [index.decode_index_noAlloc]
        cases hd : index.decode_index af idx_bytes with
        | error e =>
          rw [hd] at h
          cases h
        | ok q =>
          rw [hd] at h
          rw [index.decode_index_ok af _ _ hd]
          exact h

/-- A successful open_for_view on some host succeeds with the same result on the host
that grants every reservation. -/
theorem open_ok_noAlloc {af : AllocFaults} (fs : FileSys) (path : String) (password : Bytes)
    (st : Status) (vo : VaultOpen)
    (hopen : open_for_view af fs path password = .ok (st, vo)) (hok : st.is_ok = true) :
    open_for_view noAllocFaults fs path password = .ok (st, vo) := by
  obtain ⟨content, hdr, tr, ib, hfile, hs, htail⟩ :=
    open_for_view_ok_inv fs path password st vo hopen hok
  rw [open_for_view_of_structOk fs path password content hdr tr ib hfile hs]
  exact open_tail_noAlloc password ib _ _ htail

end vault

/-! ## C11 -/

/-- C11 (offset checks of the reader), amended: whenever open_for_view returns Ok on a
file shorter than 2^63 bytes, the index region lies between the header and the trailer,
the tag of the trailer is the MAC of the index bytes and the index returned is their
decoding; the offsets of the entries are checked only by sanity_check_index of the
self-test, against the file size: when it returns true every entry has a non-empty path
of at most 4096 bytes, data_size ≤ 256 MiB, data_offset ≤ fsz and
data_offset + data_size ≤ fsz. -/
theorem C11_reader_checks_index_region (af : AllocFaults) (fs : FileSys) (path : String)
    (pw content : Bytes) (vo : vault.VaultOpen) (hfile : fs path = some content)
    (hlen : content.length < 2 ^ 63)
    (hopen : vault.open_for_view af fs path pw = .ok (Status.ok, vo)) :
    vo.header.header_size ≤ vo.trailer.index_offset ∧
    vo.trailer.index_offset + vo.trailer.index_size + 40 ≤ content.length ∧
    mac.compute vo.keys.mac
      ((content.drop vo.trailer.index_offset).take vo.trailer.index_size) =
        .ok vo.trailer.index_tag ∧
    index.decode_index af ((content.drop vo.trailer.index_offset).take vo.trailer.index_size) =
      .ok (Status.ok, vo.idx) ∧
    (selftest.sanity_check_index vo.idx content.length = true →
      ∀ e ∈ vo.idx.entries, e.path ≠ [] ∧ e.path.length ≤ 4096 ∧
        e.data_size ≤ 256 * 1024 * 1024 ∧ e.data_offset ≤ content.length ∧
        e.data_offset + e.data_size ≤ content.length) := by
  obtain ⟨ib, hs, _, hm, _, ht⟩ := vault.open_ok_struct fs path pw content vo hfile hopen
  have hd := vault.open_tail_ok_decode pw ib _ _ _ ht rfl
  obtain ⟨_, b2, _, b4⟩ := vault.structOk_bounds content vo.header vo.trailer ib hs hlen
  rw [← hs.ibytes]
  refine ⟨b2, b4, hm, hd, ?_⟩
  intro hsan e he
  unfold selftest.sanity_check_index at hsan
  split at hsan
  · cases hsan
  · have h1 := List.all_eq_true.mp hsan e he
    unfold selftest.sanity_check_entry at h1
    simp only [selftest.MAX_OBJ] at h1
    split at h1
    · cases h1
    · split at h1
      · cases h1
      · split at h1
        · cases h1
        · split at h1
          · cases h1
          · split at h1
            · cases h1
            · rename_i n1 n2 n3 n4 n5
              have hno : e.data_offset + e.data_size < U64 := by
                simp only [U64]
                omega
              rw [Nat.mod_eq_of_lt hno] at n5
              exact ⟨n1, by omega, by omega, by omega, by omega⟩

set_option maxRecDepth 1000000 in
theorem C11_reader_checks_index_region_witness :
    demoFs "v.1654" = some demoVault ∧ demoVault.length < 2 ^ 63 ∧
    vault.open_for_view noAllocFaults demoFs "v.1654" demoPw = .ok (Status.ok, demoOpen) ∧
    selftest.sanity_check_index demoOpen.idx demoVault.length = true ∧
    demoOpen.header.header_size ≤ demoOpen.trailer.index_offset ∧
    ∀ e ∈ demoOpen.idx.entries, e.path ≠ [] ∧ e.path.length ≤ 4096 ∧
      e.data_size ≤ 256 * 1024 * 1024 ∧ e.data_offset ≤ demoVault.length ∧
      e.data_offset + e.data_size ≤ demoVault.length :=
  ⟨demoFs_vault, demoVault_small, demo_open_eq, by decide!,
    (C11_reader_checks_index_region noAllocFaults demoFs "v.1654" demoPw demoVault demoOpen
      demoFs_vault
      demoVault_small demo_open_eq).1,
    (C11_reader_checks_index_region noAllocFaults demoFs "v.1654" demoPw demoVault demoOpen
      demoFs_vault
      demoVault_small demo_open_eq).2.2.2.2 (by decide!)⟩

set_option maxRecDepth 1000000 in
/-- C11, counterexample: the concrete vault whose authenticated index gives its file
entry the data offset 4096, beyond the end of the 304-byte file, opens with Ok, and the
index returned holds that entry. -/
theorem C11_out_of_range_entry_opens :
    vault.open_for_view noAllocFaults (vaultFs rangeVault) "v.1654" demoPw =
      .ok (Status.ok, rangeOpen) ∧
    rangeVault.length = 304 ∧
    ∃ e ∈ rangeOpen.idx.entries, e.type = fmt.ObjType.File ∧
      rangeOpen.header.header_size ≤ e.data_offset ∧
      ¬ (e.data_offset + e.data_size ≤ rangeOpen.trailer.index_offset) ∧
      rangeVault.length < e.data_offset := by
  decide!

/-! ## C12 -/

/-- C12 (no-oracle index authentication): for every file that passes the structural
header and trailer checks, if the MAC of the index bytes under the derived MAC key
differs from the tag of the trailer, open_for_view returns IntegrityError with the
message "wrong password or corrupted vault" and leaves the index of its result empty,
whatever the index bytes are; in particular, flipping any bit of the 16-byte trailer tag
of a vault that opened successfully makes open_for_view return that error. -/
theorem C12_no_oracle_index_authentication (af : AllocFaults) (fs : FileSys) (path : String)
    (pw content : Bytes) (hfile : fs path = some content) :
    (∀ hdr tr ib keys t, vault.StructOk content hdr tr ib →
      kdf.derive pw hdr.salt
        (bits_to_bytes (if read_u32_le (hdr.reserved.drop 0) ≠ 0
          then read_u32_le (hdr.reserved.drop 0) else 512))
        (if read_u32_le (hdr.reserved.drop 4) ≠ 0
          then read_u32_le (hdr.reserved.drop 4) else 1) = .ok keys →
      mac.compute keys.mac ib = .ok t → t ≠ tr.index_tag →
      vault.open_for_view af fs path pw =
        .ok (Status.err ExitCode.IntegrityError "wrong password or corrupted vault",
          { vault.VaultOpen.init with header := hdr, trailer := tr, keys := keys })) ∧
    (∀ vo, vault.open_for_view af fs path pw = .ok (Status.ok, vo) → content.length < 2 ^ 63 →
      ∀ i j, i < 16 → j < 8 →
        vault.open_for_view af
            (fs.set path (some (selftest.flip_bit_at content (content.length - 16 + i) j)))
            path pw =
          .ok (Status.err ExitCode.IntegrityError "wrong password or corrupted vault",
            { vault.VaultOpen.init with
              header := vo.header,
              trailer :=
                { vo.trailer with index_tag := selftest.flip_bit_at vo.trailer.index_tag i j },
              keys := vo.keys })) := by
  constructor
  · intro hdr tr ib keys t hs hk hm hne
    rw [vault.open_for_view_of_structOk fs path pw content hdr tr ib hfile hs]
    exact vault.open_tail_tag_mismatch pw ib _ keys t hk hm hne
  · intro vo hopen hlen i j hi _
    obtain ⟨ib, hs, hk, hm, _, _⟩ := vault.open_ok_struct fs path pw content vo hfile hopen
    obtain ⟨hs2, htl, hget⟩ := vault.structOk_set_tag content vo.header vo.trailer ib hs hlen i
      (content.getD (content.length - 16 + i) 0 ^^^ (1 <<< j)) hi
    have hflip : selftest.flip_bit_at vo.trailer.index_tag i j =
        vo.trailer.index_tag.set i (content.getD (content.length - 16 + i) 0 ^^^ (1 <<< j)) := by
      unfold selftest.flip_bit_at
      rw [hget]
    rw [hflip]
    have hc : selftest.flip_bit_at content (content.length - 16 + i) j =
        content.set (content.length - 16 + i)
          (content.getD (content.length - 16 + i) 0 ^^^ (1 <<< j)) := rfl
    rw [hc]
    rw [vault.open_for_view_of_structOk _ path pw _ vo.header _ ib (fileSys_set_same _ _ _) hs2]
    refine vault.open_tail_tag_mismatch pw ib _ vo.keys vo.trailer.index_tag hk hm ?_
    simp only
    rw [← hflip]
    exact fun h => flip_bit_at_ne vo.trailer.index_tag i j (by omega) h.symm

theorem C12_no_oracle_index_authentication_witness :
    demoFs "v.1654" = some demoVault ∧ demoVault.length < 2 ^ 63 ∧
    vault.open_for_view noAllocFaults demoFs "v.1654" demoPw = .ok (Status.ok, demoOpen) ∧
    vault.open_for_view noAllocFaults
        (demoFs.set "v.1654" (some (selftest.flip_bit_at demoVault (demoVault.length - 16 + 15) 0)))
        "v.1654" demoPw =
      .ok (Status.err ExitCode.IntegrityError "wrong password or corrupted vault",
        { vault.VaultOpen.init with
          header := demoOpen.header,
          trailer :=
            { demoOpen.trailer with index_tag := selftest.flip_bit_at demoOpen.trailer.index_tag 15 0 },
          keys := demoOpen.keys }) :=
  ⟨demoFs_vault, demoVault_small, demo_open_eq,
    (C12_no_oracle_index_authentication noAllocFaults demoFs "v.1654" demoPw demoVault
      demoFs_vault).2
      demoOpen demo_open_eq demoVault_small 15 0 (by decide) (by decide)⟩

/-! ## C13 -/

/-- C13 (header tamper detection), amended: for every vault file shorter than 2^63
bytes on which open_for_view succeeds with password pw, flipping a bit of one of the four
magic bytes makes open_for_view with pw return IntegrityError "bad magic", while flipping
a bit of a byte of the version (offsets 4 to 7), of the header nonce (offsets 44 to 67)
or of the last 24 reserved bytes (offsets 76 to 99) is not detected: open_for_view with
pw still returns Ok, with the same trailer, index and keys. -/
theorem C13_header_flip (af : AllocFaults) (fs : FileSys) (path : String) (pw content : Bytes)
    (vo : vault.VaultOpen) (hfile : fs path = some content) (hlen : content.length < 2 ^ 63)
    (hopen : vault.open_for_view af fs path pw = .ok (Status.ok, vo)) (p j : Nat) :
    (p < 4 →
      ∃ out, vault.open_for_view af (fs.set path (some (selftest.flip_bit_at content p j))) path pw
        = .ok (vault.integrity_err "bad magic", out)) ∧
    ((4 ≤ p ∧ p < 8) ∨ (44 ≤ p ∧ p < 68) ∨ (76 ≤ p ∧ p < 100) →
      ∃ hdr, vault.open_for_view af (fs.set path (some (selftest.flip_bit_at content p j))) path pw
        = .ok (Status.ok, { vo with header := hdr })) := by
  obtain ⟨ib, hs, _, _, _, htail⟩ := vault.open_ok_struct fs path pw content vo hfile hopen
  obtain ⟨b1, b2, b3, b4⟩ := vault.structOk_bounds content vo.header vo.trailer ib hs hlen
  constructor
  · intro hp
    refine ⟨_, vault.open_for_view_bad_magic _ path pw _ (fileSys_set_same _ _ _) ?_ ?_ ?_⟩
    · unfold selftest.flip_bit_at
      rw [List.length_set]
      omega
    · unfold selftest.flip_bit_at
      rw [List.length_set]
      exact hlen
    · have hm := hs.magic
      rw [hs.hdr_eq, vault.parse_header_window] at hm
      simp only at hm
      rw [← hm]
      exact vault.flipped_magic_ne content p j hp (by omega)
  · intro hp
    obtain ⟨hdr2, hs2, e1, e2, e3⟩ := vault.structOk_set_header content vo.header vo.trailer ib hs
      hlen p (content.getD p 0 ^^^ (1 <<< j)) hp
    refine ⟨hdr2, ?_⟩
    have hc : selftest.flip_bit_at content p j =
        content.set p (content.getD p 0 ^^^ (1 <<< j)) := rfl
    rw [hc, vault.open_for_view_of_structOk _ path pw _ hdr2 vo.trailer ib (fileSys_set_same _ _ _) hs2]
    exact vault.open_tail_congr pw ib
      { vault.VaultOpen.init with header := vo.header, trailer := vo.trailer }
      { vault.VaultOpen.init with header := hdr2, trailer := vo.trailer }
      e1.symm e2.symm e3.symm rfl rfl _ _ htail

theorem C13_header_flip_witness :
    demoFs "v.1654" = some demoVault ∧ demoVault.length < 2 ^ 63 ∧
    vault.open_for_view noAllocFaults demoFs "v.1654" demoPw = .ok (Status.ok, demoOpen) ∧
    ∃ out, vault.open_for_view noAllocFaults
      (demoFs.set "v.1654" (some (selftest.flip_bit_at demoVault 1 0)))
      "v.1654" demoPw = .ok (vault.integrity_err "bad magic", out) :=
  ⟨demoFs_vault, demoVault_small, demo_open_eq,
    (C13_header_flip noAllocFaults demoFs "v.1654" demoPw demoVault demoOpen demoFs_vault
      demoVault_small
      demo_open_eq 1 0).1 (by decide)⟩

set_option maxRecDepth 1000000 in
/-- C13, counterexample: the concrete vault opens, and with the lowest bit of its byte at
offset 4 (the version) flipped, as flip_byte_at does, it still opens with Ok. -/
theorem C13_version_flip_opens :
    vault.open_for_view noAllocFaults demoFs "v.1654" demoPw = .ok (Status.ok, demoOpen) ∧
    4 < fmt.GLOBAL_HEADER_SIZE ∧
    selftest.flip_byte_at demoVault 4 = some (selftest.flip_bit_at demoVault 4 0) ∧
    (selftest.flip_byte_at demoVault 4).map
        (fun v => vault.open_for_view noAllocFaults (vaultFs v) "v.1654" demoPw) =
      some (.ok (Status.ok, { demoOpen with header := { demoHeader with version := 0 } })) := by
  decide!

/-! ## Truncated vault files -/

theorem truncate_file_take (content : Bytes) (m : Nat) (h : m ≤ content.length) :
    selftest.truncate_file content m = content.take m := by
  unfold selftest.truncate_file
  rw [show m - content.length = 0 by omega]
  simp

theorem truncate_file_length (content : Bytes) (m : Nat) :
    (selftest.truncate_file content m).length = m := by
  unfold selftest.truncate_file
  rw [List.length_append, List.length_take, List.length_replicate]
  omega

namespace vault

/-- A file cut to at least 100 bytes that passes the structural checks has the header
size of the uncut file and the trailer magic 40 bytes before its end. -/
theorem structOk_cut (content : Bytes) (m : Nat) (hm : m ≤ content.length)
    (hlen : content.length < 2 ^ 63) (hdr : fmt.GlobalHeader) (tr : fmt.IndexTrailer)
    (ib : Bytes) (h : StructOk (content.take m) hdr tr ib) :
    endian.load_u32_le ((content.drop 8).take 4) ≤ m ∧
      ((content.take m).drop (m - 40)).take 4 = fmt.INDEX_MAGIC := by
  have hl : (content.take m).length = m := by rw [List.length_take]; omega
  have hsmall : (content.take m).length % U64 = m := by
    rw [hl]
    exact Nat.mod_eq_of_lt (by simp only [U64]; omega)
  have h100 : 100 ≤ m := by
    have := h.size_hdr
    rw [hsmall] at this
    exact this
  have hh := h.hdr_eq
  rw [parse_header_window] at hh
  have ht := h.tr_eq
  rw [hsmall, parse_trailer_window] at ht
  constructor
  · have := h.hsize_hi
    rw [hsmall, hh] at this
    simp only at this
    rw [drop_take_take _ _ _ _ (by omega)] at this
    exact this
  · have := h.tmagic
    rw [ht] at this
    exact this

end vault

/-! ## C14 -/

/-- C14 (truncation detection), amended: for every vault file shorter than 2^63 bytes
on which open_for_view succeeds with password pw and every k ≥ 1, open_for_view with pw
on the file with its last k bytes removed returns IntegrityError whenever k ≤ 3, or the
file left is shorter than header_size, or the four bytes 40 bytes before its end are
not the trailer magic "IDX1". -/
theorem C14_truncation_detected (af : AllocFaults) (fs : FileSys) (path : String)
    (pw content : Bytes)
    (vo : vault.VaultOpen) (hfile : fs path = some content) (hlen : content.length < 2 ^ 63)
    (hopen : vault.open_for_view af fs path pw = .ok (Status.ok, vo)) (k : Nat) (hk : 1 ≤ k)
    (hcut : k ≤ 3 ∨ content.length - k < vo.header.header_size ∨
      ((selftest.truncate_file content (content.length - k)).drop
        (content.length - k - 40)).take 4 ≠ fmt.INDEX_MAGIC) :
    ∃ m out,
      vault.open_for_view af
          (fs.set path (some (selftest.truncate_file content (content.length - k)))) path pw =
        .ok (vault.integrity_err m, out) := by
  obtain ⟨ib, hs, _, _, _, _⟩ := vault.open_ok_struct fs path pw content vo hfile hopen
  obtain ⟨b1, b2, b3, b4⟩ := vault.structOk_bounds content vo.header vo.trailer ib hs hlen
  have hle : content.length - k ≤ content.length := Nat.sub_le _ _
  have hsmall : content.length % U64 = content.length :=
    Nat.mod_eq_of_lt (by simp only [U64]; omega)
  have hhs : vo.header.header_size = endian.load_u32_le ((content.drop 8).take 4) := by
    rw [hs.hdr_eq, vault.parse_header_window]
  have hmag : (content.drop (content.length - 40)).take 4 = fmt.INDEX_MAGIC := by
    have := hs.tmagic
    rw [hs.tr_eq, hsmall, vault.parse_trailer_window] at this
    exact this
  apply vault.open_for_view_struct_fail _ path pw _ (fileSys_set_same _ _ _)
  · rw [truncate_file_length]
    omega
  · rintro ⟨hdr2, tr2, ib2, hs2⟩
    rw [truncate_file_take _ _ hle] at hs2
    obtain ⟨c1, c2⟩ := vault.structOk_cut content _ hle hlen hdr2 tr2 ib2 hs2
    have h100 : 100 ≤ content.length - k := by
      rw [hhs] at b1
      exact Nat.le_trans b1 c1
    rw [truncate_file_take _ _ hle] at hcut
    rcases hcut with h3 | hshort | hbad
    · rw [drop_take_take _ _ _ _ (by omega)] at c2
      have e0 := congrArg (fun l => l[0]?) hmag
      simp only [List.getElem?_take, List.getElem?_drop] at e0
      rw [show content.length - 40 + 0 = content.length - 40 by omega,
        if_pos (by decide)] at e0
      have hk3 : k = 1 ∨ k = 2 ∨ k = 3 := by omega
      rcases hk3 with rfl | rfl | rfl
      · have ek := congrArg (fun l => l[1]?) c2
        simp only [List.getElem?_take, List.getElem?_drop] at ek
        rw [show content.length - 1 - 40 + 1 = content.length - 40 by omega,
          if_pos (by decide), e0] at ek
        revert ek
        decide
      · have ek := congrArg (fun l => l[2]?) c2
        simp only [List.getElem?_take, List.getElem?_drop] at ek
        rw [show content.length - 2 - 40 + 2 = content.length - 40 by omega,
          if_pos (by decide), e0] at ek
        revert ek
        decide
      · have ek := congrArg (fun l => l[3]?) c2
        simp only [List.getElem?_take, List.getElem?_drop] at ek
        rw [show content.length - 3 - 40 + 3 = content.length - 40 by omega,
          if_pos (by decide), e0] at ek
        revert ek
        decide
    · rw [hhs] at hshort
      omega
    · exact hbad c2

set_option maxRecDepth 1000000 in
theorem C14_truncation_detected_witness :
    demoFs "v.1654" = some demoVault ∧ demoVault.length < 2 ^ 63 ∧
    vault.open_for_view noAllocFaults demoFs "v.1654" demoPw = .ok (Status.ok, demoOpen) ∧
    1 ≤ 17 ∧
    ∃ m out,
      vault.open_for_view noAllocFaults
          (demoFs.set "v.1654" (some (selftest.truncate_file demoVault (demoVault.length - 17))))
          "v.1654" demoPw = .ok (vault.integrity_err m, out) :=
  ⟨demoFs_vault, demoVault_small, demo_open_eq, by decide,
    C14_truncation_detected noAllocFaults demoFs "v.1654" demoPw demoVault demoOpen demoFs_vault
      demoVault_small demo_open_eq 17 (by decide) (Or.inr (Or.inr (by decide!)))⟩

set_option maxRecDepth 1000000 in
/-- C14, counterexample: the 506-byte file made of the concrete vault, a second copy of
its index and a trailer for that copy opens with Ok, and with its last 202 bytes removed
it is the concrete vault, which opens with Ok as well. -/
theorem C14_truncated_vault_opens :
    vault.open_for_view noAllocFaults (vaultFs nestedVault) "v.1654" demoPw =
      .ok (Status.ok, { demoOpen with trailer := nestedTrailer }) ∧
    nestedVault.length = 506 ∧
    selftest.truncate_file nestedVault (nestedVault.length - 202) = demoVault ∧
    vault.open_for_view noAllocFaults
        (vaultFs (selftest.truncate_file nestedVault (nestedVault.length - 202))) "v.1654"
        demoPw = .ok (Status.ok, demoOpen) := by
  decide!

/-! ## The key parameters read from the header -/

namespace vault

end vault

/-! ## C15 -/

set_option maxRecDepth 1000000 in
/-- C15, second failing input: the 154-byte vault whose authenticated index announces
2^32 - 1 entries and holds none. On a host that refuses the storage of 2^31 entries
std::bad_alloc escapes from open_for_view; on a host that grants it the status is the
integrity error of a truncated index. -/
theorem open_unbacked_count :
    unbackedVault.length = 154 ∧
    vault.open_for_view smallHost (vaultFs unbackedVault) "v.1654" demoPw =
      .error "std::bad_alloc" ∧
    vault.open_for_view noAllocFaults (vaultFs unbackedVault) "v.1654" demoPw =
      .ok (index.truncated "path",
        { demoOpen with trailer := unbackedTrailer, idx := ⟨[]⟩ }) := by
  decide!

/-! ## C16 -/

/-- C17 (MAC compute and verify): for every non-empty key and every data, compute
returns a tag of exactly 16 bytes, the first 16 bytes of the strong hash of data with
salt key, context "1654|MAC" and 256 output bits; verify accepts that tag and returns
false for every other byte string, in particular for the tag with any single bit
flipped. -/
theorem C17_mac_compute_verify (key data : Bytes) (hk : key ≠ []) :
    ∃ full tag,
      petoron.petoron_hash_strong data key (ascii "1654|MAC") { out_bits := 256 } = .ok full ∧
      mac.compute key data = .ok tag ∧ tag = full.take 16 ∧ tag.length = 16 ∧
      mac.verify key data tag = .ok true ∧
      (∀ t, t ≠ tag → mac.verify key data t = .ok false) ∧
      (∀ i j, i < 16 → j < 8 →
        mac.verify key data (selftest.flip_bit_at tag i j) = .ok false) := by
  have hfull := petoron.petoron_hash_strong_ok data key (ascii "1654|MAC") { out_bits := 256 } hk
    (by simp)
  obtain ⟨tag, htag⟩ := mac_compute_ok key data hk
  have hlen := mac_compute_length key data tag htag
  have hne : ∀ t, t ≠ tag → mac.verify key data t = .ok false := by
    intro t ht
    unfold mac.verify
    rw [htag]
    simp only
    rw [decide_eq_false (fun h => ht h.symm)]
  refine ⟨_, tag, hfull, htag, ?_, hlen, mac_verify_of_compute key data tag htag, hne, ?_⟩
  · have h2 := htag
    unfold mac.compute at h2
    simp only at h2
    rw [show max 256 (TAG_SIZE * 8) = 256 by decide, hfull] at h2
    simp only at h2
    split at h2
    · cases h2
    · cases h2
      rfl
  · intro i j hi _
    exact hne _ (flip_bit_at_ne tag i j (by omega))

theorem C17_mac_compute_verify_witness :
    ([1, 2] : Bytes) ≠ [] ∧
    ∃ full tag,
      petoron.petoron_hash_strong [3] [1, 2] (ascii "1654|MAC") { out_bits := 256 } = .ok full ∧
      mac.compute [1, 2] [3] = .ok tag ∧ tag = full.take 16 ∧ tag.length = 16 ∧
      mac.verify [1, 2] [3] tag = .ok true ∧
      (∀ t, t ≠ tag → mac.verify [1, 2] [3] t = .ok false) ∧
      (∀ i j, i < 16 → j < 8 →
        mac.verify [1, 2] [3] (selftest.flip_bit_at tag i j) = .ok false) :=
  ⟨by decide, C17_mac_compute_verify [1, 2] [3] (by decide)⟩

/-! ## Squeezing more bytes never changes earlier ones -/

namespace petoron

/-- The bytes the squeeze loop produces are appended to those produced so far. -/
theorem squeezeLoop_acc (fuel : Nat) (x : PhashXof) (want : Nat) (acc : Bytes) :
    (squeezeLoop fuel x want acc).2 = acc ++ (squeezeLoop fuel x want []).2 := by
  induction fuel generalizing x want acc with
  | zero => simp [squeezeLoop]
  | succ n ih =>
    simp only [squeezeLoop]
    by_cases hw : 0 < want
    · rw [if_pos hw, if_pos hw]
      by_cases hr : 0 < want - min x.r_ want
      · rw [if_pos hr, if_pos hr, ih _ _ (acc ++ _), ih _ _ ([] ++ _)]
        simp
      · rw [if_neg hr, if_neg hr]
        simp
    · rw [if_neg hw, if_neg hw]
      simp

/-- Squeezing n bytes gives the first n of the bytes squeezing m ≥ n gives. -/
theorem squeezeLoop_take (fuel1 : Nat) :
    ∀ (fuel2 : Nat) (x : PhashXof) (want1 want2 : Nat), x.Shaped → want1 ≤ want2 →
      want1 ≤ fuel1 → want2 ≤ fuel2 →
      (squeezeLoop fuel1 x want1 []).2 = ((squeezeLoop fuel2 x want2 []).2).take want1 := by
  induction fuel1 with
  | zero =>
    intro fuel2 x want1 want2 _ _ h1 _
    have : want1 = 0 := by omega
    simp [squeezeLoop, this]
  | succ n ih =>
    intro fuel2 x want1 want2 hx h12 h1 h2
    by_cases hw : 0 < want1
    · obtain ⟨m, rfl⟩ : ∃ m, fuel2 = m + 1 := ⟨fuel2 - 1, by omega⟩
      have hb := extract_block_length x hx
      obtain ⟨a, r, qd, q⟩ := x
      obtain ⟨ha, hr⟩ := hx
      simp only at ha hr
      subst hr
      have hsh : PhashXof.Shaped { a_ := permute a, r_ := 136, queued_ := qd, q_ := q } :=
        ⟨permute_length _ ha, rfl⟩
      simp only [squeezeLoop]
      generalize PhashXof.extract_block { a_ := a, r_ := 136, queued_ := qd, q_ := q } = B
        at hb ⊢
      rw [if_pos hw, if_pos (by omega : 0 < want2)]
      simp only [List.nil_append]
      have hl : (B.take 136).length = 136 := by
        rw [List.length_take, hb]; rfl
      by_cases hr1 : 0 < want1 - min 136 want1
      · have hr2 : 0 < want2 - min 136 want2 := by omega
        rw [if_pos hr1, if_pos hr2, squeezeLoop_acc n, squeezeLoop_acc m]
        have e1 : min 136 want1 = 136 := by omega
        have e2 : min 136 want2 = 136 := by omega
        rw [e1, e2]
        rw [List.take_append_eq_append_take, hl,
          List.take_of_length_le (show (B.take 136).length ≤ want1 by omega)]
        rw [ih m _ (want1 - 136) (want2 - 136) hsh (by omega) (by omega) (by omega)]
      · rw [if_neg hr1]
        simp only
        have e1 : min 136 want1 = want1 := by omega
        rw [e1]
        by_cases hr2 : 0 < want2 - min 136 want2
        · rw [if_pos hr2, squeezeLoop_acc m]
          have e2 : min 136 want2 = 136 := by omega
          rw [e2]
          rw [List.take_append_of_le_length (by omega), List.take_take]
          rw [show min want1 136 = want1 by omega]
        · rw [if_neg hr2]
          simp only
          rw [List.take_take]
          rw [show min want1 (min 136 want2) = want1 by omega]
    · have : want1 = 0 := by omega
      subst this
      simp [squeezeLoop]

theorem squeeze_take (x : PhashXof) (n m : Nat) (h : x.Shaped) (hnm : n ≤ m) :
    (x.squeeze n).2 = ((x.squeeze m).2).take n :=
  squeezeLoop_take n m x n m h hnm (Nat.le_refl n) (Nat.le_refl m)

/-- The sponge object phash_core squeezes from. -/
theorem phash_core_take (context msg salt : Bytes) (a b : Nat) (hab : a ≤ b)
    (hb : b + 7 < U64) :
    phash_core context msg salt a = (phash_core context msg salt b).take ((a + 7) / 8) := by
  unfold phash_core
  simp only
  rw [Nat.mod_eq_of_lt (by omega : a + 7 < U64), Nat.mod_eq_of_lt hb]
  apply squeeze_take _ _ _ _ (Nat.div_le_div_right (by omega))
  apply absorb_domain_pad_shaped
  apply absorb_shaped
  split
  · exact absorb_tagged_shaped _ _ _
      (absorb_tagged_shaped _ _ _ (absorb_tagged_shaped _ _ _ (absorb_shaped _ _ init_shaped)))
  · exact absorb_tagged_shaped _ _ _ (absorb_tagged_shaped _ _ _ (absorb_shaped _ _ init_shaped))

theorem petoron_hash_ok (msg context : Bytes) (p : HashParams) (hp : 256 ≤ p.out_bits) :
    petoron_hash msg context p = .ok (phash_core context msg [] p.out_bits) := by
  unfold petoron_hash validate_params
  have h1 : ¬ ¬ (p.out_bits ≥ 256) := fun h => h hp
  simp [h1]

end petoron

/-! ## C18 -/

set_option maxRecDepth 1000000 in
/-- C18 (KAT 1): the hash of the five bytes "hello" with context "CTX" and out_bits =
1024 is the 128 bytes whose lower-case hex starts 90f5ddb3, not the constant k1 of the KAT
test: the first check of the test program returns false and the program exits with
code 1. -/
theorem C18_kat1_not_reproduced :
    (petoron.petoron_hash kat.hello kat.ctx { out_bits := 1024 }).map petoron.hex_lower =
      .ok (ascii kat.hello_ctx_1024) ∧
    ascii kat.hello_ctx_1024 ≠ ascii kat.k1 ∧
    kat.chk kat.hello kat.ctx [] 1024 kat.k1 = .ok false ∧
    kat.main = .ok 1 := by
  decide!

/-! ## C19 -/

set_option maxRecDepth 1000000 in
/-- C19 (KAT 3): the strong hash of "hello" with salt "SALT-123", context "CTX" and
out_bits = 2048 is the 256 bytes (two squeeze blocks) whose lower-case hex starts
54399ef4, not the constant k3 of the KAT test: the third check of the test program
returns false. -/
theorem C19_kat3_not_reproduced :
    (petoron.petoron_hash_strong kat.hello kat.salt kat.ctx { out_bits := 2048 }).map
        petoron.hex_lower = .ok (ascii kat.hello_salt_ctx_2048) ∧
    ascii kat.hello_salt_ctx_2048 ≠ ascii kat.k3 ∧
    kat.chk kat.hello kat.ctx kat.salt 2048 kat.k3 = .ok false := by
  decide!

/-! ## C20 -/

/-- C20 (output prefix), amended: for every msg, context and out_bits values a ≤ b with
a ≥ 256 and b + 7 < 2^64, petoron_hash with out_bits = a returns the first ceil(a/8) bytes
of what it returns with out_bits = b, and the same holds for petoron_hash_strong with
every non-empty salt. -/
theorem C20_prefix_property (msg ctx salt : Bytes) (a b : Nat) (ha : 256 ≤ a) (hab : a ≤ b)
    (hb : b + 7 < U64) :
    (∃ out_b, petoron.petoron_hash msg ctx { out_bits := b } = .ok out_b ∧
      out_b.length = (b + 7) / 8 ∧
      petoron.petoron_hash msg ctx { out_bits := a } = .ok (out_b.take ((a + 7) / 8))) ∧
    (salt ≠ [] →
      ∃ out_b, petoron.petoron_hash_strong msg salt ctx { out_bits := b } = .ok out_b ∧
        out_b.length = (b + 7) / 8 ∧
        petoron.petoron_hash_strong msg salt ctx { out_bits := a } =
          .ok (out_b.take ((a + 7) / 8))) := by
  have hl : ∀ s, (petoron.phash_core ctx msg s b).length = (b + 7) / 8 := by
    intro s
    rw [petoron.phash_core_length, Nat.mod_eq_of_lt hb]
  constructor
  · refine ⟨_, petoron.petoron_hash_ok msg ctx _ (by show 256 ≤ b; omega), hl _, ?_⟩
    rw [petoron.petoron_hash_ok msg ctx _ (by exact ha)]
    exact congrArg _ (petoron.phash_core_take ctx msg [] a b hab hb)
  · intro hs
    refine ⟨_, petoron.petoron_hash_strong_ok msg salt ctx _ hs (by show 256 ≤ b; omega),
      hl _, ?_⟩
    rw [petoron.petoron_hash_strong_ok msg salt ctx _ hs (by exact ha)]
    exact congrArg _ (petoron.phash_core_take ctx msg salt a b hab hb)

theorem C20_prefix_property_witness :
    256 ≤ 512 ∧ 512 ≤ 1024 ∧ 1024 + 7 < U64 ∧
    ∃ out_b, petoron.petoron_hash kat.hello kat.ctx { out_bits := 1024 } = .ok out_b ∧
      out_b.length = (1024 + 7) / 8 ∧
      petoron.petoron_hash kat.hello kat.ctx { out_bits := 512 } =
        .ok (out_b.take ((512 + 7) / 8)) :=
  ⟨by decide, by decide, by decide,
    (C20_prefix_property kat.hello kat.ctx [] 512 1024 (by decide) (by decide) (by decide)).1⟩

/-- C20, counterexample: with out_bits = 2^64 - 1 the sum out_bits + 7 wraps to 6 and
petoron_hash returns no byte at all, while with out_bits = 256 it returns 32 bytes,
which are therefore not the first 32 bytes of the former. -/
theorem C20_wrapped_length_output_empty :
    256 ≤ U64 - 1 ∧
    petoron.petoron_hash kat.hello kat.ctx { out_bits := U64 - 1 } = .ok [] ∧
    ∃ out_a, petoron.petoron_hash kat.hello kat.ctx { out_bits := 256 } = .ok out_a ∧
      out_a.length = 32 ∧ out_a ≠ ([] : Bytes).take ((256 + 7) / 8) := by
  refine ⟨by decide, ?_, _, petoron.petoron_hash_ok _ _ _ (by decide), ?_, ?_⟩
  · rw [petoron.petoron_hash_ok _ _ _ (by decide)]
    have h := petoron.phash_core_length kat.ctx kat.hello [] (U64 - 1)
    rw [show (U64 - 1 + 7) % U64 / 8 = 0 by decide] at h
    rw [List.length_eq_zero.mp h]
  · rw [petoron.phash_core_length]
    decide
  · intro h
    have h2 := congrArg List.length h
    rw [petoron.phash_core_length] at h2
    revert h2
    decide

/-! ## The little-endian encodings and the padding of the specification -/

theorem and_255_eq_mod (x : Nat) : x &&& 0xFF = x % 256 := by
  have := Nat.and_pow_two_sub_one_eq_mod x 8
  simpa using this

theorem store_u32_le_eq_le32 (v : Nat) : endian.store_u32_le v = spec.le32 v := by
  simp [endian.store_u32_le, spec.le32, List.range, List.range.loop, U8, Nat.shiftRight_eq_div_pow]

theorem store_u64_le_eq_le64 (v : Nat) : endian.store_u64_le v = spec.le64 v := by
  simp [endian.store_u64_le, spec.le64, List.range, List.range.loop, U8, Nat.shiftRight_eq_div_pow]

theorem le32_mod (v : Nat) : spec.le32 (v % U32) = spec.le32 v := by
  simp only [spec.le32, List.range, List.range.loop, List.map, U32]
  norm_num
  refine ⟨?_, ?_, ?_⟩ <;> omega

theorem resize_eq_padTo (v : Bytes) (n : Nat) : index.resize v n = spec.padTo n v := by
  unfold index.resize spec.padTo
  rw [List.take_append_eq_append_take, List.take_replicate]
  congr 2
  omega

theorem toU8_eq_type_byte (t : fmt.ObjType) : t.toU8 = spec.type_byte t := by
  cases t <;> rfl

theorem entryBytes_eq_layout (e : index.Entry) : index.entryBytes e = spec.entry_layout e := by
  unfold index.entryBytes spec.entry_layout
  rw [store_u32_le_eq_le32, le32_mod, store_u32_le_eq_le32, store_u64_le_eq_le64,
    store_u64_le_eq_le64, store_u64_le_eq_le64, resize_eq_padTo, resize_eq_padTo,
    toU8_eq_type_byte]
  rfl

/-! ## C27 -/

/-- C27 (encoded index layout): for every index with n entries, encode_index returns
the bytes 49 44 58 31 (hex), LE32(1), LE32(n) and then, for each entry in order,
LE32(|path|), the path, the type byte (1 for a file, 2 for a directory), LE32(flags),
LE64(size), LE64(data_offset), LE64(data_size), the nonce padded or truncated to 24
bytes and the tag padded or truncated to 16 bytes; its length is 12 plus the sum over
the entries of 73 + |path|. -/
theorem C27_encoded_index_layout (idx : index.Index) :
    index.encode_index idx = spec.index_layout idx ∧
    (index.encode_index idx).length =
      12 + (idx.entries.map fun e => 73 + e.path.length).sum := by
  constructor
  · rw [index.encode_index_eq]
    unfold index.indexHeader spec.index_layout
    rw [show endian.store_u32_le index.IDX_MAGIC = [0x49, 0x44, 0x58, 0x31] by decide,
      store_u32_le_eq_le32 index.IDX_VER, store_u32_le_eq_le32, le32_mod,
      show index.entryBytes = spec.entry_layout from funext entryBytes_eq_layout]
    rfl
  · rw [vault.encode_index_length]
    congr 1
    induction idx.entries with
    | nil => rfl
    | cons e es ih =>
      rw [List.flatMap_cons, List.length_append, index.entryBytes_length, ih]
      simp

/-! ## C21 -/

/-- C21 (hash argument validation), amended: petoron_hash fails, with the
invalid-argument message "out_bits must be >= 256", if and only if out_bits < 256;
petoron_hash_strong fails if and only if out_bits < 256 or the salt is empty, with that
message or "salt is required in strong mode"; in every other case the call returns
(out_bits + 7) mod 2^64 / 8 bytes, which is ceil(out_bits / 8) for out_bits ≤ 2^64 - 8. -/
theorem C21_hash_argument_validation (msg ctx salt : Bytes) (out_bits : Nat) :
    ((∃ e, petoron.petoron_hash msg ctx { out_bits := out_bits } = .error e) ↔
      out_bits < 256) ∧
    (out_bits < 256 →
      petoron.petoron_hash msg ctx { out_bits := out_bits } =
        .error "out_bits must be >= 256" ∧
      petoron.petoron_hash_strong msg salt ctx { out_bits := out_bits } =
        .error "out_bits must be >= 256") ∧
    ((∃ e, petoron.petoron_hash_strong msg salt ctx { out_bits := out_bits } = .error e) ↔
      out_bits < 256 ∨ salt = []) ∧
    (256 ≤ out_bits → salt = [] →
      petoron.petoron_hash_strong msg salt ctx { out_bits := out_bits } =
        .error "salt is required in strong mode") ∧
    (256 ≤ out_bits →
      ∃ out, petoron.petoron_hash msg ctx { out_bits := out_bits } = .ok out ∧
        out.length = (out_bits + 7) % U64 / 8 ∧
        (out_bits + 7 < U64 → out.length = (out_bits + 7) / 8)) ∧
    (256 ≤ out_bits → salt ≠ [] →
      ∃ out, petoron.petoron_hash_strong msg salt ctx { out_bits := out_bits } = .ok out ∧
        out.length = (out_bits + 7) % U64 / 8 ∧
        (out_bits + 7 < U64 → out.length = (out_bits + 7) / 8)) := by
  have hlen : ∀ s, (petoron.phash_core ctx msg s out_bits).length = (out_bits + 7) % U64 / 8 ∧
      (out_bits + 7 < U64 →
        (petoron.phash_core ctx msg s out_bits).length = (out_bits + 7) / 8) := by
    intro s
    refine ⟨petoron.phash_core_length _ _ _ _, fun h => ?_⟩
    rw [petoron.phash_core_length, Nat.mod_eq_of_lt h]
  have hsmall : out_bits < 256 →
      petoron.petoron_hash msg ctx { out_bits := out_bits } =
        .error "out_bits must be >= 256" ∧
      petoron.petoron_hash_strong msg salt ctx { out_bits := out_bits } =
        .error "out_bits must be >= 256" := by
    intro h
    constructor
    · unfold petoron.petoron_hash petoron.validate_params
      rw [if_pos (by simp only [ge_iff_le, not_le]; exact h)]
    · unfold petoron.petoron_hash_strong petoron.validate_params
      rw [if_pos (by simp only [ge_iff_le, not_le]; exact h)]
  have hnosalt : 256 ≤ out_bits → salt = [] →
      petoron.petoron_hash_strong msg salt ctx { out_bits := out_bits } =
        .error "salt is required in strong mode" := by
    intro h hs
    unfold petoron.petoron_hash_strong petoron.validate_params
    rw [if_neg (by simp only [ge_iff_le, not_le, not_lt]; exact h), if_pos ⟨rfl, hs⟩]
  refine ⟨⟨fun ⟨e, he⟩ => ?_, fun h => ⟨_, (hsmall h).1⟩⟩, hsmall,
    ⟨fun ⟨e, he⟩ => ?_, fun h => ?_⟩, hnosalt, fun h => ?_, fun h hs => ?_⟩
  · by_contra hc
    rw [petoron.petoron_hash_ok msg ctx _ (by simp only; omega)] at he
    cases he
  · by_contra hc
    rw [petoron.petoron_hash_strong_ok msg salt ctx _ (fun h => hc (Or.inr h))
      (by simp only; omega)] at he
    cases he
  · by_cases hb : out_bits < 256
    · exact ⟨_, (hsmall hb).2⟩
    · exact ⟨_, hnosalt (by omega) (h.resolve_left hb)⟩
  · exact ⟨_, petoron.petoron_hash_ok msg ctx _ h, (hlen []).1, (hlen []).2⟩
  · exact ⟨_, petoron.petoron_hash_strong_ok msg salt ctx _ hs h, (hlen salt).1, (hlen salt).2⟩

theorem C21_hash_argument_validation_witness :
    256 ≤ 512 ∧
    ∃ out, petoron.petoron_hash kat.hello kat.ctx { out_bits := 512 } = .ok out ∧
      out.length = (512 + 7) % U64 / 8 ∧ (512 + 7 < U64 → out.length = (512 + 7) / 8) :=
  ⟨by decide, (C21_hash_argument_validation kat.hello kat.ctx [] 512).2.2.2.2.1 (by decide)⟩

/-- C21, counterexample: with out_bits = 2^64 - 1, which is not below 256,
petoron_hash succeeds and returns no byte at all, not ceil(out_bits / 8) = 2^61 bytes. -/
theorem C21_wrapped_length_returned :
    256 ≤ U64 - 1 ∧ (U64 - 1 + 7) / 8 = 2 ^ 61 ∧
    ∃ out, petoron.petoron_hash kat.hello kat.ctx { out_bits := U64 - 1 } = .ok out ∧
      out.length = 0 ∧ out.length ≠ (U64 - 1 + 7) / 8 := by
  refine ⟨by decide, by decide, _, petoron.petoron_hash_ok _ _ _ (by decide), ?_, ?_⟩
  · rw [petoron.phash_core_length]
    decide
  · rw [petoron.phash_core_length]
    decide

/-! ## Absorbing in pieces is absorbing the concatenation -/

namespace petoron

theorem load_le64_congr (p q : Bytes) (h : ∀ i, i < 8 → p.getD i 0 = q.getD i 0) :
    load_le64 p = load_le64 q := by
  simp only [load_le64, List.range, List.range.loop, List.foldl]
  rw [h 0 (by decide), h 1 (by decide), h 2 (by decide), h 3 (by decide), h 4 (by decide),
    h 5 (by decide), h 6 (by decide), h 7 (by decide)]

theorem load_le64_append (d e : Bytes) (h : 8 ≤ d.length) :
    load_le64 (d ++ e) = load_le64 d := by
  apply load_le64_congr
  intro i hi
  rw [List.getD_append _ _ _ _ (by omega)]

/-- The loop of absorb_block reads the first 8 n bytes of the block. -/
theorem xorBlockIntoLanes_append (n : Nat) :
    ∀ (a : List Nat) (d e : Bytes), 8 * n ≤ d.length →
      xorBlockIntoLanes n a (d ++ e) = xorBlockIntoLanes n a d := by
  induction n with
  | zero => intro a d e _; rfl
  | succ n ih =>
    intro a d e h
    cases a with
    | nil => rfl
    | cons l a =>
      simp only [xorBlockIntoLanes]
      rw [load_le64_append d e (by omega), List.drop_append_of_le_length (by omega),
        ih a _ e (by rw [List.length_drop]; omega)]

theorem xorBlockIntoLanes_take (n : Nat) (a : List Nat) (d : Bytes) :
    xorBlockIntoLanes n a (d.take (8 * n)) = xorBlockIntoLanes n a d := by
  by_cases h : 8 * n ≤ d.length
  · conv => rhs; rw [← List.take_append_drop (8 * n) d]
    rw [xorBlockIntoLanes_append n a _ _ (by rw [List.length_take]; omega)]
  · rw [List.take_of_length_le (by omega)]

theorem xorBlockIntoLanes_congr (a : List Nat) (d e : Bytes) (h : d.take 136 = e.take 136) :
    xorBlockIntoLanes 17 a d = xorBlockIntoLanes 17 a e := by
  rw [← xorBlockIntoLanes_take 17 a d, ← xorBlockIntoLanes_take 17 a e]
  exact congrArg _ h

end petoron

namespace spec

theorem absorbBlocks_append (n : Nat) :
    ∀ (a : List Nat) (d e : Bytes), 136 * n ≤ d.length →
      absorbBlocks n a (d ++ e) = absorbBlocks n a d := by
  induction n with
  | zero => intro a d e _; rfl
  | succ n ih =>
    intro a d e h
    simp only [absorbBlocks]
    rw [petoron.xorBlockIntoLanes_append 17 a d e (by omega),
      List.drop_append_of_le_length (by omega),
      ih _ _ e (by rw [List.length_drop]; omega)]

theorem absorbBlocks_add (n m : Nat) :
    ∀ (a : List Nat) (d : Bytes),
      absorbBlocks (n + m) a d = absorbBlocks m (absorbBlocks n a d) (d.drop (136 * n)) := by
  induction n with
  | zero => intro a d; simp only [Nat.zero_add, absorbBlocks, Nat.mul_zero, List.drop_zero]
  | succ n ih =>
    intro a d
    rw [show n + 1 + m = (n + m) + 1 by omega]
    simp only [absorbBlocks]
    rw [ih, List.drop_drop]
    congr 2
    omega

end spec

namespace petoron

/-- The loop of absorb over the whole blocks of the data from off on. -/
theorem absorbWhole_eq (fuel : Nat) :
    ∀ (a : List Nat) (qd : Nat) (q d : Bytes) (off : Nat), off ≤ d.length →
      (d.length - off) / 136 ≤ fuel →
      absorbWhole fuel ⟨a, 136, qd, q⟩ d off =
        (⟨spec.absorbBlocks ((d.length - off) / 136) a (d.drop off), 136, qd, q⟩,
          off + 136 * ((d.length - off) / 136)) := by
  induction fuel with
  | zero =>
    intro a qd q d off h1 h2
    have h0 : (d.length - off) / 136 = 0 := by omega
    rw [h0]
    rfl
  | succ fuel ih =>
    intro a qd q d off h1 h2
    simp only [absorbWhole]
    by_cases hb : off + 136 ≤ d.length
    · rw [if_pos hb]
      simp only [PhashXof.absorb_block]
      have h17 : (136 + 7) / 8 = 17 := rfl
      rw [h17, ih _ _ _ _ _ hb (by omega)]
      have hk : (d.length - off) / 136 = (d.length - (off + 136)) / 136 + 1 := by omega
      rw [hk]
      simp only [spec.absorbBlocks]
      rw [List.drop_drop]
      congr 1
      omega
    · rw [if_neg hb]
      have h0 : (d.length - off) / 136 = 0 := by omega
      rw [h0]
      rfl

end petoron

namespace petoron

theorem queue_take (p : Bytes) (n : Nat) : (p ++ List.replicate n 0).take p.length = p := by
  rw [List.take_append_of_le_length (Nat.le_refl _), List.take_length]

theorem queue_drop (p : Bytes) (n k : Nat) :
    (p ++ List.replicate n 0).drop (p.length + k) = List.replicate (n - k) 0 := by
  rw [List.drop_append, List.drop_replicate]

/-- The first block of absorb when the data fills the queue. -/
theorem absorbQueued_full (a : List Nat) (p d : Bytes) (hp : p.length < 136) (hp0 : p ≠ [])
    (hd : 136 - p.length ≤ d.length) :
    PhashXof.absorbQueued ⟨a, 136, p.length, p ++ List.replicate (200 - p.length) 0⟩ d =
      (⟨permute (xorBlockIntoLanes 17 a (p ++ d)), 136, 0, List.replicate 200 0⟩,
        136 - p.length) := by
  have hd0 : d ≠ [] := by
    intro h
    rw [h] at hd
    simp only [List.length_nil] at hd
    omega
  have hp1 : p.length ≠ 0 := fun h => hp0 (List.length_eq_zero.mp h)
  have hmin : min (136 - p.length) d.length = 136 - p.length := Nat.min_eq_left hd
  have h17 : (136 + 7) / 8 = 17 := rfl
  unfold PhashXof.absorbQueued
  rw [if_pos ⟨hp1, hd0⟩]
  simp only
  rw [hmin, if_pos (by omega)]
  simp only [PhashXof.absorb_block, queueCopy, queueClear]
  rw [h17, queue_take, queue_drop]
  have hblock : xorBlockIntoLanes 17 a
      (p ++ List.take (136 - p.length) d ++ List.replicate (200 - p.length - (136 - p.length)) 0) =
      xorBlockIntoLanes 17 a (p ++ d) := by
    apply xorBlockIntoLanes_congr
    have hl : (p ++ List.take (136 - p.length) d).length = 136 := by
      rw [List.length_append, List.length_take, Nat.min_eq_left hd]
      omega
    rw [List.take_append_of_le_length hl.ge, List.take_of_length_le hl.le,
      List.take_append_eq_append_take, List.take_of_length_le (show p.length ≤ 136 by omega)]
  rw [hblock]
  have hz : List.replicate 136 0 ++
      List.drop 136 (p ++ List.take (136 - p.length) d ++
        List.replicate (200 - p.length - (136 - p.length)) 0) = List.replicate 200 (0 : Nat) := by
    have hl : (p ++ List.take (136 - p.length) d).length = 136 := by
      rw [List.length_append, List.length_take, Nat.min_eq_left hd]
      omega
    rw [List.drop_append_of_le_length hl.ge, List.drop_of_length_le hl.le,
      List.nil_append, ← List.replicate_add]
    congr 1
    omega
  rw [hz]

/-- The first block of absorb when the data does not fill the queue. -/
theorem absorbQueued_part (a : List Nat) (p d : Bytes) (hp0 : p ≠ []) (hd0 : d ≠ [])
    (h : p.length + d.length < 136) :
    PhashXof.absorbQueued ⟨a, 136, p.length, p ++ List.replicate (200 - p.length) 0⟩ d =
      (⟨a, 136, (p ++ d).length, (p ++ d) ++ List.replicate (200 - (p ++ d).length) 0⟩,
        d.length) := by
  have hp1 : p.length ≠ 0 := fun h => hp0 (List.length_eq_zero.mp h)
  have hmin : min (136 - p.length) d.length = d.length := Nat.min_eq_right (by omega)
  unfold PhashXof.absorbQueued
  rw [if_pos ⟨hp1, hd0⟩]
  simp only
  rw [hmin, if_neg (by omega)]
  simp only [queueCopy]
  rw [queue_take, queue_drop, List.take_length, List.length_append, Nat.sub_sub]

/-- The first block of absorb when the queue or the data is empty. -/
theorem absorbQueued_none (x : PhashXof) (d : Bytes) (h : x.queued_ = 0 ∨ d = []) :
    x.absorbQueued d = (x, 0) := by
  unfold PhashXof.absorbQueued
  rw [if_neg]
  rintro ⟨h1, h2⟩
  rcases h with h | h
  · exact h1 h
  · exact h2 h

end petoron

namespace petoron

/-- The last block of absorb on an empty queue. -/
theorem absorbRest_eq (a : List Nat) (d : Bytes) (off : Nat) (hoff : off ≤ d.length) :
    PhashXof.absorbRest ⟨a, 136, 0, List.replicate 200 0⟩ d off =
      ⟨a, 136, d.length - off, d.drop off ++ List.replicate (200 - (d.length - off)) 0⟩ := by
  unfold PhashXof.absorbRest
  by_cases h : off < d.length
  · rw [if_pos h]
    simp only [queueCopy, List.take_zero, List.nil_append, Nat.zero_add, List.drop_replicate]
    rw [List.take_of_length_le (by rw [List.length_drop])]
  · rw [if_neg h]
    have h0 : d.length - off = 0 := by omega
    rw [h0, List.drop_of_length_le (by omega)]
    rfl

/-- The method absorb on the object with an empty queue. -/
theorem absorb_empty_queue (a : List Nat) (d : Bytes) :
    PhashXof.absorb ⟨a, 136, 0, List.replicate 200 0⟩ d = spec.sponge_state a d := by
  unfold PhashXof.absorb
  simp only
  rw [absorbQueued_none _ d (Or.inl rfl)]
  simp only
  rw [absorbWhole_eq d.length a 0 _ d 0 (Nat.zero_le _)
    (Nat.le_trans (Nat.div_le_self _ _) (Nat.sub_le _ _))]
  simp only
  rw [absorbRest_eq _ _ _ (by omega)]
  unfold spec.sponge_state
  simp only [Nat.sub_zero, Nat.zero_add, List.drop_zero]
  have h1 : d.length - 136 * (d.length / 136) = d.length % 136 := by omega
  rw [h1, Nat.mul_comm 136]

/-- The method absorb on the object with rate 136 whose queue holds the bytes p and
zeros behind them: the object after p followed by the data was absorbed. -/
theorem absorb_queue (a : List Nat) (p d : Bytes) (hp : p.length < 136) :
    PhashXof.absorb ⟨a, 136, p.length, p ++ List.replicate (200 - p.length) 0⟩ d =
      spec.sponge_state a (p ++ d) := by
  by_cases hp0 : p = []
  · subst hp0
    exact absorb_empty_queue a d
  by_cases hd0 : d = []
  · subst hd0
    unfold PhashXof.absorb
    simp only
    rw [absorbQueued_none _ [] (Or.inr rfl)]
    simp only [List.length_nil, absorbWhole]
    unfold PhashXof.absorbRest spec.sponge_state
    rw [if_neg (by simp), List.append_nil, Nat.div_eq_of_lt hp, Nat.mod_eq_of_lt hp]
    rfl
  have hplen : 0 < p.length := List.length_pos.mpr hp0
  by_cases hfull : 136 - p.length ≤ d.length
  · unfold PhashXof.absorb
    simp only
    rw [absorbQueued_full a p d hp hp0 hfull]
    simp only
    rw [absorbWhole_eq d.length _ 0 _ d (136 - p.length) hfull
      (Nat.le_trans (Nat.div_le_self _ _) (Nat.sub_le _ _))]
    simp only
    rw [absorbRest_eq _ _ _ (by omega)]
    unfold spec.sponge_state
    have hn : (p ++ d).length / 136 = (d.length - (136 - p.length)) / 136 + 1 := by
      rw [List.length_append]
      omega
    have hm : (p ++ d).length % 136 =
        d.length - (136 - p.length + 136 * ((d.length - (136 - p.length)) / 136)) := by
      rw [List.length_append]
      omega
    rw [hn, hm]
    simp only [spec.absorbBlocks]
    have hdrop : ∀ k, (p ++ d).drop (136 + k) = d.drop (136 - p.length + k) := by
      intro k
      rw [List.drop_append_eq_append_drop, List.drop_of_length_le (by omega), List.nil_append]
      congr 1
      omega
    have hd1 := hdrop 0
    simp only [Nat.add_zero] at hd1
    rw [hd1]
    have hd2 := hdrop (136 * ((d.length - (136 - p.length)) / 136))
    rw [show ((d.length - (136 - p.length)) / 136 + 1) * 136 =
      136 + 136 * ((d.length - (136 - p.length)) / 136) by omega, hd2]
  · have hlt : p.length + d.length < 136 := by omega
    unfold PhashXof.absorb
    simp only
    rw [absorbQueued_part a p d hp0 hd0 hlt]
    simp only
    rw [absorbWhole_eq d.length _ _ _ d d.length (Nat.le_refl _) (by simp)]
    simp only [Nat.sub_self, Nat.zero_div, Nat.mul_zero, Nat.add_zero, spec.absorbBlocks]
    unfold PhashXof.absorbRest spec.sponge_state
    rw [if_neg (Nat.lt_irrefl _)]
    have hl : (p ++ d).length < 136 := by rw [List.length_append]; exact hlt
    rw [Nat.div_eq_of_lt hl, Nat.mod_eq_of_lt hl]
    rfl

end petoron

namespace petoron

/-- Absorbing d after D was absorbed gives the object after D followed by d was
absorbed. -/
theorem absorb_sponge_state (a : List Nat) (D d : Bytes) :
    (spec.sponge_state a D).absorb d = spec.sponge_state a (D ++ d) := by
  have hn : D.length / 136 * 136 ≤ D.length := Nat.div_mul_le_self _ _
  have hpl : (D.drop (D.length / 136 * 136)).length = D.length % 136 := by
    rw [List.length_drop]
    omega
  have hp : (D.drop (D.length / 136 * 136)).length < 136 := by
    rw [hpl]
    exact Nat.mod_lt _ (by decide)
  have hs : spec.sponge_state a D =
      ⟨spec.absorbBlocks (D.length / 136) a D, 136, (D.drop (D.length / 136 * 136)).length,
        D.drop (D.length / 136 * 136) ++
          List.replicate (200 - (D.drop (D.length / 136 * 136)).length) 0⟩ := by
    unfold spec.sponge_state
    rw [hpl]
  rw [hs, absorb_queue _ _ d hp]
  have hdrop : (D ++ d).drop (136 * (D.length / 136)) = D.drop (D.length / 136 * 136) ++ d := by
    rw [Nat.mul_comm 136, List.drop_append_of_le_length hn]
  have hlen : (D.drop (D.length / 136 * 136) ++ d).length = D.length % 136 + d.length := by
    rw [List.length_append, hpl]
  have hdiv : (D ++ d).length / 136 =
      D.length / 136 + (D.drop (D.length / 136 * 136) ++ d).length / 136 := by
    rw [hlen, List.length_append]
    omega
  have hmod : (D ++ d).length % 136 = (D.drop (D.length / 136 * 136) ++ d).length % 136 := by
    rw [hlen, List.length_append]
    omega
  unfold spec.sponge_state
  rw [hdiv, hmod, spec.absorbBlocks_add, spec.absorbBlocks_append _ a D d (by omega), hdrop,
    show (D.length / 136 + (D.drop (D.length / 136 * 136) ++ d).length / 136) * 136 =
      136 * (D.length / 136) + (D.drop (D.length / 136 * 136) ++ d).length / 136 * 136 by omega,
    ← List.drop_drop, hdrop]

theorem init_eq_sponge_state : PhashXof.init 136 = spec.sponge_state (List.replicate 25 0) [] :=
  rfl

theorem len_bytes_eq_le64 (L : Nat) :
    ((List.range 8).map fun i => ((L % U64) >>> (8 * i)) &&& 0xFF) = spec.le64 L := by
  simp only [spec.le64, List.range, List.range.loop, List.map, U64, and_255_eq_mod,
    Nat.shiftRight_eq_div_pow]
  norm_num
  refine ⟨?_, ?_, ?_, ?_, ?_, ?_, ?_⟩ <;> omega

/-- The function absorb_tagged absorbs the tag, the length of the data in eight bytes
and the data. -/
theorem absorb_tagged_sponge_state (a : List Nat) (D tag data : Bytes) :
    absorb_tagged (spec.sponge_state a D) tag data =
      spec.sponge_state a (D ++ (tag ++ spec.le64 data.length ++ data)) := by
  unfold absorb_tagged absorb_len_le
  simp only
  rw [absorb_sponge_state, len_bytes_eq_le64, absorb_sponge_state]
  by_cases hd : data = []
  · rw [if_neg (show ¬ data ≠ [] from fun h => h hd), hd]
    simp only [List.append_nil, List.append_assoc]
  · rw [if_pos hd, absorb_sponge_state]
    simp only [List.append_assoc]

/-- The function phash_core is phash_xof on the framed input. -/
theorem phash_core_eq_xof (context msg salt : Bytes) (out_bits : Nat) :
    phash_core context msg salt out_bits =
      phash_xof (spec.framed context msg salt) ((out_bits + 7) % U64 / 8) := by
  unfold phash_core phash_xof
  simp only
  rw [init_eq_sponge_state, absorb_sponge_state, absorb_tagged_sponge_state,
    absorb_tagged_sponge_state, absorb_sponge_state]
  simp only [List.nil_append]
  have hf : spec.framed context msg salt =
      INIT_DOM ++ (CTX_DOM ++ spec.le64 context.length ++ context) ++
        (MSG_DOM ++ spec.le64 msg.length ++ msg) ++
        (if salt = [] then [] else SALT_DOM ++ spec.le64 salt.length ++ salt) ++ FINAL_DOM := rfl
  by_cases hs : salt = []
  · rw [if_neg (show ¬ salt ≠ [] from fun h => h hs), absorb_sponge_state, hf, if_pos hs,
      List.append_nil]
  · rw [if_pos hs, absorb_tagged_sponge_state, absorb_sponge_state, hf, if_neg hs]

end petoron

namespace petoron

theorem phash_xof_length (inp : Bytes) (n : Nat) : (phash_xof inp n).length = n := by
  unfold phash_xof
  apply squeeze_length
  apply absorb_domain_pad_shaped
  exact absorb_shaped _ _ init_shaped

/-- Two absorbs in a row on a fresh object are one absorb of the concatenation. -/
theorem absorb_absorb (d1 d2 : Bytes) :
    ((PhashXof.init 136).absorb d1).absorb d2 = (PhashXof.init 136).absorb (d1 ++ d2) := by
  rw [init_eq_sponge_state, absorb_sponge_state, absorb_sponge_state, absorb_sponge_state,
    List.append_assoc]

end petoron
/-! ## C22 -/

/-- C22, amended (hash framing): for every msg, context and out_bits ≥ 256,
petoron_hash(msg, ctx, out_bits) equals phash_xof(F, ((out_bits + 7) mod 2^64) / 8),
which is phash_xof(F, ceil(out_bits / 8)) for out_bits ≤ 2^64 - 8, where F is the single
byte string "PETORON:INIT:v1" ‖ "PETORON:CTX:v1" ‖ LE64(|ctx|) ‖ ctx ‖ "PETORON:MSG:v1" ‖
LE64(|msg|) ‖ msg ‖ "PETORON:FINAL:v1"; petoron_hash_strong with a non-empty salt equals
the same with "PETORON:SALT:v1" ‖ LE64(|salt|) ‖ salt inserted immediately before the
FINAL literal; absorbing in pieces equals one absorb of the concatenation. -/
theorem C22_hash_framing (msg ctx salt : Bytes) (out_bits : Nat) (hv : 256 ≤ out_bits) :
    petoron.petoron_hash msg ctx { out_bits := out_bits } =
      .ok (petoron.phash_xof (spec.framed ctx msg []) ((out_bits + 7) % U64 / 8)) ∧
    (salt ≠ [] →
      petoron.petoron_hash_strong msg salt ctx { out_bits := out_bits } =
        .ok (petoron.phash_xof (spec.framed ctx msg salt) ((out_bits + 7) % U64 / 8))) ∧
    (out_bits + 7 < U64 →
      petoron.petoron_hash msg ctx { out_bits := out_bits } =
        .ok (petoron.phash_xof (spec.framed ctx msg []) ((out_bits + 7) / 8)) ∧
      (salt ≠ [] →
        petoron.petoron_hash_strong msg salt ctx { out_bits := out_bits } =
          .ok (petoron.phash_xof (spec.framed ctx msg salt) ((out_bits + 7) / 8)))) ∧
    spec.framed ctx msg [] =
      ascii "PETORON:INIT:v1" ++ ascii "PETORON:CTX:v1" ++ spec.le64 ctx.length ++ ctx ++
        ascii "PETORON:MSG:v1" ++ spec.le64 msg.length ++ msg ++ ascii "PETORON:FINAL:v1" ∧
    (salt ≠ [] →
      spec.framed ctx msg salt =
        ascii "PETORON:INIT:v1" ++ ascii "PETORON:CTX:v1" ++ spec.le64 ctx.length ++ ctx ++
          ascii "PETORON:MSG:v1" ++ spec.le64 msg.length ++ msg ++
          ascii "PETORON:SALT:v1" ++ spec.le64 salt.length ++ salt ++
          ascii "PETORON:FINAL:v1") ∧
    (∀ d1 d2 : Bytes,
      ((petoron.PhashXof.init 136).absorb d1).absorb d2 =
        (petoron.PhashXof.init 136).absorb (d1 ++ d2)) := by
  have h1 : petoron.petoron_hash msg ctx { out_bits := out_bits } =
      .ok (petoron.phash_xof (spec.framed ctx msg []) ((out_bits + 7) % U64 / 8)) := by
    rw [petoron.petoron_hash_ok msg ctx _ hv, petoron.phash_core_eq_xof]
  have h2 : salt ≠ [] →
      petoron.petoron_hash_strong msg salt ctx { out_bits := out_bits } =
        .ok (petoron.phash_xof (spec.framed ctx msg salt) ((out_bits + 7) % U64 / 8)) := by
    intro hs
    rw [petoron.petoron_hash_strong_ok msg salt ctx _ hs hv, petoron.phash_core_eq_xof]
  refine ⟨h1, h2, fun hlt => ?_, ?_, fun hs => ?_, petoron.absorb_absorb⟩
  · rw [Nat.mod_eq_of_lt hlt] at h1 h2
    exact ⟨h1, h2⟩
  · unfold spec.framed
    rw [if_pos rfl]
    simp only [List.append_assoc, List.append_nil]
  · unfold spec.framed
    rw [if_neg hs]
    simp only [List.append_assoc]

theorem C22_hash_framing_witness :
    256 ≤ 512 ∧
    petoron.petoron_hash kat.hello kat.ctx { out_bits := 512 } =
      .ok (petoron.phash_xof (spec.framed kat.ctx kat.hello []) ((512 + 7) % U64 / 8)) :=
  ⟨by decide, (C22_hash_framing kat.hello kat.ctx [] 512 (by decide)).1⟩

/-- C22, counterexample: with out_bits = 2^64 - 1, which is valid, petoron_hash returns
the empty byte string, while phash_xof(F, ceil(out_bits / 8)) has 2^61 bytes. -/
theorem C22_wrapped_length_not_framed :
    256 ≤ U64 - 1 ∧
    petoron.petoron_hash kat.hello kat.ctx { out_bits := U64 - 1 } = .ok [] ∧
    (petoron.phash_xof (spec.framed kat.ctx kat.hello []) ((U64 - 1 + 7) / 8)).length =
      2 ^ 61 ∧
    petoron.petoron_hash kat.hello kat.ctx { out_bits := U64 - 1 } ≠
      .ok (petoron.phash_xof (spec.framed kat.ctx kat.hello []) ((U64 - 1 + 7) / 8)) := by
  have h0 : petoron.petoron_hash kat.hello kat.ctx { out_bits := U64 - 1 } = .ok [] := by
    rw [petoron.petoron_hash_ok _ _ _ (by decide)]
    have hl := petoron.phash_core_length kat.ctx kat.hello [] (U64 - 1)
    rw [show (U64 - 1 + 7) % U64 / 8 = 0 by decide] at hl
    rw [List.length_eq_zero.mp hl]
  have hl : (petoron.phash_xof (spec.framed kat.ctx kat.hello []) ((U64 - 1 + 7) / 8)).length =
      2 ^ 61 := by
    rw [petoron.phash_xof_length]
    decide
  refine ⟨by decide, h0, hl, ?_⟩
  rw [h0]
  intro hc
  simp only [Except.ok.injEq] at hc
  rw [← hc] at hl
  simp at hl

/-! ## The key derivation as an iteration of the strong hash -/

theorem le32_bytes (i : Nat) :
    [i &&& 0xFF, (i >>> 8) &&& 0xFF, (i >>> 16) &&& 0xFF, (i >>> 24) &&& 0xFF] = spec.le32 i := by
  simp only [and_255_eq_mod]
  simp [spec.le32, List.range, List.range.loop, Nat.shiftRight_eq_div_pow]

/-- With a non-empty salt and 16 ≤ key_bytes < 2^60 every state of the derivation is a
hash output of 2 * key_bytes bytes. -/
theorem kdf_state_ok (password salt : Bytes) (key_bytes : Nat) (hs : salt ≠ [])
    (hk : 16 ≤ key_bytes) (hk2 : key_bytes < 2 ^ 60) :
    petoron.petoron_hash_strong password salt (ascii "1654|KDF|0")
        { out_bits := 16 * key_bytes } = .ok (spec.kdf_state password salt key_bytes 0) ∧
    (∀ i, petoron.petoron_hash_strong
        (spec.kdf_state password salt key_bytes i ++ spec.le32 (i + 1)) salt
        (ascii "1654|KDF|R") { out_bits := 16 * key_bytes } =
          .ok (spec.kdf_state password salt key_bytes (i + 1))) ∧
    ∀ i, (spec.kdf_state password salt key_bytes i).length = 2 * key_bytes := by
  have hp : 256 ≤ 16 * key_bytes := by omega
  have hlen : (16 * key_bytes + 7) % U64 / 8 = 2 * key_bytes := by
    rw [Nat.mod_eq_of_lt (by simp only [U64]; omega)]
    omega
  have h0 : petoron.petoron_hash_strong password salt (ascii "1654|KDF|0")
      { out_bits := 16 * key_bytes } = .ok (spec.kdf_state password salt key_bytes 0) := by
    rw [petoron.petoron_hash_strong_ok _ _ _ _ hs hp]
    simp only [spec.kdf_state]
    rw [petoron.petoron_hash_strong_ok _ _ _ _ hs hp]
    rfl
  have h1 : ∀ i, petoron.petoron_hash_strong
      (spec.kdf_state password salt key_bytes i ++ spec.le32 (i + 1)) salt
      (ascii "1654|KDF|R") { out_bits := 16 * key_bytes } =
        .ok (spec.kdf_state password salt key_bytes (i + 1)) := by
    intro i
    rw [petoron.petoron_hash_strong_ok _ _ _ _ hs hp]
    simp only [spec.kdf_state]
    rw [petoron.petoron_hash_strong_ok _ _ _ _ hs hp]
    rfl
  refine ⟨h0, h1, ?_⟩
  intro i
  cases i with
  | zero =>
    simp only [spec.kdf_state]
    rw [petoron.petoron_hash_strong_ok _ _ _ _ hs hp]
    simp only [okOr]
    rw [petoron.phash_core_length, hlen]
  | succ i =>
    simp only [spec.kdf_state]
    rw [petoron.petoron_hash_strong_ok _ _ _ _ hs hp]
    simp only [okOr]
    rw [petoron.phash_core_length, hlen]

/-- The loop of derive started at counter i + 1 in state i runs through the states. -/
theorem deriveLoop_eq (password salt : Bytes) (key_bytes : Nat) (hs : salt ≠ [])
    (hk : 16 ≤ key_bytes) (hk2 : key_bytes < 2 ^ 60) (n : Nat) :
    ∀ i, kdf.deriveLoop n (i + 1) (spec.kdf_state password salt key_bytes i) salt
        { out_bits := 16 * key_bytes } =
      .ok (spec.kdf_state password salt key_bytes (i + n)) := by
  obtain ⟨_, h1, _⟩ := kdf_state_ok password salt key_bytes hs hk hk2
  induction n with
  | zero => intro i; rfl
  | succ n ih =>
    intro i
    simp only [kdf.deriveLoop]
    rw [le32_bytes, h1 i]
    simp only
    rw [ih (i + 1)]
    rw [show i + 1 + n = i + (n + 1) by omega]

/-- The keys derive returns, in terms of the states. -/
theorem derive_eq (password salt : Bytes) (key_bytes cost : Nat) (hs : salt ≠ [])
    (hk : 16 ≤ key_bytes) (hk2 : key_bytes < 2 ^ 60) :
    kdf.derive password salt key_bytes cost =
      .ok { enc := (spec.kdf_state password salt key_bytes (max cost 1 - 1)).take key_bytes,
            mac := ((spec.kdf_state password salt key_bytes (max cost 1 - 1)).drop
              key_bytes).take key_bytes } := by
  obtain ⟨h0, _, hl⟩ := kdf_state_ok password salt key_bytes hs hk hk2
  unfold kdf.derive
  rw [if_neg (by omega)]
  simp only
  have hw : ((key_bytes * 2) * 8) % U64 = 16 * key_bytes := by
    rw [Nat.mod_eq_of_lt (by simp only [U64]; omega)]
    omega
  have hw2 : (key_bytes * 2) % U64 = 2 * key_bytes := by
    rw [Nat.mod_eq_of_lt (by simp only [U64]; omega)]
    omega
  rw [hw, hw2, h0]
  simp only
  have hl0 := deriveLoop_eq password salt key_bytes hs hk hk2
    ((if cost = 0 then 1 else cost) - 1) 0
  rw [hl0]
  simp only
  rw [hl, if_neg (by omega)]
  rw [show (if cost = 0 then 1 else cost) - 1 = max cost 1 - 1 by split <;> omega,
    Nat.zero_add]

/-- With 2^60 key bytes the requested number of output bits wraps to 0 and the hash
rejects it. -/
theorem derive_wrapped (password salt : Bytes) (cost : Nat) :
    kdf.derive password salt (2 ^ 60) cost = .error "out_bits must be >= 256" := by
  unfold kdf.derive
  rw [if_neg (by decide)]
  simp only
  rw [show ((2 ^ 60 * 2) * 8) % U64 = 0 by decide]
  unfold petoron.petoron_hash_strong petoron.validate_params
  rw [if_pos (by decide)]

/-! ## C23 -/

/-- C23 (KDF definition), amended: for every password, non-empty salt, key_bytes with
16 ≤ key_bytes < 2^60 and cost, derive returns enc = S[0 .. key_bytes] and
mac = S[key_bytes .. 2 * key_bytes], each key_bytes long, where S is state n - 1 for
n = max(cost, 1), state 0 = hash_strong(password, salt, "1654|KDF|0", 16 * key_bytes) and
state i = hash_strong(state (i - 1) ‖ LE32(i), salt, "1654|KDF|R", 16 * key_bytes);
cost = 0 yields the keys of cost = 1. -/
theorem C23_kdf_definition (password salt : Bytes) (key_bytes cost : Nat) (hs : salt ≠ [])
    (hk : 16 ≤ key_bytes) (hk2 : key_bytes < 2 ^ 60) :
    petoron.petoron_hash_strong password salt (ascii "1654|KDF|0")
        { out_bits := 16 * key_bytes } = .ok (spec.kdf_state password salt key_bytes 0) ∧
    (∀ i, petoron.petoron_hash_strong
        (spec.kdf_state password salt key_bytes i ++ spec.le32 (i + 1)) salt
        (ascii "1654|KDF|R") { out_bits := 16 * key_bytes } =
          .ok (spec.kdf_state password salt key_bytes (i + 1))) ∧
    (∃ keys, kdf.derive password salt key_bytes cost = .ok keys ∧
      keys.enc = (spec.kdf_state password salt key_bytes (max cost 1 - 1)).take key_bytes ∧
      keys.mac = ((spec.kdf_state password salt key_bytes (max cost 1 - 1)).drop
        key_bytes).take key_bytes ∧
      keys.enc.length = key_bytes ∧ keys.mac.length = key_bytes) ∧
    kdf.derive password salt key_bytes 0 = kdf.derive password salt key_bytes 1 := by
  obtain ⟨h0, h1, hl⟩ := kdf_state_ok password salt key_bytes hs hk hk2
  refine ⟨h0, h1, ⟨_, derive_eq password salt key_bytes cost hs hk hk2, rfl, rfl, ?_, ?_⟩, ?_⟩
  · simp only [List.length_take, hl]
    omega
  · simp only [List.length_take, List.length_drop, hl]
    omega
  · rw [derive_eq password salt key_bytes 0 hs hk hk2,
      derive_eq password salt key_bytes 1 hs hk hk2]
    rfl

theorem C23_kdf_definition_witness :
    ([5, 6] : Bytes) ≠ [] ∧ 16 ≤ 32 ∧ 32 < 2 ^ 60 ∧
    ∃ keys, kdf.derive demoPw [5, 6] 32 3 = .ok keys ∧
      keys.enc = (spec.kdf_state demoPw [5, 6] 32 (max 3 1 - 1)).take 32 ∧
      keys.mac = ((spec.kdf_state demoPw [5, 6] 32 (max 3 1 - 1)).drop 32).take 32 ∧
      keys.enc.length = 32 ∧ keys.mac.length = 32 :=
  ⟨by decide, by decide, by decide,
    (C23_kdf_definition demoPw [5, 6] 32 3 (by decide) (by decide) (by decide)).2.2.1⟩

/-- C23, counterexample: with key_bytes = 2^60, which is at least 16, the product
(key_bytes * 2) * 8 wraps to 0 in 64 bits and derive returns no keys: the hash throws
"out_bits must be >= 256". -/
theorem C23_huge_key_bytes_throws :
    16 ≤ 2 ^ 60 ∧ ([5, 6] : Bytes) ≠ [] ∧ 2 ^ 60 < U64 ∧
    kdf.derive demoPw [5, 6] (2 ^ 60) 1 = .error "out_bits must be >= 256" :=
  ⟨by decide, by decide, by decide, derive_wrapped demoPw [5, 6] 1⟩

/-! ## C24 -/

/-- C24 (KDF failure condition), amended: for every password, non-empty salt and cost,
derive fails with "kdf: key_bytes=0" when key_bytes = 0, fails with the invalid-argument
error "out_bits must be >= 256" of the hash when 1 ≤ key_bytes ≤ 15, and succeeds with
two keys of exactly key_bytes bytes each when 16 ≤ key_bytes < 2^60. -/
theorem C24_kdf_failure_condition (password salt : Bytes) (key_bytes cost : Nat)
    (hs : salt ≠ []) :
    (key_bytes = 0 → kdf.derive password salt key_bytes cost = .error "kdf: key_bytes=0") ∧
    (1 ≤ key_bytes → key_bytes < 16 →
      kdf.derive password salt key_bytes cost = .error "out_bits must be >= 256") ∧
    (16 ≤ key_bytes → key_bytes < 2 ^ 60 →
      ∃ keys, kdf.derive password salt key_bytes cost = .ok keys ∧
        keys.enc.length = key_bytes ∧ keys.mac.length = key_bytes) := by
  refine ⟨fun h => ?_, derive_small password salt key_bytes cost,
    derive_ok password salt key_bytes cost hs⟩
  unfold kdf.derive
  rw [if_pos h]

theorem C24_kdf_failure_condition_witness :
    ([5, 6] : Bytes) ≠ [] ∧ 16 ≤ 16 ∧ 16 < 2 ^ 60 ∧
    ∃ keys, kdf.derive demoPw [5, 6] 16 3 = .ok keys ∧
      keys.enc.length = 16 ∧ keys.mac.length = 16 :=
  ⟨by decide, by decide, by decide,
    (C24_kdf_failure_condition demoPw [5, 6] 16 3 (by decide)).2.2 (by decide) (by decide)⟩

/-- C24, counterexample: with key_bytes = 8, which is at least 1, and a non-empty salt,
derive does not succeed: the hash is asked for 128 bits and throws. -/
theorem C24_small_key_bytes_throws :
    1 ≤ 8 ∧ ([5, 6] : Bytes) ≠ [] ∧
    kdf.derive demoPw [5, 6] 8 1 = .error "out_bits must be >= 256" :=
  ⟨by decide, by decide, derive_small demoPw [5, 6] 8 1 (by decide) (by decide)⟩

/-! ## The key parameters the reader takes from the reserved field -/

theorem getD_drop (l : Bytes) (k i : Nat) : (l.drop k).getD i 0 = l.getD (k + i) 0 := by
  simp only [List.getD_eq_getElem?_getD, List.getElem?_drop]

theorem read_u32_le_eq_u32_at (reserved : Bytes) (k : Nat) (h : ∀ b ∈ reserved, b < 256) :
    read_u32_le (reserved.drop k) = spec.u32_at reserved k := by
  have g := getD_lt_256 reserved h
  unfold read_u32_le spec.u32_at
  rw [getD_drop, getD_drop, getD_drop, getD_drop]
  have g0 := g (k + 0)
  have g1 := g (k + 1)
  have g2 := g (k + 2)
  have g3 := g (k + 3)
  rw [or_shiftLeft_eq_add _ _ 8 (by omega), or_shiftLeft_eq_add _ _ 16 (by omega),
    or_shiftLeft_eq_add _ _ 24 (by omega)]
  rw [Nat.add_zero]
  ring

namespace vault

/-- The tail of open_for_view as a function of the derived keys. -/
theorem open_tail_eq {af : AllocFaults} (password idx_bytes : Bytes) (out : VaultOpen)
    (h : ∀ b ∈ out.header.reserved, b < 256) :
    open_tail af password idx_bytes out =
      match kdf.derive password out.header.salt
          ((spec.reader_key_bits out.header.reserved + 7) / 8)
          (spec.reader_kdf_cost out.header.reserved) with
      | .error e => .error e
      | .ok keys =>
        match mac.verify keys.mac idx_bytes out.trailer.index_tag with
        | .error e => .error e
        | .ok ok =>
          if ok then
            match index.decode_index af idx_bytes with
            | .error e => .error e
            | .ok r => .ok (r.1, { out with keys := keys, idx := r.2 })
          else
            .ok (Status.err ExitCode.IntegrityError "wrong password or corrupted vault",
              { out with keys := keys }) := by
  unfold open_tail spec.reader_key_bits spec.reader_kdf_cost bits_to_bytes
  simp only
  rw [read_u32_le_eq_u32_at _ 0 h, read_u32_le_eq_u32_at _ 4 h]
  generalize kdf.derive password out.header.salt _ _ = d
  cases d with
  | error e => rfl
  | ok keys =>
    simp only
    generalize mac.verify keys.mac idx_bytes out.trailer.index_tag = v
    cases v with
    | error e => rfl
    | ok okv =>
      cases okv with
      | false => simp
      | true =>
        generalize index.decode_index af idx_bytes = d
        cases d <;> rfl

end vault

/-! ## C25 -/

/-- C25 (legacy-reader defaults): on a file of bytes that passes the structural checks,
open_for_view derives the keys with key_bits = LE32(reserved[0..4]), or 512 bits (64-byte
keys) when that word is zero, and with kdf_cost = LE32(reserved[4..8]), or 1 when that
word is zero: an exception of derive(password, header.salt, ceil(key_bits / 8), kdf_cost)
escapes, and otherwise the keys it returns are those of the result and their MAC key is
the one the trailer tag is verified with; the index is decoded, by decode_index, only when
the tag is verified. -/
theorem C25_reader_key_parameters (af : AllocFaults) (fs : FileSys) (path : String)
    (pw content : Bytes) (hdr : fmt.GlobalHeader) (tr : fmt.IndexTrailer) (ib : Bytes)
    (hfile : fs path = some content) (hbytes : ∀ b ∈ content, b < 256)
    (hs : vault.StructOk content hdr tr ib) :
    vault.open_for_view af fs path pw =
      (match kdf.derive pw hdr.salt ((spec.reader_key_bits hdr.reserved + 7) / 8)
          (spec.reader_kdf_cost hdr.reserved) with
      | .error e => .error e
      | .ok keys =>
        match mac.verify keys.mac ib tr.index_tag with
        | .error e => .error e
        | .ok ok =>
          if ok then
            match index.decode_index af ib with
            | .error e => .error e
            | .ok r => .ok (r.1, { header := hdr, trailer := tr, idx := r.2, keys := keys })
          else
            .ok (Status.err ExitCode.IntegrityError "wrong password or corrupted vault",
              { header := hdr, trailer := tr, idx := ⟨[]⟩, keys := keys })) ∧
    (spec.u32_at hdr.reserved 0 = 0 → (spec.reader_key_bits hdr.reserved + 7) / 8 = 64) ∧
    (spec.u32_at hdr.reserved 0 ≠ 0 →
      spec.reader_key_bits hdr.reserved = spec.u32_at hdr.reserved 0) ∧
    (spec.u32_at hdr.reserved 4 = 0 → spec.reader_kdf_cost hdr.reserved = 1) ∧
    (spec.u32_at hdr.reserved 4 ≠ 0 →
      spec.reader_kdf_cost hdr.reserved = spec.u32_at hdr.reserved 4) ∧
    (∀ k, k + 4 ≤ 32 → spec.u32_at hdr.reserved k = spec.u32_at content (68 + k)) := by
  have hh := hs.hdr_eq
  rw [vault.parse_header_window] at hh
  have hres : hdr.reserved = (content.drop 68).take 32 := by rw [hh]
  have hrb : ∀ b ∈ hdr.reserved, b < 256 := by
    intro b hb
    rw [hres] at hb
    exact hbytes b (List.mem_of_mem_drop (List.mem_of_mem_take hb))
  refine ⟨?_, ?_, ?_, ?_, ?_, ?_⟩
  · rw [vault.open_for_view_of_structOk fs path pw content hdr tr ib hfile hs,
      vault.open_tail_eq pw ib _ hrb]
    rfl
  · intro h
    unfold spec.reader_key_bits
    rw [if_neg (by simp only [ne_eq, not_not]; exact h)]
  · intro h
    unfold spec.reader_key_bits
    rw [if_pos h]
  · intro h
    unfold spec.reader_kdf_cost
    rw [if_neg (by simp only [ne_eq, not_not]; exact h)]
  · intro h
    unfold spec.reader_kdf_cost
    rw [if_pos h]
  · intro k hk
    unfold spec.u32_at
    rw [hres]
    rw [getD_take _ _ _ _ (by omega), getD_take _ _ _ _ (by omega),
      getD_take _ _ _ _ (by omega), getD_take _ _ _ _ (by omega),
      getD_drop, getD_drop, getD_drop, getD_drop]
    simp only [Nat.add_assoc]

set_option maxRecDepth 1000000 in
theorem C25_reader_key_parameters_witness :
    demoFs "v.1654" = some demoVault ∧ (∀ b ∈ demoVault, b < 256) ∧
    spec.u32_at demoOpen.header.reserved 0 = 256 ∧
    ∃ ib, vault.StructOk demoVault demoOpen.header demoOpen.trailer ib ∧
      kdf.derive demoPw demoOpen.header.salt
        ((spec.reader_key_bits demoOpen.header.reserved + 7) / 8)
        (spec.reader_kdf_cost demoOpen.header.reserved) = .ok demoOpen.keys ∧
      spec.reader_key_bits demoOpen.header.reserved = spec.u32_at demoOpen.header.reserved 0 :=
  have h := vault.open_ok_struct demoFs "v.1654" demoPw demoVault demoOpen demoFs_vault
    demo_open_eq
  ⟨demoFs_vault, by decide!, by decide!, h.choose, h.choose_spec.1, by decide!,
    (C25_reader_key_parameters noAllocFaults demoFs "v.1654" demoPw demoVault demoOpen.header
      demoOpen.trailer h.choose demoFs_vault (by decide!) h.choose_spec.1).2.2.1
      (by decide!)⟩

/-! ## Decoding an index followed by more bytes, or cut short -/

namespace index

theorem drop_append_take (d t : Bytes) (off n : Nat) (h : off + n ≤ d.length) :
    ((d ++ t).drop off).take n = (d.drop off).take n := by
  rw [List.drop_append_of_le_length (by omega), List.take_append_of_le_length]
  rw [List.length_drop]
  omega

theorem read_u32_ext (d t : Bytes) (off : Nat) (r : Nat × Nat)
    (h : read_u32 d off = some r) : read_u32 (d ++ t) off = some r ∧ r.2 ≤ d.length := by
  unfold read_u32 at h ⊢
  split at h
  · cases h
  · rename_i hl
    cases h
    rw [if_neg (by rw [List.length_append]; omega)]
    rw [← load_u32_le_take, drop_append_take d t off 4 (by omega), load_u32_le_take]
    exact ⟨rfl, by simp only; omega⟩

theorem read_u64_ext (d t : Bytes) (off : Nat) (r : Nat × Nat)
    (h : read_u64 d off = some r) : read_u64 (d ++ t) off = some r ∧ r.2 ≤ d.length := by
  unfold read_u64 at h ⊢
  split at h
  · cases h
  · rename_i hl
    cases h
    rw [if_neg (by rw [List.length_append]; omega)]
    rw [← load_u64_le_take, drop_append_take d t off 8 (by omega), load_u64_le_take]
    exact ⟨rfl, by simp only; omega⟩

theorem read_bytes_ext (d t : Bytes) (off n : Nat) (r : Bytes × Nat)
    (h : read_bytes d off n = some r) :
    read_bytes (d ++ t) off n = some r ∧ r.2 ≤ d.length := by
  unfold read_bytes at h ⊢
  split at h
  · cases h
  · rename_i hl
    cases h
    rw [if_neg (by rw [List.length_append]; omega), drop_append_take d t off n (by omega)]
    exact ⟨rfl, by simp only; omega⟩

theorem read_string_ext (d t : Bytes) (off : Nat) (r : Bytes × Nat)
    (h : read_string d off = some r) :
    read_string (d ++ t) off = some r ∧ r.2 ≤ d.length := by
  unfold read_string at h ⊢
  cases h1 : read_u32 d off with
  | none => rw [h1] at h; cases h
  | some p =>
    obtain ⟨n, o1⟩ := p
    rw [h1] at h
    rw [(read_u32_ext d t off _ h1).1]
    simp only at h ⊢
    split at h
    · cases h
    · rename_i hl
      cases h
      rw [if_neg (by rw [List.length_append]; omega), drop_append_take d t o1 n (by omega)]
      exact ⟨rfl, by simp only; omega⟩

/-- An entry decoded from a byte string is decoded from every extension of it, and was
read below the length of the string. -/
theorem decodeEntry_ext (d t : Bytes) (off : Nat) (r : Entry × Nat)
    (h : decodeEntry d off = .inr r) :
    decodeEntry (d ++ t) off = .inr r ∧ r.2 ≤ d.length := by
  unfold decodeEntry at h ⊢
  cases h1 : read_string d off with
  | none => rw [h1] at h; cases h
  | some p1 =>
    obtain ⟨path, o1⟩ := p1
    rw [h1] at h
    rw [(read_string_ext d t off _ h1).1]
    simp only at h ⊢
    cases h2 : read_bytes d o1 1 with
    | none => rw [h2] at h; cases h
    | some p2 =>
      obtain ⟨ty, o2⟩ := p2
      rw [h2] at h
      rw [(read_bytes_ext d t o1 1 _ h2).1]
      simp only at h ⊢
      cases h3 : read_u32 d o2 with
      | none => rw [h3] at h; cases h
      | some p3 =>
        obtain ⟨fl, o3⟩ := p3
        rw [h3] at h
        rw [(read_u32_ext d t o2 _ h3).1]
        simp only at h ⊢
        cases h4 : read_u64 d o3 with
        | none => rw [h4] at h; cases h
        | some p4 =>
          obtain ⟨sz, o4⟩ := p4
          rw [h4] at h
          rw [(read_u64_ext d t o3 _ h4).1]
          simp only at h ⊢
          cases h5 : read_u64 d o4 with
          | none => rw [h5] at h; cases h
          | some p5 =>
            obtain ⟨dof, o5⟩ := p5
            rw [h5] at h
            rw [(read_u64_ext d t o4 _ h5).1]
            simp only at h ⊢
            cases h6 : read_u64 d o5 with
            | none => rw [h6] at h; cases h
            | some p6 =>
              obtain ⟨dsz, o6⟩ := p6
              rw [h6] at h
              rw [(read_u64_ext d t o5 _ h6).1]
              simp only at h ⊢
              cases h7 : read_bytes d o6 NONCE_SIZE with
              | none => rw [h7] at h; cases h
              | some p7 =>
                obtain ⟨nonce, o7⟩ := p7
                rw [h7] at h
                rw [(read_bytes_ext d t o6 NONCE_SIZE _ h7).1]
                simp only at h ⊢
                cases h8 : read_bytes d o7 TAG_SIZE with
                | none => rw [h8] at h; cases h
                | some p8 =>
                  obtain ⟨tag, o8⟩ := p8
                  rw [h8] at h
                  rw [(read_bytes_ext d t o7 TAG_SIZE _ h8).1]
                  simp only at h ⊢
                  cases h
                  exact ⟨rfl, (read_bytes_ext d t o7 TAG_SIZE _ h8).2⟩

/-- An early return of the entry decoder is a truncation error. -/
theorem decodeEntry_inl_truncated (d : Bytes) (off : Nat) (st : Status)
    (h : decodeEntry d off = .inl st) : ∃ what, st = truncated what := by
  unfold decodeEntry at h
  split at h
  · cases h; exact ⟨_, rfl⟩
  · split at h
    · cases h; exact ⟨_, rfl⟩
    · split at h
      · cases h; exact ⟨_, rfl⟩
      · split at h
        · cases h; exact ⟨_, rfl⟩
        · split at h
          · cases h; exact ⟨_, rfl⟩
          · split at h
            · cases h; exact ⟨_, rfl⟩
            · split at h
              · cases h; exact ⟨_, rfl⟩
              · split at h
                · cases h; exact ⟨_, rfl⟩
                · cases h

theorem decodeEntries_ext (d t : Bytes) (n : Nat) :
    ∀ (off : Nat) (acc : List Entry) (r : List Entry × Nat), off ≤ d.length →
      decodeEntries d n off acc = .inr r →
      decodeEntries (d ++ t) n off acc = .inr r ∧ r.2 ≤ d.length := by
  induction n with
  | zero =>
    intro off acc r hoff h
    simp only [decodeEntries] at h ⊢
    cases h
    exact ⟨rfl, hoff⟩
  | succ n ih =>
    intro off acc r hoff h
    simp only [decodeEntries] at h ⊢
    cases h1 : decodeEntry d off with
    | inl st => rw [h1] at h; cases h
    | inr p =>
      obtain ⟨e, o1⟩ := p
      rw [h1] at h
      obtain ⟨e1, e2⟩ := decodeEntry_ext d t off _ h1
      rw [e1]
      simp only at h ⊢
      exact ih o1 _ r e2 h

theorem decodeEntries_inl_truncated (d : Bytes) (n : Nat) :
    ∀ (off : Nat) (acc es : List Entry) (st : Status),
      decodeEntries d n off acc = .inl (st, es) → ∃ what, st = truncated what := by
  induction n with
  | zero => intro off acc es st h; simp only [decodeEntries] at h; cases h
  | succ n ih =>
    intro off acc es st h
    simp only [decodeEntries] at h
    cases h1 : decodeEntry d off with
    | inl st1 =>
      rw [h1] at h
      cases h
      exact decodeEntry_inl_truncated d off _ h1
    | inr p =>
      obtain ⟨e, o1⟩ := p
      rw [h1] at h
      exact ih o1 _ es st h

/-- What decode_index read from a byte string it accepts. -/
theorem decode_index_ok_inv (b : Bytes) (idx : Index) (h : decode_reserved b = (Status.ok, idx)) :
    ∃ count, read_u32 b 0 = some (IDX_MAGIC, 4) ∧ read_u32 b 4 = some (IDX_VER, 8) ∧
      read_u32 b 8 = some (count, 12) ∧
      decodeEntries b count 12 [] = .inr (idx.entries, b.length) := by
  have hne : ∀ what, truncated what ≠ Status.ok := by
    intro what hc
    have := congrArg Status.code hc
    simp [truncated, Status.err, Status.ok] at this
  have hoff : ∀ (o : Nat) (r : Nat × Nat), read_u32 b o = some r → r.2 = o + 4 := by
    intro o r hr
    unfold read_u32 at hr
    split at hr
    · cases hr
    · cases hr; rfl
  unfold decode_reserved at h
  cases h1 : read_u32 b 0 with
  | none =>
    rw [h1] at h
    simp only [Prod.mk.injEq] at h
    exact (hne _ h.1).elim
  | some p1 =>
    obtain ⟨magic, o1⟩ := p1
    have e1 := hoff 0 _ h1
    simp only at e1
    subst e1
    rw [h1] at h
    simp only at h
    cases h2 : read_u32 b (0 + 4) with
    | none =>
      rw [h2] at h
      simp only [Prod.mk.injEq] at h
      exact (hne _ h.1).elim
    | some p2 =>
      obtain ⟨ver, o2⟩ := p2
      have e2 := hoff _ _ h2
      simp only at e2
      subst e2
      rw [h2] at h
      simp only at h
      cases h3 : read_u32 b (0 + 4 + 4) with
      | none =>
        rw [h3] at h
        simp only [Prod.mk.injEq] at h
        exact (hne _ h.1).elim
      | some p3 =>
        obtain ⟨count, o3⟩ := p3
        have e3 := hoff _ _ h3
        simp only at e3
        subst e3
        rw [h3] at h
        simp only at h
        by_cases hm : magic ≠ IDX_MAGIC
        · rw [if_pos hm] at h
          simp only [Prod.mk.injEq] at h
          have := congrArg Status.code h.1
          simp [Status.err, Status.ok] at this
        rw [if_neg hm] at h
        by_cases hv : ver ≠ IDX_VER
        · rw [if_pos hv] at h
          simp only [Prod.mk.injEq] at h
          have := congrArg Status.code h.1
          simp [Status.err, Status.ok] at this
        rw [if_neg hv] at h
        simp only [ne_eq, not_not] at hm hv
        subst hm
        subst hv
        cases h4 : decodeEntries b count (0 + 4 + 4 + 4) [] with
        | inl q =>
          obtain ⟨st, es⟩ := q
          rw [h4] at h
          simp only [Prod.mk.injEq] at h
          obtain ⟨what, hw⟩ := decodeEntries_inl_truncated b count _ _ _ _ h4
          rw [hw] at h
          exact (hne _ h.1).elim
        | inr q =>
          obtain ⟨es, off⟩ := q
          rw [h4] at h
          simp only at h
          by_cases ho : off ≠ b.length
          · rw [if_pos ho] at h
            simp only [Prod.mk.injEq] at h
            have := congrArg Status.code h.1
            simp [Status.err, Status.ok] at this
          rw [if_neg ho] at h
          simp only [ne_eq, not_not] at ho
          simp only [Prod.mk.injEq, true_and] at h
          subst ho
          rw [← h]
          exact ⟨count, rfl, rfl, rfl, h4⟩

/-- The decoding of a byte string that is accepted ends at its length: an extension is
rejected for trailing bytes after the same entries, a proper prefix as truncated. -/
theorem decode_reserved_exact (b : Bytes) (idx : Index)
    (h : decode_reserved b = (Status.ok, idx)) :
    (∃ count, read_u32 b 8 = some (count, 12) ∧
      decodeEntries b count 12 [] = .inr (idx.entries, b.length)) ∧
    (∀ t, t ≠ [] →
      decode_reserved (b ++ t) =
        (Status.err ExitCode.IntegrityError "index: trailing bytes", idx)) ∧
    (∀ m, m < b.length →
      ∃ what es, decode_reserved (b.take m) =
        (Status.err ExitCode.IntegrityError ("index: truncated (" ++ what ++ ")"), ⟨es⟩)) := by
  obtain ⟨count, h1, h2, h3, h4⟩ := decode_index_ok_inv b idx h
  refine ⟨⟨count, h3, h4⟩, ?_, ?_⟩
  · intro t ht
    have hlen : 12 ≤ b.length := (read_u32_ext b t 8 _ h3).2
    unfold decode_reserved
    rw [(read_u32_ext b t 0 _ h1).1]
    simp only
    rw [(read_u32_ext b t 4 _ h2).1]
    simp only
    rw [(read_u32_ext b t 8 _ h3).1]
    simp only
    rw [if_neg (by simp), if_neg (by simp),
      (decodeEntries_ext b t count 12 [] _ hlen h4).1]
    simp only
    rw [if_pos]
    rw [List.length_append]
    have : 0 < t.length := List.length_pos.mpr ht
    omega
  · intro m hm
    have hb : b = b.take m ++ b.drop m := (List.take_append_drop m b).symm
    have hpl : (b.take m).length = m := by rw [List.length_take]; omega
    generalize hp : b.take m = p at hb hpl
    generalize b.drop m = t at hb
    subst hb
    unfold decode_reserved
    cases r1 : read_u32 p 0 with
    | none => exact ⟨"magic", [], rfl⟩
    | some q1 =>
      have e1 := (read_u32_ext p t 0 _ r1).1
      rw [h1] at e1
      cases e1
      simp only
      cases r2 : read_u32 p 4 with
      | none => exact ⟨"ver", [], rfl⟩
      | some q2 =>
        have e2 := (read_u32_ext p t 4 _ r2).1
        rw [h2] at e2
        cases e2
        simp only
        cases r3 : read_u32 p 8 with
        | none => exact ⟨"count", [], rfl⟩
        | some q3 =>
          obtain ⟨e3, hl3⟩ := read_u32_ext p t 8 _ r3
          rw [h3] at e3
          cases e3
          simp only at hl3 ⊢
          rw [if_neg (by simp), if_neg (by simp)]
          cases r4 : decodeEntries p count 12 [] with
          | inl q =>
            obtain ⟨st, es⟩ := q
            obtain ⟨what, hw⟩ := decodeEntries_inl_truncated p count _ _ _ _ r4
            subst hw
            exact ⟨what, es, rfl⟩
          | inr q =>
            obtain ⟨e4, hl4⟩ := decodeEntries_ext p t count 12 [] _ hl3 r4
            rw [h4] at e4
            cases e4
            simp only at hl4
            rw [List.length_append] at hm hl4
            omega

theorem load_u32_le_append (d t : Bytes) (k : Nat) (h : k + 4 ≤ d.length) :
    endian.load_u32_le ((d ++ t).drop k) = endian.load_u32_le (d.drop k) := by
  rw [← load_u32_le_take ((d ++ t).drop k), drop_append_take d t k 4 h, load_u32_le_take]

/-- The reservation depends on the first twelve bytes only. -/
theorem reserve_refused_append (af : AllocFaults) (d t : Bytes) (h : 12 ≤ d.length) :
    reserve_refused af (d ++ t) = reserve_refused af d := by
  unfold reserve_refused
  rw [load_u32_le_append d t 0 (by omega), load_u32_le_append d t 4 (by omega),
    load_u32_le_append d t 8 (by omega)]
  congr 1
  rw [decide_eq_decide]
  constructor
  · intro hh
    exact ⟨h, hh.2⟩
  · intro hh
    refine ⟨?_, hh.2⟩
    rw [List.length_append]
    omega

theorem reserve_refused_short (af : AllocFaults) (d : Bytes) (h : d.length < 12) :
    reserve_refused af d = false := by
  unfold reserve_refused
  rw [Bool.and_eq_false_iff]
  left
  exact decide_eq_false (fun hh => by omega)

/-- A result of decode_index was not refused its reservation. -/
theorem decode_index_not_refused (af : AllocFaults) (data : Bytes) (r : Status × Index)
    (h : decode_index af data = .ok r) : reserve_refused af data = false := by
  rw [decode_index_eq] at h
  cases hr : reserve_refused af data with
  | false => rfl
  | true =>
    rw [hr, if_pos rfl] at h
    cases h

/-- The reservation is granted to the prefixes of an input it is granted to. -/
theorem reserve_refused_take (af : AllocFaults) (d : Bytes) (m : Nat)
    (h : reserve_refused af d = false) : reserve_refused af (d.take m) = false := by
  by_cases hm : (d.take m).length < 12
  · exact reserve_refused_short af _ hm
  · rw [← reserve_refused_append af (d.take m) (d.drop m) (by omega), List.take_append_drop]
    exact h

theorem decodeEntries_count (d : Bytes) (n : Nat) :
    ∀ (off : Nat) (acc es : List Entry) (off1 : Nat),
      decodeEntries d n off acc = .inr (es, off1) → es.length = acc.length + n := by
  induction n with
  | zero =>
    intro off acc es off1 h
    simp only [decodeEntries] at h
    cases h
    rfl
  | succ n ih =>
    intro off acc es off1 h
    simp only [decodeEntries] at h
    split at h
    · cases h
    · have := ih _ _ _ _ h
      rw [this, List.length_append, List.length_singleton]
      omega

/-- The host granted decode_index the storage of the entries it returned with Ok. -/
theorem decode_index_grants (af : AllocFaults) (b : Bytes) (idx : Index)
    (h : decode_index af b = .ok (Status.ok, idx)) : Grants af idx.entries.length := by
  have hr := decode_index_ok af b _ h
  have hg := decode_index_not_refused af b _ h
  obtain ⟨count, h1, h2, h3, h4⟩ := decode_index_ok_inv b idx hr
  have hc := decodeEntries_count b count 12 [] idx.entries b.length h4
  simp only [List.length_nil, Nat.zero_add] at hc
  unfold read_u32 at h1 h2 h3
  split at h1
  · cases h1
  · split at h2
    · cases h2
    · split at h3
      · cases h3
      · rename_i n1 n2 n3
        injection h1 with h1
        injection h1 with h1 _
        injection h2 with h2
        injection h2 with h2 _
        injection h3 with h3
        injection h3 with h3 _
        intro hne
        unfold reserve_refused at hg
        rw [h1, h2, h3, ← hc] at hg
        rw [Bool.and_eq_false_iff] at hg
        rcases hg with hg | hg
        · have := of_decide_eq_false hg
          exact (this ⟨by omega, rfl, rfl, hne⟩).elim
        · exact hg

end index

/-! ## C26 -/

/-- C26 (index decoding is exact-length): for every byte string b that decode_index
accepts, the entry loop ended at offset |b|; every extension of b by a non-empty t is
rejected with IntegrityError "index: trailing bytes", after the same entries were read
(the bytes beyond |b| are not looked at); and every proper prefix of b is rejected with
an IntegrityError whose message is "index: truncated (...)". -/
theorem C26_decode_exact_length (af : AllocFaults) (b : Bytes) (idx : index.Index)
    (h : index.decode_index af b = .ok (Status.ok, idx)) :
    (∃ count, index.read_u32 b 8 = some (count, 12) ∧
      index.decodeEntries b count 12 [] = .inr (idx.entries, b.length)) ∧
    (∀ t, t ≠ [] →
      index.decode_index af (b ++ t) =
        .ok (Status.err ExitCode.IntegrityError "index: trailing bytes", idx)) ∧
    (∀ m, m < b.length →
      ∃ what es, index.decode_index af (b.take m) =
        .ok (Status.err ExitCode.IntegrityError ("index: truncated (" ++ what ++ ")"),
          ⟨es⟩)) := by
  have hr := index.decode_index_ok af b _ h
  have hg := index.decode_index_not_refused af b _ h
  obtain ⟨⟨count, h3, h4⟩, h2, h5⟩ := index.decode_reserved_exact b idx hr
  refine ⟨⟨count, h3, h4⟩, ?_, ?_⟩
  · intro t ht
    have hlen : 12 ≤ b.length := (index.read_u32_ext b t 8 _ h3).2
    rw [index.decode_index_eq, index.reserve_refused_append af b t hlen, hg,
      if_neg Bool.false_ne_true, h2 t ht]
  · intro m hm
    obtain ⟨what, es, he⟩ := h5 m hm
    refine ⟨what, es, ?_⟩
    rw [index.decode_index_eq, index.reserve_refused_take af b m hg,
      if_neg Bool.false_ne_true, he]

set_option maxRecDepth 1000000 in
theorem C26_decode_exact_length_witness :
    index.decode_index noAllocFaults (index.encode_index demoIndex) =
      .ok (Status.ok, demoIndex) ∧
    index.decode_index noAllocFaults (index.encode_index demoIndex ++ [0]) =
      .ok (Status.err ExitCode.IntegrityError "index: trailing bytes", demoIndex) :=
  have h : index.decode_index noAllocFaults (index.encode_index demoIndex) =
      .ok (Status.ok, demoIndex) := by
    decide!
  ⟨h, (C26_decode_exact_length noAllocFaults _ demoIndex h).2.1 [0] (by decide)⟩

/-! ## The flag bits -/

theorem f_hidden_eq : fmt.F_HIDDEN = 2 ^ 1 := by decide

theorem f_deleted_eq : fmt.F_DELETED = 2 ^ 2 := by decide

theorem and_two_pow_eq_zero (f k : Nat) : f &&& 2 ^ k = 0 ↔ f.testBit k = false := by
  rw [Nat.and_two_pow]
  cases f.testBit k <;> simp

theorem or_two_pow_of_set (f k : Nat) (h : f &&& 2 ^ k ≠ 0) : f ||| 2 ^ k = f := by
  have hb : f.testBit k = true := by
    by_contra hc
    exact h ((and_two_pow_eq_zero f k).mpr (by simpa using hc))
  apply Nat.eq_of_testBit_eq
  intro i
  rw [Nat.testBit_or, Nat.testBit_two_pow]
  by_cases hi : k = i
  · subst hi
    rw [hb]
    rfl
  · simp [hi]

theorem or_two_pow_and (f k : Nat) : (f ||| 2 ^ k) &&& 2 ^ k ≠ 0 := by
  intro h
  have := (and_two_pow_eq_zero _ k).mp h
  rw [Nat.testBit_or, Nat.testBit_two_pow] at this
  simp at this

theorem or_two_pow_ne (f k : Nat) (h : f &&& 2 ^ k = 0) : f ||| 2 ^ k ≠ f := by
  intro hc
  have h1 := or_two_pow_and f k
  rw [hc] at h1
  exact h1 h

theorem or_two_pow_and_other (f k j : Nat) (h : k ≠ j) :
    (f ||| 2 ^ k) &&& 2 ^ j = f &&& 2 ^ j := by
  apply Nat.eq_of_testBit_eq
  intro i
  simp only [Nat.testBit_and, Nat.testBit_or, Nat.testBit_two_pow]
  by_cases hj : j = i
  · subst hj
    simp [h]
  · simp [hj]

/-- The complement of F_HIDDEN in 32 bits. -/
theorem testBit_not_hidden (i : Nat) :
    ((U32 - 1) ^^^ fmt.F_HIDDEN).testBit i = (decide (i < 32) && !decide (i = 1)) := by
  rw [Nat.testBit_xor, f_hidden_eq, Nat.testBit_two_pow,
    show U32 - 1 = 2 ^ 32 - 1 from rfl, Nat.testBit_two_pow_sub_one]
  by_cases h1 : i = 1
  · subst h1
    decide
  · have : ¬ 1 = i := fun h => h1 h.symm
    simp [h1, this]

theorem and_not_hidden_and_hidden (f : Nat) :
    (f &&& ((U32 - 1) ^^^ fmt.F_HIDDEN)) &&& fmt.F_HIDDEN = 0 := by
  rw [Nat.and_assoc, show ((U32 - 1) ^^^ fmt.F_HIDDEN) &&& fmt.F_HIDDEN = 0 by decide]
  simp

theorem and_not_hidden_and_deleted (f : Nat) :
    (f &&& ((U32 - 1) ^^^ fmt.F_HIDDEN)) &&& fmt.F_DELETED = f &&& fmt.F_DELETED := by
  rw [Nat.and_assoc,
    show ((U32 - 1) ^^^ fmt.F_HIDDEN) &&& fmt.F_DELETED = fmt.F_DELETED by decide]

theorem and_not_hidden_ne (f : Nat) (h : f &&& fmt.F_HIDDEN ≠ 0) :
    f &&& ((U32 - 1) ^^^ fmt.F_HIDDEN) ≠ f := by
  intro hc
  have := and_not_hidden_and_hidden f
  rw [hc] at this
  exact h this

/-- For a 32-bit value, the and with the complement of F_HIDDEN clears that bit and
leaves the others. -/
theorem and_not_hidden_eq (f : Nat) (hf : f < U32) :
    f &&& ((U32 - 1) ^^^ fmt.F_HIDDEN) = f ^^^ (f &&& fmt.F_HIDDEN) := by
  apply Nat.eq_of_testBit_eq
  intro i
  rw [Nat.testBit_and, testBit_not_hidden, Nat.testBit_xor, Nat.testBit_and, f_hidden_eq,
    Nat.testBit_two_pow]
  by_cases h32 : i < 32
  · by_cases h1 : i = 1
    · subst h1
      cases f.testBit 1 <;> rfl
    · have : ¬ 1 = i := fun h => h1 h.symm
      simp [h32, h1, this]
  · have hlt : f < 2 ^ i := Nat.lt_of_lt_of_le hf (Nat.pow_le_pow_right (by decide) (by omega))
    rw [Nat.testBit_lt_two_pow hlt]
    simp

/-- The flags of the specification: the HIDDEN bit gets the value asked for and every
other bit stays. -/
theorem with_hidden_testBit (hidden : Bool) (f : Nat) :
    (spec.with_hidden hidden f).testBit 1 = hidden ∧
      ∀ i, i ≠ 1 → (spec.with_hidden hidden f).testBit i = f.testBit i := by
  unfold spec.with_hidden
  cases hidden with
  | true =>
    simp only [if_true, f_hidden_eq, Nat.testBit_or, Nat.testBit_two_pow]
    refine ⟨by simp, fun i hi => ?_⟩
    have : ¬ 1 = i := fun h => hi h.symm
    simp [this]
  | false =>
    simp only [Bool.false_eq_true, if_false, f_hidden_eq, Nat.testBit_xor, Nat.testBit_and,
      Nat.testBit_two_pow]
    refine ⟨by cases f.testBit 1 <;> rfl, fun i hi => ?_⟩
    have : ¬ 1 = i := fun h => hi h.symm
    simp [this]

/-! ## The matching rule and the loops of delete and stealth -/

namespace vault

/-- The function is_prefix_path holds exactly when the path is the target or starts
with the target followed by a slash. -/
theorem is_prefix_path_iff (t p : Bytes) : is_prefix_path t p = true ↔ spec.under t p := by
  unfold is_prefix_path spec.under
  rw [show ascii "/" = [47] by decide]
  by_cases h : t = p
  · rw [if_pos h]
    exact ⟨fun _ => Or.inl h.symm, fun _ => rfl⟩
  · rw [if_neg h]
    constructor
    · intro hc
      split at hc
      · rename_i hh
        obtain ⟨h1, h2, h3⟩ := hh
        right
        refine ⟨p.drop (t.length + 1), ?_⟩
        have hp : p = p.take t.length ++ p.drop t.length := (List.take_append_drop _ _).symm
        have hd : p.drop t.length = 47 :: p.drop (t.length + 1) := by
          rw [List.drop_eq_getElem_cons (by omega)]
          rw [List.getD_eq_getElem _ _ (by omega)] at h3
          rw [h3]
        rw [h2, hd] at hp
        rw [List.append_assoc]
        exact hp.symm
      · cases hc
    · rintro (h1 | ⟨r, hr⟩)
      · exact (h h1.symm).elim
      · rw [if_pos]
        subst hr
        refine ⟨?_, ?_, ?_⟩
        · simp only [List.length_append, List.length_cons, List.length_nil]
          omega
        · rw [List.append_assoc, List.take_left']
          rfl
        · rw [List.append_assoc, List.getD_eq_getElem?_getD, List.getElem?_append_right (by omega)]
          simp

theorem any_is_prefix_path_iff (targets : List Bytes) (p : Bytes) :
    (targets.any fun t => is_prefix_path t p) = true ↔ spec.matched targets p := by
  rw [List.any_eq_true]
  unfold spec.matched
  constructor
  · rintro ⟨t, ht, h⟩
    exact ⟨t, ht, (is_prefix_path_iff t p).mp h⟩
  · rintro ⟨t, ht, h⟩
    exact ⟨t, ht, (is_prefix_path_iff t p).mpr h⟩

/-- The inner loop of delete for one entry. -/
theorem deleteEntry_eq (paths : List Bytes) :
    ∀ (e : index.Entry) (any : Bool),
      deleteEntry paths e any =
        if spec.matched paths e.path ∧ e.flags &&& fmt.F_DELETED = 0 then
          ({ e with flags := e.flags ||| fmt.F_DELETED }, true)
        else (e, any) := by
  induction paths with
  | nil =>
    intro e any
    rw [if_neg]
    · rfl
    · rintro ⟨⟨t, ht, _⟩, _⟩
      cases ht
  | cons p rest ih =>
    intro e any
    have hm : spec.matched (p :: rest) e.path ↔ spec.under p e.path ∨ spec.matched rest e.path := by
      unfold spec.matched
      simp only [List.mem_cons, exists_eq_or_imp]
    unfold deleteEntry at ih ⊢
    rw [List.foldl_cons]
    show List.foldl _
      (if is_prefix_path p e.path = true then
        if e.flags &&& fmt.F_DELETED = 0 then
          ({ e with flags := e.flags ||| fmt.F_DELETED }, true)
        else (e, any)
      else (e, any)) rest = _
    by_cases hp : is_prefix_path p e.path = true
    · have hu := (is_prefix_path_iff p e.path).mp hp
      rw [if_pos hp]
      by_cases hd : e.flags &&& fmt.F_DELETED = 0
      · rw [if_pos hd, ih, if_neg, if_pos ⟨hm.mpr (Or.inl hu), hd⟩]
        rintro ⟨_, hc⟩
        simp only at hc
        rw [f_deleted_eq] at hc
        exact or_two_pow_and e.flags 2 hc
      · rw [if_neg hd, ih, if_neg (fun hc => hd hc.2), if_neg (fun hc => hd hc.2)]
    · rw [if_neg hp, ih]
      have hu : ¬ spec.under p e.path := fun hc => hp ((is_prefix_path_iff p e.path).mpr hc)
      by_cases hc : spec.matched rest e.path ∧ e.flags &&& fmt.F_DELETED = 0
      · rw [if_pos hc, if_pos ⟨hm.mpr (Or.inr hc.1), hc.2⟩]
      · rw [if_neg hc, if_neg]
        rintro ⟨h1, h2⟩
        rcases hm.mp h1 with h3 | h3
        · exact hu h3
        · exact hc ⟨h3, h2⟩

/-- The entry the specification gives after a delete is the entry the loop leaves. -/
theorem deleted_entry_eq (paths : List Bytes) (e : index.Entry) (any : Bool) :
    (deleteEntry paths e any).1 = spec.deleted_entry paths e := by
  rw [deleteEntry_eq]
  unfold spec.deleted_entry
  by_cases hm : spec.matched paths e.path
  · by_cases hd : e.flags &&& fmt.F_DELETED = 0
    · rw [if_pos ⟨hm, hd⟩, if_pos hm]
    · rw [if_neg (fun hc => hd hc.2), if_pos hm]
      rw [f_deleted_eq] at hd ⊢
      rw [or_two_pow_of_set _ _ hd]
  · rw [if_neg (fun hc => hm hc.1), if_neg hm]

/-- The outer loop of delete: the entries of the specification, and the flag any set
exactly when an entry that was matched was not yet deleted. -/
theorem deleteEntries_eq (paths : List Bytes) (es : List index.Entry) :
    ∀ any : Bool,
      (deleteEntries paths es any).1 = es.map (spec.deleted_entry paths) ∧
      ((deleteEntries paths es any).2 = true ↔
        any = true ∨ ∃ e ∈ es, spec.matched paths e.path ∧ e.flags &&& fmt.F_DELETED = 0) := by
  induction es with
  | nil => intro any; simp [deleteEntries]
  | cons e rest ih =>
    intro any
    simp only [deleteEntries, List.map_cons, List.mem_cons, exists_eq_or_imp]
    obtain ⟨i1, i2⟩ := ih (deleteEntry paths e any).2
    refine ⟨by rw [i1, deleted_entry_eq], ?_⟩
    rw [i2, deleteEntry_eq]
    by_cases hc : spec.matched paths e.path ∧ e.flags &&& fmt.F_DELETED = 0
    · rw [if_pos hc]
      simp [hc]
    · rw [if_neg hc]
      simp only
      constructor
      · rintro (h | h)
        · exact Or.inl h
        · exact Or.inr (Or.inr h)
      · rintro (h | h | h)
        · exact Or.inl h
        · exact (hc h).elim
        · exact Or.inr h

/-- The entries change under a delete exactly when an entry that is matched was not yet
deleted. -/
theorem deleted_entries_ne_iff (paths : List Bytes) (es : List index.Entry) :
    es.map (spec.deleted_entry paths) ≠ es ↔
      ∃ e ∈ es, spec.matched paths e.path ∧ e.flags &&& fmt.F_DELETED = 0 := by
  induction es with
  | nil => simp
  | cons e rest ih =>
    simp only [List.map_cons, ne_eq, List.cons.injEq, not_and_or, List.mem_cons,
      exists_eq_or_imp]
    have he : ¬ spec.deleted_entry paths e = e ↔
        spec.matched paths e.path ∧ e.flags &&& fmt.F_DELETED = 0 := by
      unfold spec.deleted_entry
      by_cases hm : spec.matched paths e.path
      · rw [if_pos hm]
        by_cases hd : e.flags &&& fmt.F_DELETED = 0
        · refine ⟨fun _ => ⟨hm, hd⟩, fun _ hc => ?_⟩
          have := congrArg index.Entry.flags hc
          simp only at this
          rw [f_deleted_eq] at this hd
          exact or_two_pow_ne _ _ hd this
        · refine ⟨fun hc => (hc ?_).elim, fun hc => (hd hc.2).elim⟩
          rw [f_deleted_eq] at hd ⊢
          rw [or_two_pow_of_set _ _ hd]
      · rw [if_neg hm]
        exact ⟨fun hc => (hc rfl).elim, fun hc => (hm hc.1).elim⟩
    rw [he]
    exact or_congr Iff.rfl ih

end vault

namespace vault

/-- The condition under which the stealth loop changes an entry: it is matched, not
deleted, and its HIDDEN bit is not the value asked for. -/
theorem hideEntry_eq (paths : List Bytes) (hidden : Bool) :
    ∀ (e : index.Entry) (any : Bool),
      hideEntry paths hidden e any =
        if spec.matched paths e.path ∧ e.flags &&& fmt.F_DELETED = 0 ∧
            ((e.flags &&& fmt.F_HIDDEN = 0) ↔ hidden = true) then
          ({ e with flags := if hidden then e.flags ||| fmt.F_HIDDEN
                             else e.flags &&& ((U32 - 1) ^^^ fmt.F_HIDDEN) }, true)
        else (e, any) := by
  induction paths with
  | nil =>
    intro e any
    rw [if_neg]
    · rfl
    · rintro ⟨⟨t, ht, _⟩, _⟩
      cases ht
  | cons p rest ih =>
    intro e any
    have hm : spec.matched (p :: rest) e.path ↔ spec.under p e.path ∨ spec.matched rest e.path := by
      unfold spec.matched
      simp only [List.mem_cons, exists_eq_or_imp]
    unfold hideEntry at ih ⊢
    rw [List.foldl_cons]
    show List.foldl _
      (if is_prefix_path p e.path = true then
        if (e.flags &&& fmt.F_DELETED) ≠ 0 then (e, any)
        else if hidden = true then
          if (e.flags &&& fmt.F_HIDDEN) = 0 then
            ({ e with flags := e.flags ||| fmt.F_HIDDEN }, true)
          else (e, any)
        else
          if (e.flags &&& fmt.F_HIDDEN) ≠ 0 then
            ({ e with flags := e.flags &&& ((U32 - 1) ^^^ fmt.F_HIDDEN) }, true)
          else (e, any)
      else (e, any)) rest = _
    have keep : List.foldl _ (e, any) rest = _ := ih e any
    by_cases hp : is_prefix_path p e.path = true
    · have hu := (is_prefix_path_iff p e.path).mp hp
      rw [if_pos hp]
      by_cases hd : e.flags &&& fmt.F_DELETED = 0
      · rw [if_neg (by simp only [ne_eq, not_not]; exact hd)]
        cases hidden with
        | true =>
          rw [if_pos rfl]
          by_cases hh : e.flags &&& fmt.F_HIDDEN = 0
          · rw [if_pos hh, ih, if_neg, if_pos ⟨hm.mpr (Or.inl hu), hd, by simp [hh]⟩]
            · rfl
            · rintro ⟨_, _, hc⟩
              simp only [iff_true] at hc
              rw [f_hidden_eq] at hc
              exact or_two_pow_and e.flags 1 hc
          · rw [if_neg hh, keep, if_neg, if_neg]
            · rintro ⟨_, _, hc⟩
              exact hh (hc.mpr rfl)
            · rintro ⟨_, _, hc⟩
              exact hh (hc.mpr rfl)
        | false =>
          rw [if_neg (by simp)]
          by_cases hh : e.flags &&& fmt.F_HIDDEN = 0
          · rw [if_neg (by simp only [ne_eq, not_not]; exact hh), keep, if_neg, if_neg]
            · rintro ⟨_, _, hc⟩
              have := hc.mp hh
              cases this
            · rintro ⟨_, _, hc⟩
              have := hc.mp hh
              cases this
          · rw [if_pos hh, ih, if_neg, if_pos ⟨hm.mpr (Or.inl hu), hd, by simp [hh]⟩]
            · rfl
            · rintro ⟨_, _, hc⟩
              simp only at hc
              have := hc.mp (and_not_hidden_and_hidden e.flags)
              cases this
      · rw [if_pos hd, keep, if_neg (fun hc => hd hc.2.1), if_neg (fun hc => hd hc.2.1)]
    · rw [if_neg hp, keep]
      have hu : ¬ spec.under p e.path := fun hc => hp ((is_prefix_path_iff p e.path).mpr hc)
      by_cases hc : spec.matched rest e.path ∧ e.flags &&& fmt.F_DELETED = 0 ∧
          ((e.flags &&& fmt.F_HIDDEN = 0) ↔ hidden = true)
      · have hc2 : spec.matched (p :: rest) e.path ∧ e.flags &&& fmt.F_DELETED = 0 ∧
            ((e.flags &&& fmt.F_HIDDEN = 0) ↔ hidden = true) := ⟨hm.mpr (Or.inr hc.1), hc.2⟩
        rw [if_pos hc, if_pos hc2]
      · rw [if_neg hc, if_neg]
        rintro ⟨h1, h2⟩
        rcases hm.mp h1 with h3 | h3
        · exact hu h3
        · exact hc ⟨h3, h2⟩

/-- The entry the specification gives after a stealth set or clear is the entry the
loop leaves, for 32-bit flags. -/
theorem stealth_entry_eq (paths : List Bytes) (hidden : Bool) (e : index.Entry) (any : Bool)
    (hf : e.flags < U32) :
    (hideEntry paths hidden e any).1 = spec.stealth_entry paths hidden e := by
  rw [hideEntry_eq]
  unfold spec.stealth_entry spec.with_hidden
  by_cases hm : spec.matched paths e.path ∧ e.flags &&& fmt.F_DELETED = 0
  · rw [if_pos hm]
    by_cases hb : (e.flags &&& fmt.F_HIDDEN = 0) ↔ hidden = true
    · rw [if_pos ⟨hm.1, hm.2, hb⟩]
      cases hidden with
      | true => rfl
      | false =>
        simp only [Bool.false_eq_true, if_false]
        rw [and_not_hidden_eq _ hf]
    · rw [if_neg (fun hc => hb hc.2.2)]
      cases hidden with
      | true =>
        simp only [if_true]
        have hh : e.flags &&& fmt.F_HIDDEN ≠ 0 := fun hc => hb ⟨fun _ => rfl, fun _ => hc⟩
        rw [f_hidden_eq] at hh ⊢
        rw [or_two_pow_of_set _ _ hh]
      | false =>
        simp only [Bool.false_eq_true, if_false]
        have hh : e.flags &&& fmt.F_HIDDEN = 0 := by
          by_contra hc
          exact hb ⟨fun h => (hc h).elim, fun h => by cases h⟩
        rw [hh, Nat.xor_zero]
  · rw [if_neg (fun hc => hm ⟨hc.1, hc.2.1⟩), if_neg hm]

/-- The entry of the specification differs from the entry exactly under the condition
of the loop. -/
theorem stealth_entry_ne_iff (paths : List Bytes) (hidden : Bool) (e : index.Entry)
    (hf : e.flags < U32) :
    spec.stealth_entry paths hidden e ≠ e ↔
      spec.matched paths e.path ∧ e.flags &&& fmt.F_DELETED = 0 ∧
        ((e.flags &&& fmt.F_HIDDEN = 0) ↔ hidden = true) := by
  rw [← stealth_entry_eq paths hidden e false hf, hideEntry_eq]
  by_cases hc : spec.matched paths e.path ∧ e.flags &&& fmt.F_DELETED = 0 ∧
      ((e.flags &&& fmt.F_HIDDEN = 0) ↔ hidden = true)
  · rw [if_pos hc]
    refine ⟨fun _ => hc, fun _ h => ?_⟩
    have hfl := congrArg index.Entry.flags h
    simp only at hfl
    cases hidden with
    | true =>
      simp only [if_true] at hfl
      rw [f_hidden_eq] at hfl hc
      exact or_two_pow_ne _ _ (hc.2.2.mpr rfl) hfl
    | false =>
      simp only [Bool.false_eq_true, if_false] at hfl
      refine and_not_hidden_ne e.flags (fun h0 => ?_) hfl
      have := hc.2.2.mp h0
      cases this
  · rw [if_neg hc]
    exact ⟨fun h => (h rfl).elim, fun h => (hc h).elim⟩

/-- The outer loop of stealth. -/
theorem hideEntries_eq (paths : List Bytes) (hidden : Bool) (es : List index.Entry)
    (hf : ∀ e ∈ es, e.flags < U32) :
    ∀ any : Bool,
      (hideEntries paths hidden es any).1 = es.map (spec.stealth_entry paths hidden) ∧
      ((hideEntries paths hidden es any).2 = true ↔
        any = true ∨ ∃ e ∈ es, spec.stealth_entry paths hidden e ≠ e) := by
  induction es with
  | nil => intro any; simp [hideEntries]
  | cons e rest ih =>
    intro any
    have hfe := hf e (List.mem_cons_self _ _)
    simp only [hideEntries, List.map_cons, List.mem_cons, exists_eq_or_imp]
    obtain ⟨i1, i2⟩ := ih (fun x hx => hf x (List.mem_cons_of_mem _ hx))
      (hideEntry paths hidden e any).2
    refine ⟨by rw [i1, stealth_entry_eq _ _ _ _ hfe], ?_⟩
    rw [i2, stealth_entry_ne_iff _ _ _ hfe, hideEntry_eq]
    by_cases hc : spec.matched paths e.path ∧ e.flags &&& fmt.F_DELETED = 0 ∧
        ((e.flags &&& fmt.F_HIDDEN = 0) ↔ hidden = true)
    · rw [if_pos hc]
      simp [hc]
    · rw [if_neg hc]
      simp only
      constructor
      · rintro (h | h)
        · exact Or.inl h
        · exact Or.inr (Or.inr h)
      · rintro (h | h | h)
        · exact Or.inl h
        · exact (hc h).elim
        · exact Or.inr h

theorem map_ne_iff {α : Type} (f : α → α) (l : List α) : l.map f ≠ l ↔ ∃ x ∈ l, f x ≠ x := by
  induction l with
  | nil => simp
  | cons a l ih =>
    simp only [List.map_cons, ne_eq, List.cons.injEq, not_and_or, List.mem_cons,
      exists_eq_or_imp]
    exact or_congr Iff.rfl ih

end vault

namespace index

theorem read_u32_off (d : Bytes) (o v o1 : Nat) (h : read_u32 d o = some (v, o1)) :
    o1 = o + 4 := by
  unfold read_u32 at h
  split at h
  · cases h
  · cases h; rfl

theorem read_u64_off (d : Bytes) (o v o1 : Nat) (h : read_u64 d o = some (v, o1)) :
    o1 = o + 8 := by
  unfold read_u64 at h
  split at h
  · cases h
  · cases h; rfl

theorem read_bytes_off (d : Bytes) (o n : Nat) (bs : Bytes) (o1 : Nat)
    (h : read_bytes d o n = some (bs, o1)) : o1 = o + n := by
  unfold read_bytes at h
  split at h
  · cases h
  · cases h; rfl

theorem read_string_off (d : Bytes) (o : Nat) (s : Bytes) (o1 : Nat)
    (h : read_string d o = some (s, o1)) : o1 = o + 4 + s.length := by
  unfold read_string at h
  split at h
  · cases h
  · rename_i n off1 hn
    have h4 := read_u32_off d o n off1 hn
    split at h
    · cases h
    · rename_i hg
      cases h
      rw [List.length_take, List.length_drop]
      omega

/-- An entry read at off ends 73 + |path| bytes after off. -/
theorem decodeEntry_off (d : Bytes) (off : Nat) (e : Entry) (off1 : Nat)
    (h : decodeEntry d off = .inr (e, off1)) : off1 = off + 73 + e.path.length := by
  unfold decodeEntry at h
  split at h
  · cases h
  · rename_i hpath
    split at h
    · cases h
    · rename_i htype
      split at h
      · cases h
      · rename_i hflags
        split at h
        · cases h
        · rename_i hsize
          split at h
          · cases h
          · rename_i hoff
            split at h
            · cases h
            · rename_i hds
              split at h
              · cases h
              · rename_i hnonce
                split at h
                · cases h
                · rename_i htag
                  cases h
                  have a1 := read_string_off _ _ _ _ hpath
                  have a2 := read_bytes_off _ _ _ _ _ htype
                  have a3 := read_u32_off _ _ _ _ hflags
                  have a4 := read_u64_off _ _ _ _ hsize
                  have a5 := read_u64_off _ _ _ _ hoff
                  have a6 := read_u64_off _ _ _ _ hds
                  have a7 := read_bytes_off _ _ _ _ _ hnonce
                  have a8 := read_bytes_off _ _ _ _ _ htag
                  simp only [NONCE_SIZE, TAG_SIZE] at a7 a8
                  simp only
                  omega

theorem decodeEntries_off (d : Bytes) (n : Nat) :
    ∀ (off : Nat) (acc es : List Entry) (off1 : Nat),
      decodeEntries d n off acc = .inr (es, off1) →
      off1 + (acc.map fun e => 73 + e.path.length).sum =
        off + (es.map fun e => 73 + e.path.length).sum := by
  induction n with
  | zero =>
    intro off acc es off1 h
    simp only [decodeEntries] at h
    cases h
    rfl
  | succ n ih =>
    intro off acc es off1 h
    simp only [decodeEntries] at h
    split at h
    · cases h
    · rename_i e o1 he
      have h1 := ih _ _ _ _ h
      have h2 := decodeEntry_off d off e o1 he
      rw [List.map_append, List.sum_append] at h1
      simp only [List.map_cons, List.map_nil, List.sum_cons, List.sum_nil] at h1
      omega

/-- A decoding with a status that is ok has the status ok. -/
theorem decode_index_status (data : Bytes) (st : Status) (idx : Index)
    (h : decode_reserved data = (st, idx)) (hok : st.is_ok = true) : st = Status.ok := by
  unfold decode_reserved at h
  split at h
  · cases h; cases hok
  · split at h
    · cases h; cases hok
    · split at h
      · cases h; cases hok
      · split at h
        · cases h; cases hok
        · split at h
          · cases h; cases hok
          · split at h
            · rename_i st1 es hd
              cases h
              rw [decodeEntries_inl_not_ok _ _ _ _ _ _ hd] at hok
              cases hok
            · split at h
              · cases h; cases hok
              · cases h
                rfl

end index

namespace vault

theorem encode_index_length_sum (idx : index.Index) :
    (index.encode_index idx).length =
      12 + (idx.entries.map fun e => 73 + e.path.length).sum := by
  rw [encode_index_length]
  congr 1
  induction idx.entries with
  | nil => rfl
  | cons e es ih =>
    rw [List.flatMap_cons, List.length_append, index.entryBytes_length, ih]
    simp

/-- The encoding of a decoded index has the length of the bytes decoded. -/
theorem decoded_index_length (b : Bytes) (idx : index.Index)
    (h : index.decode_reserved b = (Status.ok, idx)) :
    (index.encode_index idx).length = b.length := by
  obtain ⟨count, _, _, _, h4⟩ := index.decode_index_ok_inv b idx h
  have h5 := index.decodeEntries_off b count 12 [] idx.entries b.length h4
  rw [encode_index_length_sum]
  simp only [List.map_nil, List.sum_nil] at h5
  omega

theorem kept_length_sum (es kept : List index.Entry) (h : List.Forall₂ Kept es kept) :
    (kept.map fun e => 73 + e.path.length).sum = (es.map fun e => 73 + e.path.length).sum := by
  induction h with
  | nil => rfl
  | @cons a b l1 l2 hk _ ih =>
    simp only [List.map_cons, List.sum_cons, ih, hk.1.1]

/-- After an update that only changes flags, the reader opens the vault with the new
entries and the header and keys of the old vault. -/
theorem flag_update_reopens (af2 : AllocFaults) (env : Env) (rng : Rng) (fs fs1 : FileSys)
    (vp : String) (password : Bytes) (st0 st : Status) (vo : VaultOpen) (old : Bytes)
    (new_es : List index.Entry)
    (hopen : open_for_view env.io.reserveFails fs vp password = .ok (st0, vo))
    (hst0 : st0.is_ok = true)
    (hold : fs vp = some old) (hbytes : ∀ b ∈ old, b < 256) (hsmall : old.length < 2 ^ 62)
    (hk : List.Forall₂ Kept vo.idx.entries new_es)
    (h : atomic_rewrite_vault env fs vp vo ⟨new_es⟩ rng noExtra = .ok (st, fs1))
    (hok : st.is_ok = true) (hmem : index.Grants af2 new_es.length) :
    ∃ vo2 : VaultOpen, open_for_view af2 fs1 vp password = .ok (Status.ok, vo2) ∧
      vo2.idx = ⟨new_es⟩ ∧ vo2.header = vo.header ∧ vo2.keys = vo.keys := by
  obtain ⟨old1, c, s1, stx, tag, hold1, hcg, hcd, hpl, hge, hrun, hsx, _, hmac, hfs1⟩ :=
    atomic_rewrite_ok_inv env fs fs1 vp vo ⟨new_es⟩ rng noExtra st h hok
  rw [hold] at hold1
  cases hold1
  simp only [noExtra] at hrun
  cases hrun
  simp only at hmac hfs1
  rw [hcd] at hfs1
  obtain ⟨content, hdr, tr, ib, hfile, hso, htail⟩ :=
    open_for_view_ok_inv fs vp password st0 vo hopen hst0
  rw [hold] at hfile
  cases hfile
  obtain ⟨hh, ht, _, _, hdec⟩ := open_tail_ok_inv password ib _ st0 vo htail hst0
  simp only at hh ht
  have hst := index.decode_index_status ib st0 vo.idx hdec hst0
  subst hst
  have hdl := decoded_index_length ib vo.idx hdec
  have hil := hso.ilen
  have him := hso.isize_max
  have hu : Updated vo old
      (old.take vo.trailer.index_offset ++ index.encode_index ⟨new_es⟩ ++
        trailer_bytes (written_trailer (old.take vo.trailer.index_offset)
          (index.encode_index ⟨new_es⟩) tag)) [] new_es [] tag :=
    { old_len := hpl
      offset_ge := hge
      bytes_eq := by simp only [List.append_nil]
      mac_eq := by simp only [List.append_nil]; exact hmac
      kept_ok := hk
      added_ok := fun _ => ⟨[], by
        have := addedOk_nil vo.keys (old.take vo.trailer.index_offset ++ [])
        rw [List.append_nil] at this ⊢
        rw [hpl] at this
        exact this⟩ }
  have hsame : (index.encode_index ⟨new_es⟩).length = (index.encode_index vo.idx).length := by
    rw [encode_index_length_sum, encode_index_length_sum]
    simp only
    rw [kept_length_sum _ _ hk]
  have hlen : (index.encode_index ⟨new_es ++ []⟩).length ≤ MAX_INDEX_SIZE := by
    rw [List.append_nil, hsame, hdl, hil]
    exact him
  have htag : tag.length = TAG_SIZE := mac_compute_length _ _ _ hmac
  have htl : (trailer_bytes (written_trailer (old.take vo.trailer.index_offset)
      (index.encode_index ⟨new_es⟩) tag)).length = fmt.INDEX_TRAILER_SIZE :=
    trailer_bytes_length _ rfl htag
  have hnl : (old.take vo.trailer.index_offset ++ index.encode_index ⟨new_es⟩ ++
        trailer_bytes (written_trailer (old.take vo.trailer.index_offset)
          (index.encode_index ⟨new_es⟩) tag)).length < 2 ^ 63 := by
    rw [List.length_append, List.length_append, htl, hpl]
    rw [List.append_nil] at hlen
    have h1 : vo.trailer.index_offset ≤ old.length := by
      rw [← hpl]
      rw [List.length_take]
      exact Nat.min_le_right _ _
    simp only [MAX_INDEX_SIZE] at hlen
    simp only [fmt.INDEX_TRAILER_SIZE, TAG_SIZE]
    omega
  have hre := reopen_updated af2 fs fs1 vp password Status.ok vo old _ [] new_es [] tag hopen rfl
    hold hbytes hfs1 hu hnl hlen (by rw [List.append_nil]; exact hmem)
  rw [hre]
  exact ⟨_, rfl, by simp only [List.append_nil], rfl, rfl⟩

/-- The host granted a successful open_for_view the storage of the entries returned. -/
theorem open_ok_grants {af : AllocFaults} (fs : FileSys) (vp : String) (password : Bytes)
    (st0 : Status) (vo : VaultOpen)
    (hopen : open_for_view af fs vp password = .ok (st0, vo)) (hst0 : st0.is_ok = true) :
    index.Grants af vo.idx.entries.length := by
  obtain ⟨content, hdr, tr, ib, _, _, htail⟩ :=
    open_for_view_ok_inv fs vp password st0 vo hopen hst0
  have hd := open_tail_ok_decode password ib _ st0 vo htail hst0
  obtain ⟨_, _, _, _, hdec⟩ := open_tail_ok_inv password ib _ st0 vo htail hst0
  have hst := index.decode_index_status ib st0 vo.idx hdec hst0
  subst hst
  exact index.decode_index_grants af ib vo.idx hd

end vault

namespace vault

/-- The statuses of the block writing the temp file, when nothing is appended, are not
the statuses of an update that changes nothing. -/
theorem rewrite_body_message (io : IoFaults) (fs : FileSys) (vp : String) (vo : VaultOpen)
    (new_idx : index.Index) (rng : Rng) (st : Status) (data : Bytes)
    (h : rewrite_body io fs vp vo new_idx rng noExtra = .ok (some st, data)) :
    st.message ≠ "delete: no matching paths" ∧ st.message ≠ "stealth: no matching paths" := by
  unfold rewrite_body at h
  simp only at h
  generalize copy_prefix_bytes io.writes (if io.reopenFails = true then none else fs vp)
    OStream.fresh vo.trailer.index_offset = c at h
  by_cases hc : c.1 = true
  · rw [if_neg (by simp [hc])] at h
    simp only [noExtra] at h
    rw [if_neg (by decide)] at h
    cases hwi : write_index_and_trailer_to_stream io.writes c.2 vo.keys new_idx with
    | error x => rw [hwi] at h; cases h
    | ok r2 =>
      obtain ⟨st2, ofs2⟩ := r2
      rw [hwi] at h
      simp only at h
      by_cases hs2 : st2.is_ok = true
      · rw [if_neg (by simp [hs2])] at h
        by_cases hff : io.flushFails = true
        · rw [if_pos hff] at h
          cases h
          decide
        · rw [if_neg hff] at h
          cases h
      · rw [if_pos (by simpa using hs2)] at h
        cases h
        unfold write_index_and_trailer_to_stream at hwi
        rcases write_index_and_trailer_status _ _ _ _ _ _ _ _ hwi with h1 | h1 | h1
        · rw [h1]; decide
        · rw [h1]; decide
        · rw [h1]; decide
  · rw [if_pos (by simpa using hc)] at h
    cases h
    decide

theorem atomic_rewrite_message (env : Env) (fs fs1 : FileSys) (vp : String) (vo : VaultOpen)
    (new_idx : index.Index) (rng : Rng) (st : Status)
    (h : atomic_rewrite_vault env fs vp vo new_idx rng noExtra = .ok (st, fs1)) :
    st.message ≠ "delete: no matching paths" ∧ st.message ≠ "stealth: no matching paths" := by
  unfold atomic_rewrite_vault at h
  simp only at h
  split at h
  · cases h
    decide
  · split at h
    · cases h
      decide
    · split at h
      · cases h
      · rename_i st1 data hrb
        cases h
        exact rewrite_body_message _ _ _ _ _ _ _ _ hrb
      · rename_i data hrb
        unfold rename_step at h
        by_cases hrf : env.io.renameFails = true
        · rw [if_pos hrf] at h
          simp only at h
          by_cases hra : env.io.renameAgainFails = true
          · rw [if_pos hra] at h
            cases h
            decide
          · rw [if_neg hra] at h
            cases h
            decide
        · rw [if_neg hrf] at h
          cases h
          decide

/-- The function delete_paths_in_vault on a vault that opens: the error when no entry
is matched and not deleted, the rewrite with the entries of the specification
otherwise. -/
theorem delete_paths_eq (env : Env) (rng : Rng) (fs : FileSys) (vp : String) (password : Bytes)
    (paths : List Bytes) (st0 : Status) (vo : VaultOpen)
    (hopen : open_for_view env.io.reserveFails fs vp password = .ok (st0, vo))
    (hst0 : st0.is_ok = true) :
    delete_paths_in_vault env rng fs vp password paths =
      if vo.idx.entries.map (spec.deleted_entry paths) = vo.idx.entries then
        .ok (Status.err ExitCode.IoError "delete: no matching paths", fs)
      else
        atomic_rewrite_vault env fs vp vo ⟨vo.idx.entries.map (spec.deleted_entry paths)⟩ rng
          noExtra := by
  unfold delete_paths_in_vault open_for_mutation
  rw [hopen]
  simp only
  rw [if_neg (by simp [hst0])]
  obtain ⟨h1, h2⟩ := deleteEntries_eq paths vo.idx.entries false
  by_cases hc : vo.idx.entries.map (spec.deleted_entry paths) = vo.idx.entries
  · rw [if_pos hc, if_pos]
    intro hx
    have := (deleted_entries_ne_iff paths vo.idx.entries).mpr
      (by simpa using h2.mp hx)
    exact this hc
  · rw [if_neg hc, if_neg, h1]
    simp only [not_not]
    exact h2.mpr (Or.inr ((deleted_entries_ne_iff paths vo.idx.entries).mp hc))

/-- The function set_hidden_paths_in_vault on a vault that opens with 32-bit flags. -/
theorem set_hidden_paths_eq (env : Env) (rng : Rng) (fs : FileSys) (vp : String)
    (password : Bytes) (paths : List Bytes) (hidden : Bool) (st0 : Status) (vo : VaultOpen)
    (hopen : open_for_view env.io.reserveFails fs vp password = .ok (st0, vo))
    (hst0 : st0.is_ok = true)
    (hf : ∀ e ∈ vo.idx.entries, e.flags < U32) :
    set_hidden_paths_in_vault env rng fs vp password paths hidden =
      if vo.idx.entries.map (spec.stealth_entry paths hidden) = vo.idx.entries then
        .ok (Status.err ExitCode.IoError "stealth: no matching paths", fs)
      else
        atomic_rewrite_vault env fs vp vo
          ⟨vo.idx.entries.map (spec.stealth_entry paths hidden)⟩ rng noExtra := by
  unfold set_hidden_paths_in_vault open_for_mutation
  rw [hopen]
  simp only
  rw [if_neg (by simp [hst0])]
  obtain ⟨h1, h2⟩ := hideEntries_eq paths hidden vo.idx.entries hf false
  by_cases hc : vo.idx.entries.map (spec.stealth_entry paths hidden) = vo.idx.entries
  · rw [if_pos hc, if_pos]
    intro hx
    have := (map_ne_iff (spec.stealth_entry paths hidden) vo.idx.entries).mpr
      (by simpa using h2.mp hx)
    exact this hc
  · rw [if_neg hc, if_neg, h1]
    simp only [not_not]
    exact h2.mpr (Or.inr ((map_ne_iff _ _).mp hc))

/-- The entries of the specification after delete are the old entries up to flags. -/
theorem deleted_entries_kept (paths : List Bytes) (es : List index.Entry) :
    List.Forall₂ Kept es (es.map (spec.deleted_entry paths)) := by
  rw [← (deleteEntries_eq paths es false).1]
  exact deleteEntries_kept paths es false

theorem stealth_entries_kept (paths : List Bytes) (hidden : Bool) (es : List index.Entry)
    (hf : ∀ e ∈ es, e.flags < U32) :
    List.Forall₂ Kept es (es.map (spec.stealth_entry paths hidden)) := by
  rw [← (hideEntries_eq paths hidden es hf false).1]
  exact hideEntries_kept paths hidden es false

/-- Deleting twice marks what deleting once marks. -/
theorem deleted_entry_idem (paths : List Bytes) (e : index.Entry) :
    spec.deleted_entry paths (spec.deleted_entry paths e) = spec.deleted_entry paths e := by
  unfold spec.deleted_entry
  by_cases hm : spec.matched paths e.path
  · rw [if_pos hm]
    simp only
    rw [if_pos hm]
    simp only [Nat.lor_assoc, Nat.or_self]
  · rw [if_neg hm, if_neg hm]

/-- The entries of an opened vault have 32-bit flags. -/
theorem open_flags_lt {af : AllocFaults} (fs : FileSys) (vp : String) (password : Bytes)
    (st0 : Status)
    (vo : VaultOpen) (old : Bytes)
    (hopen : open_for_view af fs vp password = .ok (st0, vo)) (hst0 : st0.is_ok = true)
    (hold : fs vp = some old) (hbytes : ∀ b ∈ old, b < 256) :
    ∀ e ∈ vo.idx.entries, e.flags < U32 := by
  intro e he
  exact ((open_ok_facts fs vp password st0 vo old hopen hst0 hold hbytes).2.2.2.2.2 e he).1

end vault
/-! ## C28 -/

/-- C28 (delete semantics): on a vault that opens with the index vo.idx, for every
target list T the loop of delete_paths_in_vault builds the entries of vo.idx in the same
order, each replaced by spec.deleted_entry T: its flags become flags | DELETED exactly
when its path equals some t in T or starts with t followed by a slash, no other field
changes, and entries already DELETED and entries not matched are unchanged. If no entry
changes, the function returns IoError "delete: no matching paths" and leaves the file
system as it is; otherwise it is the atomic rewrite with the new index. After a
successful delete of T on a vault shorter than 2^62 bytes, a second delete of T, on a
host that grants decode_index the storage of the entries, returns that error. -/
theorem C28_delete_semantics (env : vault.Env) (rng : Rng) (fs : FileSys) (vp : String)
    (password : Bytes) (T : List Bytes) (st0 : Status) (vo : vault.VaultOpen)
    (hopen : vault.open_for_view env.io.reserveFails fs vp password = .ok (st0, vo))
    (hst0 : st0.is_ok = true) :
    (vault.deleteEntries T vo.idx.entries false).1 =
      vo.idx.entries.map (spec.deleted_entry T) ∧
    (∀ e : index.Entry,
      vault.SameButFlags e (spec.deleted_entry T e) ∧
      (spec.deleted_entry T e).flags =
        (if ∃ t ∈ T, e.path = t ∨ (t ++ ascii "/") <+: e.path then e.flags ||| fmt.F_DELETED
         else e.flags) ∧
      (e.flags &&& fmt.F_DELETED ≠ 0 → spec.deleted_entry T e = e) ∧
      ((¬ ∃ t ∈ T, e.path = t ∨ (t ++ ascii "/") <+: e.path) → spec.deleted_entry T e = e)) ∧
    vault.delete_paths_in_vault env rng fs vp password T =
      (if vo.idx.entries.map (spec.deleted_entry T) = vo.idx.entries then
        .ok (Status.err ExitCode.IoError "delete: no matching paths", fs)
      else
        vault.atomic_rewrite_vault env fs vp vo ⟨vo.idx.entries.map (spec.deleted_entry T)⟩
          rng vault.noExtra) ∧
    (∀ (old : Bytes) (st : Status) (fs1 : FileSys) (env2 : vault.Env) (rng2 : Rng),
      fs vp = some old → (∀ b ∈ old, b < 256) → old.length < 2 ^ 62 →
      vault.delete_paths_in_vault env rng fs vp password T = .ok (st, fs1) →
      st.is_ok = true →
      index.Grants env2.io.reserveFails vo.idx.entries.length →
      vault.delete_paths_in_vault env2 rng2 fs1 vp password T =
        .ok (Status.err ExitCode.IoError "delete: no matching paths", fs1)) := by
  have heq := vault.delete_paths_eq env rng fs vp password T st0 vo hopen hst0
  refine ⟨(vault.deleteEntries_eq T vo.idx.entries false).1, ?_, heq, ?_⟩
  · intro e
    have hm : (∃ t ∈ T, e.path = t ∨ (t ++ ascii "/") <+: e.path) ↔ spec.matched T e.path :=
      Iff.rfl
    by_cases hc : spec.matched T e.path
    · refine ⟨?_, ?_, ?_, fun hn => (hn (hm.mpr hc)).elim⟩
      · unfold spec.deleted_entry
        rw [if_pos hc]
        exact ⟨rfl, rfl, rfl, rfl, rfl, rfl, rfl⟩
      · rw [if_pos (hm.mpr hc)]
        unfold spec.deleted_entry
        rw [if_pos hc]
      · intro hd
        unfold spec.deleted_entry
        rw [if_pos hc]
        rw [f_deleted_eq] at hd ⊢
        rw [or_two_pow_of_set _ _ hd]
    · have hu : spec.deleted_entry T e = e := by
        unfold spec.deleted_entry
        rw [if_neg hc]
      refine ⟨?_, ?_, fun _ => hu, fun _ => hu⟩
      · rw [hu]
        exact ⟨rfl, rfl, rfl, rfl, rfl, rfl, rfl⟩
      · rw [if_neg (fun h => hc (hm.mp h)), hu]
  · intro old st fs1 env2 rng2 hold hbytes hsmall hdel hok hmem
    rw [heq] at hdel
    by_cases hc : vo.idx.entries.map (spec.deleted_entry T) = vo.idx.entries
    · rw [if_pos hc] at hdel
      cases hdel
      cases hok
    · rw [if_neg hc] at hdel
      obtain ⟨vo2, hopen2, hidx, _, _⟩ :=
        vault.flag_update_reopens env2.io.reserveFails env rng fs fs1 vp password st0 st vo old
          _ hopen hst0 hold hbytes hsmall (vault.deleted_entries_kept T vo.idx.entries) hdel
          hok (by rw [List.length_map]; exact hmem)
      rw [vault.delete_paths_eq env2 rng2 fs1 vp password T Status.ok vo2 hopen2 rfl,
        if_pos]
      rw [hidx]
      simp only [List.map_map]
      apply List.map_congr_left
      intro e _
      exact vault.deleted_entry_idem T e

theorem C28_delete_semantics_witness :
    vault.open_for_view noAllocFaults demoFs "v.1654" demoPw = .ok (Status.ok, demoOpen) ∧
    (vault.deleteEntries [[114, 47, 97]] demoOpen.idx.entries false).1 =
      demoOpen.idx.entries.map (spec.deleted_entry [[114, 47, 97]]) :=
  ⟨demo_open_eq,
    (C28_delete_semantics demoEnv demoRng demoFs "v.1654" demoPw [[114, 47, 97]] Status.ok
      demoOpen demo_open_eq rfl).1⟩

namespace modes

theorem parse_flags_default (vp : String) :
    parse_flags [vp] = { pattern := [], show_hidden := false, show_all := false } := rfl

theorem parse_flags_all (vp : String) :
    parse_flags [vp, "--all"] = { pattern := [], show_hidden := false, show_all := true } := by
  show parseFlagsLoop ["--all"] _ = _
  decide

theorem parse_flags_all_hidden (vp : String) :
    parse_flags [vp, "--all", "--hidden"] =
      { pattern := [], show_hidden := true, show_all := true } := by
  show parseFlagsLoop ["--all", "--hidden"] _ = _
  decide

/-- The listing of view_cmd on a vault that opens. -/
theorem view_cmd_eq {af : AllocFaults} (fs : FileSys) (vp : String) (flags : List String)
    (password : Bytes)
    (vo : vault.VaultOpen)
    (hopen : vault.open_for_view af fs vp password = .ok (Status.ok, vo)) :
    view_cmd af fs (vp :: flags) password =
      .ok (Status.ok, vo.idx.entries.filterMap (view_line (parse_flags (vp :: flags)))) := by
  unfold view_cmd
  simp only
  rw [hopen]
  simp only
  rw [if_neg (by decide)]

/-- The default view skips an entry with the DELETED flag. -/
theorem view_line_deleted_default (e : index.Entry) (hd : e.flags &&& fmt.F_DELETED ≠ 0) :
    view_line { pattern := [], show_hidden := false, show_all := false } e = none := by
  simp [view_line, hd]

/-- With --all and --hidden every entry with the DELETED flag is listed with the
marker. -/
theorem view_line_deleted_all_hidden (e : index.Entry) (hd : e.flags &&& fmt.F_DELETED ≠ 0) :
    view_line { pattern := [], show_hidden := true, show_all := true } e =
      some (e.path ++ (if e.type = fmt.ObjType.Dir then ascii "/" else []) ++
        ascii " [deleted]" ++ ascii "\n") := by
  simp [view_line, hd]

/-- With --all alone an entry with the DELETED flag is listed unless it is HIDDEN. -/
theorem view_line_deleted_all (e : index.Entry) (hd : e.flags &&& fmt.F_DELETED ≠ 0) :
    view_line { pattern := [], show_hidden := false, show_all := true } e =
      if e.flags &&& fmt.F_HIDDEN = 0 then
        some (e.path ++ (if e.type = fmt.ObjType.Dir then ascii "/" else []) ++
          ascii " [deleted]" ++ ascii "\n")
      else none := by
  by_cases hh : e.flags &&& fmt.F_HIDDEN = 0
  · simp [view_line, hd, hh]
  · simp [view_line, hd, hh]

/-- The default view of an entry that is neither DELETED nor HIDDEN: the path, a slash
for a directory, and a newline. -/
theorem view_line_plain_default (e : index.Entry) (hd : e.flags &&& fmt.F_DELETED = 0)
    (hh : e.flags &&& fmt.F_HIDDEN = 0) :
    view_line { pattern := [], show_hidden := false, show_all := false } e =
      some (e.path ++ (if e.type = fmt.ObjType.Dir then ascii "/" else []) ++ ascii "\n") := by
  simp [view_line, hd, hh]

/-- The default view skips an entry with the HIDDEN flag. -/
theorem view_line_hidden_default (e : index.Entry) (hh : e.flags &&& fmt.F_HIDDEN ≠ 0) :
    view_line { pattern := [], show_hidden := false, show_all := false } e = none := by
  by_cases hd : e.flags &&& fmt.F_DELETED = 0
  · simp [view_line, hd, hh]
  · simp [view_line, hd, hh]

end modes

/-! ## The concrete flag updates evaluated -/

set_option maxRecDepth 1000000 in
theorem demo_delete_eval : demoDelete.map (fun r => r.1) = .ok Status.ok := by
  decide!

theorem demo_delete_eq : demoDelete = .ok demoDeleted :=
  eq_ok_okOr demoDelete noResult (exists_ok_of_map _ _ _ demo_delete_eval)

theorem demo_deleted_ok : demoDeleted.1.is_ok = true := by
  have h := demo_delete_eval
  rw [demo_delete_eq] at h
  simp only [Except.map, Except.ok.injEq] at h
  rw [h]
  rfl

set_option maxRecDepth 1000000 in
theorem demo_hide_eval : demoHide.map (fun r => r.1) = .ok Status.ok := by
  decide!

theorem demo_hide_eq : demoHide = .ok demoHidden :=
  eq_ok_okOr demoHide noResult (exists_ok_of_map _ _ _ demo_hide_eval)

theorem demo_hidden_ok : demoHidden.1.is_ok = true := by
  have h := demo_hide_eval
  rw [demo_hide_eq] at h
  simp only [Except.map, Except.ok.injEq] at h
  rw [h]
  rfl

set_option maxRecDepth 1000000 in
theorem demoVault_short : demoVault.length < 2 ^ 62 := by
  decide!

theorem demo_delete_run :
    vault.delete_paths_in_vault demoEnv demoRng demoFs "v.1654" demoPw [[114, 47, 97]] =
      .ok (demoDeleted.1, demoDeleted.2) := by
  rw [Prod.mk.eta]
  exact demo_delete_eq

theorem demo_hide_run :
    vault.set_hidden_paths_in_vault demoEnv demoRng demoFs "v.1654" demoPw [[114, 47, 97]]
      true = .ok (demoHidden.1, demoHidden.2) := by
  rw [Prod.mk.eta]
  exact demo_hide_eq
/-! ## C29 -/

/-- C29, amended (delete visibility): after a successful delete of a target list T on a
vault shorter than 2^62 bytes, view on the same host lists, for any flags, the lines of
the entries
spec.deleted_entry T of the old index; for every entry whose path is a target p of T or
lies under p followed by a slash, the default view (no flags) has no line, view --all
--hidden has the line of the path (with a slash for a directory) carrying the marker
" [deleted]", and view --all alone has that line exactly when the entry is not HIDDEN. -/
theorem C29_delete_visibility (env : vault.Env) (rng : Rng) (fs fs1 : FileSys) (vp : String)
    (password : Bytes) (T : List Bytes) (st0 st : Status) (vo : vault.VaultOpen) (old : Bytes)
    (hopen : vault.open_for_view env.io.reserveFails fs vp password = .ok (st0, vo))
    (hst0 : st0.is_ok = true)
    (hold : fs vp = some old) (hbytes : ∀ b ∈ old, b < 256) (hsmall : old.length < 2 ^ 62)
    (hdel : vault.delete_paths_in_vault env rng fs vp password T = .ok (st, fs1))
    (hok : st.is_ok = true) :
    (∀ flags : List String,
      modes.view_cmd env.io.reserveFails fs1 (vp :: flags) password =
        .ok (Status.ok, (vo.idx.entries.map (spec.deleted_entry T)).filterMap
          (modes.view_line (modes.parse_flags (vp :: flags))))) ∧
    ∀ e ∈ vo.idx.entries, ∀ p ∈ T, (e.path = p ∨ (p ++ ascii "/") <+: e.path) →
      modes.view_line (modes.parse_flags [vp]) (spec.deleted_entry T e) = none ∧
      modes.view_line (modes.parse_flags [vp, "--all", "--hidden"]) (spec.deleted_entry T e) =
        some (e.path ++ (if e.type = fmt.ObjType.Dir then ascii "/" else []) ++
          ascii " [deleted]" ++ ascii "\n") ∧
      modes.view_line (modes.parse_flags [vp, "--all"]) (spec.deleted_entry T e) =
        if e.flags &&& fmt.F_HIDDEN = 0 then
          some (e.path ++ (if e.type = fmt.ObjType.Dir then ascii "/" else []) ++
            ascii " [deleted]" ++ ascii "\n")
        else none := by
  constructor
  · intro flags
    rw [vault.delete_paths_eq env rng fs vp password T st0 vo hopen hst0] at hdel
    by_cases hc : vo.idx.entries.map (spec.deleted_entry T) = vo.idx.entries
    · rw [if_pos hc] at hdel
      cases hdel
      cases hok
    · rw [if_neg hc] at hdel
      obtain ⟨vo2, hopen2, hidx, _, _⟩ :=
        vault.flag_update_reopens env.io.reserveFails env rng fs fs1 vp password st0 st vo old
          _ hopen hst0 hold hbytes hsmall (vault.deleted_entries_kept T vo.idx.entries) hdel
          hok (by
            rw [List.length_map]
            exact vault.open_ok_grants fs vp password st0 vo hopen hst0)
      rw [modes.view_cmd_eq fs1 vp flags password vo2 hopen2, hidx]
  · intro e _ p hp hu
    have hm : spec.matched T e.path := ⟨p, hp, hu⟩
    have he : spec.deleted_entry T e = { e with flags := e.flags ||| fmt.F_DELETED } := by
      unfold spec.deleted_entry
      rw [if_pos hm]
    have hd : (spec.deleted_entry T e).flags &&& fmt.F_DELETED ≠ 0 := by
      rw [he, f_deleted_eq]
      exact or_two_pow_and e.flags 2
    have hh : (spec.deleted_entry T e).flags &&& fmt.F_HIDDEN = e.flags &&& fmt.F_HIDDEN := by
      rw [he, f_deleted_eq, f_hidden_eq]
      exact or_two_pow_and_other e.flags 2 1 (by decide)
    have hpath : (spec.deleted_entry T e).path = e.path := by rw [he]
    have htype : (spec.deleted_entry T e).type = e.type := by rw [he]
    rw [modes.parse_flags_default, modes.parse_flags_all_hidden, modes.parse_flags_all,
      modes.view_line_deleted_default _ hd, modes.view_line_deleted_all_hidden _ hd,
      modes.view_line_deleted_all _ hd, hh, hpath, htype]
    exact ⟨rfl, rfl, rfl⟩

theorem C29_delete_visibility_witness :
    demoDelete = .ok demoDeleted ∧ demoDeleted.1.is_ok = true ∧
    modes.view_cmd noAllocFaults demoDeleted.2 ["v.1654"] demoPw =
      .ok (Status.ok, (demoOpen.idx.entries.map (spec.deleted_entry [[114, 47, 97]])).filterMap
        (modes.view_line (modes.parse_flags ["v.1654"]))) :=
  ⟨demo_delete_eq, demo_deleted_ok,
    (C29_delete_visibility demoEnv demoRng demoFs demoDeleted.2 "v.1654" demoPw [[114, 47, 97]]
      Status.ok demoDeleted.1 demoOpen demoVault demo_open_eq rfl demoFs_vault demoVault_bytes
      demoVault_short demo_delete_run demo_deleted_ok).1 []⟩

set_option maxRecDepth 1000000 in
/-- The vault in which r/a was hidden with stealth set and then deleted: both updates
return Ok, view --all lists only the directory r, and view --all --hidden lists r/a
with the marker. -/
theorem C29_hidden_deleted_entry_missing :
    demoHide.map (fun r => r.1) = .ok Status.ok ∧
    demoHideDelete.map (fun r => r.1) = .ok Status.ok ∧
    modes.view_cmd noAllocFaults demoHiddenDeleted.2 ["v.1654", "--all"] demoPw =
      .ok (Status.ok, [ascii "r/\n"]) ∧
    modes.view_cmd noAllocFaults demoHiddenDeleted.2 ["v.1654", "--all", "--hidden"] demoPw =
      .ok (Status.ok, [ascii "r/\n", ascii "r/a [deleted]\n"]) := by
  decide!
/-! ## C30 -/

/-- C30 (stealth semantics): on a vault that opens with the index vo.idx, for every
target list T and boolean hidden the loop of set_hidden_paths_in_vault builds the
entries of vo.idx in the same order, each replaced by spec.stealth_entry T hidden: for
an entry that is not DELETED and whose path equals some t in T or starts with t
followed by a slash, the HIDDEN bit equals hidden afterwards and every other flag bit
is as before; DELETED entries and entries not matched are unchanged, and no field other
than flags changes. The function returns IoError "stealth: no matching paths" exactly
when no entry changes, and then leaves the file system as it is; otherwise it is the
atomic rewrite with the new index. After a successful call on a vault shorter than 2^62
bytes, view on the same host lists the lines of the new entries, and the default view of
a matched entry that is not DELETED has no line after stealth set and the line of its
path after stealth clear. -/
theorem C30_stealth_semantics (env : vault.Env) (rng : Rng) (fs : FileSys) (vp : String)
    (password : Bytes) (T : List Bytes) (hidden : Bool) (st0 : Status) (vo : vault.VaultOpen)
    (old : Bytes)
    (hopen : vault.open_for_view env.io.reserveFails fs vp password = .ok (st0, vo))
    (hst0 : st0.is_ok = true)
    (hold : fs vp = some old) (hbytes : ∀ b ∈ old, b < 256) :
    (vault.hideEntries T hidden vo.idx.entries false).1 =
      vo.idx.entries.map (spec.stealth_entry T hidden) ∧
    (∀ e : index.Entry,
      vault.SameButFlags e (spec.stealth_entry T hidden e) ∧
      ((∃ t ∈ T, e.path = t ∨ (t ++ ascii "/") <+: e.path) → e.flags &&& fmt.F_DELETED = 0 →
        (((spec.stealth_entry T hidden e).flags &&& fmt.F_HIDDEN ≠ 0) ↔ hidden = true) ∧
        ∀ i, i ≠ 1 → (spec.stealth_entry T hidden e).flags.testBit i = e.flags.testBit i) ∧
      (e.flags &&& fmt.F_DELETED ≠ 0 → spec.stealth_entry T hidden e = e) ∧
      ((¬ ∃ t ∈ T, e.path = t ∨ (t ++ ascii "/") <+: e.path) →
        spec.stealth_entry T hidden e = e)) ∧
    vault.set_hidden_paths_in_vault env rng fs vp password T hidden =
      (if vo.idx.entries.map (spec.stealth_entry T hidden) = vo.idx.entries then
        .ok (Status.err ExitCode.IoError "stealth: no matching paths", fs)
      else
        vault.atomic_rewrite_vault env fs vp vo
          ⟨vo.idx.entries.map (spec.stealth_entry T hidden)⟩ rng vault.noExtra) ∧
    (∀ fs1 : FileSys,
      vault.set_hidden_paths_in_vault env rng fs vp password T hidden =
          .ok (Status.err ExitCode.IoError "stealth: no matching paths", fs1) ↔
        vo.idx.entries.map (spec.stealth_entry T hidden) = vo.idx.entries ∧ fs1 = fs) ∧
    (∀ (st : Status) (fs1 : FileSys) (flags : List String), old.length < 2 ^ 62 →
      vault.set_hidden_paths_in_vault env rng fs vp password T hidden = .ok (st, fs1) →
      st.is_ok = true →
      modes.view_cmd env.io.reserveFails fs1 (vp :: flags) password =
        .ok (Status.ok, (vo.idx.entries.map (spec.stealth_entry T hidden)).filterMap
          (modes.view_line (modes.parse_flags (vp :: flags))))) ∧
    (∀ e : index.Entry,
      (∃ t ∈ T, e.path = t ∨ (t ++ ascii "/") <+: e.path) → e.flags &&& fmt.F_DELETED = 0 →
      modes.view_line (modes.parse_flags [vp]) (spec.stealth_entry T hidden e) =
        if hidden then none
        else some (e.path ++ (if e.type = fmt.ObjType.Dir then ascii "/" else []) ++
          ascii "\n")) := by
  have hf := vault.open_flags_lt fs vp password st0 vo old hopen hst0 hold hbytes
  have heq := vault.set_hidden_paths_eq env rng fs vp password T hidden st0 vo hopen hst0 hf
  have hmatched : ∀ e : index.Entry, spec.matched T e.path → e.flags &&& fmt.F_DELETED = 0 →
      spec.stealth_entry T hidden e = { e with flags := spec.with_hidden hidden e.flags } := by
    intro e hm hd
    unfold spec.stealth_entry
    rw [if_pos ⟨hm, hd⟩]
  have hbit : ∀ f : Nat, (spec.with_hidden hidden f &&& fmt.F_HIDDEN ≠ 0) ↔ hidden = true := by
    intro f
    rw [f_hidden_eq, ne_eq, and_two_pow_eq_zero, (with_hidden_testBit hidden f).1]
    cases hidden <;> simp
  refine ⟨(vault.hideEntries_eq T hidden vo.idx.entries hf false).1, ?_, heq, ?_, ?_, ?_⟩
  · intro e
    have hm : (∃ t ∈ T, e.path = t ∨ (t ++ ascii "/") <+: e.path) ↔ spec.matched T e.path :=
      Iff.rfl
    have hsame : vault.SameButFlags e (spec.stealth_entry T hidden e) := by
      unfold spec.stealth_entry
      split
      · exact ⟨rfl, rfl, rfl, rfl, rfl, rfl, rfl⟩
      · exact ⟨rfl, rfl, rfl, rfl, rfl, rfl, rfl⟩
    refine ⟨hsame, ?_, ?_, ?_⟩
    · intro h1 hd
      rw [hmatched e (hm.mp h1) hd]
      exact ⟨hbit e.flags, (with_hidden_testBit hidden e.flags).2⟩
    · intro hd
      unfold spec.stealth_entry
      rw [if_neg (fun h => hd h.2)]
    · intro hn
      unfold spec.stealth_entry
      rw [if_neg (fun h => hn (hm.mpr h.1))]
  · intro fs1
    rw [heq]
    by_cases hc : vo.idx.entries.map (spec.stealth_entry T hidden) = vo.idx.entries
    · rw [if_pos hc]
      constructor
      · intro h
        simp only [Except.ok.injEq, Prod.mk.injEq, true_and] at h
        exact ⟨hc, h.symm⟩
      · rintro ⟨_, h⟩
        rw [h]
    · rw [if_neg hc]
      constructor
      · intro h
        exact ((vault.atomic_rewrite_message env fs fs1 vp vo _ rng _ h).2 rfl).elim
      · rintro ⟨h, _⟩
        exact (hc h).elim
  · intro st fs1 flags hsmall hrun hok
    rw [heq] at hrun
    by_cases hc : vo.idx.entries.map (spec.stealth_entry T hidden) = vo.idx.entries
    · rw [if_pos hc] at hrun
      cases hrun
      cases hok
    · rw [if_neg hc] at hrun
      obtain ⟨vo2, hopen2, hidx, _, _⟩ :=
        vault.flag_update_reopens env.io.reserveFails env rng fs fs1 vp password st0 st vo old
          _ hopen hst0 hold hbytes hsmall
          (vault.stealth_entries_kept T hidden vo.idx.entries hf) hrun hok (by
            rw [List.length_map]
            exact vault.open_ok_grants fs vp password st0 vo hopen hst0)
      rw [modes.view_cmd_eq fs1 vp flags password vo2 hopen2, hidx]
  · intro e h1 hd
    have he := hmatched e h1 hd
    have hd2 : (spec.stealth_entry T hidden e).flags &&& fmt.F_DELETED = 0 := by
      rw [he, f_deleted_eq, and_two_pow_eq_zero]
      simp only
      rw [(with_hidden_testBit hidden e.flags).2 2 (by decide), ← and_two_pow_eq_zero,
        ← f_deleted_eq]
      exact hd
    have hb : ((spec.stealth_entry T hidden e).flags &&& fmt.F_HIDDEN ≠ 0) ↔ hidden = true := by
      rw [he]
      exact hbit e.flags
    have hpath : (spec.stealth_entry T hidden e).path = e.path := by rw [he]
    have htype : (spec.stealth_entry T hidden e).type = e.type := by rw [he]
    rw [modes.parse_flags_default]
    cases hidden with
    | true =>
      rw [modes.view_line_hidden_default _ (hb.mpr rfl)]
      rfl
    | false =>
      have hh : (spec.stealth_entry T false e).flags &&& fmt.F_HIDDEN = 0 := by
        by_contra hx
        have := hb.mp hx
        cases this
      rw [modes.view_line_plain_default _ hd2 hh, hpath, htype]
      rfl

theorem C30_stealth_semantics_witness :
    demoFs "v.1654" = some demoVault ∧
    (vault.hideEntries [[114, 47, 97]] true demoOpen.idx.entries false).1 =
      demoOpen.idx.entries.map (spec.stealth_entry [[114, 47, 97]] true) ∧
    modes.view_cmd noAllocFaults demoHidden.2 ["v.1654"] demoPw =
      .ok (Status.ok, (demoOpen.idx.entries.map (spec.stealth_entry [[114, 47, 97]] true)).filterMap
        (modes.view_line (modes.parse_flags ["v.1654"]))) :=
  have h := C30_stealth_semantics demoEnv demoRng demoFs "v.1654" demoPw [[114, 47, 97]] true
    Status.ok demoOpen demoVault demo_open_eq rfl demoFs_vault demoVault_bytes
  ⟨demoFs_vault, h.1,
    h.2.2.2.2.1 demoHidden.1 demoHidden.2 [] demoVault_short demo_hide_run demo_hidden_ok⟩

/-! ## The framing determines its inputs -/

theorem le64_length (v : Nat) : (spec.le64 v).length = 8 := by
  simp [spec.le64]

theorem le64_inj (v w : Nat) (hv : v < U64) (hw : w < U64) (h : spec.le64 v = spec.le64 w) :
    v = w := by
  rw [← store_u64_le_eq_le64, ← store_u64_le_eq_le64] at h
  have h1 := load_store_u64 v []
  have h2 := load_store_u64 w []
  rw [h, h2, Nat.mod_eq_of_lt hv, Nat.mod_eq_of_lt hw] at h1
  exact h1.symm

/-- A length-prefixed field followed by anything determines the field and what follows. -/
theorem tagged_inj (tag d1 d2 r1 r2 : Bytes) (h1 : d1.length < U64) (h2 : d2.length < U64)
    (h : tag ++ spec.le64 d1.length ++ d1 ++ r1 = tag ++ spec.le64 d2.length ++ d2 ++ r2) :
    d1 = d2 ∧ r1 = r2 := by
  rw [List.append_assoc, List.append_assoc, List.append_assoc, List.append_assoc] at h
  have h3 := List.append_cancel_left h
  have h4 := List.append_inj h3 (by rw [le64_length, le64_length])
  have hl := le64_inj _ _ h1 h2 h4.1
  exact List.append_inj h4.2 hl

/-! ## C38 -/

/-- C38 (the hash framing is injective): for all (ctx, msg, salt) and (ctx', msg', salt')
with lengths below 2^64, the salt being empty for the unsalted hash, if the framed strings
INIT ‖ CTX-tag ‖ LE64(|ctx|) ‖ ctx ‖ MSG-tag ‖ LE64(|msg|) ‖ msg ‖ [SALT-tag ‖ LE64(|salt|)
‖ salt] ‖ FINAL are equal then ctx = ctx', msg = msg' and salt = salt'; no unsalted frame
equals a salted frame; and the framed string is the byte string phash_core absorbs. -/
theorem C38_framing_injective (ctx msg salt ctx2 msg2 salt2 : Bytes)
    (hc : ctx.length < U64) (hm : msg.length < U64) (hs : salt.length < U64)
    (hc2 : ctx2.length < U64) (hm2 : msg2.length < U64) (hs2 : salt2.length < U64) :
    (spec.framed ctx msg salt = spec.framed ctx2 msg2 salt2 →
      ctx = ctx2 ∧ msg = msg2 ∧ salt = salt2) ∧
    (salt2 ≠ [] → spec.framed ctx msg [] ≠ spec.framed ctx2 msg2 salt2) ∧
    (∀ out_bits, petoron.phash_core ctx msg salt out_bits =
      petoron.phash_xof (spec.framed ctx msg salt) ((out_bits + 7) % U64 / 8)) := by
  have inj : ∀ s s2 : Bytes, s.length < U64 → s2.length < U64 →
      spec.framed ctx msg s = spec.framed ctx2 msg2 s2 → ctx = ctx2 ∧ msg = msg2 ∧ s = s2 := by
    intro s s2 hl hl2 h
    unfold spec.framed at h
    simp only [List.append_assoc] at h
    have h1 := List.append_cancel_left h
    have h2 := tagged_inj (ascii "PETORON:CTX:v1") ctx ctx2 _ _ hc hc2
      (by simpa only [List.append_assoc] using h1)
    obtain ⟨e1, h3⟩ := h2
    have h4 := tagged_inj (ascii "PETORON:MSG:v1") msg msg2 _ _ hm hm2
      (by simpa only [List.append_assoc] using h3)
    obtain ⟨e2, h5⟩ := h4
    refine ⟨e1, e2, ?_⟩
    have hfin : (ascii "PETORON:FINAL:v1").length = 16 := by decide
    have hsalt : (ascii "PETORON:SALT:v1").length = 15 := by decide
    by_cases a : s = []
    · by_cases b : s2 = []
      · rw [a, b]
      · rw [if_pos a, if_neg b] at h5
        have hl3 := congrArg List.length h5
        simp only [List.nil_append, List.length_append, hfin, hsalt, le64_length] at hl3
        omega
    · by_cases b : s2 = []
      · rw [if_neg a, if_pos b] at h5
        have hl3 := congrArg List.length h5
        simp only [List.nil_append, List.length_append, hfin, hsalt, le64_length] at hl3
        omega
      · rw [if_neg a, if_neg b] at h5
        exact (tagged_inj (ascii "PETORON:SALT:v1") s s2 _ _ hl hl2
          (by simpa only [List.append_assoc] using h5)).1
  refine ⟨inj salt salt2 hs hs2, fun hne h => ?_, fun ob => petoron.phash_core_eq_xof _ _ _ _⟩
  exact hne (inj [] salt2 (by decide) hs2 h).2.2.symm

theorem C38_framing_injective_witness :
    kat.ctx.length < U64 ∧ kat.salt ≠ [] ∧
    spec.framed kat.ctx kat.hello [] ≠ spec.framed kat.ctx kat.hello kat.salt :=
  ⟨by decide, by decide,
    (C38_framing_injective kat.ctx kat.hello [] kat.ctx kat.hello kat.salt (by decide)
      (by decide) (by decide) (by decide) (by decide) (by decide)).2.1 (by decide)⟩

/-! ## The padding block and the states the interface reaches -/

namespace petoron

theorem set_at_append {α : Type} (l1 l2 : List α) (x y : α) (n : Nat) (h : n = l1.length) :
    (l1 ++ x :: l2).set n y = l1 ++ y :: l2 := by
  subst h
  induction l1 with
  | nil => rfl
  | cons a l ih => simp only [List.cons_append, List.length_cons, List.set_cons_succ, ih]

theorem getD_at_append (l1 l2 : Bytes) (x : Nat) (n : Nat) (h : n = l1.length) :
    (l1 ++ x :: l2).getD n 0 = x := by
  subst h
  induction l1 with
  | nil => rfl
  | cons a l ih => simp only [List.cons_append, List.length_cons, List.getD_cons_succ, ih]

/-- The last block of the sponge: the queued bytes p, the domain byte, zeros, and 0x80
in the last of the 136 positions. -/
theorem absorb_domain_pad_queue (a : List Nat) (p : Bytes) (hp : p.length < 136) (d : Nat) :
    PhashXof.absorb_domain_pad ⟨a, 136, p.length, p ++ List.replicate (200 - p.length) 0⟩ d =
      ⟨permute (xorBlockIntoLanes 17 a
          (p ++ (if p.length = 135 then [d ^^^ 0x80]
                 else [d] ++ List.replicate (134 - p.length) 0 ++ [0x80]))),
        136, 0, List.replicate 200 0⟩ := by
  have h17 : (136 + 7) / 8 = 17 := rfl
  unfold PhashXof.absorb_domain_pad
  simp only [PhashXof.absorb_block, queueClear, Nat.add_one_sub_one]
  rw [h17]
  by_cases h135 : p.length = 135
  · rw [if_pos h135]
    have hq : p ++ List.replicate (200 - p.length) 0 = p ++ 0 :: List.replicate 64 0 := by
      rw [h135]
      rfl
    rw [hq, getD_at_append p _ 0 _ rfl, set_at_append p _ 0 _ _ rfl, Nat.zero_xor,
      getD_at_append p _ d 135 h135.symm, set_at_append p _ d _ 135 h135.symm]
    have hdrop : (p ++ (d ^^^ 128) :: List.replicate 64 0).drop 136 = List.replicate 64 0 := by
      rw [List.drop_append_eq_append_drop, List.drop_of_length_le (by omega), h135]
      rfl
    rw [hdrop, xorBlockIntoLanes_congr a (p ++ (d ^^^ 128) :: List.replicate 64 0)
      (p ++ [d ^^^ 128])]
    · rfl
    · rw [List.take_append_eq_append_take, List.take_append_eq_append_take, h135]
      rfl
  · rw [if_neg h135]
    have hq : p ++ List.replicate (200 - p.length) 0 =
        p ++ 0 :: (List.replicate (134 - p.length) 0 ++ 0 :: List.replicate 64 0) := by
      rw [show 200 - p.length = 1 + ((134 - p.length) + (1 + 64)) by omega, List.replicate_add,
        List.replicate_add, List.replicate_add]
      rfl
    rw [hq, getD_at_append p _ 0 _ rfl, set_at_append p _ 0 _ _ rfl, Nat.zero_xor]
    have hq1 : p ++ d :: (List.replicate (134 - p.length) 0 ++ 0 :: List.replicate 64 0) =
        (p ++ d :: List.replicate (134 - p.length) 0) ++ 0 :: List.replicate 64 0 := by
      simp only [List.append_assoc, List.cons_append]
    have hl : (p ++ d :: List.replicate (134 - p.length) 0).length = 135 := by
      rw [List.length_append, List.length_cons, List.length_replicate]
      omega
    rw [hq1, getD_at_append _ _ 0 135 hl.symm, set_at_append _ _ 0 _ 135 hl.symm, Nat.zero_xor]
    have hdrop : ((p ++ d :: List.replicate (134 - p.length) 0) ++
        128 :: List.replicate 64 0).drop 136 = List.replicate 64 0 := by
      rw [List.drop_append_eq_append_drop, List.drop_of_length_le (by omega), hl]
      rfl
    rw [hdrop, xorBlockIntoLanes_congr a ((p ++ d :: List.replicate (134 - p.length) 0) ++
      128 :: List.replicate 64 0) (p ++ ([d] ++ List.replicate (134 - p.length) 0 ++ [128]))]
    · rfl
    · rw [List.take_append_eq_append_take, hl, List.take_of_length_le (by omega)]
      simp only [List.append_assoc, List.cons_append, List.nil_append, Nat.sub_self,
        List.take_succ_cons, List.take_zero]
      rw [List.take_of_length_le]
      simp only [List.length_append, List.length_cons, List.length_replicate, List.length_nil]
      omega

/-- The loop of squeeze changes the lanes only. -/
theorem squeezeLoop_fields (fuel : Nat) :
    ∀ (x : PhashXof) (want : Nat) (acc : Bytes),
      (squeezeLoop fuel x want acc).1.r_ = x.r_ ∧
      (squeezeLoop fuel x want acc).1.queued_ = x.queued_ ∧
      (squeezeLoop fuel x want acc).1.q_ = x.q_ := by
  induction fuel with
  | zero => intro x want acc; exact ⟨rfl, rfl, rfl⟩
  | succ fuel ih =>
    intro x want acc
    simp only [squeezeLoop]
    split
    · split
      · exact ih _ _ _
      · exact ⟨rfl, rfl, rfl⟩
    · exact ⟨rfl, rfl, rfl⟩

/-- Every state the interface reaches has rate 136 and a queue that holds fewer than 136
bytes followed by zeros. -/
theorem reachable_form (x : PhashXof) (h : Reachable x) :
    ∃ (a : List Nat) (p : Bytes), p.length < 136 ∧
      x = ⟨a, 136, p.length, p ++ List.replicate (200 - p.length) 0⟩ := by
  induction h with
  | init => exact ⟨List.replicate 25 0, [], by decide, rfl⟩
  | reset x _ ih =>
    obtain ⟨a, p, _, rfl⟩ := ih
    exact ⟨List.replicate 25 0, [], by decide, rfl⟩
  | absorb x d _ ih =>
    obtain ⟨a, p, hp, rfl⟩ := ih
    rw [absorb_queue a p d hp]
    refine ⟨spec.absorbBlocks ((p ++ d).length / 136) a (p ++ d),
      (p ++ d).drop ((p ++ d).length / 136 * 136), ?_, ?_⟩
    · rw [List.length_drop]
      have := Nat.mod_lt (p ++ d).length (show 0 < 136 by decide)
      omega
    · unfold spec.sponge_state
      have hl : ((p ++ d).drop ((p ++ d).length / 136 * 136)).length = (p ++ d).length % 136 := by
        rw [List.length_drop]
        omega
      rw [hl]
  | absorb_domain_pad x d _ ih =>
    obtain ⟨a, p, hp, rfl⟩ := ih
    rw [absorb_domain_pad_queue a p hp d]
    exact ⟨_, [], by decide, rfl⟩
  | squeeze x n _ ih =>
    obtain ⟨a, p, hp, rfl⟩ := ih
    obtain ⟨h1, h2, h3⟩ := squeezeLoop_fields n
      ⟨a, 136, p.length, p ++ List.replicate (200 - p.length) 0⟩ n []
    refine ⟨(PhashXof.squeeze ⟨a, 136, p.length, p ++ List.replicate (200 - p.length) 0⟩ n).1.a_,
      p, hp, ?_⟩
    unfold PhashXof.squeeze
    generalize squeezeLoop n ⟨a, 136, p.length, p ++ List.replicate (200 - p.length) 0⟩ n [] = r
      at h1 h2 h3
    obtain ⟨⟨a1, r1, qd1, q1⟩, out⟩ := r
    simp only at h1 h2 h3 ⊢
    rw [h1, h2, h3]

end petoron
/-! ## C37 -/

/-- C37 (absorb is independent of chunking): for every state x of a PhashXof object of
rate 136 that the interface reaches and every pair of byte strings a and b, absorb(a)
followed by absorb(b) leaves exactly the state (lanes, queue contents, queued count)
that a single absorb(a ‖ b) leaves; in every such state, in particular after any
sequence of absorb calls, the queued count is below 136 and every queue byte at an index
from the queued count on is zero. -/
theorem C37_absorb_chunking (x : petoron.PhashXof) (hx : petoron.Reachable x) (a b : Bytes) :
    (x.absorb a).absorb b = x.absorb (a ++ b) ∧
    x.r_ = 136 ∧ x.queued_ < 136 ∧ x.q_.length = 200 ∧
    (∀ i, x.queued_ ≤ i → x.q_.getD i 0 = 0) ∧
    (x.absorb a).queued_ < 136 ∧
    (∀ i, (x.absorb a).queued_ ≤ i → (x.absorb a).q_.getD i 0 = 0) := by
  have inv : ∀ y : petoron.PhashXof, petoron.Reachable y →
      y.r_ = 136 ∧ y.queued_ < 136 ∧ y.q_.length = 200 ∧
        ∀ i, y.queued_ ≤ i → y.q_.getD i 0 = 0 := by
    intro y hy
    obtain ⟨a0, p, hp, rfl⟩ := petoron.reachable_form y hy
    refine ⟨rfl, hp, ?_, ?_⟩
    · simp only [List.length_append, List.length_replicate]
      omega
    · intro i hi
      simp only at hi
      rw [List.getD_append_right _ _ _ _ hi, List.getD_eq_getElem?_getD,
        List.getElem?_replicate]
      split <;> rfl
  obtain ⟨a0, p, hp, hform⟩ := petoron.reachable_form x hx
  have h2 := inv x hx
  have h3 := inv (x.absorb a) (petoron.Reachable.absorb x a hx)
  refine ⟨?_, h2.1, h2.2.1, h2.2.2.1, h2.2.2.2, h3.2.1, h3.2.2.2⟩
  rw [hform, petoron.absorb_queue a0 p a hp, petoron.absorb_sponge_state,
    petoron.absorb_queue a0 p (a ++ b) hp, List.append_assoc]

theorem C37_absorb_chunking_witness :
    ((petoron.PhashXof.init 136).absorb kat.hello).absorb kat.ctx =
      (petoron.PhashXof.init 136).absorb (kat.hello ++ kat.ctx) :=
  (C37_absorb_chunking (petoron.PhashXof.init 136) petoron.Reachable.init kat.hello kat.ctx).1

/-! ## The sponge object against the reference sponge -/

namespace petoron

end petoron
/-! ## C36 -/

namespace petoron

end petoron
/-! ## C35 -/

namespace index

theorem store_load_u32 (p : Bytes) (hb : ∀ b ∈ p, b < 256) (hl : 4 ≤ p.length) :
    endian.store_u32_le (endian.load_u32_le p) = p.take 4 := by
  match p, hl with
  | b0 :: b1 :: b2 :: b3 :: rest, _ =>
    have h0 := hb b0 (by simp)
    have h1 := hb b1 (by simp)
    have h2 := hb b2 (by simp)
    have h3 := hb b3 (by simp)
    rw [load_u32_le_bytes b0 b1 b2 b3 rest h0 h1 h2 h3]
    simp only [endian.store_u32_le, Nat.shiftRight_eq_div_pow, show U8 = 256 from rfl,
      List.take_succ_cons, List.take_zero, List.cons.injEq, and_true]
    refine ⟨?_, ?_, ?_, ?_⟩ <;> omega

theorem store_load_u64 (p : Bytes) (hb : ∀ b ∈ p, b < 256) (hl : 8 ≤ p.length) :
    endian.store_u64_le (endian.load_u64_le p) = p.take 8 := by
  match p, hl with
  | b0 :: b1 :: b2 :: b3 :: b4 :: b5 :: b6 :: b7 :: rest, _ =>
    have h0 := hb b0 (by simp)
    have h1 := hb b1 (by simp)
    have h2 := hb b2 (by simp)
    have h3 := hb b3 (by simp)
    have h4 := hb b4 (by simp)
    have h5 := hb b5 (by simp)
    have h6 := hb b6 (by simp)
    have h7 := hb b7 (by simp)
    rw [load_u64_le_bytes b0 b1 b2 b3 b4 b5 b6 b7 rest h0 h1 h2 h3 h4 h5 h6 h7]
    simp only [endian.store_u64_le, Nat.shiftRight_eq_div_pow, show U8 = 256 from rfl,
      List.take_succ_cons, List.take_zero, List.cons.injEq, and_true]
    refine ⟨?_, ?_, ?_, ?_, ?_, ?_, ?_, ?_⟩ <;> omega

/-- Two adjacent windows of a byte string make one window. -/
theorem window_append (d : Bytes) (off a b : Nat) :
    (d.drop off).take a ++ (d.drop (off + a)).take b = (d.drop off).take (a + b) := by
  rw [List.take_add, List.drop_drop]

theorem window_at (d : Bytes) (off a b o2 c : Nat) (h : o2 = off + a) (hc : c = a + b) :
    (d.drop off).take a ++ (d.drop o2).take b = (d.drop off).take c := by
  rw [h, hc]
  exact window_append d off a b

theorem read_u32_bytes (d : Bytes) (off v o1 : Nat) (hb : ∀ b ∈ d, b < 256)
    (h : read_u32 d off = some (v, o1)) :
    endian.store_u32_le v = (d.drop off).take 4 ∧ o1 = off + 4 ∧ o1 ≤ d.length := by
  unfold read_u32 at h
  split at h
  · cases h
  · rename_i hl
    cases h
    refine ⟨store_load_u32 _ (fun b hm => hb b (List.mem_of_mem_drop hm))
      (by rw [List.length_drop]; omega), rfl, by omega⟩

theorem read_u64_bytes (d : Bytes) (off v o1 : Nat) (hb : ∀ b ∈ d, b < 256)
    (h : read_u64 d off = some (v, o1)) :
    endian.store_u64_le v = (d.drop off).take 8 ∧ o1 = off + 8 ∧ o1 ≤ d.length := by
  unfold read_u64 at h
  split at h
  · cases h
  · rename_i hl
    cases h
    refine ⟨store_load_u64 _ (fun b hm => hb b (List.mem_of_mem_drop hm))
      (by rw [List.length_drop]; omega), rfl, by omega⟩

theorem read_bytes_eq (d : Bytes) (off n : Nat) (bs : Bytes) (o1 : Nat)
    (h : read_bytes d off n = some (bs, o1)) :
    bs = (d.drop off).take n ∧ o1 = off + n ∧ o1 ≤ d.length ∧ bs.length = n := by
  unfold read_bytes at h
  split at h
  · cases h
  · rename_i hl
    cases h
    refine ⟨rfl, rfl, by omega, ?_⟩
    rw [List.length_take, List.length_drop]
    omega

theorem read_string_bytes (d : Bytes) (off : Nat) (s : Bytes) (o1 : Nat)
    (hb : ∀ b ∈ d, b < 256) (h : read_string d off = some (s, o1)) :
    endian.store_u32_le (s.length % U32) ++ s = (d.drop off).take (4 + s.length) ∧
      o1 = off + 4 + s.length ∧ o1 ≤ d.length := by
  unfold read_string at h
  split at h
  · cases h
  · rename_i n off1 hn
    obtain ⟨e1, e2, _⟩ := read_u32_bytes d off n off1 hb hn
    have hlt := read_u32_lt d off n off1 hb hn
    split at h
    · cases h
    · rename_i hg
      cases h
      have hl : ((d.drop off1).take n).length = n := by
        rw [List.length_take, List.length_drop]
        omega
      rw [hl, Nat.mod_eq_of_lt hlt, e1, e2, window_append]
      exact ⟨rfl, rfl, by omega⟩

/-- An entry the decoder read at off whose type byte is 1 or 2 re-encodes to the bytes
it was read from. -/
theorem decodeEntry_bytes (d : Bytes) (off : Nat) (e : Entry) (off1 : Nat)
    (hb : ∀ b ∈ d, b < 256) (h : decodeEntry d off = .inr (e, off1))
    (hc : d.getD (off + 4 + e.path.length) 0 = 1 ∨ d.getD (off + 4 + e.path.length) 0 = 2) :
    entryBytes e = (d.drop off).take (73 + e.path.length) ∧ off1 = off + 73 + e.path.length ∧
      off1 ≤ d.length := by
  unfold decodeEntry at h
  split at h
  · cases h
  · rename_i path o1 hpath
    split at h
    · cases h
    · rename_i tb o2 htype
      split at h
      · cases h
      · rename_i flags o3 hflags
        split at h
        · cases h
        · rename_i size o4 hsize
          split at h
          · cases h
          · rename_i doff o5 hoff
            split at h
            · cases h
            · rename_i ds o6 hds
              split at h
              · cases h
              · rename_i nonce o7 hnonce
                split at h
                · cases h
                · rename_i tag o8 htag
                  cases h
                  simp only at hc ⊢
                  obtain ⟨p1, q1, _⟩ := read_string_bytes d off path o1 hb hpath
                  obtain ⟨p2, q2, r2, l2⟩ := read_bytes_eq d o1 1 tb o2 htype
                  obtain ⟨p3, q3, _⟩ := read_u32_bytes d o2 flags o3 hb hflags
                  obtain ⟨p4, q4, _⟩ := read_u64_bytes d o3 size o4 hb hsize
                  obtain ⟨p5, q5, _⟩ := read_u64_bytes d o4 doff o5 hb hoff
                  obtain ⟨p6, q6, _⟩ := read_u64_bytes d o5 ds o6 hb hds
                  obtain ⟨p7, q7, _, l7⟩ := read_bytes_eq d o6 NONCE_SIZE nonce o7 hnonce
                  obtain ⟨p8, q8, r8, l8⟩ := read_bytes_eq d o7 TAG_SIZE tag _ htag
                  have htb : tb.getD 0 0 = d.getD (off + 4 + path.length) 0 := by
                    rw [p2, getD_take _ _ _ _ (by decide), getD_drop, q1, Nat.add_zero]
                  have htype1 : [fmt.ObjType.toU8
                      (if tb.getD 0 0 = fmt.ObjType.Dir.toU8 then fmt.ObjType.Dir
                        else fmt.ObjType.File)] = tb := by
                    match tb, l2 with
                    | [t], _ =>
                      simp only [List.getD_cons_zero] at htb ⊢
                      rw [htb]
                      rcases hc with hc | hc
                      · rw [hc]; rfl
                      · rw [hc]; rfl
                  unfold entryBytes
                  simp only
                  simp only [NONCE_SIZE, TAG_SIZE] at p7 q7 l7 p8 q8 r8 l8 ⊢
                  rw [htype1, resize_of_length nonce _ l7, resize_of_length tag _ l8, p1, p2, p3,
                    p4, p5, p6, p7, p8,
                    window_at d off (4 + path.length) 1 o1 (5 + path.length) (by omega)
                      (by omega),
                    window_at d off (5 + path.length) 4 o2 (9 + path.length) (by omega)
                      (by omega),
                    window_at d off (9 + path.length) 8 o3 (17 + path.length) (by omega)
                      (by omega),
                    window_at d off (17 + path.length) 8 o4 (25 + path.length) (by omega)
                      (by omega),
                    window_at d off (25 + path.length) 8 o5 (33 + path.length) (by omega)
                      (by omega),
                    window_at d off (33 + path.length) 24 o6 (57 + path.length) (by omega)
                      (by omega),
                    window_at d off (57 + path.length) 16 o7 (73 + path.length) (by omega)
                      (by omega)]
                  exact ⟨rfl, by omega, by omega⟩

theorem read_string_length_lt (d : Bytes) (off : Nat) (s : Bytes) (o1 : Nat)
    (hb : ∀ b ∈ d, b < 256) (h : read_string d off = some (s, o1)) : s.length < U32 := by
  unfold read_string at h
  split at h
  · cases h
  · rename_i n off1 hn
    have hlt := read_u32_lt d off n off1 hb hn
    split at h
    · cases h
    · cases h
      rw [List.length_take]
      exact Nat.lt_of_le_of_lt (Nat.min_le_left _ _) hlt

theorem decodeEntry_path_lt (d : Bytes) (off : Nat) (e : Entry) (off1 : Nat)
    (hb : ∀ b ∈ d, b < 256) (h : decodeEntry d off = .inr (e, off1)) : e.path.length < U32 := by
  unfold decodeEntry at h
  split at h
  · cases h
  · rename_i path o1 hpath
    have hp := read_string_length_lt d off path o1 hb hpath
    split at h
    · cases h
    · split at h
      · cases h
      · split at h
        · cases h
        · split at h
          · cases h
          · split at h
            · cases h
            · split at h
              · cases h
              · split at h
                · cases h
                · cases h
                  exact hp

/-- The entries the loop of the decoder reads re-encode to the bytes they were read
from, when their type bytes are 1 or 2. -/
theorem decodeEntries_bytes (d : Bytes) (hb : ∀ b ∈ d, b < 256) (n : Nat) :
    ∀ (off : Nat) (acc es : List Entry) (off1 : Nat),
      decodeEntries d n off acc = .inr (es, off1) →
      ∃ new : List Entry, es = acc ++ new ∧ new.length = n ∧ off ≤ off1 ∧
        (∀ e ∈ new, e.path.length < U32) ∧
        ((∀ p ∈ spec.type_byte_offsets off new, d.getD p 0 = 1 ∨ d.getD p 0 = 2) →
          new.flatMap entryBytes = (d.drop off).take (off1 - off)) := by
  induction n with
  | zero =>
    intro off acc es off1 h
    simp only [decodeEntries] at h
    cases h
    exact ⟨[], by simp, rfl, Nat.le_refl _, fun e he => absurd he (List.not_mem_nil e), fun _ => by simp⟩
  | succ n ih =>
    intro off acc es off1 h
    simp only [decodeEntries] at h
    split at h
    · cases h
    · rename_i e o1 he
      obtain ⟨new, e1, e2, e3, e5, e4⟩ := ih _ _ _ _ h
      have hoff := decodeEntry_off d off e o1 he
      refine ⟨e :: new, by rw [e1]; simp, by simp [e2], by omega, ?_, fun hc => ?_⟩
      · intro x hx
        rcases List.mem_cons.mp hx with rfl | hx
        · exact decodeEntry_path_lt d off _ o1 hb he
        · exact e5 x hx
      simp only [spec.type_byte_offsets, List.mem_cons, forall_eq_or_imp] at hc
      obtain ⟨b1, _, _⟩ := decodeEntry_bytes d off e o1 hb he hc.1
      rw [List.flatMap_cons, b1, e4 (by rw [hoff]; exact hc.2)]
      exact window_at d off _ _ o1 _ (by omega) (by omega)

/-- A byte string the decoder accepts whose type bytes are 1 or 2 is the encoding of
the index it decodes to. -/
theorem encode_decode_index (b : Bytes) (idx : Index) (hb : ∀ x ∈ b, x < 256)
    (h : decode_reserved b = (Status.ok, idx))
    (hc : ∀ p ∈ spec.type_byte_offsets 12 idx.entries, b.getD p 0 = 1 ∨ b.getD p 0 = 2) :
    encode_index idx = b := by
  obtain ⟨count, h1, h2, h3, h4⟩ := decode_index_ok_inv b idx h
  obtain ⟨new, e1, e2, e3, _, e4⟩ := decodeEntries_bytes b hb count 12 [] _ _ h4
  rw [List.nil_append] at e1
  rw [← e1] at e2 e4
  obtain ⟨m1, _, _⟩ := read_u32_bytes b 0 _ _ hb h1
  obtain ⟨m2, _, _⟩ := read_u32_bytes b 4 _ _ hb h2
  obtain ⟨m3, _, _⟩ := read_u32_bytes b 8 _ _ hb h3
  have hcount := read_u32_lt b 8 _ _ hb h3
  rw [encode_index_eq, e4 hc]
  unfold indexHeader
  rw [e2, Nat.mod_eq_of_lt hcount, m1, m2, m3]
  have w1 := window_append b 0 4 4
  have w2 := window_append b 0 8 4
  have w3 := window_append b 0 12 (b.length - 12)
  simp only [Nat.zero_add, List.drop_zero] at w1 w2 w3 ⊢
  rw [w1, w2, w3, List.take_of_length_le (by omega)]

/-- A decoded index decodes again from its encoding. -/
theorem decode_encode_decoded (b : Bytes) (idx : Index) (hb : ∀ x ∈ b, x < 256)
    (h : decode_reserved b = (Status.ok, idx)) :
    decode_reserved (encode_index idx) = (Status.ok, idx) := by
  obtain ⟨count, _, _, h3, h4⟩ := decode_index_ok_inv b idx h
  obtain ⟨new, e1, e2, _, e5, _⟩ := decodeEntries_bytes b hb count 12 [] _ _ h4
  rw [List.nil_append] at e1
  rw [← e1] at e2 e5
  have hcount := read_u32_lt b 8 _ _ hb h3
  have hf := decode_index_fieldsOk b Status.ok idx hb h rfl
  exact decode_encode_index idx (by rw [e2]; exact hcount)
    (fun e he => vault.wellFormed_of_fieldsOk e (hf e he) (e5 e he))

/-- A decoded index has fewer than 2^32 entries, each of which the codec represents
exactly. -/
theorem decoded_index_wellFormed (b : Bytes) (idx : Index) (hb : ∀ x ∈ b, x < 256)
    (h : decode_reserved b = (Status.ok, idx)) :
    idx.entries.length < U32 ∧ ∀ e ∈ idx.entries, e.WellFormed := by
  obtain ⟨count, _, _, h3, h4⟩ := decode_index_ok_inv b idx h
  obtain ⟨new, e1, e2, _, e5, _⟩ := decodeEntries_bytes b hb count 12 [] _ _ h4
  rw [List.nil_append] at e1
  rw [← e1] at e2 e5
  have hcount := read_u32_lt b 8 _ _ hb h3
  have hf := decode_index_fieldsOk b Status.ok idx hb h rfl
  exact ⟨by rw [e2]; exact hcount,
    fun e he => vault.wellFormed_of_fieldsOk e (hf e he) (e5 e he)⟩

/-- The type bytes of an encoding are 1 or 2. -/
theorem encoded_type_bytes (es : List Entry) :
    ∀ (pre : Bytes) (off : Nat), pre.length = off →
      ∀ p ∈ spec.type_byte_offsets off es,
        (pre ++ es.flatMap entryBytes).getD p 0 = 1 ∨
          (pre ++ es.flatMap entryBytes).getD p 0 = 2 := by
  induction es with
  | nil => intro pre off _ p hp; cases hp
  | cons e es ih =>
    intro pre off hpre p hp
    simp only [spec.type_byte_offsets, List.mem_cons] at hp
    rw [List.flatMap_cons, ← List.append_assoc]
    rcases hp with rfl | hp
    · have hsplit : pre ++ entryBytes e =
          (pre ++ (endian.store_u32_le (e.path.length % U32) ++ e.path)) ++
            e.type.toU8 :: (endian.store_u32_le e.flags ++ endian.store_u64_le e.size ++
              endian.store_u64_le e.data_offset ++ endian.store_u64_le e.data_size ++
              resize e.nonce NONCE_SIZE ++ resize e.tag TAG_SIZE) := by
        unfold entryBytes
        simp only [List.append_assoc, List.cons_append, List.nil_append]
      rw [hsplit, List.append_assoc, List.cons_append,
        petoron.getD_at_append _ _ _ _ (by
          simp only [List.length_append, store_u32_le_length, hpre]
          omega)]
      cases e.type
      · exact Or.inl rfl
      · exact Or.inr rfl
    · exact ih (pre ++ entryBytes e) (off + 73 + e.path.length)
        (by rw [List.length_append, entryBytes_length, hpre]; omega) p hp

end index
/-! ## C39 -/

/-- C39, amended (index encoding and decoding): for every byte string b that
decode_index accepts, encode_index applied to the decoded index returns exactly b if and
only if the type byte of every entry in b is 1 or 2; in every case the re-encoding has
the length of b and decodes, on the same host, to the same index. -/
theorem C39_reencoding (af : AllocFaults) (b : Bytes) (idx : index.Index)
    (hb : ∀ x ∈ b, x < 256) (h : index.decode_index af b = .ok (Status.ok, idx)) :
    (index.encode_index idx = b ↔
      ∀ p ∈ spec.type_byte_offsets 12 idx.entries, b.getD p 0 = 1 ∨ b.getD p 0 = 2) ∧
    (index.encode_index idx).length = b.length ∧
    index.decode_index af (index.encode_index idx) = .ok (Status.ok, idx) := by
  have hr := index.decode_index_ok af b _ h
  obtain ⟨hn, hw⟩ := index.decoded_index_wellFormed b idx hb hr
  refine ⟨⟨fun he p hp => ?_, index.encode_decode_index b idx hb hr⟩,
    vault.decoded_index_length b idx hr,
    index.decode_index_encode af idx hn hw (index.decode_index_grants af b idx h)⟩
  have := index.encoded_type_bytes idx.entries (index.indexHeader idx.entries.length) 12
    (by simp [index.indexHeader, store_u32_le_length]) p hp
  rw [← index.encode_index_eq, he] at this
  exact this

set_option maxRecDepth 1000000 in
theorem C39_reencoding_witness :
    (∀ x ∈ index.encode_index demoIndex, x < 256) ∧
    index.decode_index noAllocFaults (index.encode_index demoIndex) =
      .ok (Status.ok, demoIndex) ∧
    (index.encode_index demoIndex = index.encode_index demoIndex ↔
      ∀ p ∈ spec.type_byte_offsets 12 demoIndex.entries,
        (index.encode_index demoIndex).getD p 0 = 1 ∨
          (index.encode_index demoIndex).getD p 0 = 2) :=
  ⟨by decide!, by decide!,
    (C39_reencoding noAllocFaults (index.encode_index demoIndex) demoIndex (by decide!)
      (by decide!)).1⟩

set_option maxRecDepth 1000000 in
/-- C39, counterexample: the encoded concrete index with the type byte of its first
entry set to 0 is accepted by decode_index, which reads the entry as a File, and
encode_index of the decoded index writes the type byte 1, so it does not return the
bytes that were decoded. -/
theorem C39_lax_type_byte_accepted :
    (∀ x ∈ laxIndexBytes, x < 256) ∧
    laxIndexBytes.getD 17 0 = 0 ∧
    index.decode_index noAllocFaults laxIndexBytes = .ok (Status.ok, laxIndex) ∧
    (index.encode_index laxIndex).getD 17 0 = 1 ∧
    index.encode_index laxIndex ≠ laxIndexBytes := by
  decide!
/-! ## The ciphertext formula -/

theorem counter_bytes_eq_le64 (c : Nat) :
    ((List.range 8).map fun i => (c >>> (8 * i)) &&& 0xFF) = spec.le64 c := by
  simp only [spec.le64, List.range, List.range.loop, List.map, and_255_eq_mod,
    Nat.shiftRight_eq_div_pow]
  norm_num

theorem le64_mod (c : Nat) : spec.le64 (c % U64) = spec.le64 c := by
  simp only [spec.le64, List.range, List.range.loop, List.map, U64]
  norm_num
  refine ⟨?_, ?_, ?_, ?_, ?_, ?_, ?_⟩ <;> omega

theorem keystream_mod (ke nonce : Bytes) (c L : Nat) :
    spec.keystream ke nonce (c % U64) L = spec.keystream ke nonce c L := by
  unfold spec.keystream
  rw [le64_mod]

/-- The bytes xof::generate returns are the keystream of the specification. -/
theorem generate_eq_keystream (key nonce : Bytes) (c n : Nat) (ks : Bytes)
    (h : xof.generate key nonce c n = .ok ks) : spec.keystream key nonce c n = .ok ks := by
  unfold xof.generate at h
  unfold spec.keystream
  simp only [counter_bytes_eq_le64] at h
  split at h
  · cases h
  · rename_i full hfull
    rw [hfull]
    split at h
    · cases h
    · cases h
      rfl

theorem xorBytes_getD (buf : Bytes) : ∀ (ks : Bytes) (i : Nat), ks.length = buf.length →
    (obj.xorBytes buf ks).getD i 0 = buf.getD i 0 ^^^ ks.getD i 0 := by
  induction buf with
  | nil =>
    intro ks i h
    have : ks = [] := List.length_eq_zero.mp h
    subst this
    simp [obj.xorBytes]
  | cons b buf ih =>
    intro ks i h
    cases ks with
    | nil => simp at h
    | cons k ks =>
      simp only [List.length_cons, Nat.add_right_cancel_iff] at h
      cases i with
      | zero => simp [obj.xorBytes]
      | succ j =>
        have := ih ks j h
        simp only [obj.xorBytes, List.zipWith_cons_cons, List.getD_cons_succ] at this ⊢
        exact this

theorem getD_take_lt (l : Bytes) (n i : Nat) (h : i < n) : (l.take n).getD i 0 = l.getD i 0 := by
  simp only [List.getD_eq_getElem?_getD, List.getElem?_take, if_pos h]

theorem getD_drop_add (l : Bytes) (n i : Nat) : (l.drop n).getD i 0 = l.getD (n + i) 0 := by
  simp only [List.getD_eq_getElem?_getD, List.getElem?_drop]

/-- The bytes the encrypt loop writes: byte i is the plaintext byte XOR byte i mod 65536
of the keystream of chunk i / 65536, counted from the counter the loop starts with. -/
theorem encryptLoop_formula (wf : WriteFaults) (ke nonce : Bytes) (fuel : Nat) :
    ∀ (inp : Bytes) (st : obj.EncState) (b : Bool) (st1 : obj.EncState), inp.length < fuel →
      obj.encryptLoop wf ke nonce fuel inp st = .ok (b, st1) →
      ∃ C : Bytes, st1.out.data = st.out.data ++ C ∧ C.length ≤ inp.length ∧
        (b = true → C.length = inp.length ∧ st1.mac_buf = st.mac_buf ++ C) ∧
        ∀ i, i < C.length →
          ∃ K : Bytes,
            spec.keystream ke nonce ((st.counter + i / 65536) % U64)
              (spec.chunk_len inp.length (i / 65536)) = .ok K ∧
            K.length = spec.chunk_len inp.length (i / 65536) ∧
            C.getD i 0 = inp.getD i 0 ^^^ K.getD (i % 65536) 0 := by
  induction fuel with
  | zero => intro inp st b st1 h; omega
  | succ n ih =>
    intro inp st b st1 hfuel henc
    simp only [obj.encryptLoop] at henc
    by_cases hgot : (inp.take obj.CHUNK).length = 0
    · rw [if_pos hgot] at henc
      have hinp : inp = [] := by
        rw [List.length_take] at hgot
        have : inp.length = 0 := by simp only [obj.CHUNK] at hgot; omega
        exact List.length_eq_zero.mp this
      cases henc
      subst hinp
      exact ⟨[], by simp, by simp, fun _ => ⟨rfl, by simp⟩, fun i hi => by simp at hi⟩
    · rw [if_neg hgot] at henc
      cases hx : xof.generate ke nonce st.counter (inp.take obj.CHUNK).length with
      | error e => rw [hx] at henc; cases henc
      | ok ks =>
        rw [hx] at henc
        simp only at henc
        have hks : ks.length = (inp.take obj.CHUNK).length := xof_generate_length _ _ _ _ _ hx
        have hkey := generate_eq_keystream _ _ _ _ _ hx
        have hlen : (inp.take obj.CHUNK).length = min 65536 inp.length := by
          rw [List.length_take]; rfl
        by_cases hgood : (st.out.write wf (obj.xorBytes (inp.take obj.CHUNK) ks)).good = true
        · rw [if_neg (by simpa using hgood)] at henc
          have hw := write_good wf st.out _ hgood
          have hdrop : (inp.drop obj.CHUNK).length < n := by
            rw [List.length_drop]
            rw [List.length_take] at hgot
            simp only [obj.CHUNK] at hgot ⊢
            omega
          obtain ⟨C1, hd1, hl1, hb1, hf1⟩ := ih _ _ _ _ hdrop henc
          have hx1 : (obj.xorBytes (inp.take obj.CHUNK) ks).length = (inp.take obj.CHUNK).length :=
            xorBytes_length _ _ hks
          have hsplit : (inp.take obj.CHUNK).length + (inp.drop obj.CHUNK).length = inp.length := by
            rw [← List.length_append, List.take_append_drop]
          have hdl : (inp.drop obj.CHUNK).length = inp.length - 65536 := by
            rw [List.length_drop]; rfl
          refine ⟨obj.xorBytes (inp.take obj.CHUNK) ks ++ C1, ?_, ?_, ?_, ?_⟩
          · rw [hd1, hw.1, List.append_assoc]
          · rw [List.length_append, hx1]
            omega
          · intro hb
            obtain ⟨h1, h2⟩ := hb1 hb
            refine ⟨by rw [List.length_append, hx1, h1, hsplit], ?_⟩
            rw [h2, List.append_assoc]
          · intro i hi
            rw [List.length_append, hx1] at hi
            by_cases hlt : i < (inp.take obj.CHUNK).length
            · have hi0 : i / 65536 = 0 := by
                rw [hlen] at hlt
                exact Nat.div_eq_of_lt (by omega)
              have himod : i % 65536 = i := by
                rw [hlen] at hlt
                exact Nat.mod_eq_of_lt (by omega)
              have hcl : spec.chunk_len inp.length 0 = (inp.take obj.CHUNK).length := by
                rw [hlen]; simp [spec.chunk_len]
              refine ⟨ks, ?_, ?_, ?_⟩
              · rw [hi0, Nat.add_zero, keystream_mod, hcl]
                exact hkey
              · rw [hi0, hcl, hks]
              · rw [himod, List.getD_append _ _ _ _ (by rw [hx1]; exact hlt),
                  xorBytes_getD _ _ _ hks, getD_take_lt _ _ _ (by
                    rw [hlen] at hlt
                    simp only [obj.CHUNK]
                    omega)]
            · have hfull : (inp.take obj.CHUNK).length = 65536 := by
                rw [hlen] at hlt hi ⊢
                omega
              have hj : i - 65536 < C1.length := by omega
              obtain ⟨K, hK1, hK2, hK3⟩ := hf1 (i - 65536) hj
              have hq : i / 65536 = (i - 65536) / 65536 + 1 := by omega
              have hr : i % 65536 = (i - 65536) % 65536 := by omega
              have hcl : spec.chunk_len inp.length (i / 65536) =
                  spec.chunk_len (inp.drop obj.CHUNK).length ((i - 65536) / 65536) := by
                rw [hdl, hq]
                simp only [spec.chunk_len]
                have e : inp.length - 65536 * ((i - 65536) / 65536 + 1) =
                    inp.length - 65536 - 65536 * ((i - 65536) / 65536) := by omega
                rw [e]
              refine ⟨K, ?_, ?_, ?_⟩
              · rw [hcl, ← hK1, ← keystream_mod, ← keystream_mod _ _ _
                  (spec.chunk_len (inp.drop obj.CHUNK).length ((i - 65536) / 65536))]
                congr 1
                simp only
                rw [hq]
                simp only [U64]
                omega
              · rw [hcl, hK2]
              · rw [List.getD_append_right _ _ _ _ (by rw [hx1]; omega), hx1, hfull, hK3,
                  getD_drop_add, hr]
                have e : obj.CHUNK + (i - 65536) = i := by
                  simp only [obj.CHUNK]
                  omega
                rw [e]
        · rw [if_pos (by simpa using hgood)] at henc
          cases henc
          refine ⟨[], ?_, Nat.zero_le _, fun h => Bool.noConfusion h,
            fun i hi => absurd hi (Nat.not_lt_zero i)⟩
          simp only [List.append_nil]
          unfold OStream.write
          unfold OStream.write at hgood
          split
          · split
            · rfl
            · rename_i h1 h2
              rw [if_pos h1, if_neg h2] at hgood
              exact absurd h1 hgood
          · rfl

/-! ## C34 -/

/-- C34 (ciphertext formula): whenever encrypt_stream returns, the bytes C it has
written after the bytes already in the stream are such that, for every i below the
length of C, with c = i / 65536 and L_c the length of chunk c of the plaintext, the
keystream K_c = first L_c bytes of hash_strong(nonce ‖ LE64(c), enc_key, "1654|XOF",
max(256, 8 * L_c)) exists and C[i] = P[i] XOR K_c[i mod 65536], so the counter is 0 for the
first chunk and one more for each following chunk; when the status is Ok, C has the
length of P and the returned tag is MAC(mac_key, C). With non-empty keys and a stream
that accepts every write, encrypt_stream returns Ok. L_c is 65536 for every chunk that
is not the last. -/
theorem C34_ciphertext_formula (wf : WriteFaults) (P ke km nonce : Bytes) (out : OStream) :
    (∀ r, obj.encrypt_stream wf P out ke km nonce = .ok r →
      ∃ C : Bytes, r.out.data = out.data ++ C ∧ C.length ≤ P.length ∧
        (∀ i, i < C.length → ∃ K : Bytes,
            spec.keystream ke nonce (i / 65536) (spec.chunk_len P.length (i / 65536)) = .ok K ∧
            K.length = spec.chunk_len P.length (i / 65536) ∧
            C.getD i 0 = P.getD i 0 ^^^ K.getD (i % 65536) 0) ∧
        (r.status = Status.ok → C.length = P.length ∧ mac.compute km C = .ok r.tag)) ∧
    (ke ≠ [] → km ≠ [] → out.good = true →
      ∃ r, obj.encrypt_stream noFaults P out ke km nonce = .ok r ∧ r.status = Status.ok) ∧
    (∀ n c, spec.chunk_len n c ≤ 65536 ∧
      (65536 * (c + 1) ≤ n → spec.chunk_len n c = 65536) ∧
      (65536 * c ≤ n → n ≤ 65536 * (c + 1) → spec.chunk_len n c = n - 65536 * c)) ∧
    (∀ c L, spec.keystream ke nonce c L =
      (petoron.petoron_hash_strong (nonce ++ spec.le64 c) ke (ascii "1654|XOF")
        { out_bits := max 256 (8 * L) }).map fun h => h.take L) := by
  refine ⟨?_, ?_, ?_, ?_⟩
  · intro r henc
    unfold obj.encrypt_stream at henc
    cases hl : obj.encryptLoop wf ke nonce (P.length + 1) P
        { out := out, mac_buf := [], counter := 0, written := 0 } with
    | error e => rw [hl] at henc; cases henc
    | ok res =>
      obtain ⟨b, st⟩ := res
      rw [hl] at henc
      obtain ⟨C, h1, h2, h3, h4⟩ := encryptLoop_formula wf ke nonce _ P _ b st
        (Nat.lt_succ_self _) hl
      have hform : ∀ i, i < C.length → ∃ K : Bytes,
          spec.keystream ke nonce (i / 65536) (spec.chunk_len P.length (i / 65536)) = .ok K ∧
          K.length = spec.chunk_len P.length (i / 65536) ∧
          C.getD i 0 = P.getD i 0 ^^^ K.getD (i % 65536) 0 := by
        intro i hi
        obtain ⟨K, k1, k2, k3⟩ := h4 i hi
        simp only [Nat.zero_add] at k1
        rw [keystream_mod] at k1
        exact ⟨K, k1, k2, k3⟩
      cases b with
      | false =>
        simp only at henc
        cases henc
        exact ⟨C, h1, h2, hform, fun h => by cases h⟩
      | true =>
        simp only at henc
        obtain ⟨e1, e2⟩ := h3 rfl
        simp only [List.nil_append] at e2
        cases hm : mac.compute km st.mac_buf with
        | error e => rw [hm] at henc; cases henc
        | ok tag =>
          rw [hm] at henc
          cases henc
          refine ⟨C, h1, h2, hform, fun _ => ⟨e1, ?_⟩⟩
          rw [← e2]
          exact hm
  · intro hke hkm hg
    unfold obj.encrypt_stream
    obtain ⟨st1, h⟩ := encryptLoop_ok ke nonce hke (P.length + 1) P
      { out := out, mac_buf := [], counter := 0, written := 0 } hg
    rw [h]
    obtain ⟨t, ht⟩ := mac_compute_ok km st1.mac_buf hkm
    simp only [ht]
    exact ⟨_, rfl, rfl⟩
  · intro n c
    simp only [spec.chunk_len]
    refine ⟨Nat.min_le_left _ _, fun h => Nat.min_eq_left (by omega),
      fun _ h => Nat.min_eq_right (by omega)⟩
  · intro c L
    unfold spec.keystream
    rw [Nat.mul_comm L 8]
    cases petoron.petoron_hash_strong (nonce ++ spec.le64 c) ke (ascii "1654|XOF")
      { out_bits := max 256 (8 * L) } <;> rfl

theorem C34_ciphertext_formula_witness :
    kat.salt ≠ [] ∧
    ∃ r, obj.encrypt_stream noFaults kat.hello OStream.fresh kat.salt kat.salt kat.ctx = .ok r ∧
      r.status = Status.ok :=
  ⟨by decide,
    (C34_ciphertext_formula noFaults kat.hello kat.salt kat.salt kat.ctx OStream.fresh).2.1
      (by decide) (by decide) rfl⟩
/-! ## The key parameters of the writer and of the reader -/

namespace vault

theorem created_reserved_lt (rng : Rng) (key_bits kdf_cost : Nat) :
    ∀ b ∈ (created_header rng key_bits kdf_cost).reserved, b < 256 := by
  intro b hb
  simp only [created_header, built_header, write_u32_le, List.mem_append, List.mem_cons,
    List.mem_replicate, and_255_eq_mod, List.mem_nil_iff, or_false] at hb
  omega

/-- The reader finds the parameters of the writer in the reserved field when both are
below 2^32. -/
theorem reader_params_created (rng : Rng) (key_bits kdf_cost : Nat)
    (hkb : 256 ≤ key_bits) (hkb32 : key_bits < 2 ^ 32) (hc1 : 1 ≤ kdf_cost)
    (hc32 : kdf_cost < 2 ^ 32) :
    spec.reader_key_bits (created_header rng key_bits kdf_cost).reserved = key_bits ∧
    spec.reader_kdf_cost (created_header rng key_bits kdf_cost).reserved = kdf_cost := by
  have hb := created_reserved_lt rng key_bits kdf_cost
  have h := reserved_key_params rng key_bits kdf_cost hkb hkb32 hc1 hc32
  rw [read_u32_le_eq_u32_at _ 0 hb, read_u32_le_eq_u32_at _ 4 hb] at h
  exact h

theorem created_salt_ne_nil (rng : Rng) (key_bits kdf_cost : Nat) :
    (created_header rng key_bits kdf_cost).salt ≠ [] := by
  intro h
  have hl : (created_header rng key_bits kdf_cost).salt.length = SALT_SIZE :=
    rng_bytes_length _ _
  rw [h] at hl
  simp [SALT_SIZE] at hl

end vault

theorem encrypt_cmd_valid (io : IoFaults) (rng : Rng) (fs : FileSys) (input : HostPath)
    (out : String) (password : Bytes) (bits cost : Nat) (hb : 256 ≤ bits) (h8 : bits % 8 = 0)
    (hc : 1 ≤ cost) :
    modes.encrypt_cmd io rng fs input out password bits cost =
      vault.create_vault_from_path io rng fs input out password bits cost := by
  unfold modes.encrypt_cmd
  rw [if_neg (by omega), if_neg (by omega)]

/-! ## C40 -/

/-- C40, amended (key-size agreement between writer and reader): for every key_bits with
256 <= key_bits < 2^32 and key_bits mod 8 = 0 and every cost with 1 <= cost < 2^32, the
encrypt command passes the values to create_vault_from_path; the key_bits and cost the
reader recovers from the reserved field of the header written equal the writer's, with
key_bytes = ceil(key_bits / 8) = key_bits / 8; the key derivation returns keys of
key_bytes bytes each; and when the command returns Ok the file starts with that header,
the writer's keys are derive(password, salt, key_bytes, cost), and the reader's tail of
open_for_view on that header derives the same keys and goes on with them. -/
theorem C40_key_size_agreement (io : IoFaults) (rng : Rng) (fs : FileSys) (input : HostPath)
    (out : String) (password : Bytes) (key_bits cost : Nat)
    (hkb : 256 ≤ key_bits) (h8 : key_bits % 8 = 0) (hkb32 : key_bits < 2 ^ 32)
    (hc1 : 1 ≤ cost) (hc32 : cost < 2 ^ 32) :
    modes.encrypt_cmd io rng fs input out password key_bits cost =
      vault.create_vault_from_path io rng fs input out password key_bits cost ∧
    spec.reader_key_bits (vault.created_header rng key_bits cost).reserved = key_bits ∧
    spec.reader_kdf_cost (vault.created_header rng key_bits cost).reserved = cost ∧
    8 * bits_to_bytes key_bits = key_bits ∧
    (∃ keys, kdf.derive password (vault.created_header rng key_bits cost).salt
        (bits_to_bytes key_bits) cost = .ok keys ∧
      keys.enc.length = bits_to_bytes key_bits ∧ keys.mac.length = bits_to_bytes key_bits) ∧
    (∀ st fs1, modes.encrypt_cmd io rng fs input out password key_bits cost = .ok (st, fs1) →
      st.is_ok = true →
      ∃ bytes keys objs idx tag, fs1 = fs.set out (some bytes) ∧
        vault.Created rng input password key_bits cost bytes keys objs idx tag ∧
        vault.parse_header ((bytes.drop 0).take fmt.GLOBAL_HEADER_SIZE) =
          vault.created_header rng key_bits cost ∧
        kdf.derive password (vault.created_header rng key_bits cost).salt
          (bits_to_bytes (spec.reader_key_bits (vault.created_header rng key_bits cost).reserved))
          (spec.reader_kdf_cost (vault.created_header rng key_bits cost).reserved) = .ok keys ∧
        ∀ (af : AllocFaults) (ib : Bytes) (vo : vault.VaultOpen),
          vo.header = vault.created_header rng key_bits cost →
          vault.open_tail af password ib vo =
            match mac.verify keys.mac ib vo.trailer.index_tag with
            | .error e => .error e
            | .ok ok =>
              if ok then
                match index.decode_index af ib with
                | .error e => .error e
                | .ok r => .ok (r.1, { vo with keys := keys, idx := r.2 })
              else
                .ok (Status.err ExitCode.IntegrityError "wrong password or corrupted vault",
                  { vo with keys := keys })) := by
  obtain ⟨hr1, hr2⟩ := vault.reader_params_created rng key_bits cost hkb hkb32 hc1 hc32
  have hcmd := encrypt_cmd_valid io rng fs input out password key_bits cost hkb h8 hc1
  have hbytes : 8 * bits_to_bytes key_bits = key_bits := by
    unfold bits_to_bytes
    omega
  refine ⟨hcmd, hr1, hr2, hbytes, ?_, ?_⟩
  · exact derive_ok password _ (bits_to_bytes key_bits) cost
      (vault.created_salt_ne_nil rng key_bits cost) (by unfold bits_to_bytes; omega)
      (by unfold bits_to_bytes; omega)
  · intro st fs1 h hok
    rw [hcmd] at h
    obtain ⟨bytes, keys, objs, idx, tag, hfs, hc⟩ :=
      vault.create_ok_inv io rng fs fs1 input out password key_bits cost st h hok
    refine ⟨bytes, keys, objs, idx, tag, hfs, hc, ?_, ?_, ?_⟩
    · rw [hc.bytes_eq, List.append_assoc, List.append_assoc]
      exact vault.parse_header_bytes (vault.created_header rng key_bits cost) _ rfl
        (vault.rng_bytes_length _ _) (vault.rng_bytes_length _ _)
        (by simp [vault.created_header, vault.built_header, write_u32_le])
        (show VERSION < U32 by decide) (show fmt.GLOBAL_HEADER_SIZE % U32 < U32 by decide)
    · rw [hr1, hr2]
      exact hc.keys_eq
    · intro af ib vo hvo
      rw [vault.open_tail_eq password ib vo (by
        rw [hvo]; exact vault.created_reserved_lt rng key_bits cost)]
      rw [hvo, hr1, hr2]
      have hk := hc.keys_eq
      unfold bits_to_bytes at hk
      rewrite [hk]
      rfl

theorem C40_key_size_agreement_witness :
    256 ≤ 256 ∧ 256 % 8 = 0 ∧ 256 < 2 ^ 32 ∧ 1 ≤ 1 ∧ 1 < 2 ^ 32 ∧
    spec.reader_key_bits (vault.created_header demoRng 256 1).reserved = 256 ∧
    spec.reader_kdf_cost (vault.created_header demoRng 256 1).reserved = 1 :=
  have h := C40_key_size_agreement IoFaults.none demoRng emptyFs demoInput "v.1654" demoPw
    256 1 (by decide) (by decide) (by decide) (by decide) (by decide)
  ⟨by decide, by decide, by decide, by decide, by decide, h.2.1, h.2.2.1⟩

/-- C40, counterexample: key_bits = 2^32 with cost 1 passes the checks of the encrypt
command, which hands both to create_vault_from_path; the header stores the low 32 bits
of key_bits, which are zero, so the reader takes 512 bits and derives keys of 64 bytes,
while the writer derived keys of ceil(2^32 / 8) = 2^29 bytes: the reader's keys differ
from the writer's. -/
theorem C40_wide_key_bits_truncated :
    (2 : Nat) ^ 32 < 2 ^ 64 ∧ 256 ≤ (2 : Nat) ^ 32 ∧ (2 : Nat) ^ 32 % 8 = 0 ∧
    (∀ io fs input out,
      modes.encrypt_cmd io demoRng fs input out demoPw (2 ^ 32) 1 =
        vault.create_vault_from_path io demoRng fs input out demoPw (2 ^ 32) 1) ∧
    spec.reader_key_bits (vault.created_header demoRng (2 ^ 32) 1).reserved = 512 ∧
    spec.reader_kdf_cost (vault.created_header demoRng (2 ^ 32) 1).reserved = 1 ∧
    bits_to_bytes (spec.reader_key_bits (vault.created_header demoRng (2 ^ 32) 1).reserved) =
      64 ∧
    bits_to_bytes (2 ^ 32) = 2 ^ 29 ∧
    ∃ kw kr,
      kdf.derive demoPw (vault.created_header demoRng (2 ^ 32) 1).salt
        (bits_to_bytes (2 ^ 32)) 1 = .ok kw ∧
      kdf.derive demoPw (vault.created_header demoRng (2 ^ 32) 1).salt
        (bits_to_bytes (spec.reader_key_bits (vault.created_header demoRng (2 ^ 32) 1).reserved))
        (spec.reader_kdf_cost (vault.created_header demoRng (2 ^ 32) 1).reserved) = .ok kr ∧
      kw.enc.length = 2 ^ 29 ∧ kr.enc.length = 64 ∧ kw ≠ kr := by
  have hk : spec.reader_key_bits (vault.created_header demoRng (2 ^ 32) 1).reserved = 512 := by
    decide
  have hcst : spec.reader_kdf_cost (vault.created_header demoRng (2 ^ 32) 1).reserved = 1 := by
    decide
  have hb : bits_to_bytes (2 ^ 32) = 2 ^ 29 := by
    unfold bits_to_bytes
    norm_num
  have hsalt := vault.created_salt_ne_nil demoRng (2 ^ 32) 1
  refine ⟨by norm_num, by norm_num, by norm_num, ?_, hk, hcst, ?_, hb, ?_⟩
  · intro io fs input out
    exact encrypt_cmd_valid io demoRng fs input out demoPw (2 ^ 32) 1 (by norm_num)
      (by norm_num) (Nat.le_refl 1)
  · rw [hk]
    rfl
  · rw [hk, hcst, hb]
    obtain ⟨kw, hw, hwl, _⟩ := derive_ok demoPw _ (2 ^ 29) 1 hsalt (by norm_num) (by norm_num)
    obtain ⟨kr, hr, hrl, _⟩ := derive_ok demoPw _ (bits_to_bytes 512) 1 hsalt (by decide)
      (by decide)
    refine ⟨kw, kr, hw, hr, hwl, hrl, ?_⟩
    intro he
    rw [he, hrl] at hwl
    revert hwl
    norm_num [bits_to_bytes]
/-! ## What a decryption that returns Ok has read and written -/

theorem decryptLoop_inv (wf : WriteFaults) (ke nonce : Bytes) (fuel : Nat) :
    ∀ (inp : Bytes) (remaining : Nat) (st st1 : obj.DecState), remaining < fuel →
      obj.decryptLoop wf ke nonce fuel inp remaining st = .ok (none, st1) →
      ∃ P : Bytes, st1.out.data = st.out.data ++ P ∧ P.length = remaining ∧
        remaining ≤ inp.length ∧ st1.mac_buf = st.mac_buf ++ inp.take remaining := by
  induction fuel with
  | zero => intro inp remaining st st1 h; omega
  | succ n ih =>
    intro inp remaining st st1 hfuel h
    simp only [obj.decryptLoop] at h
    by_cases hr : remaining = 0
    · rw [if_pos hr] at h
      cases h
      subst hr
      exact ⟨[], by simp, rfl, Nat.zero_le _, by simp⟩
    · rw [if_neg hr] at h
      generalize hw : (if remaining > obj.CHUNK then obj.CHUNK else remaining) = want at h
      have hw1 : 1 ≤ want ∧ want ≤ remaining := by
        rw [← hw]
        simp only [obj.CHUNK]
        split <;> omega
      by_cases hlen : (inp.take want).length ≠ want
      · rw [if_pos hlen] at h
        cases h
      · rw [if_neg hlen] at h
        have hlen2 : (inp.take want).length = want := by
          by_contra hc
          exact hlen hc
        cases hx : xof.generate ke nonce st.counter want with
        | error e => rw [hx] at h; cases h
        | ok ks =>
          rw [hx] at h
          simp only at h
          have hks : ks.length = (inp.take want).length := by
            rw [xof_generate_length _ _ _ _ _ hx, hlen2]
          by_cases hgood : (st.out.write wf (obj.xorBytes (inp.take want) ks)).good = true
          · rw [if_neg (by simpa using hgood)] at h
            have hwr := write_good wf st.out _ hgood
            obtain ⟨P, hd, hl, hle, hm⟩ := ih _ _ _ _ (by omega) h
            have hwi : want ≤ inp.length := by
              rw [List.length_take] at hlen2
              omega
            refine ⟨obj.xorBytes (inp.take want) ks ++ P, ?_, ?_, ?_, ?_⟩
            · rw [hd, hwr.1, List.append_assoc]
            · rw [List.length_append, xorBytes_length _ _ hks, hlen2, hl]
              omega
            · rw [List.length_drop] at hle
              omega
            · rw [hm]
              simp only
              rw [List.append_assoc]
              congr 1
              have e1 : remaining = want + (remaining - want) := by omega
              conv => rhs; rw [e1, List.take_add]
          · rw [if_pos (by simpa using hgood)] at h
            cases h

theorem decryptLoop_early_not_ok (wf : WriteFaults) (ke nonce : Bytes) (fuel : Nat) :
    ∀ (inp : Bytes) (remaining : Nat) (st st1 : obj.DecState) (s : Status),
      obj.decryptLoop wf ke nonce fuel inp remaining st = .ok (some s, st1) →
      s.is_ok = false := by
  induction fuel with
  | zero =>
    intro inp remaining st st1 s h
    simp only [obj.decryptLoop] at h
    cases h
  | succ n ih =>
    intro inp remaining st st1 s h
    simp only [obj.decryptLoop] at h
    by_cases hr : remaining = 0
    · rw [if_pos hr] at h
      cases h
    · rw [if_neg hr] at h
      generalize (if remaining > obj.CHUNK then obj.CHUNK else remaining) = want at h
      by_cases hlen : (inp.take want).length ≠ want
      · rw [if_pos hlen] at h
        cases h
        rfl
      · rw [if_neg hlen] at h
        cases hx : xof.generate ke nonce st.counter want with
        | error e => rw [hx] at h; cases h
        | ok ks =>
          rw [hx] at h
          simp only at h
          by_cases hgood : (st.out.write wf (obj.xorBytes (inp.take want) ks)).good = true
          · rw [if_neg (by simpa using hgood)] at h
            exact ih _ _ _ _ _ h
          · rw [if_pos (by simpa using hgood)] at h
            cases h
            rfl

/-- When decrypt_stream returns Ok, the input held data_size bytes, their MAC is the
expected tag, and data_size bytes were appended to the output. -/
theorem decrypt_stream_ok_inv (wf : WriteFaults) (inp ke km nonce tag : Bytes) (out out3 : OStream)
    (n : Nat) (st : Status)
    (h : obj.decrypt_stream wf inp out ke km nonce n tag = .ok (st, out3))
    (hok : st.is_ok = true) :
    st = Status.ok ∧
    ∃ P : Bytes, out3.data = out.data ++ P ∧ P.length = n ∧ n ≤ inp.length ∧
      mac.compute km (inp.take n) = .ok tag := by
  unfold obj.decrypt_stream at h
  cases hl : obj.decryptLoop wf ke nonce (n + 1) inp n { out := out, mac_buf := [], counter := 0 }
    with
  | error e => rw [hl] at h; cases h
  | ok r =>
    obtain ⟨o, st1⟩ := r
    rw [hl] at h
    cases o with
    | some s =>
      simp only at h
      have hs : s = st := by
        cases h
        rfl
      have hno := decryptLoop_early_not_ok wf ke nonce (n + 1) inp n _ _ _ hl
      rw [hs, hok] at hno
      cases hno
    | none =>
      simp only at h
      obtain ⟨P, hd, hlen, hle, hm⟩ := decryptLoop_inv wf ke nonce (n + 1) inp n _ _
        (Nat.lt_succ_self _) hl
      simp only [List.nil_append] at hm
      unfold mac.verify at h
      cases hc : mac.compute km st1.mac_buf with
      | error e => rw [hc] at h; cases h
      | ok t =>
        rw [hc] at h
        simp only at h
        by_cases ht : t = tag
        · subst ht
          simp only [decide_True, not_true_eq_false, if_false] at h
          cases h
          refine ⟨rfl, P, hd, hlen, hle, ?_⟩
          rw [← hm]
          exact hc
        · simp only [ht, decide_False, Bool.false_eq_true, not_false_eq_true, if_true] at h
          cases h
          cases hok

/-- Without write faults and with non-empty keys encrypt_stream returns Ok and leaves
the stream good. -/
theorem encrypt_stream_noFaults (P ke km nonce : Bytes) (out : OStream) (hke : ke ≠ [])
    (hkm : km ≠ []) (hg : out.good = true) :
    ∃ r, obj.encrypt_stream noFaults P out ke km nonce = .ok r ∧ r.status = Status.ok ∧
      r.out.good = true := by
  have h : ∃ r, obj.encrypt_stream noFaults P out ke km nonce = .ok r ∧ r.status = Status.ok := by
    unfold obj.encrypt_stream
    obtain ⟨st1, h⟩ := encryptLoop_ok ke nonce hke (P.length + 1) P
      { out := out, mac_buf := [], counter := 0, written := 0 } hg
    rw [h]
    obtain ⟨t, ht⟩ := mac_compute_ok km st1.mac_buf hkm
    simp only [ht]
    exact ⟨_, rfl, rfl⟩
  obtain ⟨r, hr, hs⟩ := h
  obtain ⟨_, _, _, _, hgood, _⟩ :=
    encrypt_stream_decrypt_stream noFaults P ke km nonce out r hr (by rw [hs]; rfl)
  exact ⟨r, hr, hs, hgood hg⟩

/-! ## The transfer loop -/

namespace vault

theorem match_prefix_iff (t p : Bytes) : match_prefix t p = true ↔ spec.under t p :=
  is_prefix_path_iff t p

theorem any_match_prefix_iff (sel : List Bytes) (p : Bytes) :
    sel.any (fun w => match_prefix w p) = true ↔ spec.matched sel p := by
  unfold spec.matched
  simp only [List.any_eq_true, match_prefix_iff]

/-- The three tests at the head of the transfer loop are the selection rule. -/
theorem transfer_selects_iff (sel : List Bytes) (ih : Bool) (e : index.Entry) :
    spec.transfer_selects sel ih e = true ↔
      (¬ (e.flags &&& fmt.F_DELETED) ≠ 0) ∧ (¬ (¬ ih = true ∧ (e.flags &&& fmt.F_HIDDEN) ≠ 0)) ∧
        ¬ (sel ≠ [] ∧ ¬ sel.any (fun w => match_prefix w e.path) = true) := by
  unfold spec.transfer_selects
  rw [decide_eq_true_iff, any_match_prefix_iff]
  constructor
  · rintro ⟨h1, h2, h3⟩
    refine ⟨fun h => h h1, ?_, ?_⟩
    · rintro ⟨a, b⟩
      rcases h2 with h2 | h2
      · exact a h2
      · exact b h2
    · rintro ⟨a, b⟩
      rcases h3 with h3 | h3
      · exact a h3
      · exact b h3
  · rintro ⟨h1, h2, h3⟩
    refine ⟨by_contra fun h => h1 h, ?_, ?_⟩
    · by_cases a : ih = true
      · exact Or.inl a
      · exact Or.inr (by_contra fun b => h2 ⟨a, b⟩)
    · by_cases a : sel = []
      · exact Or.inl a
      · exact Or.inr (by_contra fun b => h3 ⟨a, b⟩)

theorem transferred_mono (sk dk : kdf.Keys) (content data more : Bytes) (e d : index.Entry)
    (h : Transferred sk dk content data e d) : Transferred sk dk content (data ++ more) e d := by
  obtain ⟨h1, h2, h3, h4, h5⟩ := h
  refine ⟨h1, h2, h3, h4, fun hne => ?_⟩
  obtain ⟨P, out, a2, a3, a4, a5, a6, a7, a8⟩ := h5 hne
  refine ⟨P, out, a2, a3, a4, a5, a6, a7, fun hlt => ?_⟩
  rw [List.length_append] at hlt
  exact objectAt_mono dk data more d _ (a8 (by omega))

theorem tellp_lt (s : OStream) : s.tellp < U64 := by
  unfold OStream.tellp
  split
  · exact Nat.mod_lt _ (by simp [U64])
  · simp [U64]

/-- A run of the transfer loop that returns Ok appended the objects of the selected File
entries to the destination and one entry for each selected entry to the index. -/
theorem transferEntries_ok_inv (wf : WriteFaults) (content : Bytes) (sk dk : kdf.Keys)
    (sel : List Bytes) (ih : Bool) :
    ∀ (es : List index.Entry) (s s1 : WriteState) (st : Status),
      (∀ e ∈ es, FieldsOk e) → s.ofs.good = true →
      transferEntries wf content sk dk sel ih es s = .ok (st, s1) → st.is_ok = true →
      ∃ (more : Bytes) (added : List index.Entry),
        s1.ofs.data = s.ofs.data ++ more ∧ s1.ofs.good = true ∧
        s1.idx.entries = s.idx.entries ++ added ∧
        List.Forall₂ (Transferred sk dk content s1.ofs.data)
          (es.filter (spec.transfer_selects sel ih)) added ∧
        (∀ d ∈ added, FieldsOk d) := by
  intro es
  induction es with
  | nil =>
    intro s s1 st _ hg h _
    simp only [transferEntries] at h
    cases h
    exact ⟨[], [], by simp, hg, by simp, List.Forall₂.nil,
      fun d hd => absurd hd (List.not_mem_nil d)⟩
  | cons e rest ihr =>
    intro s s1 st hf hg h hok
    have hfe : FieldsOk e := hf e (List.mem_cons_self _ _)
    have hfr : ∀ x ∈ rest, FieldsOk x := fun x hx => hf x (List.mem_cons_of_mem _ hx)
    simp only [transferEntries] at h
    have hskip : spec.transfer_selects sel ih e = false →
        transferEntries wf content sk dk sel ih rest s = .ok (st, s1) →
        ∃ (more : Bytes) (added : List index.Entry),
          s1.ofs.data = s.ofs.data ++ more ∧ s1.ofs.good = true ∧
          s1.idx.entries = s.idx.entries ++ added ∧
          List.Forall₂ (Transferred sk dk content s1.ofs.data)
            ((e :: rest).filter (spec.transfer_selects sel ih)) added ∧
          (∀ d ∈ added, FieldsOk d) := by
      intro hns h2
      rw [List.filter_cons_of_neg (by simp [hns])]
      exact ihr s s1 st hfr hg h2 hok
    by_cases c1 : (e.flags &&& fmt.F_DELETED) ≠ 0
    · rw [if_pos c1] at h
      refine hskip ?_ h
      by_contra hc
      exact ((transfer_selects_iff sel ih e).mp (by simpa using hc)).1 c1
    rw [if_neg c1] at h
    by_cases c2 : ¬ ih = true ∧ (e.flags &&& fmt.F_HIDDEN) ≠ 0
    · rw [if_pos c2] at h
      refine hskip ?_ h
      by_contra hc
      exact ((transfer_selects_iff sel ih e).mp (by simpa using hc)).2.1 c2
    rw [if_neg c2] at h
    by_cases c3 : sel ≠ [] ∧ ¬ sel.any (fun w => match_prefix w e.path) = true
    · rw [if_pos c3] at h
      refine hskip ?_ h
      by_contra hc
      exact ((transfer_selects_iff sel ih e).mp (by simpa using hc)).2.2 c3
    rw [if_neg c3] at h
    have hsel : spec.transfer_selects sel ih e = true :=
      (transfer_selects_iff sel ih e).mpr ⟨c1, c2, c3⟩
    rw [List.filter_cons_of_pos hsel]
    obtain ⟨f1, f2, f3, f4, f5, f6⟩ := hfe
    by_cases hdir : e.type = fmt.ObjType.Dir
    · rw [if_pos hdir] at h
      have hstep := fun hgood => ihr _ s1 st hfr hgood h hok
      obtain ⟨more, added, hd, hg1, hi, hall, hfa⟩ := hstep hg
      refine ⟨more, _ :: added, hd, hg1, by rw [hi, List.append_assoc]; rfl,
        List.Forall₂.cons ?_ hall, ?_⟩
      · exact ⟨rfl, rfl, rfl, fun _ => ⟨rfl, rfl, rfl, rfl, rfl⟩, fun hne => absurd hdir hne⟩
      · intro d hd2
        rcases List.mem_cons.mp hd2 with rfl | hd2
        · exact ⟨f1, f2, by simp [U64], by simp [U64], by simp, by simp⟩
        · exact hfa d hd2
    · rw [if_neg hdir] at h
      by_cases hseek : 2 ^ 63 ≤ e.data_offset
      · rw [if_pos hseek] at h
        cases h
        rw [io_err_not_ok] at hok
        cases hok
      rw [if_neg hseek] at h
      by_cases hread : ((content.drop e.data_offset).take e.data_size).length ≠ e.data_size
      · rw [if_pos hread] at h
        cases h
        rw [io_err_not_ok] at hok
        cases hok
      rw [if_neg hread] at h
      have hread2 : ((content.drop e.data_offset).take e.data_size).length = e.data_size := by
        by_contra hc
        exact hread hc
      cases hdec : obj.decrypt_stream (fun _ => false)
          ((content.drop e.data_offset).take e.data_size) OStream.fresh sk.enc sk.mac e.nonce
          e.data_size e.tag with
      | error x => rw [hdec] at h; cases h
      | ok r2 =>
        obtain ⟨st2, pout⟩ := r2
        rw [hdec] at h
        simp only at h
        by_cases hst2 : st2.is_ok = true
        · rw [if_neg (by simp [hst2])] at h
          obtain ⟨hst2eq, P, hpd, hpl, _, _⟩ :=
            decrypt_stream_ok_inv _ _ _ _ _ _ _ _ _ _ hdec hst2
          have hP : pout.data = P := by
            rw [hpd]
            rfl
          rw [hP] at h
          cases henc : obj.encrypt_stream wf P s.ofs dk.enc dk.mac (s.rng.bytes NONCE_SIZE).1 with
          | error x => rw [henc] at h; cases h
          | ok res =>
            rw [henc] at h
            simp only at h
            by_cases hres : res.status.is_ok = true
            · rw [if_neg (by simp [hres])] at h
              have hPlt : P.length < U64 := by rw [hpl]; exact f4
              obtain ⟨C, hcd, hcl, hcm, hcg, hbw, hdec2⟩ :=
                encrypt_stream_decrypt_stream wf P dk.enc dk.mac _ s.ofs res henc hres
              obtain ⟨hbw2, _⟩ := hdec2 hPlt
              have hgr := grows_file wf dk s
                { ofs := res.out,
                  idx := ⟨s.idx.entries ++
                    [{ e with size := P.length % U64, nonce := (s.rng.bytes NONCE_SIZE).1,
                              data_offset := s.ofs.tellp, data_size := res.bytes_written,
                              tag := res.tag }]⟩,
                  rng := (s.rng.bytes NONCE_SIZE).2 }
                res P (s.rng.bytes NONCE_SIZE).1 _ hg (rng_bytes_length _ _) henc hres rfl rfl
                (by
                  show e.type = fmt.ObjType.File
                  cases ht : e.type
                  · rfl
                  · exact absurd ht hdir)
                f1 (Nat.mod_lt _ (by simp [U64])) rfl rfl rfl rfl
              obtain ⟨m0, a0, hd0, he0, hg0, hadd0⟩ := hgr
              simp only at hd0 he0 hg0 hadd0
              have ha0 := List.append_cancel_left he0
              have hstep := fun hgood => ihr _ s1 st hfr hgood h hok
              obtain ⟨more, added, hd, hg1, hi, hall, hfa⟩ := hstep hg0
              refine ⟨m0 ++ more, _ :: added, by rw [hd, hd0, List.append_assoc], hg1,
                by rw [hi, List.append_assoc]; rfl, List.Forall₂.cons ?_ hall, ?_⟩
              · refine ⟨rfl, rfl, rfl, fun hd2 => absurd hd2 hdir, fun _ => ?_⟩
                refine ⟨P, pout, ?_, hP, hpl, ?_, ?_, rng_bytes_length _ _, ?_⟩
                · rw [hdec, hst2eq]
                · show P.length % U64 = P.length
                  exact Nat.mod_eq_of_lt hPlt
                · show res.bytes_written = e.data_size
                  rw [hbw2, hpl]
                · intro hlt
                  have hd1 : s1.ofs.data = res.out.data ++ more := hd
                  rw [hd1, List.length_append] at hlt
                  have hobj := (hadd0 (by omega)).objects
                  rw [← ha0] at hobj
                  simp only [List.filter_cons, isFile] at hobj
                  rw [hd1]
                  apply objectAt_mono
                  have ht : e.type = fmt.ObjType.File := by
                    cases ht : e.type
                    · rfl
                    · exact absurd ht hdir
                  simp only [ht, decide_True, if_true, List.filter_nil] at hobj
                  cases hobj with
                  | cons h1 _ => exact h1
              · intro d hd2
                rcases List.mem_cons.mp hd2 with rfl | hd2
                · exact ⟨f1, Nat.mod_lt _ (by simp [U64]), tellp_lt _, hbw,
                    rng_bytes_length _ _, mac_compute_length _ _ _ hcm⟩
                · exact hfa d hd2
            · rw [if_pos (by simpa using hres)] at h
              cases h
              exact absurd hok hres
        · rw [if_pos (by simpa using hst2)] at h
          cases h
          exact absurd hok hst2

end vault

/-! ## Runs of the transfer -/

theorem mac_compute_key_ne (key data t : Bytes) (h : mac.compute key data = .ok t) : key ≠ [] := by
  intro hk
  subst hk
  unfold mac.compute petoron.petoron_hash_strong petoron.validate_params at h
  simp at h

theorem mac_verify_key_ne (key data tag : Bytes) (b : Bool)
    (h : mac.verify key data tag = .ok b) : key ≠ [] := by
  unfold mac.verify at h
  cases hc : mac.compute key data with
  | error e => rw [hc] at h; cases h
  | ok t => exact mac_compute_key_ne _ _ _ hc

theorem derive_enc_ne (password salt : Bytes) (key_bytes cost : Nat) (keys : kdf.Keys)
    (h : kdf.derive password salt key_bytes cost = .ok keys) (hm : keys.mac ≠ []) :
    keys.enc ≠ [] := by
  unfold kdf.derive at h
  split at h
  · cases h
  · rename_i hkb
    simp only at h
    split at h
    · cases h
    · split at h
      · cases h
      · rename_i state _
        split at h
        · cases h
        · cases h
          simp only at hm ⊢
          intro hc
          apply hm
          rcases List.take_eq_nil_iff.mp hc with h0 | h0
          · exact absurd h0 hkb
          · rw [h0]
            simp

namespace vault

/-- The keys of a vault that opened are not empty. -/
theorem open_keys_ne {af : AllocFaults} (fs : FileSys) (vp : String) (password : Bytes)
    (st0 : Status) (vo : VaultOpen) (hopen : open_for_view af fs vp password = .ok (st0, vo))
    (hst0 : st0.is_ok = true) : vo.keys.enc ≠ [] ∧ vo.keys.mac ≠ [] := by
  obtain ⟨c, hdr, tr, ib, _, _, ht⟩ := open_for_view_ok_inv fs vp password st0 vo hopen hst0
  obtain ⟨_, _, h3, h4, _⟩ := open_tail_ok_inv password ib _ _ _ ht hst0
  have hm := mac_verify_key_ne _ _ _ _ h4
  exact ⟨derive_enc_ne _ _ _ _ _ h3 hm, hm⟩

end vault

namespace vault

/-- Without write faults, with non-empty keys and source objects that lie in the source
file, the transfer loop returns: Ok when the MAC of every selected source object is the
tag of its entry, the integrity error when that of some selected object is not. -/
theorem transferEntries_noFaults (content : Bytes) (sk dk : kdf.Keys) (sel : List Bytes)
    (ih : Bool) (hse : sk.enc ≠ []) (hsm : sk.mac ≠ []) (hde : dk.enc ≠ []) (hdm : dk.mac ≠ []) :
    ∀ (es : List index.Entry) (s : WriteState), s.ofs.good = true →
      (∀ e ∈ es, spec.transfer_selects sel ih e = true → e.type ≠ fmt.ObjType.Dir →
        e.data_offset < 2 ^ 63 ∧ e.data_offset + e.data_size ≤ content.length) →
      ∃ (st : Status) (s1 : WriteState),
        transferEntries (fun _ => false) content sk dk sel ih es s = .ok (st, s1) ∧
        ((∀ e ∈ es, spec.transfer_selects sel ih e = true → e.type ≠ fmt.ObjType.Dir →
            mac.compute sk.mac ((content.drop e.data_offset).take e.data_size) = .ok e.tag) →
          st = Status.ok) ∧
        ((∃ e ∈ es, spec.transfer_selects sel ih e = true ∧ e.type ≠ fmt.ObjType.Dir ∧
            mac.compute sk.mac ((content.drop e.data_offset).take e.data_size) ≠ .ok e.tag) →
          st = Status.err ExitCode.IntegrityError "integrity check failed") := by
  intro es
  induction es with
  | nil =>
    intro s _ _
    refine ⟨Status.ok, s, rfl, fun _ => rfl, ?_⟩
    rintro ⟨e, he, _⟩
    exact absurd he (List.not_mem_nil e)
  | cons e rest ihr =>
    intro s hg hrange
    have hrr : ∀ x ∈ rest, spec.transfer_selects sel ih x = true → x.type ≠ fmt.ObjType.Dir →
        x.data_offset < 2 ^ 63 ∧ x.data_offset + x.data_size ≤ content.length :=
      fun x hx => hrange x (List.mem_cons_of_mem _ hx)
    simp only [transferEntries]
    have hskip : ∀ s2 : WriteState, s2.ofs.good = true →
        (spec.transfer_selects sel ih e = false ∨ e.type = fmt.ObjType.Dir) →
        ∃ (st : Status) (s1 : WriteState),
          transferEntries (fun _ => false) content sk dk sel ih rest s2 = .ok (st, s1) ∧
          ((∀ x ∈ e :: rest, spec.transfer_selects sel ih x = true → x.type ≠ fmt.ObjType.Dir →
              mac.compute sk.mac ((content.drop x.data_offset).take x.data_size) = .ok x.tag) →
            st = Status.ok) ∧
          ((∃ x ∈ e :: rest, spec.transfer_selects sel ih x = true ∧ x.type ≠ fmt.ObjType.Dir ∧
              mac.compute sk.mac ((content.drop x.data_offset).take x.data_size) ≠ .ok x.tag) →
            st = Status.err ExitCode.IntegrityError "integrity check failed") := by
      intro s2 hg2 hno
      obtain ⟨st, s1, h1, h2, h3⟩ := ihr s2 hg2 hrr
      refine ⟨st, s1, h1, fun hall => h2 fun x hx => hall x (List.mem_cons_of_mem _ hx), ?_⟩
      rintro ⟨x, hx, hx1, hx2, hx3⟩
      rcases List.mem_cons.mp hx with rfl | hx
      · rcases hno with hno | hno
        · rw [hno] at hx1
          cases hx1
        · exact absurd hno hx2
      · exact h3 ⟨x, hx, hx1, hx2, hx3⟩
    by_cases c1 : (e.flags &&& fmt.F_DELETED) ≠ 0
    · rw [if_pos c1]
      refine hskip s hg (Or.inl ?_)
      by_contra hc
      exact ((transfer_selects_iff sel ih e).mp (by simpa using hc)).1 c1
    rw [if_neg c1]
    by_cases c2 : ¬ ih = true ∧ (e.flags &&& fmt.F_HIDDEN) ≠ 0
    · rw [if_pos c2]
      refine hskip s hg (Or.inl ?_)
      by_contra hc
      exact ((transfer_selects_iff sel ih e).mp (by simpa using hc)).2.1 c2
    rw [if_neg c2]
    by_cases c3 : sel ≠ [] ∧ ¬ sel.any (fun w => match_prefix w e.path) = true
    · rw [if_pos c3]
      refine hskip s hg (Or.inl ?_)
      by_contra hc
      exact ((transfer_selects_iff sel ih e).mp (by simpa using hc)).2.2 c3
    rw [if_neg c3]
    have hsel : spec.transfer_selects sel ih e = true :=
      (transfer_selects_iff sel ih e).mpr ⟨c1, c2, c3⟩
    by_cases hdir : e.type = fmt.ObjType.Dir
    · rw [if_pos hdir]
      exact hskip _ hg (Or.inr hdir)
    rw [if_neg hdir]
    obtain ⟨hoff, hend⟩ := hrange e (List.mem_cons_self _ _) hsel hdir
    rw [if_neg (by omega)]
    have hlen : ((content.drop e.data_offset).take e.data_size).length = e.data_size := by
      rw [List.length_take, List.length_drop]
      omega
    rw [if_neg (by rw [hlen]; simp)]
    obtain ⟨t, out3, ht, hdec⟩ := decrypt_stream_status
      ((content.drop e.data_offset).take e.data_size) sk.enc sk.mac e.nonce e.tag OStream.fresh
      e.data_size hse hsm (by rw [hlen]) rfl
    have htk : ((content.drop e.data_offset).take e.data_size).take e.data_size =
        (content.drop e.data_offset).take e.data_size := by
      rw [List.take_take, Nat.min_self]
    rw [htk] at ht
    have hdec2 : obj.decrypt_stream (fun _ => false)
        ((content.drop e.data_offset).take e.data_size) OStream.fresh sk.enc sk.mac e.nonce
        e.data_size e.tag =
        .ok (if t = e.tag then Status.ok
             else Status.err ExitCode.IntegrityError "integrity check failed", out3) := hdec
    rw [hdec2]
    simp only
    by_cases hte : t = e.tag
    · rw [if_pos hte, if_neg (by decide)]
      obtain ⟨res, hres, hrs, hrg⟩ := encrypt_stream_noFaults out3.data dk.enc dk.mac
        (s.rng.bytes NONCE_SIZE).1 s.ofs hde hdm hg
      have hres2 : obj.encrypt_stream (fun _ => false) out3.data s.ofs dk.enc dk.mac
          (s.rng.bytes NONCE_SIZE).1 = .ok res := hres
      rw [hres2]
      simp only
      rw [if_neg (by rw [hrs]; decide)]
      obtain ⟨st, s1, h1, h2, h3⟩ := ihr
        { ofs := res.out,
          idx := ⟨s.idx.entries ++
            [{ e with size := out3.data.length % U64, nonce := (s.rng.bytes NONCE_SIZE).1,
                      data_offset := s.ofs.tellp, data_size := res.bytes_written,
                      tag := res.tag }]⟩,
          rng := (s.rng.bytes NONCE_SIZE).2 } hrg hrr
      refine ⟨st, s1, h1, fun hall => h2 fun x hx => hall x (List.mem_cons_of_mem _ hx), ?_⟩
      rintro ⟨x, hx, hx1, hx2, hx3⟩
      rcases List.mem_cons.mp hx with rfl | hx
      · rw [ht, hte] at hx3
        exact absurd rfl hx3
      · exact h3 ⟨x, hx, hx1, hx2, hx3⟩
    · rw [if_neg hte, if_pos (by decide)]
      refine ⟨_, s, rfl, fun hall => ?_, fun _ => rfl⟩
      have := hall e (List.mem_cons_self _ _) hsel hdir
      rw [ht] at this
      cases this
      exact absurd rfl hte

end vault

namespace vault

/-- A transfer that returns Ok left, under the destination path, the header with a new
salt and nonce, the re-encrypted objects, the encoded destination index and the trailer;
the destination index holds one entry for each selected entry of the source. -/
theorem transfer_with_ok_inv (bits cost : Nat) (io : IoFaults) (rng : Rng) (fs fs1 : FileSys) (src : String)
    (pw : Bytes) (dst : String) (dpw : Bytes) (sel : List Bytes) (ih : Bool) (st0 st : Status)
    (vo : VaultOpen) (old : Bytes)
    (hopen : open_for_view io.reserveFails fs src pw = .ok (st0, vo)) (hst0 : st0.is_ok = true)
    (hold : fs src = some old) (hbytes : ∀ b ∈ old, b < 256)
    (h : transfer_with bits cost io rng fs src pw dst dpw sel ih = .ok (st, fs1))
    (hok : st.is_ok = true) :
    ∃ (dk : kdf.Keys) (objs : Bytes) (added : List index.Entry) (tag : Bytes),
      kdf.derive dpw (created_header rng bits cost).salt
        (bits_to_bytes bits) cost = .ok dk ∧
      mac.compute dk.mac (index.encode_index ⟨added⟩) = .ok tag ∧
      fs1 = fs.set dst (some
        (header_bytes (created_header rng bits cost) ++ objs ++
          index.encode_index ⟨added⟩ ++
          trailer_bytes (written_trailer
            (header_bytes (created_header rng bits cost) ++ objs)
            (index.encode_index ⟨added⟩) tag))) ∧
      List.Forall₂
        (Transferred vo.keys dk old
          (header_bytes (created_header rng bits cost) ++ objs ++
            index.encode_index ⟨added⟩ ++
            trailer_bytes (written_trailer
              (header_bytes (created_header rng bits cost) ++ objs)
              (index.encode_index ⟨added⟩) tag)))
        (vo.idx.entries.filter (spec.transfer_selects sel ih)) added ∧
      (∀ d ∈ added, FieldsOk d) := by
  have hfo := (open_ok_facts fs src pw st0 vo old hopen hst0 hold hbytes).2.2.2.2.2
  unfold transfer_with at h
  rw [hopen] at h
  simp only at h
  rw [if_neg (by simp [hst0])] at h
  cases hder : kdf.derive dpw (rng.bytes SALT_SIZE).1 (bits_to_bytes bits) cost with
  | error x => rw [hder] at h; cases h
  | ok dk =>
    rw [hder] at h
    simp only at h
    by_cases hrf : io.reopenFails = true
    · rw [if_pos hrf] at h
      simp only at h
      cases h
      rw [io_err_not_ok] at hok
      cases hok
    rw [if_neg hrf, hold] at h
    simp only at h
    by_cases hcf : io.createFails = true
    · rw [if_pos hcf] at h
      cases h
      rw [io_err_not_ok] at hok
      cases hok
    rw [if_neg hcf] at h
    unfold write_global_header at h
    simp only at h
    have hH : ({ magic := fmt.VAULT_MAGIC, version := VERSION,
                 header_size := fmt.GLOBAL_HEADER_SIZE % U32, salt := (rng.bytes SALT_SIZE).1,
                 nonce := ((rng.bytes SALT_SIZE).2.bytes NONCE_SIZE).1,
                 reserved := write_u32_le (bits % U32) ++ write_u32_le cost ++
                   List.replicate 24 0 } : fmt.GlobalHeader) = created_header rng bits cost := rfl
    rw [hH] at h
    by_cases hhg : (OStream.fresh.write io.writes
        (header_bytes (created_header rng bits cost))).good = true
    · have hwd := (write_good io.writes OStream.fresh _ hhg).1
      rw [if_neg (by simp [hhg])] at h
      cases hrun : transferEntries io.writes old vo.keys dk sel ih vo.idx.entries
          { ofs := OStream.fresh.write io.writes
              (header_bytes (created_header rng bits cost)),
            idx := ⟨[]⟩, rng := ((rng.bytes SALT_SIZE).2.bytes NONCE_SIZE).2 } with
      | error x =>
        rw [hrun] at h
        cases h
      | ok r =>
        obtain ⟨st1, s1⟩ := r
        rw [hrun] at h
        simp only at h
        by_cases hst1 : st1.is_ok = true
        · rw [if_neg (by simp [hst1])] at h
          obtain ⟨more, added, hd, hg1, hi, hall, hfa⟩ :=
            transferEntries_ok_inv io.writes old vo.keys dk sel ih vo.idx.entries _ s1 st1 hfo hhg
              hrun hst1
          simp only [List.nil_append] at hi
          rw [hwd] at hd
          have hd2 : s1.ofs.data =
              header_bytes (created_header rng bits cost) ++ more := hd
          have hidx : s1.idx = ⟨added⟩ := by
            cases hs : s1.idx
            rw [hs] at hi
            simp only at hi
            rw [hi]
          cases hwi : write_index_and_trailer io.writes s1.ofs dk s1.idx
              "transfer: write index failed" "transfer: write trailer failed" with
          | error x => rw [hwi] at h; cases h
          | ok r2 =>
            obtain ⟨st2, ofs2⟩ := r2
            rw [hwi] at h
            simp only at h
            cases h
            obtain ⟨tag, hmac, hdata⟩ :=
              write_index_and_trailer_ok_inv _ _ _ _ _ _ _ _ hg1 hwi hok
            rw [hidx] at hmac hdata
            rw [hd2] at hdata
            refine ⟨dk, more, added, tag, hder, hmac, by rw [hdata], ?_, hfa⟩
            rw [hd2] at hall
            refine List.Forall₂.imp ?_ hall
            intro a b hab
            have := transferred_mono vo.keys dk old _
              (index.encode_index ⟨added⟩ ++ trailer_bytes (written_trailer
                (header_bytes (created_header rng bits cost) ++ more)
                (index.encode_index ⟨added⟩) tag)) a b hab
            rw [← List.append_assoc] at this
            exact this
        · rw [if_pos (by simpa using hst1)] at h
          cases h
          exact absurd hok hst1
    · rw [if_pos (by simpa using hhg)] at h
      cases h
      rw [io_err_not_ok] at hok
      cases hok

end vault

namespace vault

/-- Without host failures, on a source that opens and whose selected objects lie in the
file, the transfer returns: Ok when every selected source object authenticates, the
integrity error when some selected source object does not. -/
theorem transfer_with_noFaults {af : AllocFaults} (bits cost : Nat) (rng : Rng) (fs : FileSys)
    (src : String) (pw : Bytes) (dst : String) (dpw : Bytes) (sel : List Bytes) (ih : Bool)
    (st0 : Status)
    (vo : VaultOpen) (old : Bytes)
    (hopen : open_for_view af fs src pw = .ok (st0, vo)) (hst0 : st0.is_ok = true)
    (hold : fs src = some old) (hbytes : ∀ b ∈ old, b < 256) (hb1 : 16 ≤ bits_to_bytes bits)
    (hb2 : bits_to_bytes bits < 2 ^ 60)
    (hrange : ∀ e ∈ vo.idx.entries, spec.transfer_selects sel ih e = true →
      e.type ≠ fmt.ObjType.Dir →
      e.data_offset < 2 ^ 63 ∧ e.data_offset + e.data_size ≤ old.length) :
    ∃ (st : Status) (fs1 : FileSys),
      transfer_with bits cost IoFaults.none rng fs src pw dst dpw sel ih = .ok (st, fs1) ∧
      ((∀ e ∈ vo.idx.entries, spec.transfer_selects sel ih e = true →
          e.type ≠ fmt.ObjType.Dir →
          mac.compute vo.keys.mac ((old.drop e.data_offset).take e.data_size) = .ok e.tag) →
        st = Status.ok) ∧
      ((∃ e ∈ vo.idx.entries, spec.transfer_selects sel ih e = true ∧
          e.type ≠ fmt.ObjType.Dir ∧
          mac.compute vo.keys.mac ((old.drop e.data_offset).take e.data_size) ≠ .ok e.tag) →
        st = Status.err ExitCode.IntegrityError "integrity check failed") := by
  obtain ⟨hse, hsm⟩ := open_keys_ne fs src pw st0 vo hopen hst0
  have hsalt : (rng.bytes SALT_SIZE).1 ≠ [] := by
    intro hc
    have := rng_bytes_length rng SALT_SIZE
    rw [hc] at this
    simp [SALT_SIZE] at this
  obtain ⟨dk, hder, hdl1, hdl2⟩ := derive_ok dpw (rng.bytes SALT_SIZE).1 (bits_to_bytes bits) cost
    hsalt hb1 hb2
  have hde : dk.enc ≠ [] := by
    intro hc
    rw [hc] at hdl1
    simp only [List.length_nil] at hdl1
    omega
  have hdm : dk.mac ≠ [] := by
    intro hc
    rw [hc] at hdl2
    simp only [List.length_nil] at hdl2
    omega
  unfold transfer_with
  rw [show IoFaults.none.reserveFails = noAllocFaults from rfl,
    open_ok_noAlloc fs src pw st0 vo hopen hst0]
  simp only
  rw [if_neg (by simp [hst0]), hder]
  simp only
  rw [if_neg (show ¬ IoFaults.none.reopenFails = true by decide), hold]
  simp only
  rw [if_neg (show ¬ IoFaults.none.createFails = true by decide)]
  unfold write_global_header
  simp only
  have hH : ({ magic := fmt.VAULT_MAGIC, version := VERSION,
               header_size := fmt.GLOBAL_HEADER_SIZE % U32, salt := (rng.bytes SALT_SIZE).1,
               nonce := ((rng.bytes SALT_SIZE).2.bytes NONCE_SIZE).1,
               reserved := write_u32_le (bits % U32) ++ write_u32_le cost ++
                 List.replicate 24 0 } : fmt.GlobalHeader) = created_header rng bits cost := rfl
  rw [hH]
  have hw : IoFaults.none.writes = noFaults := rfl
  rw [hw]
  obtain ⟨hhg, hhd⟩ := write_noFaults OStream.fresh (header_bytes (created_header rng bits cost))
    rfl
  rw [if_neg (by simp [hhg])]
  obtain ⟨st1, s1, hrun, hall, hbad⟩ := transferEntries_noFaults old vo.keys dk sel ih hse hsm
    hde hdm vo.idx.entries
    { ofs := OStream.fresh.write noFaults (header_bytes (created_header rng bits cost)),
      idx := ⟨[]⟩, rng := ((rng.bytes SALT_SIZE).2.bytes NONCE_SIZE).2 } hhg hrange
  have hrun2 : transferEntries noFaults old vo.keys dk sel ih vo.idx.entries
      { ofs := OStream.fresh.write noFaults (header_bytes (created_header rng bits cost)),
        idx := ⟨[]⟩, rng := ((rng.bytes SALT_SIZE).2.bytes NONCE_SIZE).2 } = .ok (st1, s1) := hrun
  rw [hrun2]
  simp only
  by_cases hst1 : st1.is_ok = true
  · rw [if_neg (by simp [hst1])]
    have hf := (open_ok_facts fs src pw st0 vo old hopen hst0 hold hbytes).2.2.2.2.2
    obtain ⟨_, _, _, hg1, _, _, _⟩ :=
      transferEntries_ok_inv noFaults old vo.keys dk sel ih vo.idx.entries _ s1 st1 hf hhg
        hrun2 hst1
    obtain ⟨tag, ofs2, _, hwit, _⟩ := write_index_and_trailer_noFaults s1.ofs dk s1.idx
      "transfer: write index failed" "transfer: write trailer failed" hg1 hdm
    rw [hwit]
    refine ⟨_, _, rfl, fun _ => rfl, fun hex => ?_⟩
    have := hbad hex
    rw [this] at hst1
    cases hst1
  · rw [if_pos (by simpa using hst1)]
    refine ⟨_, _, rfl, fun ha => ?_, hbad⟩
    have := hall ha
    rw [this] at hst1
    exact absurd rfl hst1

/-- A transfer that returns Ok opened the source vault. -/
theorem transfer_with_ok_open (bits cost : Nat) (io : IoFaults) (rng : Rng) (fs fs1 : FileSys)
    (src : String) (pw : Bytes) (dst : String) (dpw : Bytes) (sel : List Bytes) (ih : Bool)
    (st : Status)
    (h : transfer_with bits cost io rng fs src pw dst dpw sel ih = .ok (st, fs1))
    (hok : st.is_ok = true) :
    ∃ st0 vo, open_for_view io.reserveFails fs src pw = .ok (st0, vo) ∧ st0.is_ok = true := by
  unfold transfer_with at h
  cases ho : open_for_view io.reserveFails fs src pw with
  | error e =>
    rw [ho] at h
    cases h
  | ok r =>
    obtain ⟨st0, vo⟩ := r
    refine ⟨st0, vo, rfl, ?_⟩
    by_contra hn
    rw [ho] at h
    simp only at h
    rw [if_pos hn] at h
    cases h
    exact hn hok

/-- Two hosts on which open_for_view succeeds return the same result. -/
theorem open_ok_agree {af af2 : AllocFaults} (fs : FileSys) (path : String) (password : Bytes)
    (st st2 : Status) (vo vo2 : VaultOpen)
    (h1 : open_for_view af fs path password = .ok (st, vo)) (hok1 : st.is_ok = true)
    (h2 : open_for_view af2 fs path password = .ok (st2, vo2)) (hok2 : st2.is_ok = true) :
    st2 = st ∧ vo2 = vo := by
  have e1 := open_ok_noAlloc fs path password st vo h1 hok1
  have e2 := open_ok_noAlloc fs path password st2 vo2 h2 hok2
  rw [e1] at e2
  cases e2
  exact ⟨rfl, rfl⟩

end vault
/-! ## The concrete transfer and the index of an opened vault -/

namespace vault

/-- The index of a vault that opened has fewer than 2^32 entries, each of which the
codec represents exactly. -/
theorem opened_index_wellFormed {af : AllocFaults} (fs : FileSys) (vp : String) (password : Bytes)
    (st0 : Status)
    (vo : VaultOpen) (old : Bytes)
    (hopen : open_for_view af fs vp password = .ok (st0, vo)) (hst0 : st0.is_ok = true)
    (hold : fs vp = some old) (hbytes : ∀ b ∈ old, b < 256) :
    vo.idx.entries.length < U32 ∧ ∀ e ∈ vo.idx.entries, e.WellFormed := by
  obtain ⟨content, hdr, tr, ib, hfile, hso, htail⟩ :=
    open_for_view_ok_inv fs vp password st0 vo hopen hst0
  rw [hold] at hfile
  cases hfile
  obtain ⟨_, _, _, _, hdec⟩ := open_tail_ok_inv password ib _ st0 vo htail hst0
  have hst := index.decode_index_status ib st0 vo.idx hdec hst0
  rw [hst] at hdec
  apply index.decoded_index_wellFormed ib vo.idx _ hdec
  intro b hb
  rw [hso.ibytes] at hb
  exact hbytes b (List.mem_of_mem_drop (List.mem_of_mem_take hb))

/-- The entries transfer writes for the selected entries of an index that was decoded
are again represented exactly by the codec. -/
theorem transferred_wellFormed (sk dk : kdf.Keys) (content data : Bytes)
    (es added : List index.Entry) (sel : List Bytes) (ih : Bool)
    (hn : es.length < U32) (hw : ∀ e ∈ es, e.WellFormed)
    (hall : List.Forall₂ (Transferred sk dk content data)
      (es.filter (spec.transfer_selects sel ih)) added)
    (hfa : ∀ d ∈ added, FieldsOk d) :
    added.length < U32 ∧ ∀ d ∈ added, d.WellFormed := by
  constructor
  · rw [← hall.length_eq]
    exact Nat.lt_of_le_of_lt (List.length_filter_le _ _) hn
  · have key : ∀ (l1 l2 : List index.Entry),
        List.Forall₂ (Transferred sk dk content data) l1 l2 →
        (∀ e ∈ l1, e.WellFormed) → (∀ d ∈ l2, FieldsOk d) → ∀ d ∈ l2, d.WellFormed := by
      intro l1 l2 h
      induction h with
      | nil => intro _ _ d hd; exact absurd hd (List.not_mem_nil d)
      | cons hab _ ih2 =>
        intro h1 h2 d hd
        rcases List.mem_cons.mp hd with rfl | hd
        · have hp := (h1 _ (List.mem_cons_self _ _)).1
          rw [← hab.1] at hp
          exact wellFormed_of_fieldsOk _ (h2 _ (List.mem_cons_self _ _)) hp
        · exact ih2 (fun e he => h1 e (List.mem_cons_of_mem _ he))
            (fun x hx => h2 x (List.mem_cons_of_mem _ hx)) d hd
    exact key _ _ hall (fun e he => hw e (List.mem_of_mem_filter he)) hfa

end vault

set_option maxRecDepth 1000000 in
theorem demo_transfer_ranges :
    ∀ e ∈ demoOpen.idx.entries, spec.transfer_selects [] false e = true →
      e.type ≠ fmt.ObjType.Dir →
      e.data_offset < 2 ^ 63 ∧ e.data_offset + e.data_size ≤ demoVault.length := by
  decide!

set_option maxRecDepth 1000000 in
theorem demo_transfer_macs :
    ∀ e ∈ demoOpen.idx.entries, spec.transfer_selects [] false e = true →
      e.type ≠ fmt.ObjType.Dir →
      mac.compute demoOpen.keys.mac ((demoVault.drop e.data_offset).take e.data_size) =
        .ok e.tag := by
  decide!

/-- The concrete transfer returns Ok. -/
theorem demo_transfer_run :
    vault.transfer_to_vault IoFaults.none demoRng demoFs "v.1654" demoPw "w.1654" [100, 119] []
      false = .ok (demoTransferred.1, demoTransferred.2) ∧
    demoTransferred.1 = Status.ok := by
  obtain ⟨st, fs1, h1, h2, _⟩ := vault.transfer_with_noFaults DEFAULT_KEY_BITS DEFAULT_KDF_COST
    demoRng demoFs "v.1654" demoPw "w.1654" [100, 119] [] false Status.ok demoOpen demoVault
    demo_open_eq rfl demoFs_vault demoVault_bytes (by decide) (by decide) demo_transfer_ranges
  have hst := h2 demo_transfer_macs
  have hrun : demoTransfer = .ok (st, fs1) := h1
  have hval : demoTransferred = (st, fs1) := by
    unfold demoTransferred
    rw [hrun]
    rfl
  rw [hval]
  exact ⟨h1, hst⟩

theorem forall2_and_left {α β : Type} (R : α → β → Prop) (P : α → Prop) (l1 : List α)
    (l2 : List β) (h : List.Forall₂ R l1 l2) (hp : ∀ a ∈ l1, P a) :
    List.Forall₂ (fun a b => R a b ∧ P a) l1 l2 := by
  induction h with
  | nil => exact List.Forall₂.nil
  | cons hab _ ih =>
    exact List.Forall₂.cons ⟨hab, hp _ (List.mem_cons_self _ _)⟩
      (ih fun a ha => hp a (List.mem_cons_of_mem _ ha))

/-- What transfer leaves for a selected entry is its copy in the words of the
specification. -/
theorem transfer_copy_of_transferred (sk dk : kdf.Keys) (content data : Bytes)
    (sel : List Bytes) (ih : Bool) (e d : index.Entry)
    (h : vault.Transferred sk dk content data e d)
    (hsel : spec.transfer_selects sel ih e = true) : spec.transfer_copy e d := by
  obtain ⟨h1, h2, h3, h4, _⟩ := h
  refine ⟨h1, h2, h3, ?_, fun hd => ?_⟩
  · rw [h3]
    by_contra hx
    exact ((vault.transfer_selects_iff sel ih e).mp hsel).1 hx
  · rw [h2] at hd
    obtain ⟨_, z1, z2, z3, z4⟩ := h4 hd
    exact ⟨z1, z2, z3, z4⟩
/-! ## C32 -/

/-- C32 (transfer selection): for every source vault that opens, every select_paths and
include_hidden and a destination path other than the source path, when transfer_to_vault
returns Ok the destination file is a region of header and objects, the encoded
destination index and a trailer of 40 bytes; the destination index decodes from its
encoding on every host that grants the storage of its entries, and its entries are, in
source order, one for each source entry that is not
DELETED, is not HIDDEN unless include_hidden, and (when select_paths is not empty) whose
path equals some w of select_paths or starts with w followed by a slash; each keeps the
path, type and flags of its source entry, none is DELETED, and every Dir entry has
data_offset = data_size = 0 and all-zero nonce and tag. The function match_prefix is the
prefix rule. -/
theorem C32_transfer_selection (io : IoFaults) (rng : Rng) (fs fs1 : FileSys) (src : String)
    (pw : Bytes) (dst : String) (dpw : Bytes) (sel : List Bytes) (ih : Bool) (st0 st : Status)
    (vo : vault.VaultOpen) (old : Bytes) (hne : src ≠ dst)
    (hopen : vault.open_for_view io.reserveFails fs src pw = .ok (st0, vo))
    (hst0 : st0.is_ok = true)
    (hold : fs src = some old) (hbytes : ∀ b ∈ old, b < 256)
    (h : vault.transfer_to_vault io rng fs src pw dst dpw sel ih = .ok (st, fs1))
    (hok : st.is_ok = true) :
    (∃ (pre : Bytes) (dst_idx : index.Index) (tr : fmt.IndexTrailer),
      fs1 dst = some (pre ++ index.encode_index dst_idx ++ vault.trailer_bytes tr) ∧
      fs1 src = some old ∧
      tr.index_offset = pre.length % U64 ∧
      tr.index_size = (index.encode_index dst_idx).length % U64 ∧
      (vault.trailer_bytes tr).length = 40 ∧
      (∀ af : AllocFaults, index.Grants af dst_idx.entries.length →
        index.decode_index af (index.encode_index dst_idx) = .ok (Status.ok, dst_idx)) ∧
      List.Forall₂ spec.transfer_copy (vo.idx.entries.filter (spec.transfer_selects sel ih))
        dst_idx.entries) ∧
    (∀ e : index.Entry, spec.transfer_selects sel ih e = true ↔
      (e.flags &&& fmt.F_DELETED = 0 ∧ (ih = true ∨ e.flags &&& fmt.F_HIDDEN = 0) ∧
        (sel = [] ∨ ∃ w ∈ sel, e.path = w ∨ (w ++ ascii "/") <+: e.path))) ∧
    (∀ w p : Bytes, vault.match_prefix w p = true ↔ (p = w ∨ (w ++ ascii "/") <+: p)) := by
  refine ⟨?_, ?_, ?_⟩
  · obtain ⟨dk, objs, added, tag, hder, hmac, hfs, hall, hfa⟩ :=
      vault.transfer_with_ok_inv DEFAULT_KEY_BITS DEFAULT_KDF_COST io rng fs fs1 src pw dst dpw
        sel ih st0 st vo old hopen hst0 hold hbytes h hok
    obtain ⟨hn, hw⟩ := vault.opened_index_wellFormed fs src pw st0 vo old hopen hst0 hold hbytes
    obtain ⟨hn2, hw2⟩ := vault.transferred_wellFormed _ _ _ _ _ _ sel ih hn hw hall hfa
    refine ⟨vault.header_bytes (vault.created_header rng DEFAULT_KEY_BITS DEFAULT_KDF_COST) ++
        objs, ⟨added⟩,
      vault.written_trailer
        (vault.header_bytes (vault.created_header rng DEFAULT_KEY_BITS DEFAULT_KDF_COST) ++ objs)
        (index.encode_index ⟨added⟩) tag, ?_, ?_, rfl, rfl, ?_, ?_, ?_⟩
    · rw [hfs, fileSys_set_same]
    · rw [hfs, fileSys_set_other _ _ _ _ hne, hold]
    · exact vault.trailer_bytes_length _ rfl (mac_compute_length _ _ _ hmac)
    · exact fun af hg => index.decode_index_encode af ⟨added⟩ hn2 hw2 hg
    · have hall2 := forall2_and_left _ (fun e => spec.transfer_selects sel ih e = true) _ _ hall
        (fun e he => List.of_mem_filter he)
      refine List.Forall₂.imp ?_ hall2
      intro e d hed
      exact transfer_copy_of_transferred _ _ _ _ sel ih e d hed.1 hed.2
  · intro e
    unfold spec.transfer_selects spec.matched spec.under
    rw [decide_eq_true_iff]
  · intro w p
    exact vault.match_prefix_iff w p

theorem C32_transfer_selection_witness :
    "v.1654" ≠ "w.1654" ∧
    vault.open_for_view noAllocFaults demoFs "v.1654" demoPw = .ok (Status.ok, demoOpen) ∧
    demoFs "v.1654" = some demoVault ∧ demoTransferred.1.is_ok = true ∧
    ∃ (pre : Bytes) (dst_idx : index.Index) (tr : fmt.IndexTrailer),
      demoTransferred.2 "w.1654" =
        some (pre ++ index.encode_index dst_idx ++ vault.trailer_bytes tr) ∧
      demoTransferred.2 "v.1654" = some demoVault ∧
      tr.index_offset = pre.length % U64 ∧
      tr.index_size = (index.encode_index dst_idx).length % U64 ∧
      (vault.trailer_bytes tr).length = 40 ∧
      (∀ af : AllocFaults, index.Grants af dst_idx.entries.length →
        index.decode_index af (index.encode_index dst_idx) = .ok (Status.ok, dst_idx)) ∧
      List.Forall₂ spec.transfer_copy
        (demoOpen.idx.entries.filter (spec.transfer_selects [] false)) dst_idx.entries :=
  have hok : demoTransferred.1.is_ok = true := by rw [demo_transfer_run.2]; rfl
  ⟨by decide, demo_open_eq, demoFs_vault, hok,
    (C32_transfer_selection IoFaults.none demoRng demoFs demoTransferred.2 "v.1654" demoPw
      "w.1654" [100, 119] [] false Status.ok demoTransferred.1 demoOpen demoVault (by decide)
      demo_open_eq rfl demoFs_vault demoVault_bytes demo_transfer_run.1 hok).1⟩
/-! ## C33 -/

/-- C33 (transfer preserves content under re-keying): for a source vault that opens and
a destination path other than the source path, when transfer_to_vault returns Ok the
destination keys are derive(dst_password, new salt, 128, 50000) and each selected entry
e has its destination entry d, in order, such that for a File entry the source object
decrypts with the source keys, the nonce and the tag of e to a plaintext P of
e.data_size bytes, d.data_size = e.data_size, d.size is the length of P, d has a nonce of
24 bytes, and, the destination being shorter than 2^63 bytes, the bytes of the
destination at [d.data_offset, d.data_offset + d.data_size) are an object that
decrypt_stream opens with the destination keys, the nonce of d and the tag of d to
exactly P. Without host failures and with the selected source objects inside the source
file, transfer returns IntegrityError "integrity check failed" if the MAC of a selected
source object is not the tag of its entry, and Ok if every selected source object
authenticates. -/
theorem C33_transfer_rekeys (af : AllocFaults) (fs : FileSys) (src : String) (pw : Bytes)
    (dst : String) (dpw : Bytes) (sel : List Bytes) (ih : Bool) (st0 : Status)
    (vo : vault.VaultOpen) (old : Bytes) (hne : src ≠ dst)
    (hopen : vault.open_for_view af fs src pw = .ok (st0, vo))
    (hst0 : st0.is_ok = true)
    (hold : fs src = some old) (hbytes : ∀ b ∈ old, b < 256) :
    (∀ (io : IoFaults) (rng : Rng) (st : Status) (fs1 : FileSys),
      vault.transfer_to_vault io rng fs src pw dst dpw sel ih = .ok (st, fs1) →
      st.is_ok = true →
      ∃ (dk : kdf.Keys) (new pre : Bytes) (dst_es : List index.Entry) (tr : fmt.IndexTrailer),
        kdf.derive dpw (rng.bytes SALT_SIZE).1 128 50000 = .ok dk ∧
        fs1 dst = some new ∧ fs1 src = some old ∧
        new = pre ++ index.encode_index ⟨dst_es⟩ ++ vault.trailer_bytes tr ∧
        List.Forall₂ (vault.Transferred vo.keys dk old new)
          (vo.idx.entries.filter (spec.transfer_selects sel ih)) dst_es) ∧
    (∀ (sk dk : kdf.Keys) (content data : Bytes) (e d : index.Entry),
      vault.Transferred sk dk content data e d → e.type = fmt.ObjType.File →
      ∃ (P : Bytes) (out : OStream),
        obj.decrypt_stream noFaults ((content.drop e.data_offset).take e.data_size)
          OStream.fresh sk.enc sk.mac e.nonce e.data_size e.tag = .ok (Status.ok, out) ∧
        out.data = P ∧ P.length = e.data_size ∧ d.data_size = e.data_size ∧
        d.size = P.length ∧ d.nonce.length = 24 ∧ d.path = e.path ∧
        (data.length < 2 ^ 63 →
          d.data_offset + d.data_size ≤ data.length ∧
          ∀ out2 : OStream, out2.good = true →
            ∃ out3 : OStream,
              obj.decrypt_stream noFaults ((data.drop d.data_offset).take d.data_size) out2
                dk.enc dk.mac d.nonce d.data_size d.tag = .ok (Status.ok, out3) ∧
              out3.data = out2.data ++ P)) ∧
    (∀ rng : Rng,
      (∀ e ∈ vo.idx.entries, spec.transfer_selects sel ih e = true →
        e.type ≠ fmt.ObjType.Dir →
        e.data_offset < 2 ^ 63 ∧ e.data_offset + e.data_size ≤ old.length) →
      ((∃ e ∈ vo.idx.entries, spec.transfer_selects sel ih e = true ∧
          e.type ≠ fmt.ObjType.Dir ∧
          mac.compute vo.keys.mac ((old.drop e.data_offset).take e.data_size) ≠ .ok e.tag) →
        ∃ fs1, vault.transfer_to_vault IoFaults.none rng fs src pw dst dpw sel ih =
          .ok (Status.err ExitCode.IntegrityError "integrity check failed", fs1)) ∧
      ((∀ e ∈ vo.idx.entries, spec.transfer_selects sel ih e = true →
          e.type ≠ fmt.ObjType.Dir →
          mac.compute vo.keys.mac ((old.drop e.data_offset).take e.data_size) = .ok e.tag) →
        ∃ fs1, vault.transfer_to_vault IoFaults.none rng fs src pw dst dpw sel ih =
          .ok (Status.ok, fs1))) := by
  refine ⟨?_, ?_, ?_⟩
  · intro io rng st fs1 h hok
    obtain ⟨st1, vo1, hopen1, hst1⟩ := vault.transfer_with_ok_open DEFAULT_KEY_BITS
      DEFAULT_KDF_COST io rng fs fs1 src pw dst dpw sel ih st h hok
    obtain ⟨e1, e2⟩ := vault.open_ok_agree fs src pw st0 st1 vo vo1 hopen hst0 hopen1 hst1
    subst e1
    subst e2
    obtain ⟨dk, objs, added, tag, hder, hmac, hfs, hall, hfa⟩ :=
      vault.transfer_with_ok_inv DEFAULT_KEY_BITS DEFAULT_KDF_COST io rng fs fs1 src pw dst dpw
        sel ih st1 st vo1 old hopen1 hst1 hold hbytes h hok
    refine ⟨dk, _, _, added, _, hder, ?_, ?_, rfl, hall⟩
    · rw [hfs, fileSys_set_same]
    · rw [hfs, fileSys_set_other _ _ _ _ hne, hold]
  · intro sk dk content data e d ht hfile
    obtain ⟨h1, _, _, _, h5⟩ := ht
    obtain ⟨P, out, a2, a3, a4, a5, a6, a7, a8⟩ := h5 (by rw [hfile]; decide)
    refine ⟨P, out, a2, a3, a4, a6, a5, a7, h1, fun hlt => ?_⟩
    obtain ⟨_, b2, _, b4⟩ := a8 hlt
    exact ⟨b2, b4⟩
  · intro rng hrange
    obtain ⟨st, fs1, h1, h2, h3⟩ := vault.transfer_with_noFaults DEFAULT_KEY_BITS
      DEFAULT_KDF_COST rng fs src pw dst dpw sel ih st0 vo old hopen hst0 hold hbytes
      (by decide) (by decide) hrange
    constructor
    · intro hbad
      rw [h3 hbad] at h1
      exact ⟨fs1, h1⟩
    · intro hall
      rw [h2 hall] at h1
      exact ⟨fs1, h1⟩

theorem C33_transfer_rekeys_witness :
    "v.1654" ≠ "w.1654" ∧
    vault.open_for_view noAllocFaults demoFs "v.1654" demoPw = .ok (Status.ok, demoOpen) ∧
    demoFs "v.1654" = some demoVault ∧
    ∃ fs1, vault.transfer_to_vault IoFaults.none demoRng demoFs "v.1654" demoPw "w.1654"
      [100, 119] [] false = .ok (Status.ok, fs1) :=
  ⟨by decide, demo_open_eq, demoFs_vault,
    ((C33_transfer_rekeys noAllocFaults demoFs "v.1654" demoPw "w.1654" [100, 119] [] false
      Status.ok
      demoOpen demoVault (by decide) demo_open_eq rfl demoFs_vault demoVault_bytes).2.2
      demoRng demo_transfer_ranges).2 demo_transfer_macs⟩
/-! ## The loop of the replacement and the loop of extract -/

namespace vault

theorem markReplaced_eq (target : Bytes) (es : List index.Entry) :
    ∀ found : Bool, markReplaced target es found =
      (es.map (spec.replaced_entry target), found || es.any (spec.live_file_at target)) := by
  induction es with
  | nil => intro found; simp [markReplaced]
  | cons e rest ih =>
    intro found
    simp only [markReplaced]
    by_cases hc : e.path = target ∧ e.type = fmt.ObjType.File ∧ (e.flags &&& fmt.F_DELETED) = 0
    · have hl : spec.live_file_at target e = true := by
        unfold spec.live_file_at
        exact decide_eq_true hc
      rw [if_pos hc, ih]
      simp [spec.replaced_entry, hl]
    · have hl : spec.live_file_at target e = false := by
        unfold spec.live_file_at
        exact decide_eq_false hc
      rw [if_neg hc, ih]
      simp [spec.replaced_entry, hl]

/-- A replaced entry is not a live File entry at the target. -/
theorem replaced_entry_not_live (target : Bytes) (e : index.Entry) :
    spec.live_file_at target (spec.replaced_entry target e) = false := by
  unfold spec.replaced_entry
  by_cases hl : spec.live_file_at target e = true
  · rw [if_pos hl]
    unfold spec.live_file_at
    apply decide_eq_false
    rintro ⟨_, _, h3⟩
    simp only at h3
    have hb : fmt.F_DELETED = 2 ^ 2 := by decide
    rw [hb] at h3
    have h4 := (and_two_pow_eq_zero _ 2).mp h3
    rw [Nat.testBit_or, Nat.testBit_two_pow_self, Bool.or_true] at h4
    cases h4
  · rw [if_neg hl]
    simpa using hl

theorem replaced_entry_same (target : Bytes) (e : index.Entry) :
    (spec.replaced_entry target e).path = e.path ∧
    (spec.replaced_entry target e).type = e.type ∧
    (e.path ≠ target → spec.replaced_entry target e = e) := by
  unfold spec.replaced_entry
  by_cases hl : spec.live_file_at target e = true
  · rw [if_pos hl]
    refine ⟨rfl, rfl, fun hne => ?_⟩
    unfold spec.live_file_at at hl
    exact absurd (of_decide_eq_true hl).1 hne
  · rw [if_neg hl]
    exact ⟨rfl, rfl, fun _ => rfl⟩

/-- The function replace_file_in_vault on a vault that opens and a source that is a
regular file. -/
theorem replace_eq (env : Env) (rng : Rng) (fs : FileSys) (vp : String) (password : Bytes)
    (target name : Bytes) (content : Option Bytes) (st0 : Status) (vo : VaultOpen)
    (hopen : open_for_view env.io.reserveFails fs vp password = .ok (st0, vo))
    (hst0 : st0.is_ok = true) :
    replace_file_in_vault env rng fs vp password target (HostPath.file name content) =
      if vo.idx.entries.any (spec.live_file_at target) then
        atomic_rewrite_vault env fs vp vo
          (ensure_parent_dirs ⟨vo.idx.entries.map (spec.replaced_entry target)⟩ target) rng
          (replaceExtra env.io.writes vo.keys target content)
      else .ok (Status.err ExitCode.IoError "edit: target path not found", fs) := by
  unfold replace_file_in_vault open_for_mutation
  rw [hopen]
  simp only
  rw [if_neg (by simp [hst0]), markReplaced_eq]
  simp only [Bool.false_or]
  by_cases ha : vo.idx.entries.any (spec.live_file_at target) = true
  · rw [if_neg (by simp [ha]), if_pos ha]
  · rw [if_pos (by simpa using ha), if_neg ha]

end vault

namespace modes

theorem match_path_prefix_iff (t p : Bytes) : match_path_prefix t p = true ↔ spec.under t p :=
  vault.is_prefix_path_iff t p

theorem any_match_path_prefix_iff (wanted : List Bytes) (p : Bytes) :
    wanted.any (fun w => match_path_prefix w p) = true ↔ spec.matched wanted p := by
  unfold spec.matched
  simp only [List.any_eq_true, match_path_prefix_iff]

/-- The four tests at the head of the extract loop are the selection rule. -/
theorem extract_selects_iff (wanted : List Bytes) (ih : Bool) (e : index.Entry) :
    spec.extract_selects wanted ih e = true ↔
      (¬ e.type ≠ fmt.ObjType.File) ∧ (¬ (e.flags &&& fmt.F_DELETED) ≠ 0) ∧
        (¬ (¬ ih = true ∧ (e.flags &&& fmt.F_HIDDEN) ≠ 0)) ∧
        ¬ (¬ wanted.any (fun w => match_path_prefix w e.path) = true) := by
  unfold spec.extract_selects
  rw [decide_eq_true_iff, any_match_path_prefix_iff]
  constructor
  · rintro ⟨h0, h1, h2, h3⟩
    refine ⟨fun h => h h0, fun h => h h1, ?_, fun h => h h3⟩
    rintro ⟨a, b⟩
    rcases h2 with h2 | h2
    · exact a h2
    · exact b h2
  · rintro ⟨h0, h1, h2, h3⟩
    refine ⟨by_contra fun h => h0 h, by_contra fun h => h1 h, ?_, by_contra fun h => h3 h⟩
    by_cases a : ih = true
    · exact Or.inl a
    · exact Or.inr (by_contra fun b => h2 ⟨a, b⟩)

/-- The extract loop passes over entries it does not select. -/
theorem extractLoop_skip (xf : ExtractFaults) (content : Bytes) (keys : kdf.Keys) (ih : Bool)
    (wanted : List Bytes) (l1 l2 : List index.Entry) (d : OutDir) (any : Bool)
    (h : ∀ e ∈ l1, spec.extract_selects wanted ih e = false) :
    extractLoop xf content keys ih wanted (l1 ++ l2) d any =
      extractLoop xf content keys ih wanted l2 d any := by
  induction l1 with
  | nil => rfl
  | cons e rest ihr =>
    have he := h e (List.mem_cons_self _ _)
    have hr := ihr fun x hx => h x (List.mem_cons_of_mem _ hx)
    rw [List.cons_append]
    simp only [extractLoop]
    by_cases c0 : e.type ≠ fmt.ObjType.File
    · rw [if_pos c0]; exact hr
    rw [if_neg c0]
    by_cases c1 : (e.flags &&& fmt.F_DELETED) ≠ 0
    · rw [if_pos c1]; exact hr
    rw [if_neg c1]
    by_cases c2 : ¬ ih = true ∧ (e.flags &&& fmt.F_HIDDEN) ≠ 0
    · rw [if_pos c2]; exact hr
    rw [if_neg c2]
    by_cases c3 : ¬ wanted.any (fun w => match_path_prefix w e.path) = true
    · rw [if_pos c3]; exact hr
    have := (extract_selects_iff wanted ih e).mpr ⟨c0, c1, c2, c3⟩
    rw [he] at this
    cases this

end modes

/-- The decrypt loop reads only the bytes it is asked for. -/
theorem decryptLoop_take (wf : WriteFaults) (ke nonce : Bytes) (fuel : Nat) :
    ∀ (inp : Bytes) (remaining : Nat) (st : obj.DecState),
      obj.decryptLoop wf ke nonce fuel inp remaining st =
        obj.decryptLoop wf ke nonce fuel (inp.take remaining) remaining st := by
  induction fuel with
  | zero => intro inp remaining st; rfl
  | succ n ih =>
    intro inp remaining st
    simp only [obj.decryptLoop]
    by_cases hr : remaining = 0
    · rw [if_pos hr, if_pos hr]
    · rw [if_neg hr, if_neg hr]
      generalize hw : (if remaining > obj.CHUNK then obj.CHUNK else remaining) = want
      have hw1 : want ≤ remaining := by
        rw [← hw]
        split <;> omega
      have e1 : (inp.take remaining).take want = inp.take want := by
        rw [List.take_take, Nat.min_eq_left hw1]
      have e2 : (inp.take remaining).drop want = (inp.drop want).take (remaining - want) := by
        rw [List.drop_take]
      have key : ∀ st1 : obj.DecState,
          obj.decryptLoop wf ke nonce n (inp.drop want) (remaining - want) st1 =
            obj.decryptLoop wf ke nonce n ((inp.drop want).take (remaining - want))
              (remaining - want) st1 := fun st1 => ih _ _ st1
      rw [e1, e2]
      simp only [key]

theorem decrypt_stream_take (wf : WriteFaults) (inp ke km nonce tag : Bytes) (out : OStream)
    (n : Nat) :
    obj.decrypt_stream wf inp out ke km nonce n tag =
      obj.decrypt_stream wf (inp.take n) out ke km nonce n tag := by
  unfold obj.decrypt_stream
  rw [decryptLoop_take]
/-! ## Runs of the replacement -/

namespace vault

theorem dir_entries_not_file (l : List Bytes) : (l.map dir_entry).filter isFile = [] := by
  induction l with
  | nil => rfl
  | cons p l ih => simp [List.filter_cons, isFile, dir_entry, ih]

/-- A replacement that returns Ok left an updated vault: the old entries with the live
File entries at the target flagged DELETED, the directory entries of the missing parent
directories, and last the entry of the new object, which holds the new bytes. -/
theorem replace_ok_inv (env : Env) (rng : Rng) (fs fs1 : FileSys) (vp : String)
    (password target name bytes : Bytes) (st0 st : Status) (vo : VaultOpen) (old : Bytes)
    (hopen : open_for_view env.io.reserveFails fs vp password = .ok (st0, vo))
    (hst0 : st0.is_ok = true)
    (hold : fs vp = some old)
    (h : replace_file_in_vault env rng fs vp password target (HostPath.file name (some bytes)) =
      .ok (st, fs1))
    (hok : st.is_ok = true) :
    ∃ (new more : Bytes) (dirs : List Bytes) (e : index.Entry) (tag : Bytes),
      vo.idx.entries.any (spec.live_file_at target) = true ∧
      fs1 vp = some new ∧
      Updated vo old new more (vo.idx.entries.map (spec.replaced_entry target))
        (dirs.map dir_entry ++ [e]) tag ∧
      e.path = target ∧ e.type = fmt.ObjType.File ∧ e.flags = fmt.F_VISIBLE ∧
      e.size = bytes.length % U64 ∧
      (new.length < 2 ^ 63 → ObjectAt vo.keys new e (target, bytes)) := by
  rw [replace_eq env rng fs vp password target name _ st0 vo hopen hst0] at h
  by_cases ha : vo.idx.entries.any (spec.live_file_at target) = true
  · rw [if_pos ha] at h
    obtain ⟨old1, c, s1, stx, tag, hold1, hcg, hcd, hpl, hge, hrun, hsx, _, hmac, hfs1⟩ :=
      atomic_rewrite_ok_inv env fs fs1 vp vo _ rng _ st h hok
    rw [hold] at hold1
    cases hold1
    obtain ⟨dirs, hdirs⟩ := ensure_parent_dirs_appends
      ⟨vo.idx.entries.map (spec.replaced_entry target)⟩ target
    simp only at hdirs
    unfold replaceExtra append_file_object at hrun
    simp only at hrun
    cases henc : obj.encrypt_stream env.io.writes bytes c vo.keys.enc vo.keys.mac
        (rng.bytes NONCE_SIZE).1 with
    | error x => rw [henc] at hrun; cases hrun
    | ok res =>
      rw [henc] at hrun
      simp only at hrun
      by_cases hres : res.status.is_ok = true
      · rw [if_neg (by simp [hres])] at hrun
        simp only at hrun
        rw [if_neg (by decide)] at hrun
        cases hrun
        have g1 := grows_of_dirs vo.keys
          { ofs := c, idx := ⟨vo.idx.entries.map (spec.replaced_entry target)⟩, rng := rng }
          { ofs := c,
            idx := ensure_parent_dirs ⟨vo.idx.entries.map (spec.replaced_entry target)⟩ target,
            rng := rng } dirs hcg rfl hdirs
        have g2 := grows_file env.io.writes vo.keys
          { ofs := c,
            idx := ensure_parent_dirs ⟨vo.idx.entries.map (spec.replaced_entry target)⟩ target,
            rng := rng }
          { ofs := res.out,
            idx := ⟨(ensure_parent_dirs
                ⟨vo.idx.entries.map (spec.replaced_entry target)⟩ target).entries ++
              [{ file_entry target (some bytes) with
                 nonce := (rng.bytes NONCE_SIZE).1, data_offset := c.tellp,
                 data_size := res.bytes_written, tag := res.tag }]⟩,
            rng := (rng.bytes NONCE_SIZE).2 }
          res bytes (rng.bytes NONCE_SIZE).1 _ hcg (rng_bytes_length _ _) henc hres rfl rfl rfl
          (by simp [file_entry, fmt.F_VISIBLE, U32])
          (by simp only [file_entry]; exact Nat.mod_lt _ (by simp [U64])) rfl rfl rfl rfl
        obtain ⟨more, added, hd, he, _, hadd⟩ := grows_trans _ _ _ _ _ _ g1 g2
        simp only at hd he hadd
        rw [hdirs, List.append_assoc] at he
        have hadded := (List.append_cancel_left he).symm
        rw [hadded] at hadd
        rw [hd, hcd] at hfs1 hadd
        have hassoc := List.append_assoc (vo.idx.entries.map (spec.replaced_entry target))
          (dirs.map dir_entry)
          [({ file_entry target (some bytes) with
              nonce := (rng.bytes NONCE_SIZE).1, data_offset := c.tellp,
              data_size := res.bytes_written, tag := res.tag } : index.Entry)]
        simp only [hdirs] at hfs1 hmac
        rw [hassoc] at hfs1 hmac
        rw [hpl] at hadd
        refine ⟨_, more, dirs,
          { file_entry target (some bytes) with
            nonce := (rng.bytes NONCE_SIZE).1, data_offset := c.tellp,
            data_size := res.bytes_written, tag := res.tag },
          tag, ha, hfs1, ?_, rfl, rfl, rfl, rfl, ?_⟩
        · exact
            { old_len := hpl
              offset_ge := hge
              bytes_eq := rfl
              mac_eq := hmac
              kept_ok := by
                have := markReplaced_kept target vo.idx.entries false
                rw [markReplaced_eq] at this
                exact this
              added_ok := fun hlt => ⟨_, hadd hlt⟩ }
        · intro hlt
          rw [List.length_append, List.length_append] at hlt
          have hobj := (hadd (by omega)).objects
          rw [List.filter_append, dir_entries_not_file, List.nil_append] at hobj
          simp only [List.filter_cons, isFile, file_entry, decide_True, if_true,
            List.filter_nil, List.nil_append] at hobj
          cases hobj with
          | cons h1 _ =>
            rw [List.append_assoc (old.take vo.trailer.index_offset ++ more)]
            exact objectAt_mono _ _ _ _ _ h1
      · rw [if_pos (by simpa using hres)] at hrun
        simp only at hrun
        rw [if_pos (by simpa using hres)] at hrun
        cases hrun
        exact absurd hsx hres
  · rw [if_neg ha] at h
    cases h
    cases hok

end vault

namespace vault

/-- Without write faults the copy loop copies the bytes asked for when the source holds
them. -/
theorem copyLoop_noFaults (fuel : Nat) :
    ∀ (src : Bytes) (dst : OStream) (remain : Nat), remain < fuel → remain ≤ src.length →
      dst.good = true →
      ∃ dst1, copyLoop noFaults fuel src dst remain = (true, dst1) ∧ dst1.good = true := by
  induction fuel with
  | zero => intro _ _ _ h; omega
  | succ n ih =>
    intro src dst remain hlt hle hg
    simp only [copyLoop]
    by_cases h0 : remain = 0
    · rw [if_pos h0]
      exact ⟨dst, rfl, hg⟩
    · rw [if_neg h0]
      generalize htk : (if remain > COPY_CHUNK then COPY_CHUNK else remain) = tk
      have htk1 : 1 ≤ tk ∧ tk ≤ remain := by
        rw [← htk]
        simp only [COPY_CHUNK]
        split <;> omega
      have hlen : (src.take tk).length = tk := by
        rw [List.length_take]
        omega
      rw [if_neg (by rw [hlen]; simp)]
      obtain ⟨g1, _⟩ := write_noFaults dst (src.take tk) hg
      rw [if_neg (by simp [g1])]
      exact ih _ _ _ (by omega) (by rw [List.length_drop]; omega) g1

/-- Without host failures, on a vault that opens and holds a live File entry at the
target, the replacement by a readable regular file returns Ok. -/
theorem replace_noFaults {af : AllocFaults} (pid now : Nat) (rng : Rng) (fs : FileSys)
    (vp : String) (password target name bytes : Bytes) (st0 : Status) (vo : VaultOpen) (old : Bytes)
    (hopen : open_for_view af fs vp password = .ok (st0, vo)) (hst0 : st0.is_ok = true)
    (hold : fs vp = some old)
    (ha : vo.idx.entries.any (spec.live_file_at target) = true) :
    ∃ fs1, replace_file_in_vault { io := IoFaults.none, pid := pid, now := now } rng fs vp
      password target (HostPath.file name (some bytes)) = .ok (Status.ok, fs1) := by
  obtain ⟨hke, hkm⟩ := open_keys_ne fs vp password st0 vo hopen hst0
  obtain ⟨content, hdr, tr, ib, hfile, hso, htail⟩ :=
    open_for_view_ok_inv fs vp password st0 vo hopen hst0
  rw [hold] at hfile
  cases hfile
  obtain ⟨hh, ht, _, _, _⟩ := open_tail_ok_inv password ib _ st0 vo htail hst0
  simp only at hh ht
  have hoff : vo.trailer.index_offset ≤ old.length := by
    rw [ht]
    have := hso.ioff_hi
    have := Nat.mod_le old.length U64
    omega
  have hge : fmt.GLOBAL_HEADER_SIZE ≤ vo.trailer.index_offset := by
    rw [ht]
    have h1 := hso.hsize_lo
    have h2 := hso.ioff_lo
    have h100 : fmt.GLOBAL_HEADER_SIZE % U32 = fmt.GLOBAL_HEADER_SIZE := by decide
    omega
  obtain ⟨c, hcopy, hcg⟩ := copyLoop_noFaults (vo.trailer.index_offset + 1) old OStream.fresh
    vo.trailer.index_offset (Nat.lt_succ_self _) hoff rfl
  obtain ⟨res, hres, hrs, hrg⟩ := encrypt_stream_noFaults bytes vo.keys.enc vo.keys.mac
    (rng.bytes NONCE_SIZE).1 c hke hkm hcg
  have hopen2 : open_for_view
      ({ io := IoFaults.none, pid := pid, now := now } : Env).io.reserveFails fs vp password =
        .ok (st0, vo) := open_ok_noAlloc fs vp password st0 vo hopen hst0
  rw [replace_eq { io := IoFaults.none, pid := pid, now := now } rng fs vp password target name
    _ st0 vo hopen2 hst0, if_pos ha]
  have hrun : replaceExtra noFaults vo.keys target (some bytes)
      { ofs := c,
        idx := ensure_parent_dirs ⟨vo.idx.entries.map (spec.replaced_entry target)⟩ target,
        rng := rng } =
      .ok (Status.ok,
        { ofs := res.out,
          idx := ⟨(ensure_parent_dirs
              ⟨vo.idx.entries.map (spec.replaced_entry target)⟩ target).entries ++
            [{ file_entry target (some bytes) with
               nonce := (rng.bytes NONCE_SIZE).1, data_offset := c.tellp,
               data_size := res.bytes_written, tag := res.tag }]⟩,
          rng := (rng.bytes NONCE_SIZE).2 }) := by
    unfold replaceExtra append_file_object
    simp only
    rw [hres]
    simp only
    rw [if_neg (by rw [hrs]; decide)]
    simp only
    rw [if_neg (by decide)]
  obtain ⟨tag, fs1, _, hrw, _⟩ := atomic_rewrite_noFaults pid now fs vp vo _ rng _ old c _ hold hge
    hcopy hrun hrg hkm
  exact ⟨fs1, hrw⟩

end vault

namespace modes

/-- Extracting the target from a vault whose index ends with the only selected entry, the
one of an object holding the given bytes, writes these bytes to the output file of the
target. -/
theorem extract_last {af : AllocFaults} (fs : FileSys) (vp : String)
    (password target bytes new : Bytes) (vo : vault.VaultOpen) (pre : List index.Entry)
    (e : index.Entry) (ih : Bool) (d : OutDir)
    (hopen : vault.open_for_view af fs vp password = .ok (Status.ok, vo))
    (hfile : fs vp = some new) (hsmall : new.length < 2 ^ 63)
    (hidx : vo.idx.entries = pre ++ [e])
    (hpre : ∀ x ∈ pre, spec.extract_selects [target] ih x = false)
    (hpath : e.path = target) (htype : e.type = fmt.ObjType.File)
    (hflags : e.flags = fmt.F_VISIBLE)
    (hobj : vault.ObjectAt vo.keys new e (target, bytes)) :
    extract_cmd ExtractFaults.none fs vp password [target] ih d =
      .ok (Status.ok, d.set target (some bytes)) := by
  unfold extract_cmd
  rw [if_neg (by simp), show ExtractFaults.none.reserveFails = noAllocFaults from rfl,
    vault.open_ok_noAlloc fs vp password _ vo hopen rfl]
  simp only
  rw [if_neg (by decide), if_neg (show ¬ ExtractFaults.none.openFails = true by decide), hfile]
  simp only
  rw [hidx, extractLoop_skip _ _ _ _ _ _ _ _ _ hpre]
  obtain ⟨_, h2, h3, h4⟩ := hobj
  obtain ⟨out3, hdec, hdata⟩ := h4 OStream.fresh rfl
  have hdec2 : obj.decrypt_stream ExtractFaults.none.writes (new.drop e.data_offset)
      OStream.fresh vo.keys.enc vo.keys.mac e.nonce e.data_size e.tag =
      .ok (Status.ok, out3) := by
    rw [decrypt_stream_take]
    exact hdec
  have hd3 : out3.data = bytes := by
    rw [hdata]
    rfl
  simp only [extractLoop]
  have hvis : ¬ (fmt.F_VISIBLE &&& fmt.F_HIDDEN ≠ 0) := by decide
  rw [if_neg (by simp [htype]), if_neg (by rw [hflags]; decide),
    if_neg (by rw [hflags]; exact fun hc => hvis hc.2),
    if_neg (by
      simp only [List.any_cons, List.any_nil, Bool.or_false, not_not]
      rw [hpath]
      exact (match_path_prefix_iff target target).mpr (Or.inl rfl)),
    if_neg (show ¬ ExtractFaults.none.createFails e.path = true from Bool.false_ne_true),
    if_neg (by omega), hdec2]
  simp only
  rw [if_neg (by decide), hd3, hpath]
  rfl

end modes
/-! ## C31 -/

/-- C31, amended (replace semantics): on a vault that opens with the index vo.idx and
with a source that is a regular file, the loop of replace_file_in_vault gives every File
entry with path == target that is not DELETED the DELETED flag and leaves every other
entry as it is; if there is no such entry the function returns IoError "edit: target
path not found" and the file system is as before. If there is one and the function
returns Ok, the rewritten file holds the index made of these entries, the directory
entries of missing parent directories and, last, one new File entry with path target,
flags VISIBLE and the size of the new file, which is the only File entry at the target
that is not DELETED; and when the rewritten file is shorter than 2^63 bytes and its
encoded index is at most 64 MiB, open_for_view on a host that grants every reservation
returns that index, the object of the new
entry decrypts to the bytes of the new file, and, provided no File entry of the old index
that is not DELETED has a path starting with target followed by a slash, extract of the
target without host failures returns Ok and writes exactly the bytes of the new file to
the output file of the target. Without host failures the replacement of an existing
target by a readable file returns Ok. -/
theorem C31_replace_semantics (env : vault.Env) (rng : Rng) (fs : FileSys) (vp : String)
    (password target name : Bytes) (st0 : Status) (vo : vault.VaultOpen) (old : Bytes)
    (hopen : vault.open_for_view env.io.reserveFails fs vp password = .ok (st0, vo))
    (hst0 : st0.is_ok = true)
    (hold : fs vp = some old) (hbytes : ∀ b ∈ old, b < 256) :
    vault.markReplaced target vo.idx.entries false =
      (vo.idx.entries.map (spec.replaced_entry target),
        vo.idx.entries.any (spec.live_file_at target)) ∧
    (∀ e : index.Entry, spec.replaced_entry target e =
      if e.path = target ∧ e.type = fmt.ObjType.File ∧ e.flags &&& fmt.F_DELETED = 0 then
        { e with flags := e.flags ||| fmt.F_DELETED }
      else e) ∧
    (∀ content : Option Bytes, vo.idx.entries.any (spec.live_file_at target) = false →
      vault.replace_file_in_vault env rng fs vp password target (HostPath.file name content) =
        .ok (Status.err ExitCode.IoError "edit: target path not found", fs)) ∧
    (∀ (bytes : Bytes) (st : Status) (fs1 : FileSys),
      vault.replace_file_in_vault env rng fs vp password target
        (HostPath.file name (some bytes)) = .ok (st, fs1) →
      st.is_ok = true →
      ∃ (new more : Bytes) (dirs : List Bytes) (e : index.Entry) (tag : Bytes),
        vo.idx.entries.any (spec.live_file_at target) = true ∧
        fs1 vp = some new ∧
        new = old.take vo.trailer.index_offset ++ more ++
          index.encode_index ⟨vo.idx.entries.map (spec.replaced_entry target) ++
            (dirs.map vault.dir_entry ++ [e])⟩ ++
          vault.trailer_bytes (vault.written_trailer (old.take vo.trailer.index_offset ++ more)
            (index.encode_index ⟨vo.idx.entries.map (spec.replaced_entry target) ++
              (dirs.map vault.dir_entry ++ [e])⟩) tag) ∧
        e.path = target ∧ e.type = fmt.ObjType.File ∧ e.flags = fmt.F_VISIBLE ∧
        e.size = bytes.length % U64 ∧
        (vo.idx.entries.map (spec.replaced_entry target) ++
            (dirs.map vault.dir_entry ++ [e])).filter (spec.live_file_at target) = [e] ∧
        (new.length < 2 ^ 63 →
          (index.encode_index ⟨vo.idx.entries.map (spec.replaced_entry target) ++
            (dirs.map vault.dir_entry ++ [e])⟩).length ≤ vault.MAX_INDEX_SIZE →
          vault.open_for_view noAllocFaults fs1 vp password =
            .ok (Status.ok,
              { header := vo.header,
                trailer := vault.written_trailer (old.take vo.trailer.index_offset ++ more)
                  (index.encode_index ⟨vo.idx.entries.map (spec.replaced_entry target) ++
                    (dirs.map vault.dir_entry ++ [e])⟩) tag,
                idx := ⟨vo.idx.entries.map (spec.replaced_entry target) ++
                  (dirs.map vault.dir_entry ++ [e])⟩,
                keys := vo.keys }) ∧
          vault.ObjectAt vo.keys new e (target, bytes) ∧
          ((∀ x ∈ vo.idx.entries, x.type = fmt.ObjType.File → x.flags &&& fmt.F_DELETED = 0 →
              ¬ (target ++ ascii "/") <+: x.path) →
            ∀ (ih : Bool) (d : modes.OutDir),
              modes.extract_cmd modes.ExtractFaults.none fs1 vp password [target] ih d =
                .ok (Status.ok, d.set target (some bytes))))) ∧
    (∀ bytes : Bytes, vo.idx.entries.any (spec.live_file_at target) = true →
      ∃ fs1, vault.replace_file_in_vault { io := IoFaults.none, pid := env.pid, now := env.now }
        rng fs vp password target (HostPath.file name (some bytes)) = .ok (Status.ok, fs1)) := by
  refine ⟨?_, ?_, ?_, ?_, ?_⟩
  · rw [vault.markReplaced_eq]
    rfl
  · intro e
    unfold spec.replaced_entry spec.live_file_at
    by_cases hc : e.path = target ∧ e.type = fmt.ObjType.File ∧ e.flags &&& fmt.F_DELETED = 0
    · rw [if_pos hc, if_pos (decide_eq_true hc)]
    · rw [if_neg hc, if_neg (by simp [hc])]
  · intro content hno
    rw [vault.replace_eq env rng fs vp password target name content st0 vo hopen hst0,
      if_neg (by simp [hno])]
  · intro bytes st fs1 h hok
    obtain ⟨new, more, dirs, e, tag, ha, hfs1, hu, hp, ht, hf, hs, hobj⟩ :=
      vault.replace_ok_inv env rng fs fs1 vp password target name bytes st0 st vo old hopen hst0
        hold h hok
    have hlive : spec.live_file_at target e = true := by
      unfold spec.live_file_at
      apply decide_eq_true
      refine ⟨hp, ht, ?_⟩
      rw [hf]
      decide
    have hfilter : (vo.idx.entries.map (spec.replaced_entry target) ++
        (dirs.map vault.dir_entry ++ [e])).filter (spec.live_file_at target) = [e] := by
      rw [List.filter_append, List.filter_append]
      have h1 : (vo.idx.entries.map (spec.replaced_entry target)).filter
          (spec.live_file_at target) = [] := by
        rw [List.filter_eq_nil_iff]
        intro x hx
        obtain ⟨y, _, rfl⟩ := List.mem_map.mp hx
        rw [vault.replaced_entry_not_live]
        simp
      have h2 : (dirs.map vault.dir_entry).filter (spec.live_file_at target) = [] := by
        rw [List.filter_eq_nil_iff]
        intro x hx
        obtain ⟨y, _, rfl⟩ := List.mem_map.mp hx
        simp [spec.live_file_at, vault.dir_entry]
      rw [h1, h2]
      simp [List.filter_cons, hlive]
    refine ⟨new, more, dirs, e, tag, ha, hfs1, hu.bytes_eq, hp, ht, hf, hs, hfilter, ?_⟩
    intro hsmall hmax
    have hre := vault.reopen_updated noAllocFaults fs fs1 vp password st0 vo old new more _ _
      tag hopen hst0 hold hbytes hfs1 hu hsmall hmax (index.grants_noAlloc _)
    refine ⟨hre, hobj hsmall, fun hno ih d => ?_⟩
    refine modes.extract_last fs1 vp password target bytes new _
      (vo.idx.entries.map (spec.replaced_entry target) ++ dirs.map vault.dir_entry) e ih d hre
      hfs1 hsmall (by simp only [List.append_assoc]) ?_ hp ht hf (hobj hsmall)
    intro x hx
    by_contra hsel
    have hsel2 : spec.extract_selects [target] ih x = true := by simpa using hsel
    unfold spec.extract_selects at hsel2
    obtain ⟨s1, s2, _, s4⟩ := of_decide_eq_true hsel2
    rcases List.mem_append.mp hx with hx | hx
    · obtain ⟨y, hy, rfl⟩ := List.mem_map.mp hx
      obtain ⟨r1, r2, r3⟩ := vault.replaced_entry_same target y
      obtain ⟨t, ht1, ht2⟩ := s4
      rw [List.mem_singleton.mp ht1] at ht2
      rcases ht2 with hpt | hbelow
      · have := vault.replaced_entry_not_live target y
        unfold spec.live_file_at at this
        exact (of_decide_eq_false this) ⟨hpt, s1, s2⟩
      · have hne : y.path ≠ target := by
          intro hc
          rw [r1, hc] at hbelow
          have := hbelow.length_le
          rw [List.length_append] at this
          simp [ascii] at this
        rw [r3 hne] at s1 s2 hbelow
        exact hno y hy s1 s2 hbelow
    · obtain ⟨y, _, rfl⟩ := List.mem_map.mp hx
      simp [vault.dir_entry] at s1
  · intro bytes ha
    exact vault.replace_noFaults env.pid env.now rng fs vp password target name bytes st0 vo old
      hopen hst0 hold ha

set_option maxRecDepth 1000000 in
theorem C31_replace_semantics_witness :
    vault.open_for_view noAllocFaults demoFs "v.1654" demoPw = .ok (Status.ok, demoOpen) ∧
    demoFs "v.1654" = some demoVault ∧ (∀ b ∈ demoVault, b < 256) ∧
    demoOpen.idx.entries.any (spec.live_file_at [114, 47, 97]) = true ∧
    ∃ fs1, vault.replace_file_in_vault { io := IoFaults.none, pid := demoEnv.pid, now := demoEnv.now }
      demoRng demoFs "v.1654" demoPw [114, 47, 97] (HostPath.file [98] (some [120])) =
        .ok (Status.ok, fs1) :=
  ⟨demo_open_eq, demoFs_vault, demoVault_bytes, by decide,
    (C31_replace_semantics demoEnv demoRng demoFs "v.1654" demoPw [114, 47, 97] [98] Status.ok
      demoOpen demoVault demo_open_eq rfl demoFs_vault demoVault_bytes).2.2.2.2 [120]
      (by decide)⟩

set_option maxRecDepth 1000000 in
/-- C31, counterexample: the concrete vault whose authenticated index also holds a File
entry r/a/b, below the file r/a, with an object range beyond the end of the file. It
opens, it has a File entry at r/a that is not DELETED, and the replacement of r/a by a
file holding the byte 120 returns Ok; the extract of r/a from the rewritten vault then
returns IoError "decrypt: read failed" at the entry r/a/b, which precedes the new entry,
and the output file of r/a is not written. -/
theorem C31_file_below_target_stops_extract :
    vault.open_for_view noAllocFaults (vaultFs belowVault) "v.1654" demoPw =
      .ok (Status.ok, belowOpen) ∧
    belowOpen.idx.entries.any (spec.live_file_at [114, 47, 97]) = true ∧
    (belowReplace.map fun r => r.1) = .ok Status.ok ∧
    (belowExtract.map fun r => (r.1, r.2 [114, 47, 97])) =
      .ok (Status.err ExitCode.IoError "decrypt: read failed", none) := by
  decide!

end Ph1654
